import Mathlib

/-!
# Alarm application (version 2): registry, command handler and alarm handlers

A shallow embedding of `src/version-2/code` (`alarm_def.c`, `cmd_handler.c`,
`alarm_handler.c`, `alarm_app.c`).

* Memory is an arena: `Heap = List Alarm`, a pointer is `Option Nat`
  (`none` is `NULL`, `some p` is the address of cell `p`).  `malloc` appends a
  cell, `free` leaves the cell in place (it is no longer reachable).
* Every C function that dereferences a pointer returns `Except Fault _`;
  dereferencing `NULL` (or an address outside the arena) is `Fault.null_deref`.
* Loops over linked structures are bounded by a fuel argument; the entry points
  supply the arena size, which is enough for every acyclic chain.
* `pthread_cond_wait` on the cancel handshake is a suspension point: the
  blocking functions return the alarm they wait on, and the caller completes
  the call once the owning alarm handler has detached that alarm.
-/

namespace AlarmApp

/-! # The model: `alarm_def.c` -/

deriving instance DecidableEq for Except

/-- Ways in which the embedded C code can fail to produce a result. -/
inductive Fault where
  /-- A `NULL` or invalid pointer was dereferenced. -/
  | null_deref
  /-- The loop bound was exhausted (the chain is cyclic). -/
  | out_of_fuel
  /-- Evaluation of `x % 0`. -/
  | div_by_zero
  /-- The thread cannot go on in this state: it waits on a condition variable
  or in a join that no step of the model ends. -/
  | blocked
  deriving DecidableEq, Repr

/-- The `Alarm` structure of `alarm_def.h`.  `handler_id` points to the thread
id of the handling thread; the thread id itself stands for that pointer. -/
structure Alarm where
  link : Option Nat
  link_handle : Option Nat
  wait_time : Nat
  msg_type : Nat
  msg_num : Nat
  msg : String
  is_assigned : Bool
  handler_id : Option Nat
  is_replaced : Bool
  is_cancelled : Bool
  deriving DecidableEq, Repr

/-- The arena of `Alarm` cells. -/
abbrev Heap := List Alarm

/-- Read through a pointer: `*p`. -/
def deref (h : Heap) (p : Option Nat) : Except Fault Alarm :=
  match p with
  | none => .error .null_deref
  | some i =>
    match h[i]? with
    | none => .error .null_deref
    | some a => .ok a

/-- Function `next_alarm`: `node->link`. -/
def next_alarm (node : Alarm) : Option Nat := node.link

/-- Function `next_handled_alarm`: `node->link_handle`. -/
def next_handled_alarm (node : Alarm) : Option Nat := node.link_handle

/-- Function `insert_first_alarm`: `new_alarm->link = *head_ptr; *head_ptr = new_alarm`.
Returns the heap and the new `*head_ptr`. -/
def insert_first_alarm (h : Heap) (head : Option Nat) (new_alarm : Nat) :
    Except Fault (Heap × Option Nat) := do
  let a ← deref h (some new_alarm)
  pure (h.set new_alarm { a with link := head }, some new_alarm)

/-- Function `insert_first_handled_alarm`: the same through `link_handle`. -/
def insert_first_handled_alarm (h : Heap) (head : Option Nat) (new_alarm : Nat) :
    Except Fault (Heap × Option Nat) := do
  let a ← deref h (some new_alarm)
  pure (h.set new_alarm { a with link_handle := head }, some new_alarm)

/-- Function `insert_after_alarm`: `new_alarm->link = node->link; node->link = new_alarm`. -/
def insert_after_alarm (h : Heap) (node new_alarm : Nat) : Except Fault Heap := do
  let n ← deref h (some node)
  let a ← deref h (some new_alarm)
  let h1 := h.set new_alarm { a with link := n.link }
  let n1 ← deref h1 (some node)
  pure (h1.set node { n1 with link := some new_alarm })

/-- Function `insert_after_handled_alarm`: the same through `link_handle`. -/
def insert_after_handled_alarm (h : Heap) (node new_alarm : Nat) : Except Fault Heap := do
  let n ← deref h (some node)
  let a ← deref h (some new_alarm)
  let h1 := h.set new_alarm { a with link_handle := n.link_handle }
  let n1 ← deref h1 (some node)
  pure (h1.set node { n1 with link_handle := some new_alarm })

/-- Function `is_less_alarm`: `true` for the same cell, else `a->msg_num < b->msg_num`. -/
def is_less_alarm (h : Heap) (a b : Nat) : Except Fault Bool := do
  if a = b then pure true
  else
    let x ← deref h (some a)
    let y ← deref h (some b)
    pure (decide (x.msg_num < y.msg_num))

/-- Function `is_equal_alarm`: `true` for the same cell, else `a->msg_num == b->msg_num`. -/
def is_equal_alarm (h : Heap) (a b : Nat) : Except Fault Bool := do
  if a = b then pure true
  else
    let x ← deref h (some a)
    let y ← deref h (some b)
    pure (decide (x.msg_num = y.msg_num))

/-- Function `replace_alarm`: raise `is_replaced` on an assigned alarm, copy
`wait_time`, `msg_type` and `msg` from `new_alarm`, free `new_alarm`.  The
result is `handler_id` when the alarm is assigned and its `link_handle` is
`NULL`, and `NULL` otherwise. -/
def replace_alarm (h : Heap) (existing_alarm new_alarm : Nat) :
    Except Fault (Heap × Option Nat) := do
  let e ← deref h (some existing_alarm)
  let e1 : Alarm := if e.is_assigned then { e with is_replaced := true } else e
  let result : Option Nat :=
    if e.is_assigned then (if e1.link_handle = none then e1.handler_id else none) else none
  let n ← deref h (some new_alarm)
  let e2 : Alarm := { e1 with wait_time := n.wait_time, msg_type := n.msg_type, msg := n.msg }
  pure (h.set existing_alarm e2, result)

/-- Outcome of `insert_alarm`.  When `wait_on = some p` the caller is inside
`while (p->is_assigned) pthread_cond_wait(...)`; the call is completed by
`insert_alarm_resume` once `p->is_assigned` is false. -/
structure InsertOut where
  heap : Heap
  head : Option Nat
  result : Option Nat
  wait_on : Option Nat
  deriving DecidableEq, Repr

/-- The code that follows `replace_alarm` in `insert_alarm`: enter the
handshake when `is_replaced` is set. -/
def insert_alarm_replaced (h : Heap) (head : Option Nat) (existing_alarm new_alarm : Nat) :
    Except Fault InsertOut := do
  let (h1, result) ← replace_alarm h existing_alarm new_alarm
  let e ← deref h1 (some existing_alarm)
  if e.is_replaced then
    pure { heap := h1, head := head, result := result, wait_on := some existing_alarm }
  else
    pure { heap := h1, head := head, result := result, wait_on := none }

/-- The statement after the handshake loop: `p->is_replaced = false`. -/
def insert_alarm_resume (h : Heap) (p : Nat) : Except Fault Heap := do
  let e ← deref h (some p)
  pure (h.set p { e with is_replaced := false })

/-- The general case of `insert_alarm`: the `for` loop from `curr_alarm`,
followed by `(*insert_after)(curr_alarm, new_alarm)`. -/
def insert_alarm_loop (after : Alarm → Option Nat)
    (insert_after : Heap → Nat → Nat → Except Fault Heap) (global_list : Bool)
    (head : Option Nat) (new_alarm : Nat) :
    Nat → Heap → Nat → Except Fault InsertOut
  | 0, _, _ => .error .out_of_fuel
  | fuel + 1, h, curr_alarm => do
    let c ← deref h (some curr_alarm)
    match after c with
    | none =>
      let h1 ← insert_after h curr_alarm new_alarm
      pure { heap := h1, head := head, result := none, wait_on := none }
    | some next =>
      let eq ← if global_list then is_equal_alarm h new_alarm next else pure false
      if eq then
        insert_alarm_replaced h head next new_alarm
      else
        let lt ← is_less_alarm h new_alarm next
        if lt then
          let h1 ← insert_after h curr_alarm new_alarm
          pure { heap := h1, head := head, result := none, wait_on := none }
        else
          insert_alarm_loop after insert_after global_list head new_alarm fuel h next

/-- Function `insert_alarm` of `alarm_def.c`. -/
def insert_alarm (h : Heap) (head : Option Nat) (new_alarm : Nat)
    (after : Alarm → Option Nat)
    (insert_first : Heap → Option Nat → Nat → Except Fault (Heap × Option Nat))
    (insert_after : Heap → Nat → Nat → Except Fault Heap)
    (global_list : Bool) : Except Fault InsertOut :=
  match head with
  | none => pure { heap := h, head := some new_alarm, result := none, wait_on := none }
  | some hd => do
    let eq ← if global_list then is_equal_alarm h new_alarm hd else pure false
    if eq then
      insert_alarm_replaced h head hd new_alarm
    else
      let lt ← is_less_alarm h new_alarm hd
      if lt then
        let (h1, head1) ← insert_first h head new_alarm
        pure { heap := h1, head := head1, result := none, wait_on := none }
      else
        insert_alarm_loop after insert_after global_list head new_alarm h.length h hd

/-- The cells of a linked list from `start`, following `after`; `none` when the
walk meets an invalid pointer or does not end within the fuel. -/
def walk (after : Alarm → Option Nat) (h : Heap) : Nat → Option Nat → Option (List Nat)
  | _, none => some []
  | 0, some _ => none
  | fuel + 1, some p =>
    match h[p]? with
    | none => none
    | some a => (walk after h fuel (after a)).map (fun ps => p :: ps)

/-- The alarms stored at the given addresses. -/
def cells (h : Heap) (ps : List Nat) : List Alarm := ps.filterMap (fun p => h[p]?)

/-- The global alarms list from `alarm_list_head`, in link order. -/
def global_list (h : Heap) (head : Option Nat) : Option (List Nat) :=
  walk next_alarm h h.length head

/-- A local (handled) alarms list from `handle_list_head`, in `link_handle` order. -/
def handled_list (h : Heap) (head : Option Nat) : Option (List Nat) :=
  walk next_handled_alarm h h.length head

/-! ## Command handler: the bodies of the type A and type C loops -/

/-- The `CmdA` structure: a pending schedule command. -/
structure CmdA where
  wait_time : Nat
  msg_type : Nat
  msg_num : Nat
  msg : String
  deriving DecidableEq, Repr

/-- The `CmdB` structure: a start-worker record.  `id` is written by
`pthread_create` when the record is processed. -/
structure CmdB where
  msg_type : Nat
  id : Option Nat
  is_processed : Bool
  deriving DecidableEq, Repr

/-- The `CmdC` structure: a pending cancel command. -/
structure CmdC where
  msg_num : Nat
  deriving DecidableEq, Repr

/-- The alarm that `cmd_handler` allocates and initialises from the first
type A command (`cmd_handler.c`, lines 186-200). -/
def alarm_of_cmda (c : CmdA) : Alarm :=
  { link := none, link_handle := none, wait_time := c.wait_time, msg_type := c.msg_type,
    msg_num := c.msg_num, msg := c.msg, is_assigned := false, handler_id := none,
    is_replaced := false, is_cancelled := false }

/-- Allocation of the new alarm followed by the call of `insert_alarm` on the
global list (`cmd_handler.c`, lines 186-220).  The new cell is `h.length`. -/
def cmd_handler_insert (h : Heap) (alarm_list_head : Option Nat) (c : CmdA) :
    Except Fault InsertOut :=
  insert_alarm (h ++ [alarm_of_cmda c]) alarm_list_head h.length
    next_alarm insert_first_alarm insert_after_alarm true

/-- The search loop of the type C phase (`cmd_handler.c`, lines 379-410):
unlink the first alarm whose `msg_num` is `cancel_msg_num`, clear its `link`
and raise `is_cancelled`.  Returns the heap, `alarm_list_head` and
`curr_alarm` as they are when the loop ends. -/
def cmd_handler_search (cancel_msg_num : Nat) :
    Nat → Heap → Option Nat → Option Nat → Option Nat →
      Except Fault (Heap × Option Nat × Option Nat)
  | _, h, head, _, none => pure (h, head, none)
  | 0, _, _, _, some _ => .error .out_of_fuel
  | fuel + 1, h, head, prev_alarm, some curr_alarm => do
    let c ← deref h (some curr_alarm)
    if c.msg_num = cancel_msg_num then
      if some curr_alarm = head then
        let hd ← deref h head
        let c1 ← deref h (some curr_alarm)
        pure (h.set curr_alarm { c1 with link := none, is_cancelled := true },
          hd.link, some curr_alarm)
      else
        let pv ← deref h prev_alarm
        let h1 := h.set (prev_alarm.getD 0) { pv with link := c.link }
        let c1 ← deref h1 (some curr_alarm)
        pure (h1.set curr_alarm { c1 with link := none, is_cancelled := true },
          head, some curr_alarm)
    else
      cmd_handler_search cancel_msg_num fuel h head (some curr_alarm) c.link

/-- Outcome of the processing of one type C command up to the handshake.  When
`wait_on = some p` the command handler is inside
`while (curr_alarm->is_assigned) pthread_cond_wait(...)`. -/
structure CancelOut where
  heap : Heap
  head : Option Nat
  curr_alarm : Nat
  handler_id : Option Nat
  wait_on : Option Nat
  deriving DecidableEq, Repr

/-- One type C command (`cmd_handler.c`, lines 379-476): the search loop, then
`curr_alarm->is_assigned` is read, `handler_id` is taken when `link_handle` is
`NULL`, and the handshake is entered. -/
def cmd_handler_cancel (h : Heap) (alarm_list_head : Option Nat) (cancel_msg_num : Nat) :
    Except Fault CancelOut := do
  let (h1, head1, curr) ← cmd_handler_search cancel_msg_num h.length h alarm_list_head none
    alarm_list_head
  let c ← deref h1 curr
  if c.is_assigned then
    pure { heap := h1, head := head1, curr_alarm := curr.getD 0,
           handler_id := if c.link_handle = none then c.handler_id else none,
           wait_on := curr }
  else
    pure { heap := h1, head := head1, curr_alarm := curr.getD 0, handler_id := none,
           wait_on := none }

/-! ## Alarm handler -/

/-- The initial scan of `alarm_handler` (`alarm_handler.c`, lines 148-174) from
`curr_alarm`: every unassigned alarm of type `msg_type` is marked assigned to
`tid` and inserted into the local list. -/
def alarm_handler_scan (tid msg_type : Nat) :
    Nat → Heap → Option Nat → Option Nat → Except Fault (Heap × Option Nat)
  | _, h, handle_list_head, none => pure (h, handle_list_head)
  | 0, _, _, some _ => .error .out_of_fuel
  | fuel + 1, h, handle_list_head, some curr_alarm => do
    let c ← deref h (some curr_alarm)
    if (!c.is_assigned) && c.msg_type = msg_type then
      let h1 := h.set curr_alarm { c with is_assigned := true, handler_id := some tid }
      let out ← insert_alarm h1 handle_list_head curr_alarm next_handled_alarm
        insert_first_handled_alarm insert_after_handled_alarm false
      let c1 ← deref out.heap (some curr_alarm)
      alarm_handler_scan tid msg_type fuel out.heap out.head c1.link
    else
      alarm_handler_scan tid msg_type fuel h handle_list_head c.link

/-- Events written by an alarm handler during a tick. -/
inductive Event where
  /-- The alarm message is printed ("being printed by Alarm thread"). -/
  | printed (msg_num : Nat) (msg : String)
  /-- The handler "stopped printing" a replaced or cancelled alarm. -/
  | stopped (msg_num : Nat)
  deriving DecidableEq, Repr

/-- The state of the `for` loop of one tick: the heap, `handle_list_head` and
the events written so far. -/
structure TickOut where
  heap : Heap
  handle_list_head : Option Nat
  events : List Event
  deriving DecidableEq, Repr

/-- The `for` loop of one tick of `alarm_handler` (`alarm_handler.c`, lines
216-291) from `curr_alarm`, with `time_since_create` already incremented. -/
def alarm_handler_loop (time_since_create : Nat) :
    Nat → TickOut → Option Nat → Option Nat → Except Fault TickOut
  | _, s, _, none => pure s
  | 0, _, _, some _ => .error .out_of_fuel
  | fuel + 1, s, prev_alarm, some curr_alarm => do
    let c ← deref s.heap (some curr_alarm)
    if c.is_replaced || c.is_cancelled then
      if some curr_alarm = s.handle_list_head then
        let hd ← deref s.heap s.handle_list_head
        let head1 := hd.link_handle
        let c1 ← deref s.heap (some curr_alarm)
        let h1 := s.heap.set curr_alarm
          { c1 with link_handle := none, is_assigned := false, handler_id := none }
        alarm_handler_loop time_since_create fuel
          { heap := h1, handle_list_head := head1, events := s.events ++ [.stopped c.msg_num] }
          prev_alarm head1
      else
        let pv ← deref s.heap prev_alarm
        let h1 := s.heap.set (prev_alarm.getD 0) { pv with link_handle := c.link_handle }
        let c1 ← deref h1 (some curr_alarm)
        let h2 := h1.set curr_alarm
          { c1 with link_handle := none, is_assigned := false, handler_id := none }
        let pv1 ← deref h2 prev_alarm
        alarm_handler_loop time_since_create fuel
          { heap := h2, handle_list_head := s.handle_list_head,
            events := s.events ++ [.stopped c.msg_num] }
          prev_alarm pv1.link_handle
    else
      if c.wait_time = 0 then .error .div_by_zero
      else
        let ev := if time_since_create % c.wait_time = 0 then [Event.printed c.msg_num c.msg]
          else []
        alarm_handler_loop time_since_create fuel { s with events := s.events ++ ev }
          (some curr_alarm) c.link_handle

/-- An alarm handler thread: the local variables of `alarm_handler` that
survive between ticks. -/
structure Worker where
  tid : Nat
  msg_type : Nat
  handle_list_head : Option Nat
  time_since_create : Nat
  /-- Whether the thread has completed its initial scan. -/
  started : Bool
  deriving DecidableEq, Repr

/-- Outcome of one iteration of the `while (true)` loop of `alarm_handler`. -/
structure IterOut where
  heap : Heap
  worker : Worker
  events : List Event
  exited : Bool
  deriving DecidableEq, Repr

/-- One iteration of the `while (true)` loop of `alarm_handler`
(`alarm_handler.c`, lines 211-304): `time_since_create++` on a 64-bit
counter, the `for` loop, then `pthread_exit` when `handle_list_head == NULL`. -/
def alarm_handler_tick (h : Heap) (w : Worker) : Except Fault IterOut := do
  let t := (w.time_since_create + 1) % 2 ^ 64
  let s ← alarm_handler_loop t h.length
    { heap := h, handle_list_head := w.handle_list_head, events := [] } none w.handle_list_head
  pure { heap := s.heap,
         worker := { w with handle_list_head := s.handle_list_head, time_since_create := t },
         events := s.events,
         exited := decide (s.handle_list_head = none) }

/-- The start of `alarm_handler` up to the end of the initial scan. -/
def alarm_handler_init (h : Heap) (alarm_list_head : Option Nat) (tid msg_type : Nat) :
    Except Fault (Heap × Worker) := do
  let (h1, head) ← alarm_handler_scan tid msg_type h.length h none alarm_list_head
  pure (h1, { tid := tid, msg_type := msg_type, handle_list_head := head,
              time_since_create := 0, started := true })

/-! ## The whole application -/

/-- Where the command handler stands when it holds no lock. -/
inductive Pc where
  /-- At the top of `while (true)`, before `cmd_handler_obtain_locks` (line 153). -/
  | top
  /-- Between the release at line 273 and the obtain at line 282. -/
  | before_B
  /-- Between the release at line 334 and the obtain at line 343. -/
  | before_C
  deriving DecidableEq, Repr

/-- The shared state of version 2.  The type B list from `cmdb_list_head` is
`cmdb_done ++ cmdb_new`, where `cmdb_new` starts at `cmdb_list_new_elm`
(`cmdb_new = []` when `cmdb_list_new_elm == NULL`).  `workers` are the alarm
handler threads that were created and have not exited. -/
structure State where
  heap : Heap
  alarm_list_head : Option Nat
  cmda_list : List CmdA
  cmdb_done : List CmdB
  cmdb_new : List CmdB
  cmdc_list : List CmdC
  workers : List Worker
  next_tid : Nat
  pc : Pc
  deriving DecidableEq, Repr

/-- The state at the start of `main`: every list is empty. -/
def State.init : State :=
  { heap := [], alarm_list_head := none, cmda_list := [], cmdb_done := [], cmdb_new := [],
    cmdc_list := [], workers := [], next_tid := 1, pc := .top }

/-- The handshake `while (p->is_assigned) pthread_cond_wait(...)`: when the
alarm is assigned, the thread that `handler_id` names runs its next tick,
which detaches every flagged alarm of its local list; a thread whose list is
then empty exits.  The wait never ends when no such thread runs or when the
alarm is still assigned after the tick. -/
def handshake (st : State) (p : Nat) : Except Fault State := do
  let a ← deref st.heap (some p)
  if !a.is_assigned then pure st
  else
    match a.handler_id with
    | none => .error .blocked
    | some tid =>
      match st.workers.find? (fun w => w.tid = tid && w.started) with
      | none => .error .blocked
      | some w => do
        let it ← alarm_handler_tick st.heap w
        let a1 ← deref it.heap (some p)
        if a1.is_assigned then .error .blocked
        else
          let ws := if it.exited then st.workers.filter (fun v => v.tid ≠ tid)
            else st.workers.map (fun v => if v.tid = tid then it.worker else v)
          pure { st with heap := it.heap, workers := ws }

/-- Function `cmd_handler_join_with_alarm_handler`: nothing for `NULL`;
otherwise unlink the first processed type B record whose `id` is the given
thread, read its `msg_type` (a `NULL` dereference when no record matches) and
join with the thread, which blocks while the thread has not exited. -/
def cmd_handler_join_with_alarm_handler (st : State) (handler_id : Option Nat) :
    Except Fault (State × Nat) :=
  match handler_id with
  | none => pure (st, 0)
  | some tid =>
    let found (r : CmdB) : Bool := r.is_processed && r.id = some tid
    match st.cmdb_done.find? found with
    | some r =>
      if st.workers.any (fun w => w.tid = tid) then .error .blocked
      else pure ({ st with cmdb_done := st.cmdb_done.eraseP found }, r.msg_type)
    | none =>
      match st.cmdb_new.find? found with
      | some r =>
        if st.workers.any (fun w => w.tid = tid) then .error .blocked
        else pure ({ st with cmdb_new := st.cmdb_new.eraseP found }, r.msg_type)
      | none => .error .null_deref

/-- The end of a replacing `insert_alarm` call inside the running application
(`alarm_def.c`, lines 395-418 and 447-470): the handshake on the replaced
alarm, then `is_replaced = false`. -/
def insert_alarm_handshake (st : State) (wait_on : Option Nat) : Except Fault State :=
  match wait_on with
  | none => pure st
  | some p => do
    let st1 ← handshake st p
    let h ← insert_alarm_resume st1.heap p
    pure { st1 with heap := h }

/-- The handshake of the type C loop (`cmd_handler.c`, lines 470-475). -/
def cmd_handler_handshake (st : State) (wait_on : Option Nat) : Except Fault State :=
  match wait_on with
  | none => pure st
  | some p => handshake st p

/-- The body of the type A loop for the first command `c` (`cmd_handler.c`,
lines 185-239), after the command has been taken off the list. -/
def cmd_handler_type_A_body (st : State) (c : CmdA) : Except Fault State := do
  let out ← cmd_handler_insert st.heap st.alarm_list_head c
  let st2 ← insert_alarm_handshake
    { st with heap := out.heap, alarm_list_head := out.head } out.wait_on
  let r ← cmd_handler_join_with_alarm_handler st2 out.result
  pure r.1

/-- The type A loop `while (cmda_list_head != NULL)` over the given commands. -/
def cmd_handler_type_A_loop : List CmdA → State → Except Fault State
  | [], st => pure st
  | c :: cs, st => do
    let st1 ← cmd_handler_type_A_body { st with cmda_list := cs } c
    cmd_handler_type_A_loop cs st1

/-- Critical section part 1 (`cmd_handler.c`, lines 184-241). -/
def cmd_handler_type_A (st : State) : Except Fault State :=
  cmd_handler_type_A_loop st.cmda_list st

/-- The type B loop from `curr_cmdb` (`cmd_handler.c`, lines 291-311): each
record is marked processed and receives the id of a new thread. -/
def cmd_handler_type_B_loop : List CmdB → State → State
  | [], st => st
  | r :: rs, st =>
    cmd_handler_type_B_loop rs
      { st with
        cmdb_done := st.cmdb_done ++ [{ r with is_processed := true, id := some st.next_tid }],
        cmdb_new := rs,
        workers := st.workers ++ [{ tid := st.next_tid, msg_type := r.msg_type,
                                    handle_list_head := none, time_since_create := 0,
                                    started := false }],
        next_tid := st.next_tid + 1 }

/-- Critical section part 2 (`cmd_handler.c`, lines 291-312). -/
def cmd_handler_type_B (st : State) : State :=
  cmd_handler_type_B_loop st.cmdb_new st

/-- The body of the type C loop for the first command `c` (`cmd_handler.c`,
lines 368-508), after the command has been taken off the list. -/
def cmd_handler_type_C_body (st : State) (c : CmdC) : Except Fault State := do
  let out ← cmd_handler_cancel st.heap st.alarm_list_head c.msg_num
  let st2 ← cmd_handler_handshake
    { st with heap := out.heap, alarm_list_head := out.head } out.wait_on
  let r ← cmd_handler_join_with_alarm_handler st2 out.handler_id
  pure r.1

/-- The type C loop `while (cmdc_list_head != NULL)` over the given commands. -/
def cmd_handler_type_C_loop : List CmdC → State → Except Fault State
  | [], st => pure st
  | c :: cs, st => do
    let st1 ← cmd_handler_type_C_body { st with cmdc_list := cs } c
    cmd_handler_type_C_loop cs st1

/-- Critical section part 3 (`cmd_handler.c`, lines 358-510). -/
def cmd_handler_type_C (st : State) : Except Fault State :=
  cmd_handler_type_C_loop st.cmdc_list st

/-- The code from `TYPE_B_AFTER_OBTAIN_LOCKS` to the next release of the locks. -/
def cmd_handler_from_B (st : State) : State :=
  let st1 := cmd_handler_type_B st
  if st1.cmdc_list = [] then { st1 with pc := .top } else { st1 with pc := .before_C }

/-- The code from `TYPE_C_AFTER_OBTAIN_LOCKS` to the release at the end of the loop. -/
def cmd_handler_from_C (st : State) : Except Fault State := do
  let st1 ← cmd_handler_type_C st
  pure { st1 with pc := .top }

/-- One locked section of `cmd_handler`: from an obtain of the locks to the
next release, with the short circuits of lines 158-170, 253-268 and 317-328.
At `Pc.top` the thread first waits until a list is non-empty. -/
def cmd_handler_section (st : State) : Except Fault State :=
  match st.pc with
  | .top =>
    if st.cmda_list = [] ∧ st.cmdb_new = [] ∧ st.cmdc_list = [] then .error .blocked
    else if st.cmda_list = [] then
      if st.cmdb_new = [] then cmd_handler_from_C st
      else pure (cmd_handler_from_B st)
    else do
      let st1 ← cmd_handler_type_A st
      if st1.cmdb_new = [] then
        if st1.cmdc_list = [] then pure { st1 with pc := .top }
        else pure { st1 with pc := .before_C }
      else pure { st1 with pc := .before_B }
  | .before_B => pure (cmd_handler_from_B st)
  | .before_C => cmd_handler_from_C st

/-- The search loop of the type A branch of `main` (`alarm_app.c`, lines
565-595): overwrite the first pending command with the same `msg_num`;
`none` when the loop ends with `curr_cmda == NULL`. -/
def main_type_A_overwrite (c : CmdA) : List CmdA → Option (List CmdA)
  | [] => none
  | x :: xs =>
    if x.msg_num = c.msg_num then
      some ({ x with wait_time := c.wait_time, msg_type := c.msg_type, msg := c.msg } :: xs)
    else (main_type_A_overwrite c xs).map (fun l => x :: l)

/-- The type A branch of `main` after validation (`alarm_app.c`, lines
565-636): overwrite the pending command with the same `msg_num`, or append. -/
def main_type_A (st : State) (c : CmdA) : State :=
  match main_type_A_overwrite c st.cmda_list with
  | some l => { st with cmda_list := l }
  | none => { st with cmda_list := st.cmda_list ++ [c] }

/-- The type B branch of `main` after validation (`alarm_app.c`, lines
701-827). -/
def main_type_B (st : State) (msg_type : Nat) (registry : List Alarm) : State :=
  let alarm_exists := registry.any (fun a => a.msg_type = msg_type) ||
    st.cmda_list.any (fun x => x.msg_type = msg_type)
  if alarm_exists then
    if (st.cmdb_done ++ st.cmdb_new).any (fun r => r.msg_type = msg_type) then st
    else { st with cmdb_new := st.cmdb_new ++
             [{ msg_type := msg_type, id := none, is_processed := false }] }
  else st

/-- The early-exit lookup of `main` in the global list (`alarm_app.c`, lines
892-908): stop at the first alarm with `msg_num == k` or `msg_num > k`. -/
def main_lookup (k : Nat) : List Alarm → Bool
  | [] => false
  | a :: rest => if a.msg_num = k then true else if a.msg_num > k then false
    else main_lookup k rest

/-- The type C branch of `main` after validation (`alarm_app.c`, lines
892-1012). -/
def main_type_C (st : State) (msg_num : Nat) (registry : List Alarm) : State :=
  let alarm_exists := main_lookup msg_num registry ||
    st.cmda_list.any (fun x => x.msg_num = msg_num)
  if alarm_exists then
    if st.cmdc_list.any (fun x => x.msg_num = msg_num) then st
    else { st with cmdc_list := st.cmdc_list ++ [{ msg_num := msg_num }] }
  else st

/-- The alarms of the global list, in link order (empty when the list is
ill-formed). -/
def State.registry (st : State) : List Alarm :=
  match global_list st.heap st.alarm_list_head with
  | some ps => cells st.heap ps
  | none => []

/-- One atomic step of the application.  The main thread submits a validated
command while the command handler holds no lock (its lookup in the global list
and its update of the command lists are taken as one step); the command
handler runs one locked section; an alarm handler runs its initial scan or one
tick. -/
inductive Step : State → State → Prop where
  | submit_A (st : State) (c : CmdA) (hw : 0 < c.wait_time) (ht : 0 < c.msg_type)
      (hn : 0 < c.msg_num) (hm : c.msg ≠ "") : Step st (main_type_A st c)
  | submit_B (st : State) (msg_type : Nat) (ht : 0 < msg_type) :
      Step st (main_type_B st msg_type st.registry)
  | submit_C (st : State) (msg_num : Nat) (hn : 0 < msg_num) :
      Step st (main_type_C st msg_num st.registry)
  | dispatch (st st' : State) (h : cmd_handler_section st = .ok st') : Step st st'
  | scan (st : State) (w : Worker) (h' : Heap) (w' : Worker) (hw : w ∈ st.workers)
      (hs : w.started = false)
      (h : alarm_handler_init st.heap st.alarm_list_head w.tid w.msg_type = .ok (h', w')) :
      Step st { st with heap := h',
                        workers := st.workers.map (fun v => if v.tid = w.tid then w' else v) }
  | tick (st : State) (w : Worker) (it : IterOut) (hw : w ∈ st.workers)
      (hs : w.started = true) (h : alarm_handler_tick st.heap w = .ok it) :
      Step st { st with heap := it.heap,
                        workers := if it.exited then st.workers.filter (fun v => v.tid ≠ w.tid)
                          else st.workers.map (fun v => if v.tid = w.tid then it.worker else v) }

/-- The states that the application reaches from `State.init`. -/
inductive Reachable : State → Prop where
  | init : Reachable State.init
  | step (st st' : State) (hr : Reachable st) (hs : Step st st') : Reachable st'

/-! # Vocabulary of the proofs

## Chains in the arena -/

/-- The predicate `Chain after h start ps`: following `after` from `start`
visits exactly the cells `ps` and then reaches `NULL`. -/
def Chain (after : Alarm → Option Nat) (h : Heap) : Option Nat → List Nat → Prop
  | start, [] => start = none
  | start, q :: qs => start = some q ∧ ∃ a, h[q]? = some a ∧ Chain after h (after a) qs

/-- The key stored at an address (`0` for an invalid address). -/
def key (h : Heap) (p : Nat) : Nat :=
  match h[p]? with
  | some a => a.msg_num
  | none => 0

/-- Ordered insertion of address `n` into a list of addresses, by key. -/
def ins (h : Heap) (n : Nat) : List Nat → List Nat
  | [] => [n]
  | q :: qs => if key h n < key h q then n :: q :: qs else q :: ins h n qs

/-! ## Link fields and frames -/

/-- One of the two link fields of an alarm together with the list primitives
that `insert_alarm` receives for it. -/
structure LinkField where
  after : Alarm → Option Nat
  upd : Alarm → Option Nat → Alarm
  insert_first : Heap → Option Nat → Nat → Except Fault (Heap × Option Nat)
  insert_after : Heap → Nat → Nat → Except Fault Heap
  after_upd : ∀ a v, after (upd a v) = v
  key_upd : ∀ a v, (upd a v).msg_num = a.msg_num
  upd_upd : ∀ a v w, upd (upd a v) w = upd a w
  upd_after : ∀ a, upd a (after a) = a
  first_eq : ∀ h head n, insert_first h head n =
    (deref h (some n)).bind (fun a => .ok (h.set n (upd a head), some n))
  after_eq : ∀ h node n, insert_after h node n =
    (deref h (some node)).bind (fun x => (deref h (some n)).bind (fun a =>
      (deref (h.set n (upd a (after x))) (some node)).bind (fun x1 =>
        .ok ((h.set n (upd a (after x))).set node (upd x1 (some n))))))

/-- The global list: `link`, `insert_first_alarm`, `insert_after_alarm`. -/
def globalField : LinkField where
  after := next_alarm
  upd := fun a v => { a with link := v }
  insert_first := insert_first_alarm
  insert_after := insert_after_alarm
  after_upd := fun _ _ => rfl
  key_upd := fun _ _ => rfl
  upd_upd := fun _ _ _ => rfl
  upd_after := fun _ => rfl
  first_eq := fun _ _ _ => rfl
  after_eq := fun _ _ _ => rfl

/-- A local list: `link_handle`, `insert_first_handled_alarm`,
`insert_after_handled_alarm`. -/
def handledField : LinkField where
  after := next_handled_alarm
  upd := fun a v => { a with link_handle := v }
  insert_first := insert_first_handled_alarm
  insert_after := insert_after_handled_alarm
  after_upd := fun _ _ => rfl
  key_upd := fun _ _ => rfl
  upd_upd := fun _ _ _ => rfl
  upd_after := fun _ => rfl
  first_eq := fun _ _ _ => rfl
  after_eq := fun _ _ _ => rfl

/-- The heap `h'` differs from `h` at most in the `F` field of the cells in `ps`. -/
structure FieldFrame (F : LinkField) (ps : List Nat) (h h' : Heap) : Prop where
  length_eq : h'.length = h.length
  upd_of : ∀ (p : Nat) (a : Alarm), h[p]? = some a → ∃ v : Option Nat, h'[p]? = some (F.upd a v)
  same_of : ∀ p : Nat, p ∉ ps → h'[p]? = h[p]?

/-- Keys of a list of addresses are strictly ascending. -/
def KeysAscending (h : Heap) (ps : List Nat) : Prop :=
  (ps.map (key h)).Pairwise (fun x y => x < y)

/-! ## Ascending keys and replacement -/

/-- The cell that `replace_alarm` leaves in place of `e` when the new alarm is `a`. -/
def replaced_cell (e a : Alarm) : Alarm :=
  { (if e.is_assigned then { e with is_replaced := true } else e) with
    wait_time := a.wait_time, msg_type := a.msg_type, msg := a.msg }

/-- The value returned by `replace_alarm` for the existing cell `e`. -/
def replaced_result (e : Alarm) : Option Nat :=
  if e.is_assigned then (if e.link_handle = none then e.handler_id else none) else none

/-! ## Idle states (C1) -/

/-- A state whose global list is well formed and ascending and in which no
alarm is assigned or marked replaced. -/
structure Idle (st : State) (xs : List Nat) : Prop where
  chain : Chain next_alarm st.heap st.alarm_list_head xs
  asc : KeysAscending st.heap xs
  quiet : ∀ a ∈ st.heap, a.is_assigned = false ∧ a.is_replaced = false

/-! ## What alarm handlers leave alone (C2, C3) -/

/-- The fields of an alarm that no alarm handler writes: everything but
`link_handle`, `is_assigned` and `handler_id`. -/
def Alarm.fixed (a : Alarm) : Alarm :=
  { a with link_handle := none, is_assigned := false, handler_id := none }

/-- The heap `h2` is `h` after any activity of alarm handler threads: the cells
agree on every field that alarm handlers do not write. -/
def HandlerFrame (h h2 : Heap) : Prop := h2.map Alarm.fixed = h.map Alarm.fixed

/-! ## Cancelled cells (C3) -/

/-- The cell that the type C search leaves for the cancelled alarm. -/
def cancelled_cell (a : Alarm) : Alarm := { a with link := none, is_cancelled := true }

/-! ## Concrete registries -/

/-- A schedule command for key 5. -/
def ex_cmd_first : CmdA := { wait_time := 2, msg_type := 1, msg_num := 5, msg := "hello" }

/-- A second schedule command for key 5 with another message. -/
def ex_cmd_second : CmdA := { wait_time := 3, msg_type := 1, msg_num := 5, msg := "world" }

/-- The heap after the first command was applied and the alarm of the second
one was allocated. -/
def ex_heap_two : Heap := [alarm_of_cmda ex_cmd_first, alarm_of_cmda ex_cmd_second]

/-- A registry with the keys 3, 5 and 7. -/
def ex_heap_three : Heap :=
  [ { alarm_of_cmda { wait_time := 1, msg_type := 1, msg_num := 3, msg := "a" } with
      link := some 1 },
    { alarm_of_cmda { wait_time := 1, msg_type := 2, msg_num := 5, msg := "b" } with
      link := some 2 },
    alarm_of_cmda { wait_time := 1, msg_type := 1, msg_num := 7, msg := "c" } ]

/-! ## Two traces of the application (C4, C5) -/

/-- A schedule command for key 1, type 1. -/
def ex_c1 : CmdA := { wait_time := 1, msg_type := 1, msg_num := 1, msg := "x" }

/-- A schedule command for key 2, type 1. -/
def ex_c2 : CmdA := { wait_time := 1, msg_type := 1, msg_num := 2, msg := "y" }

/-- A later schedule command for key 2. -/
def ex_c2_new : CmdA := { wait_time := 4, msg_type := 1, msg_num := 2, msg := "z" }

/-- After `1 Message(1, 1) x`. -/
def ex_t1 : State := main_type_A State.init ex_c1

/-- After `1 Message(1, 2) y`. -/
def ex_t2 : State := main_type_A ex_t1 ex_c2

/-- After `Create_Thread: MessageType(1)`. -/
def ex_t3 : State := main_type_B ex_t2 1 ex_t2.registry

/-- After the type A section of the command handler. -/
def ex_t4 : State := (cmd_handler_section ex_t3).toOption.getD State.init

/-- After the type B section of the command handler: thread 1 is created. -/
def ex_t5 : State := (cmd_handler_section ex_t4).toOption.getD State.init

/-- The alarm handler thread 1 before its initial scan. -/
def ex_w0 : Worker :=
  { tid := 1, msg_type := 1, handle_list_head := none, time_since_create := 0,
    started := false }

/-- The result of the initial scan of thread 1. -/
def ex_scan : Heap × Worker :=
  (alarm_handler_init ex_t5.heap ex_t5.alarm_list_head 1 1).toOption.getD ([], ex_w0)

/-- After the initial scan: thread 1 handles the alarms 1 and 2. -/
def ex_t6 : State :=
  { ex_t5 with heap := ex_scan.1,
               workers := ex_t5.workers.map (fun v => if v.tid = ex_w0.tid then ex_scan.2 else v) }

/-- After `4 Message(1, 2) z`, which will replace alarm 2. -/
def ex_t7 : State := main_type_A ex_t6 ex_c2_new

/-- After `1 Message(1, 1) x` and `Cancel: Message(1)`. -/
def ex_s2 : State := main_type_C ex_t1 1 ex_t1.registry

/-- After the type A section: the command handler has released its locks before
the type C section. -/
def ex_s3 : State := (cmd_handler_section ex_s2).toOption.getD State.init

/-- After `1 Message(1, 2) y`, submitted at that release point. -/
def ex_s4 : State := main_type_A ex_s3 ex_c2

/-- After `Cancel: Message(2)`, accepted because of the pending schedule command. -/
def ex_s5 : State := main_type_C ex_s4 2 ex_s4.registry

/-! ## Records and threads per message type (C6) -/

/-- The message types of the type B list, from `cmdb_list_head`. -/
def State.cmdb_types (st : State) : List Nat :=
  (st.cmdb_done ++ st.cmdb_new).map CmdB.msg_type

/-- The thread id and the message type of every alarm handler thread. -/
def State.threads (st : State) : List (Nat × Nat) :=
  st.workers.map (fun w => (w.tid, w.msg_type))

/-- The invariant behind C6. -/
structure OnePerType (st : State) : Prop where
  types_nodup : st.cmdb_types.Nodup
  tids_nodup : (st.workers.map Worker.tid).Nodup
  tids_lt : ∀ w ∈ st.workers, w.tid < st.next_tid
  has_record : ∀ w ∈ st.workers,
    ∃ r ∈ st.cmdb_done, r.id = some w.tid ∧ r.msg_type = w.msg_type

/-- A transition that creates neither records nor threads: records and threads
can only disappear, and a record disappears only when no remaining thread
carries its id. -/
structure Keeps (st st' : State) : Prop where
  types : List.Sublist st'.cmdb_types st.cmdb_types
  threads : List.Sublist st'.threads st.threads
  erased : ∀ r ∈ st.cmdb_done, r ∉ st'.cmdb_done → ∀ w ∈ st'.workers, r.id ≠ some w.tid
  next_tid : st'.next_tid = st.next_tid

/-! ## The initial scan (C7) -/

/-- The test of the scan: the cell is an unassigned alarm of type `t`. -/
def selected (h : Heap) (t : Nat) (p : Nat) : Bool :=
  match h[p]? with
  | some a => (!a.is_assigned) && decide (a.msg_type = t)
  | none => false

/-- The cells of `ps` that the scan of a handler for type `t` picks, in order. -/
def picked (h : Heap) (t : Nat) (ps : List Nat) : List Nat := ps.filter (selected h t)

/-- The cell of a picked alarm after the scan, up to its `link_handle`. -/
def assigned_cell (a : Alarm) (tid : Nat) (v : Option Nat) : Alarm :=
  { a with is_assigned := true, handler_id := some tid, link_handle := v }

/-! ## One tick (C8, C10) -/

/-- The test of the tick: `is_replaced || is_cancelled`. -/
def Alarm.flagged (a : Alarm) : Bool := a.is_replaced || a.is_cancelled

/-- The cell of a detached alarm. -/
def reset_cell (a : Alarm) : Alarm :=
  { a with link_handle := none, is_assigned := false, handler_id := none }

/-- The events that a tick at time `t` writes for one alarm of the local list. -/
def alarm_events (t : Nat) (a : Alarm) : List Event :=
  if a.flagged then [.stopped a.msg_num]
  else if t % a.wait_time = 0 then [.printed a.msg_num a.msg] else []

/-- The cells of `ps` whose alarm is not flagged, in order. -/
def kept (h : Heap) (ps : List Nat) : List Nat :=
  ps.filter (fun p => match h[p]? with
    | some a => !a.flagged
    | none => false)

/-- The events of a tick at time `t` over the cells `ps`, in order. -/
def tick_events (h : Heap) (t : Nat) (ps : List Nat) : List Event :=
  ps.flatMap (fun p => match h[p]? with
    | some a => alarm_events t a
    | none => [])

/-! ## Runs of an alarm handler (C9) -/

/-- The first `n` iterations of the `while (true)` loop of an alarm handler,
from iteration `i`; before iteration `j` the other threads have turned the
heap `h` into `env j h`.  The result lists the events of each iteration; the
run ends early when the thread exits. -/
def alarm_handler_run (env : Nat → Heap → Heap) :
    Nat → Nat → Heap → Worker → Except Fault (List (List Event))
  | 0, _, _, _ => pure []
  | n + 1, i, h, w => do
    let it ← alarm_handler_tick (env i h) w
    if it.exited then pure [it.events]
    else
      let rest ← alarm_handler_run env n (i + 1) it.heap it.worker
      pure (it.events :: rest)

/-- The thread `w` handles the alarm `a` in cell `p`, unflagged: its local list
is well formed with pairwise distinct keys, contains `p`, its unflagged alarms
have a positive `wait_time`, and the cell `p` holds an unflagged alarm with
the `wait_time`, `msg_num` and `msg` of `a`. -/
def Handles (p : Nat) (a : Alarm) (h : Heap) (w : Worker) : Prop :=
  ∃ ys b, handled_list h w.handle_list_head = some ys ∧ p ∈ ys ∧
    (ys.map (key h)).Nodup ∧
    (∀ q ∈ ys, ∀ c, h[q]? = some c → c.flagged = false → 0 < c.wait_time) ∧
    h[p]? = some b ∧ b.flagged = false ∧ b.wait_time = a.wait_time ∧
    b.msg_num = a.msg_num ∧ b.msg = a.msg

/-! ## Concrete local lists -/

/-- Two alarms handled by thread 1 (local list `[0, 1]`), with `wait_time` 2 and 3. -/
def ex_heap_run : Heap :=
  [ { link := some 1, link_handle := some 1, wait_time := 2, msg_type := 1, msg_num := 1,
      msg := "x", is_assigned := true, handler_id := some 1, is_replaced := false,
      is_cancelled := false },
    { link := none, link_handle := none, wait_time := 3, msg_type := 1, msg_num := 2,
      msg := "y", is_assigned := true, handler_id := some 1, is_replaced := false,
      is_cancelled := false } ]

/-- The same two alarms after a cancel request for the second one. -/
def ex_heap_tick : Heap :=
  [ { link := none, link_handle := some 1, wait_time := 2, msg_type := 1, msg_num := 1,
      msg := "x", is_assigned := true, handler_id := some 1, is_replaced := false,
      is_cancelled := false },
    { link := none, link_handle := none, wait_time := 3, msg_type := 1, msg_num := 2,
      msg := "y", is_assigned := true, handler_id := some 1, is_replaced := false,
      is_cancelled := true } ]

/-- A single alarm, handled by thread 1 and marked replaced. -/
def ex_heap_last : Heap :=
  [ { link := none, link_handle := none, wait_time := 2, msg_type := 1, msg_num := 1,
      msg := "x", is_assigned := true, handler_id := some 1, is_replaced := true,
      is_cancelled := false } ]

/-- Thread 1 right after its initial scan, with cell 0 at the head of its list. -/
def ex_worker : Worker :=
  { tid := 1, msg_type := 1, handle_list_head := some 0, time_since_create := 0,
    started := true }

/-- Thread 1 after one tick. -/
def ex_worker_one : Worker := { ex_worker with time_since_create := 1 }

/-! # The model, continued

## Cancellation of an alarm handler thread -/

/-- Function `cleanup_alarm_handler` (`alarm_handler.c`, lines 339-378): the
`while` loop over the list from `handle_list_head = (Alarm *) arg`; every
alarm of the list gets `link_handle = NULL`, `is_assigned = false` and
`handler_id = NULL`. -/
def cleanup_alarm_handler : Nat → Heap → Option Nat → Except Fault Heap
  | _, h, none => pure h
  | 0, _, some _ => .error .out_of_fuel
  | fuel + 1, h, some curr_alarm => do
    let c ← deref h (some curr_alarm)
    cleanup_alarm_handler fuel
      (h.set curr_alarm { c with link_handle := none, is_assigned := false, handler_id := none })
      c.link_handle

/-- The argument that `alarm_handler` hands to `pthread_cleanup_push`
(`alarm_handler.c`, line 98): the value of its local `handle_list_head` at
that statement, which is the initial `NULL` of line 41. -/
def alarm_handler_cleanup_arg : Option Nat := none

/-- External cancellation of the alarm handler thread `w`: the routine pushed
at line 98 runs on the argument pushed with it.  The current value of the
local variable `handle_list_head` of the thread is not passed on. -/
def alarm_handler_cancel (h : Heap) (_w : Worker) : Except Fault Heap :=
  cleanup_alarm_handler h.length h alarm_handler_cleanup_arg

/-! ## The message of a type A command in `main` -/

/-- Constant `MAX_MSG_LEN` of `alarm_def.h`. -/
def MAX_MSG_LEN : Nat := 50

/-- Ways in which the message extraction of `main` leaves its buffers. -/
inductive BufferFault where
  /-- The char `line[i]` is read at an index `i` that is not below `len`. -/
  | line_read (i : Nat)
  /-- The char `msg[j]` is written at an index `j` above `MAX_MSG_LEN`. -/
  | msg_write (j : Nat)
  /-- The loop bound was exhausted. -/
  | out_of_fuel
  deriving DecidableEq, Repr

/-- Outcome of the message extraction of a type A command. -/
inductive Extracted where
  /-- Rejected: "The given AlarmMessage is the empty string." -/
  | empty_message
  /-- Rejected: the line "differs from the specified format before the first
  character of the AlarmMessage". -/
  | bad_header
  /-- The message stored in `msg`. -/
  | stored (msg : List Char)
  deriving DecidableEq, Repr

/-- The canonical header that `sprintf` writes into `tmp_str` (`alarm_app.c`,
line 446). -/
def main_header (wait_time msg_type msg_num : Nat) : List Char :=
  (toString wait_time ++ " Message(" ++ toString msg_type ++ ", " ++ toString msg_num
    ++ ") ").toList

/-- The copy loop `for (i = msg_start; i != msg_end; ++i) msg[i - msg_start] = line[i]`
(`alarm_app.c`, lines 463-465) from index `i`, with the chars written so far.
The index is a 64-bit `size_t`. -/
def main_copy_msg (line : List Char) (msg_start msg_end : Nat) :
    Nat → Nat → List Char → Except BufferFault (List Char)
  | 0, i, msg => if i = msg_end then pure msg else .error .out_of_fuel
  | fuel + 1, i, msg =>
    if i = msg_end then pure msg
    else
      match line.get? i with
      | none => .error (.line_read i)
      | some c =>
        if MAX_MSG_LEN < (i + 2 ^ 64 - msg_start) % 2 ^ 64 then
          .error (.msg_write ((i + 2 ^ 64 - msg_start) % 2 ^ 64))
        else main_copy_msg line msg_start msg_end fuel ((i + 1) % 2 ^ 64) (msg ++ [c])

/-- The loop that compares the first `msg_start` chars of `line` and `tmp_str`
(`alarm_app.c`, lines 484-490) from index `i`: `status` when it ends. -/
def main_check_header (line tmp_str : List Char) (msg_start : Nat) :
    Nat → Nat → Except BufferFault Bool
  | 0, i => if i = msg_start then pure true else .error .out_of_fuel
  | fuel + 1, i =>
    if i = msg_start then pure true
    else
      match line.get? i with
      | none => .error (.line_read i)
      | some c =>
        if some c ≠ tmp_str[i]? then pure false
        else main_check_header line tmp_str msg_start fuel ((i + 1) % 2 ^ 64)

/-- The type A branch of `main` from the allocation of `tmp_str` to the end of
the validation (`alarm_app.c`, lines 438-511), for a line of `len` chars on
which `sscanf` has read the three numbers.  `tmp_str` holds the header that
`sprintf` has written, `msg_start = strlen(tmp_str)`. -/
def main_type_A_message (line : List Char) (wait_time msg_type msg_num : Nat) :
    Except BufferFault Extracted :=
  let len := line.length
  let tmp_str := main_header wait_time msg_type msg_num
  let msg_start := tmp_str.length
  let msg_max_end := (msg_start + MAX_MSG_LEN) % 2 ^ 64
  let msg_end := min msg_max_end len
  match main_copy_msg line msg_start msg_end (2 ^ 64) msg_start [] with
  | .error e => .error e
  | .ok msg =>
    if msg_start = msg_end then .ok .empty_message
    else
      match main_check_header line tmp_str msg_start (2 ^ 64) 0 with
      | .error e => .error e
      | .ok status => if status then .ok (.stored msg) else .ok .bad_header

/-! ## The reader/writer lock of `lock.c` -/

/-- Where a reader thread stands in `obtain_alarm_read_lock` and
`release_alarm_read_lock`. -/
inductive ReaderPc where
  /-- Outside both functions, without the reader lock. -/
  | idle
  /-- In `obtain_alarm_read_lock`, after `sem_wait(&alarm_r_bin_sem)` (line 27). -/
  | obtain_has_r
  /-- After `++reader_count == 1` was true, before `sem_wait(&alarm_rw_bin_sem)`
  (line 42). -/
  | obtain_first
  /-- Before `sem_post(&alarm_r_bin_sem)` (line 57). -/
  | obtain_post_r
  /-- Between the return of `obtain_alarm_read_lock` and the call of
  `release_alarm_read_lock`. -/
  | reading
  /-- In `release_alarm_read_lock`, after `sem_wait(&alarm_r_bin_sem)` (line 77). -/
  | release_has_r
  /-- After `--reader_count == 0` was true, before `sem_post(&alarm_rw_bin_sem)`
  (line 92). -/
  | release_last
  /-- Before `sem_post(&alarm_r_bin_sem)` (line 107). -/
  | release_post_r
  deriving DecidableEq, Repr

/-- Where a writer thread stands in `cmd_handler_obtain_locks` and
`cmd_handler_release_locks`. -/
inductive WriterPc where
  /-- Outside both functions, without the locks. -/
  | idle
  /-- After `sem_wait(&alarm_rw_bin_sem)` (line 183), before
  `pthread_mutex_lock(&cmd_mutex)` (line 188). -/
  | has_rw
  /-- Between the return of `cmd_handler_obtain_locks` and the call of
  `cmd_handler_release_locks`. -/
  | writing
  /-- After `pthread_mutex_unlock(&cmd_mutex)` (line 202), before
  `sem_post(&alarm_rw_bin_sem)` (line 207). -/
  | unlocked
  deriving DecidableEq, Repr

/-- The lock variables of `alarm_app.h` and the threads that use them.
`cmd_mutex` is `true` when the mutex is locked; `main_has_cmd_mutex` says that
the main thread, which locks `cmd_mutex` outside `lock.c`, is its owner. -/
structure LockState where
  alarm_r_bin_sem : Nat
  alarm_rw_bin_sem : Nat
  reader_count : Nat
  cmd_mutex : Bool
  main_has_cmd_mutex : Bool
  readers : List ReaderPc
  writers : List WriterPc
  deriving DecidableEq, Repr

/-- The lock variables after their initialisation in `main` (`sem_init` with
value 1, `reader_count` 0), with `nr` reader threads and `nw` writer threads,
all outside the lock functions. -/
def LockState.init (nr nw : Nat) : LockState :=
  { alarm_r_bin_sem := 1, alarm_rw_bin_sem := 1, reader_count := 0, cmd_mutex := false,
    main_has_cmd_mutex := false, readers := List.replicate nr .idle,
    writers := List.replicate nw .idle }

/-- The next semaphore operation or counter update of reader `i` in
`obtain_alarm_read_lock` and `release_alarm_read_lock`; `none` when the thread
does not exist or is blocked in `sem_wait`. -/
def reader_step (s : LockState) (i : Nat) : Option LockState :=
  match s.readers[i]? with
  | none => none
  | some .idle =>
    if 0 < s.alarm_r_bin_sem then
      some { s with alarm_r_bin_sem := s.alarm_r_bin_sem - 1,
                    readers := s.readers.set i .obtain_has_r }
    else none
  | some .obtain_has_r =>
    let rc := (s.reader_count + 1) % 2 ^ 64
    some { s with reader_count := rc,
                  readers := s.readers.set i (if rc = 1 then .obtain_first else .obtain_post_r) }
  | some .obtain_first =>
    if 0 < s.alarm_rw_bin_sem then
      some { s with alarm_rw_bin_sem := s.alarm_rw_bin_sem - 1,
                    readers := s.readers.set i .obtain_post_r }
    else none
  | some .obtain_post_r =>
    some { s with alarm_r_bin_sem := s.alarm_r_bin_sem + 1, readers := s.readers.set i .reading }
  | some .reading =>
    if 0 < s.alarm_r_bin_sem then
      some { s with alarm_r_bin_sem := s.alarm_r_bin_sem - 1,
                    readers := s.readers.set i .release_has_r }
    else none
  | some .release_has_r =>
    let rc := (s.reader_count + 2 ^ 64 - 1) % 2 ^ 64
    some { s with reader_count := rc,
                  readers := s.readers.set i (if rc = 0 then .release_last else .release_post_r) }
  | some .release_last =>
    some { s with alarm_rw_bin_sem := s.alarm_rw_bin_sem + 1,
                  readers := s.readers.set i .release_post_r }
  | some .release_post_r =>
    some { s with alarm_r_bin_sem := s.alarm_r_bin_sem + 1, readers := s.readers.set i .idle }

/-- The next lock operation of writer `j` in `cmd_handler_obtain_locks` and
`cmd_handler_release_locks`; `none` when the thread does not exist or is
blocked. -/
def writer_step (s : LockState) (j : Nat) : Option LockState :=
  match s.writers[j]? with
  | none => none
  | some .idle =>
    if 0 < s.alarm_rw_bin_sem then
      some { s with alarm_rw_bin_sem := s.alarm_rw_bin_sem - 1,
                    writers := s.writers.set j .has_rw }
    else none
  | some .has_rw =>
    if s.cmd_mutex then none
    else some { s with cmd_mutex := true, writers := s.writers.set j .writing }
  | some .writing =>
    some { s with cmd_mutex := false, writers := s.writers.set j .unlocked }
  | some .unlocked =>
    some { s with alarm_rw_bin_sem := s.alarm_rw_bin_sem + 1, writers := s.writers.set j .idle }

/-- The main thread locks or unlocks `cmd_mutex` around its update of the
command lists (`alarm_app.c`); `none` when it is blocked. -/
def main_cmd_mutex_step (s : LockState) : Option LockState :=
  if s.main_has_cmd_mutex then some { s with cmd_mutex := false, main_has_cmd_mutex := false }
  else if s.cmd_mutex then none
  else some { s with cmd_mutex := true, main_has_cmd_mutex := true }

/-- One step of one thread, in any interleaving. -/
inductive LockStep : LockState → LockState → Prop where
  | reader (s s' : LockState) (i : Nat) (h : reader_step s i = some s') : LockStep s s'
  | writer (s s' : LockState) (j : Nat) (h : writer_step s j = some s') : LockStep s s'
  | main (s s' : LockState) (h : main_cmd_mutex_step s = some s') : LockStep s s'

/-- The lock states that the threads reach from `s0`. -/
inductive LockReachable (s0 : LockState) : LockState → Prop where
  | start : LockReachable s0 s0
  | step (s s' : LockState) (hr : LockReachable s0 s) (hs : LockStep s s') :
      LockReachable s0 s'

/-- A reader holds the alarms list from the point where it has passed the
test of `reader_count` (and, as first reader, the wait for
`alarm_rw_bin_sem`) up to its decrement of `reader_count`; this includes the
whole time between `obtain_alarm_read_lock` and `release_alarm_read_lock`. -/
def ReaderPc.holds : ReaderPc → Bool
  | .obtain_post_r | .reading | .release_has_r => true
  | _ => false

/-- A writer holds the alarms list from its `sem_wait(&alarm_rw_bin_sem)` to
its `sem_post(&alarm_rw_bin_sem)`; this includes the whole time between
`cmd_handler_obtain_locks` and `cmd_handler_release_locks`. -/
def WriterPc.holds : WriterPc → Bool
  | .has_rw | .writing | .unlocked => true
  | .idle => false

/-! ## Counting threads of the lock (C19) -/

/-- The number of threads of `l`, each counted with its weight `f`. -/
def weight {α : Type} (f : α → Nat) (l : List α) : Nat := (l.map f).sum

/-- The number of threads of `l` that stand at `x`. -/
def census {α : Type} [DecidableEq α] (l : List α) (x : α) : Nat :=
  weight (fun a => if a = x then 1 else 0) l

/-- The invariant of the lock: the semaphores and `reader_count` account for
the threads inside the lock functions.  `alarm_r_bin_sem` is taken by the one
reader between its wait and its post; `reader_count` counts the readers
between increment and decrement; `alarm_rw_bin_sem` is taken either by one
writer or on behalf of the readers that have passed the test of
`reader_count`. -/
structure LockInv (s : LockState) : Prop where
  few : s.readers.length < 2 ^ 64
  sem_r : s.alarm_r_bin_sem + (census s.readers .obtain_has_r + census s.readers .obtain_first +
    census s.readers .obtain_post_r + census s.readers .release_has_r +
    census s.readers .release_last + census s.readers .release_post_r) = 1
  count : s.reader_count = census s.readers .obtain_first + census s.readers .obtain_post_r +
    census s.readers .reading + census s.readers .release_has_r
  sem_rw : (census s.readers .obtain_post_r + census s.readers .reading +
        census s.readers .release_has_r + census s.readers .release_last = 0 ∧
      s.alarm_rw_bin_sem + (census s.writers .has_rw + census s.writers .writing +
        census s.writers .unlocked) = 1) ∨
    (0 < census s.readers .obtain_post_r + census s.readers .reading +
        census s.readers .release_has_r + census s.readers .release_last ∧
      s.alarm_rw_bin_sem + (census s.writers .has_rw + census s.writers .writing +
        census s.writers .unlocked) = 0)
  first : census s.readers .obtain_first = 0 ∨ s.reader_count = 1
  last : census s.readers .release_last = 0 ∨ s.reader_count = 0

/-- The lock state in which the first `k` of `k + m` readers hold the reader
lock, all other threads being outside the lock functions. -/
def LockState.readers_in (k m nw : Nat) : LockState :=
  { alarm_r_bin_sem := 1, alarm_rw_bin_sem := if k = 0 then 1 else 0, reader_count := k,
    cmd_mutex := false, main_has_cmd_mutex := false,
    readers := List.replicate k .reading ++ List.replicate m .idle,
    writers := List.replicate nw .idle }

/-! ## Alarms and their handlers (C11, C13) -/

/-- The alarm handler threads `ws` and the assigned alarms of the heap `h`
account for each other: `is_assigned` and `handler_id` agree, an unassigned
alarm has no `link_handle`, the local list of every thread is well formed and
holds alarms assigned to that thread, every assigned alarm is in the local
list of the thread that `handler_id` names, a thread that has not yet run its
initial scan has an empty list, and thread ids are pairwise distinct. -/
structure Owned (h : Heap) (ws : List Worker) : Prop where
  assigned_iff : ∀ a ∈ h, a.is_assigned = a.handler_id.isSome
  detached : ∀ a ∈ h, a.is_assigned = false → a.link_handle = none
  lists : ∀ w ∈ ws, ∃ ys, Chain next_handled_alarm h w.handle_list_head ys ∧
    ∀ q ∈ ys, ∃ a, h[q]? = some a ∧ a.is_assigned = true ∧ a.handler_id = some w.tid
  owner : ∀ p a, h[p]? = some a → a.is_assigned = true →
    ∃ w ∈ ws, a.handler_id = some w.tid ∧
      ∃ ys, Chain next_handled_alarm h w.handle_list_head ys ∧ p ∈ ys
  fresh : ∀ w ∈ ws, w.started = false → w.handle_list_head = none
  tids : (ws.map Worker.tid).Nodup

/-- The invariant of the application inside a locked section of the command
handler, while it replaces the alarm in cell `e` (`e = none` when it replaces
none): the global list is well formed and strictly ascending by `msg_num`,
every `wait_time` is positive, no alarm but the one in cell `e` is marked
replaced, and the alarm handler threads account for the assigned alarms. -/
structure SoundBut (e : Option Nat) (st : State) : Prop where
  chain : ∃ xs, Chain next_alarm st.heap st.alarm_list_head xs ∧ KeysAscending st.heap xs
  positive : ∀ a ∈ st.heap, 0 < a.wait_time
  unreplaced : ∀ (p : Nat) (a : Alarm), st.heap[p]? = some a → e ≠ some p →
    a.is_replaced = false
  pending : ∀ c ∈ st.cmda_list, 0 < c.wait_time
  owned : Owned st.heap st.workers

/-- The invariant of the application at the points where the command handler
holds no lock. -/
def Sound (st : State) : Prop := SoundBut none st

/-- Every cell of `h` is still a cell of `h'`, with the same `msg_num`, and
still cancelled if it was. -/
def Persist (h h' : Heap) : Prop :=
  ∀ (p : Nat) (a : Alarm), h[p]? = some a →
    ∃ a' : Alarm, h'[p]? = some a' ∧ a'.msg_num = a.msg_num ∧
      (a.is_cancelled = true → a'.is_cancelled = true)

/-! ## A replacement of an assigned alarm (C13) -/

/-- The command `4 Message(1, 1) z`, which replaces alarm 1. -/
def ex_c1_new : CmdA := { wait_time := 4, msg_type := 1, msg_num := 1, msg := "z" }

/-- After `4 Message(1, 1) z` is submitted while thread 1 handles the alarms 1
and 2. -/
def ex_r1 : State := main_type_A ex_t6 ex_c1_new

/-- After the section of the command handler that replaces alarm 1. -/
def ex_r2 : State := (cmd_handler_section ex_r1).toOption.getD State.init

/-! ## One cycle of the command handler (C17) -/

/-- One iteration of the `while (true)` loop of `cmd_handler` (lines 98-523)
from the top, when no other thread runs at the points where the locks are
released: the locked sections until the thread is at the top again. -/
def cmd_handler_cycle (st : State) : Except Fault State := do
  let st1 ← cmd_handler_section st
  if st1.pc = .top then pure st1
  else do
    let st2 ← cmd_handler_section st1
    if st2.pc = .top then pure st2 else cmd_handler_section st2

/-- After `4 Message(1, 2) z` and `Cancel: Message(1)`, both submitted while
thread 1 handles the alarms 1 and 2 and the command handler waits at the top
of its loop. -/
def ex_q1 : State := main_type_C ex_t7 1 ex_t7.registry

/-- The call of `insert_alarm` for `4 Message(1, 2) z` in that state, up to the
handshake. -/
def ex_q_insert : Except Fault InsertOut :=
  cmd_handler_insert ex_q1.heap ex_q1.alarm_list_head ex_c2_new

/-- The state when that call of `insert_alarm` has returned. -/
def ex_q_inserted : Except Fault State :=
  ex_q_insert.bind (fun out => insert_alarm_handshake
    { ex_q1 with cmda_list := [], heap := out.heap, alarm_list_head := out.head } out.wait_on)

/-! # Utilities of `std_utilities.c`

## Function `gcd` -/

/-- The loop `while (min != 0)` of `gcd` (Euclid's algorithm), with the values
of `min` and `max` at its head; `none` when the bound on the iterations is
exhausted. -/
def gcd_loop : Nat → Nat → Nat → Option Nat
  | _, 0, max => some max
  | 0, _ + 1, _ => none
  | fuel + 1, min + 1, max => gcd_loop fuel (max % (min + 1)) (min + 1)

/-- Function `gcd` of `std_utilities.c` on two `uint_fast64_t` values.  No
operation of the function can overflow. -/
def gcd (x y : Nat) : Option Nat :=
  if x = y then some y
  else if x = 1 ∨ y = 1 then some 1
  else if x = 0 then some y
  else if y = 0 then some x
  else if x < y then gcd_loop (2 ^ 64) x y
  else gcd_loop (2 ^ 64) y x



/-! ## The lookup of a key in the registry (C26) -/

/-- The lookup as the specification words it: some alarm in the whole
registry has `msg_num` `k`. -/
def spec_key_in_registry (k : Nat) (registry : List Alarm) : Bool :=
  registry.any (fun a => a.msg_num = k)

/-! ## Function `str_to_uf64` -/

/-- The test `isdigit(c) != 0` of the C library, in the "C" locale. -/
def isdigit (c : Char) : Bool := decide ('0'.toNat ≤ c.toNat ∧ c.toNat ≤ '9'.toNat)

/-- Function `ctoi` of `std_utilities.c`: the digit, or `-1`. -/
def ctoi (c : Char) : Int := if isdigit c then (c.toNat : Int) - ('0'.toNat : Int) else -1

/-- The first loop of `str_to_uf64`: the index `l` of the terminating null
character, or `none` when a character that is not a digit is met. -/
def str_to_uf64_scan : List Char → Nat → Option Nat
  | [], l => some l
  | c :: rest, l => if isdigit c then str_to_uf64_scan rest (l + 1) else none

/-- The variables of the second loop of `str_to_uf64`. -/
structure ParseVars where
  result : Nat
  old_result : Nat
  first_digit : Bool
  errno : Int
  deriving DecidableEq, Repr

/-- One iteration of the second loop of `str_to_uf64` for the index `i`:
`result += (unsigned) ctoi(s[l - i]); result *= 10;` in 64-bit arithmetic,
followed by the check for wrapping. -/
def str_to_uf64_step (s : List Char) (l i : Nat) (v : ParseVars) : ParseVars :=
  let digit := ((ctoi (s.getD (l - i) '0')) % (2 ^ 32 : Int)).toNat
  let result := ((v.result + digit) % 2 ^ 64 * 10) % 2 ^ 64
  if v.errno = 0 then
    { result := result, old_result := result, first_digit := false,
      errno := if !v.first_digit && decide (result ≤ v.old_result) then 1 else v.errno }
  else { v with result := result }

/-- The second loop `for (i = 0; i <= l; i++)` of `str_to_uf64`, with the
number of iterations that remain. -/
def str_to_uf64_parse (s : List Char) (l : Nat) : Nat → Nat → ParseVars → ParseVars
  | 0, _, v => v
  | n + 1, i, v => str_to_uf64_parse s l n (i + 1) (str_to_uf64_step s l i v)

/-- Function `str_to_uf64` of `std_utilities.c` on the characters of the C
string `s`, called with the given value of `errno`: the value returned and
the value of `errno` on return. -/
def str_to_uf64 (s : List Char) (errno : Int) : Nat × Int :=
  match str_to_uf64_scan s 0 with
  | none => (0, -1)
  | some l =>
    if l = 0 then (0, -1)
    else
      let v := str_to_uf64_parse s (l - 1) l 0
        { result := 0, old_result := 0, first_digit := true, errno := errno }
      (v.result, v.errno)

/-- The numeric value of a string of decimal digits. -/
def decimal_value (s : List Char) : Nat :=
  s.foldl (fun r c => 10 * r + (c.toNat - '0'.toNat)) 0

/-! # Validation of type B and type C commands (C21) -/

/-- The string that `sprintf` writes into `expected` (`alarm_def.c`, lines
49-53): `n` is printed with `PRIuFAST32`, in decimal without leading zeros. -/
def is_valid_cmd_expected (cmd_type : Char) (n : Nat) : List Char :=
  if cmd_type = 'B' then ("Create_Thread: MessageType(" ++ toString n ++ ")").toList
  else ("Cancel: Message(" ++ toString n ++ ")").toList

/-- The number of chars that `sprintf` writes into `expected`: the expected
command and its terminator.  The buffer was allocated with
`MALLOC_ARRAY(char, len)` (line 47), `len` chars. -/
def is_valid_cmd_written (cmd_type : Char) (n : Nat) : Nat :=
  (is_valid_cmd_expected cmd_type n).length + 1

/-- Function `is_valid_cmd` of `alarm_def.c` (lines 35-68) on a line of
`len = strlen(line)` chars; `allocated` tells whether `MALLOC_ARRAY` returned a
buffer.  `strcmp(line, expected) != 0` is `line ≠ expected`. -/
def is_valid_cmd (allocated : Bool) (line : List Char) (cmd_type : Char) (n : Nat) : Int :=
  if allocated = false then -1
  else if line ≠ is_valid_cmd_expected cmd_type n then 0
  else 1

/-- The string `ds` is the decimal notation of `n` without leading zeros: it
is not empty, it consists of decimal digits, it does not start with `0`, and
its numeric value is `n`. -/
def DecimalDigitsOf (ds : List Char) (n : Nat) : Prop :=
  ds ≠ [] ∧ (∀ c ∈ ds, isdigit c = true) ∧ ds.head? ≠ some '0' ∧ decimal_value ds = n

/-! # The cleanup routine of the main thread (C27) -/

/-- The error values of `alarm_def.h` that `cleanup_main` and its callees use. -/
def SEM_WAIT_ERR : Int := -8
def SEM_SIGNAL_ERR : Int := -9
def SEM_DESTROY_ERR : Int := -11
def MUTEX_LOCK_ERR : Int := 1
def MUTEX_UNLOCK_ERR : Int := 2
def MUTEX_DESTROY_ERR : Int := 4
def COND_VAR_DESTROY_ERR : Int := 5
def THREAD_CANCEL_ERR : Int := 7
def THREAD_JOIN_ERR : Int := 8
def THREAD_CANCEL_RETVAL_ERR : Int := 9
def CANCELLATION_ENABLE_ERR : Int := 10
def CANCELLATION_DISABLE_ERR : Int := 11

/-- The cleanup modes of `alarm_app.h` that `cleanup_main` tests. -/
def ALARM_RW_BIN_SEM_INIT_FAIL : Int := 1
def ALARM_R_BIN_SEM_INIT_FAIL : Int := 2
def CMD_THREAD_CREATE_FAIL : Int := 3
def STD_CLEANUP : Int := 4

/-- The `Error` structure of `std_utilities.h`. -/
structure Error where
  filename : String
  linenum : Nat
  val : Int
  msg : String
  deriving DecidableEq, Repr

/-- The `MLData` structure of `alarm_app.h` (without the input line). -/
structure MLData where
  mode : Int
  err : Error
  separate_log_file : Bool
  cmd_thread_tid : Nat
  deriving DecidableEq, Repr

/-- What `cleanup_main` finds: the lengths of the lists to free, the type B
records, and the status that each library call will return. -/
structure CleanupWorld where
  cmda_count : Nat
  cmdc_count : Nat
  cmdb_list : List CmdB
  alarm_count : Nat
  cancel_thread : Nat → Int
  destroy_cmd_mutex : Int
  destroy_new_cmd_insert_mutex : Int
  destroy_new_cmd_insert_cond_var : Int
  destroy_alarm_rw_bin_sem : Int
  destroy_alarm_r_bin_sem : Int
  destroy_alarm_cancel_mutex : Int
  destroy_alarm_cancel_cond_var : Int

/-- The observable actions of `cleanup_main` and `exit_main`. -/
inductive CleanupEvent where
  /-- The call `print_error(err)`, which prints unless `err.val == 0`. -/
  | print_error (val : Int)
  | free_line
  | cancel_thread (id : Nat)
  /-- The nodes of the type A list are freed. -/
  | free_cmda_list (nodes : Nat)
  | free_cmdc_list (nodes : Nat)
  | free_cmdb (msg_type : Nat)
  | free_alarm_list (nodes : Nat)
  | destroy (object : String)
  /-- The call `exit(status)`. -/
  | exit (status : Int)
  deriving DecidableEq, Repr

/-- Function `exit_main` of `cleanup.c` (the log file is flushed and closed
without error): print the error, end the process with `data.err.val`. -/
def exit_main (data : MLData) : List CleanupEvent :=
  [.print_error data.err.val, .exit data.err.val]

/-- The statement `data.err.val = val` followed by `exit_main(data)`. -/
def exit_main_with (data : MLData) (val : Int) : List CleanupEvent :=
  exit_main { data with err := { data.err with val := val } }

/-- The end of `cleanup_main` (`cleanup.c`, lines 186-262): the mutexes,
condition variables and semaphores are destroyed, then `exit_main(data)`. -/
def cleanup_main_destroy (data : MLData) (w : CleanupWorld) : List CleanupEvent :=
  if w.destroy_cmd_mutex ≠ 0 then exit_main_with data MUTEX_DESTROY_ERR
  else .destroy "cmd_mutex" ::
  if w.destroy_new_cmd_insert_mutex ≠ 0 then exit_main_with data MUTEX_DESTROY_ERR
  else .destroy "new_cmd_insert_mutex" ::
  if w.destroy_new_cmd_insert_cond_var ≠ 0 then exit_main_with data COND_VAR_DESTROY_ERR
  else .destroy "new_cmd_insert_cond_var" ::
  if data.mode > ALARM_RW_BIN_SEM_INIT_FAIL ∧ w.destroy_alarm_rw_bin_sem ≠ 0 then
    exit_main_with data SEM_DESTROY_ERR
  else (if data.mode > ALARM_RW_BIN_SEM_INIT_FAIL then [.destroy "alarm_rw_bin_sem"] else []) ++
  if data.mode > ALARM_R_BIN_SEM_INIT_FAIL ∧ w.destroy_alarm_r_bin_sem ≠ 0 then
    exit_main_with data SEM_DESTROY_ERR
  else (if data.mode > ALARM_R_BIN_SEM_INIT_FAIL then [.destroy "alarm_r_bin_sem"] else []) ++
  if w.destroy_alarm_cancel_mutex ≠ 0 then exit_main_with data MUTEX_DESTROY_ERR
  else .destroy "alarm_cancel_mutex" ::
  if w.destroy_alarm_cancel_cond_var ≠ 0 then exit_main_with data COND_VAR_DESTROY_ERR
  else .destroy "alarm_cancel_cond_var" :: exit_main data

/-- The loop of `cleanup_main` over the type B list (`cleanup.c`, lines
134-160), followed by the rest of the routine: the thread of every processed
record is cancelled, every record is freed. -/
def cleanup_main_cmdb (data : MLData) (w : CleanupWorld) : List CmdB → List CleanupEvent
  | [] => .free_alarm_list w.alarm_count :: cleanup_main_destroy data w
  | r :: rest =>
    if r.is_processed ∧ w.cancel_thread (r.id.getD 0) ≠ 0 then
      .cancel_thread (r.id.getD 0) :: exit_main_with data (w.cancel_thread (r.id.getD 0))
    else
      (if r.is_processed then [.cancel_thread (r.id.getD 0)] else []) ++
        .free_cmdb r.msg_type :: cleanup_main_cmdb data w rest

/-- The test of `cleanup_main` "against extreme errors" (`cleanup.c`, lines
61-69). -/
def is_extreme_error (val : Int) : Bool :=
  val = MUTEX_LOCK_ERR || val = MUTEX_UNLOCK_ERR || val = SEM_WAIT_ERR ||
  val = SEM_SIGNAL_ERR || val = THREAD_CANCEL_ERR || val = THREAD_JOIN_ERR ||
  val = THREAD_CANCEL_RETVAL_ERR || val = CANCELLATION_ENABLE_ERR ||
  val = CANCELLATION_DISABLE_ERR

/-- Function `cleanup_main` of `cleanup.c` on the data of the main thread. -/
def cleanup_main (arg : MLData) (w : CleanupWorld) : List CleanupEvent :=
  -- `print_error(data.err);` and the reset of `data.err` (lines 50-52)
  let data : MLData :=
    { arg with err := { filename := "cleanup.c", linenum := 0, val := 0, msg := "" } }
  .print_error arg.err.val :: .free_line ::
  if is_extreme_error data.err.val then exit_main data
  else if data.mode > CMD_THREAD_CREATE_FAIL ∧ w.cancel_thread data.cmd_thread_tid ≠ 0 then
    .cancel_thread data.cmd_thread_tid ::
      exit_main_with data (w.cancel_thread data.cmd_thread_tid)
  else
    (if data.mode > CMD_THREAD_CREATE_FAIL then [.cancel_thread data.cmd_thread_tid] else []) ++
      .free_cmda_list w.cmda_count :: .free_cmdc_list w.cmdc_count ::
        cleanup_main_cmdb data w w.cmdb_list

/-- A world in which every library call succeeds: one pending type A command,
thread 1 for message type 1 and one alarm. -/
def ex_cleanup_world : CleanupWorld :=
  { cmda_count := 1, cmdc_count := 0,
    cmdb_list := [{ msg_type := 1, id := some 1, is_processed := true }],
    alarm_count := 1, cancel_thread := fun _ => 0,
    destroy_cmd_mutex := 0, destroy_new_cmd_insert_mutex := 0,
    destroy_new_cmd_insert_cond_var := 0, destroy_alarm_rw_bin_sem := 0,
    destroy_alarm_r_bin_sem := 0, destroy_alarm_cancel_mutex := 0,
    destroy_alarm_cancel_cond_var := 0 }

/-- The data of the main thread when it ends with the error value `val` after
the command handler thread (id 100) was created. -/
def ex_cleanup_data (val : Int) : MLData :=
  { mode := STD_CLEANUP,
    err := { filename := "alarm_app.c", linenum := 1, val := val, msg := "error" },
    separate_log_file := true, cmd_thread_tid := 100 }

/-! ## The short circuits of the command handler (C25) -/

/-- The three critical sections of `cmd_handler`. -/
inductive Phase where
  | type_A
  | type_B
  | type_C
  deriving DecidableEq, Repr

/-- A critical section that is entered, with the number of commands that are
pending for it at that moment. -/
structure PhaseEntry where
  phase : Phase
  pending : Nat
  deriving DecidableEq, Repr

/-- The critical section that `cmd_handler_section` enters from the state
`st`: the labels and short circuits of lines 158-170, 253-268 and 317-328. -/
def cmd_handler_section_phases (st : State) : List PhaseEntry :=
  match st.pc with
  | .top =>
    if st.cmda_list = [] ∧ st.cmdb_new = [] ∧ st.cmdc_list = [] then []
    else if st.cmda_list = [] then
      if st.cmdb_new = [] then [{ phase := .type_C, pending := st.cmdc_list.length }]
      else [{ phase := .type_B, pending := st.cmdb_new.length }]
    else [{ phase := .type_A, pending := st.cmda_list.length }]
  | .before_B => [{ phase := .type_B, pending := st.cmdb_new.length }]
  | .before_C => [{ phase := .type_C, pending := st.cmdc_list.length }]

/-- The cycle `cmd_handler_cycle` together with the critical sections that it
enters, in order. -/
def cmd_handler_cycle_log (st : State) : Except Fault (State × List PhaseEntry) := do
  let st1 ← cmd_handler_section st
  let log1 := cmd_handler_section_phases st
  if st1.pc = .top then pure (st1, log1)
  else do
    let st2 ← cmd_handler_section st1
    let log2 := log1 ++ cmd_handler_section_phases st1
    if st2.pc = .top then pure (st2, log2)
    else do
      let st3 ← cmd_handler_section st2
      pure (st3, log2 ++ cmd_handler_section_phases st2)

/-- After `1 Message(1, 1) x` and the cycle of the command handler that inserts
alarm 1, of message type 1. -/
def ex_v1 : State := (cmd_handler_section ex_t1).toOption.getD State.init

/-- After `Create_Thread: MessageType(1)`, accepted because alarm 1 has type 1. -/
def ex_v2 : State := main_type_B ex_v1 1 ex_v1.registry

/-- The command `1 Message(2, 1) x`, which gives alarm 1 the message type 2. -/
def ex_c1_type2 : CmdA := { wait_time := 1, msg_type := 2, msg_num := 1, msg := "x" }

/-- After `1 Message(2, 1) x`, submitted before the command handler runs. -/
def ex_v3 : State := main_type_A ex_v2 ex_c1_type2

/-- After the type A section of the cycle: alarm 1 has message type 2. -/
def ex_v4 : State := (cmd_handler_section ex_v3).toOption.getD State.init

/-- After the type B section of the cycle: thread 1 is created for type 1. -/
def ex_v5 : State := (cmd_handler_section ex_v4).toOption.getD State.init

/-- The result of the initial scan of thread 1 in that state. -/
def ex_v_scan : Heap × Worker :=
  (alarm_handler_init ex_v5.heap ex_v5.alarm_list_head 1 1).toOption.getD ([], ex_w0)

/-- After the initial scan of thread 1. -/
def ex_v6 : State :=
  { ex_v5 with heap := ex_v_scan.1,
               workers := ex_v5.workers.map (fun v => if v.tid = ex_w0.tid then ex_v_scan.2 else v) }

/-- After the first iteration of the loop of thread 1, in which it terminates
itself. -/
def ex_v7 : State := { ex_v6 with workers := ex_v6.workers.filter (fun v => v.tid ≠ 1) }

/-- The command `1 Message(1, 2) y`, a new alarm of message type 1. -/
def ex_v8 : State := (cmd_handler_section (main_type_A ex_v7 ex_c2)).toOption.getD State.init

/-! ## The frame of `insert_alarm` (C29) -/

/-- The new alarm of the command `2 Message(1, 6) d`. -/
def ex_alarm_six : Alarm :=
  alarm_of_cmda { wait_time := 2, msg_type := 1, msg_num := 6, msg := "d" }

/-- The registry with the keys 3, 5 and 7, and the new alarm in cell 3. -/
def ex_heap_four : Heap := ex_heap_three ++ [ex_alarm_six]

/-! ## Linked lists in an arena of cells of any type (version 1, type B list) -/

/-- The predicate `Linked after h start ps`: in the arena `h`, following `after`
from `start` visits exactly the cells `ps` and then reaches `NULL`. -/
def Linked {α : Type} (after : α → Option Nat) (h : List α) : Option Nat → List Nat → Prop
  | start, [] => start = none
  | start, q :: qs => start = some q ∧ ∃ a, h[q]? = some a ∧ Linked after h (after a) qs

/-- The cells of a linked list from `start`, following `after`; `none` when the
walk meets an invalid pointer or does not end within the fuel. -/
def follow {α : Type} (after : α → Option Nat) (h : List α) :
    Nat → Option Nat → Option (List Nat)
  | _, none => some []
  | 0, some _ => none
  | fuel + 1, some p =>
    match h[p]? with
    | none => none
    | some a => (follow after h fuel (after a)).map (fun ps => p :: ps)

/-! # Version 1: the sorted alarm list of `version-1/code/alarm_def.c` (C28) -/

namespace V1

/-- The `Alarm` structure of version 1 (`alarm_def.h`, lines 160-189). -/
structure Alarm where
  link : Option Nat
  link_handle : Option Nat
  wait_time : Nat
  msg_type : Nat
  msg : String
  is_assigned : Bool
  deriving DecidableEq, Repr

/-- The arena of version-1 `Alarm` cells. -/
abbrev Heap := List Alarm

/-- Read through a pointer: `*p`. -/
def deref (h : Heap) (p : Option Nat) : Except Fault Alarm :=
  match p with
  | none => .error .null_deref
  | some i =>
    match h[i]? with
    | none => .error .null_deref
    | some a => .ok a

/-- Function `next_alarm`: `node->link`. -/
def next_alarm (node : Alarm) : Option Nat := node.link

/-- Function `next_handled_alarm`: `node->link_handle`. -/
def next_handled_alarm (node : Alarm) : Option Nat := node.link_handle

/-- Function `insert_first_alarm`: `new_alarm->link = *head_ptr; *head_ptr = new_alarm`.
Returns the heap and the new `*head_ptr`. -/
def insert_first_alarm (h : Heap) (head : Option Nat) (new_alarm : Nat) :
    Except Fault (Heap × Option Nat) := do
  let a ← deref h (some new_alarm)
  pure (h.set new_alarm { a with link := head }, some new_alarm)

/-- Function `insert_first_handled_alarm`: the same through `link_handle`. -/
def insert_first_handled_alarm (h : Heap) (head : Option Nat) (new_alarm : Nat) :
    Except Fault (Heap × Option Nat) := do
  let a ← deref h (some new_alarm)
  pure (h.set new_alarm { a with link_handle := head }, some new_alarm)

/-- Function `insert_after_alarm`: `new_alarm->link = node->link; node->link = new_alarm`. -/
def insert_after_alarm (h : Heap) (node new_alarm : Nat) : Except Fault Heap := do
  let n ← deref h (some node)
  let a ← deref h (some new_alarm)
  let h1 := h.set new_alarm { a with link := n.link }
  let n1 ← deref h1 (some node)
  pure (h1.set node { n1 with link := some new_alarm })

/-- Function `insert_after_handled_alarm`: the same through `link_handle`. -/
def insert_after_handled_alarm (h : Heap) (node new_alarm : Nat) : Except Fault Heap := do
  let n ← deref h (some node)
  let a ← deref h (some new_alarm)
  let h1 := h.set new_alarm { a with link_handle := n.link_handle }
  let n1 ← deref h1 (some node)
  pure (h1.set node { n1 with link_handle := some new_alarm })

/-- Function `is_less_alarm` of version 1: `false` for the same cell; else by
`msg_type` first and by `wait_time` when the types are equal. -/
def is_less_alarm (h : Heap) (a b : Nat) : Except Fault Bool := do
  if a = b then pure false
  else
    let x ← deref h (some a)
    let y ← deref h (some b)
    if x.msg_type < y.msg_type then pure true
    else if x.msg_type > y.msg_type then pure false
    else pure (decide (x.wait_time < y.wait_time))

/-- The general case of `insert_alarm`: the `for` loop from `curr_alarm`,
followed by `(*insert_after)(curr_alarm, new_alarm)`. -/
def insert_alarm_loop (after : Alarm → Option Nat)
    (insert_after : Heap → Nat → Nat → Except Fault Heap) (new_alarm : Nat) :
    Nat → Heap → Nat → Except Fault Heap
  | 0, _, _ => .error .out_of_fuel
  | fuel + 1, h, curr_alarm => do
    let c ← deref h (some curr_alarm)
    match after c with
    | none => insert_after h curr_alarm new_alarm
    | some next => do
      let lt ← is_less_alarm h new_alarm next
      if lt then insert_after h curr_alarm new_alarm
      else insert_alarm_loop after insert_after new_alarm fuel h next

/-- Function `insert_alarm` of version 1 (`alarm_def.c`, lines 208-278).
Returns the heap and the new `*head_ptr`. -/
def insert_alarm (h : Heap) (head : Option Nat) (new_alarm : Nat)
    (after : Alarm → Option Nat)
    (insert_first : Heap → Option Nat → Nat → Except Fault (Heap × Option Nat))
    (insert_after : Heap → Nat → Nat → Except Fault Heap) : Except Fault (Heap × Option Nat) :=
  match head with
  | none => pure (h, some new_alarm)
  | some hd => do
    let lt ← is_less_alarm h new_alarm hd
    if lt then insert_first h head new_alarm
    else
      let h1 ← insert_alarm_loop after insert_after new_alarm h.length h hd
      pure (h1, head)

/-! ## Vocabulary for version 1 -/

/-- The comparison `*x < *y` of `is_less_alarm` for two distinct cells. -/
def precedes (x y : Alarm) : Bool :=
  decide (x.msg_type < y.msg_type ∨ (x.msg_type = y.msg_type ∧ x.wait_time < y.wait_time))

/-- The order "by `msg_type`, then by `wait_time`": `x` may stand before `y`. -/
def in_order (x y : Alarm) : Bool :=
  decide (x.msg_type < y.msg_type ∨ (x.msg_type = y.msg_type ∧ x.wait_time ≤ y.wait_time))

/-- The comparison of the cells at two addresses (`false` for an invalid
address). -/
def less_at (h : Heap) (p q : Nat) : Bool :=
  match h[p]?, h[q]? with
  | some x, some y => precedes x y
  | _, _ => false

/-- Insertion of the address `n` in front of the first address whose cell is
greater than the cell of `n`. -/
def ins (h : Heap) (n : Nat) : List Nat → List Nat
  | [] => [n]
  | q :: qs => if less_at h n q then n :: q :: qs else q :: ins h n qs

/-- The alarms at the given addresses, in that order. -/
def cells (h : Heap) (ps : List Nat) : List Alarm := ps.filterMap (fun p => h[p]?)

/-- A list of alarms is sorted by `msg_type`, then by `wait_time`. -/
def Sorted (l : List Alarm) : Prop := l.Pairwise (fun x y => in_order x y = true)

/-- One of the two link fields of an alarm together with the list primitives
that `insert_alarm` receives for it. -/
structure LinkField where
  after : Alarm → Option Nat
  upd : Alarm → Option Nat → Alarm
  insert_first : Heap → Option Nat → Nat → Except Fault (Heap × Option Nat)
  insert_after : Heap → Nat → Nat → Except Fault Heap
  after_upd : ∀ a v, after (upd a v) = v
  type_upd : ∀ a v, (upd a v).msg_type = a.msg_type
  wait_upd : ∀ a v, (upd a v).wait_time = a.wait_time
  upd_after : ∀ a, upd a (after a) = a
  first_eq : ∀ h head n, insert_first h head n =
    (deref h (some n)).bind (fun a => .ok (h.set n (upd a head), some n))
  after_eq : ∀ h node n, insert_after h node n =
    (deref h (some node)).bind (fun x => (deref h (some n)).bind (fun a =>
      (deref (h.set n (upd a (after x))) (some node)).bind (fun x1 =>
        .ok ((h.set n (upd a (after x))).set node (upd x1 (some n))))))

/-- The global list: `link`, `insert_first_alarm`, `insert_after_alarm`. -/
def globalField : LinkField where
  after := next_alarm
  upd := fun a v => { a with link := v }
  insert_first := insert_first_alarm
  insert_after := insert_after_alarm
  after_upd := fun _ _ => rfl
  type_upd := fun _ _ => rfl
  wait_upd := fun _ _ => rfl
  upd_after := fun _ => rfl
  first_eq := fun _ _ _ => rfl
  after_eq := fun _ _ _ => rfl

/-- A local list: `link_handle`, `insert_first_handled_alarm`,
`insert_after_handled_alarm`. -/
def handledField : LinkField where
  after := next_handled_alarm
  upd := fun a v => { a with link_handle := v }
  insert_first := insert_first_handled_alarm
  insert_after := insert_after_handled_alarm
  after_upd := fun _ _ => rfl
  type_upd := fun _ _ => rfl
  wait_upd := fun _ _ => rfl
  upd_after := fun _ => rfl
  first_eq := fun _ _ _ => rfl
  after_eq := fun _ _ _ => rfl

/-- The heap `h'` differs from `h` at most in the `F` field of the cells in `ps`. -/
structure FieldFrame (F : LinkField) (ps : List Nat) (h h' : Heap) : Prop where
  length_eq : h'.length = h.length
  upd_of : ∀ (p : Nat) (a : Alarm), h[p]? = some a → ∃ v : Option Nat, h'[p]? = some (F.upd a v)
  same_of : ∀ p : Nat, p ∉ ps → h'[p]? = h[p]?

/-- A version-1 list with the types and wait times (1, 5), (1, 7), (2, 3) in
the cells 0, 1, 2, and a new alarm (1, 7) in cell 3. -/
def ex_heap : Heap :=
  [ { link := some 1, link_handle := none, wait_time := 5, msg_type := 1, msg := "a",
      is_assigned := false },
    { link := some 2, link_handle := none, wait_time := 7, msg_type := 1, msg := "b",
      is_assigned := false },
    { link := none, link_handle := none, wait_time := 3, msg_type := 2, msg := "c",
      is_assigned := false },
    { link := none, link_handle := none, wait_time := 7, msg_type := 1, msg := "new",
      is_assigned := false } ]

end V1

/-! # The type B list with its pointers (C30) -/

/-- The `CmdB` structure of `alarm_def.h` as a node of the list: the record and
its `link`.  An `id` that `pthread_create` has not written yet is `none`. -/
structure CmdBNode where
  link : Option Nat
  msg_type : Nat
  id : Option Nat
  is_processed : Bool
  deriving DecidableEq, Repr

/-- The record that a node carries. -/
def CmdBNode.record (x : CmdBNode) : CmdB :=
  { msg_type := x.msg_type, id := x.id, is_processed := x.is_processed }

/-- The type B list: the arena of its nodes, the three global pointers and the
id that the next call of `pthread_create` will return. -/
structure CmdBList where
  heap : List CmdBNode
  cmdb_list_head : Option Nat
  cmdb_list_tail : Option Nat
  cmdb_list_new_elm : Option Nat
  next_tid : Nat
  deriving DecidableEq, Repr

/-- The empty type B list at the start of `main`. -/
def CmdBList.init : CmdBList :=
  { heap := [], cmdb_list_head := none, cmdb_list_tail := none, cmdb_list_new_elm := none,
    next_tid := 1 }

/-- The node that `main` allocates and initialises for a new type B command
(`alarm_app.c`, lines 783-796). -/
def CmdBNode.fresh (msg_type : Nat) : CmdBNode :=
  { link := none, msg_type := msg_type, id := none, is_processed := false }

/-- The records of the nodes at the given addresses. -/
def CmdBList.records (s : CmdBList) (ps : List Nat) : List CmdB :=
  ps.filterMap (fun p => (s.heap[p]?).map CmdBNode.record)

/-- The nodes of the list from `cmdb_list_head`, in order. -/
def CmdBList.nodes (s : CmdBList) : Option (List Nat) :=
  follow CmdBNode.link s.heap s.heap.length s.cmdb_list_head

/-- After `Cancel: Message(1)` is submitted while thread 1 handles the alarms 1
and 2. -/
def ex_k1 : State := main_type_C ex_t6 1 ex_t6.registry

/-- After the section of the command handler that cancels alarm 1: its cell
carries `is_cancelled`. -/
def ex_k2 : State := (cmd_handler_section ex_k1).toOption.getD State.init

/-- After `4 Message(1, 2) z`, which will replace alarm 2, the one alarm that
thread 1 still handles. -/
def ex_k3 : State := main_type_A ex_k2 ex_c2_new

/-- After the section of the command handler that replaces alarm 2. -/
def ex_k4 : State := (cmd_handler_section ex_k3).toOption.getD State.init

/-! ## A cycle with an initial scan between two of its sections (C25) -/

theorem deref_some_eq {h : Heap} {p : Nat} {a : Alarm} (hp : h[p]? = some a) :
    deref h (some p) = .ok a := by
  simp [deref, hp]

theorem deref_eq_ok {h : Heap} {p : Option Nat} {a : Alarm} (hd : deref h p = .ok a) :
    ∃ i, p = some i ∧ h[i]? = some a := by
  cases p with
  | none => simp [deref] at hd
  | some i =>
    refine ⟨i, rfl, ?_⟩
    cases hi : h[i]? with
    | none => simp [deref, hi] at hd
    | some b => simp [deref, hi] at hd; simp [hd]

theorem Chain.valid {after : Alarm → Option Nat} {h : Heap} :
    ∀ {ps : List Nat} {start : Option Nat}, Chain after h start ps →
      ∀ p ∈ ps, ∃ a, h[p]? = some a
  | [], _, _, p, hp => by simp at hp
  | q :: qs, _, hc, p, hp => by
    obtain ⟨_, a, ha, hrest⟩ := hc
    rcases List.mem_cons.1 hp with rfl | hp
    · exact ⟨a, ha⟩
    · exact Chain.valid hrest p hp

theorem Chain.lt_length {after : Alarm → Option Nat} {h : Heap} {ps : List Nat}
    {start : Option Nat} (hc : Chain after h start ps) : ∀ p ∈ ps, p < h.length := by
  intro p hp
  obtain ⟨a, ha⟩ := hc.valid p hp
  by_contra hlt
  have : h[p]? = none := List.getElem?_eq_none (Nat.le_of_not_lt hlt)
  simp [this] at ha

/-- A duplicate-free chain is no longer than the arena. -/
theorem Chain.length_le {after : Alarm → Option Nat} {h : Heap} {ps : List Nat}
    {start : Option Nat} (hc : Chain after h start ps) (hnd : ps.Nodup) :
    ps.length ≤ h.length := by
  have hsub : ps ⊆ List.range h.length := by
    intro p hp
    exact List.mem_range.2 (hc.lt_length p hp)
  have := (List.subperm_of_subset hnd hsub).length_le
  simpa using this

/-- A chain only depends on the cells it visits and on their `after` field. -/
theorem Chain.frame {after : Alarm → Option Nat} {h h' : Heap} :
    ∀ {ps : List Nat} {start : Option Nat}, Chain after h start ps →
      (∀ p ∈ ps, ∀ a, h[p]? = some a → ∃ a', h'[p]? = some a' ∧ after a' = after a) →
      Chain after h' start ps
  | [], _, hc, _ => hc
  | q :: qs, _, hc, hf => by
    obtain ⟨hs, a, ha, hrest⟩ := hc
    obtain ⟨a', ha', haft⟩ := hf q (List.mem_cons_self _ _) a ha
    refine ⟨hs, a', ha', ?_⟩
    rw [haft]
    exact Chain.frame hrest (fun p hp => hf p (List.mem_cons_of_mem _ hp))

theorem Chain.walk_eq {after : Alarm → Option Nat} {h : Heap} :
    ∀ {ps : List Nat} {start : Option Nat} (fuel : Nat), Chain after h start ps →
      ps.length ≤ fuel → walk after h fuel start = some ps
  | [], _, fuel, hc, _ => by
    cases hc
    cases fuel <;> simp [walk]
  | q :: qs, _, 0, _, hl => by simp at hl
  | q :: qs, _, fuel + 1, hc, hl => by
    obtain ⟨hs, a, ha, hrest⟩ := hc
    subst hs
    have := Chain.walk_eq fuel hrest (by simpa using hl)
    simp [walk, ha, this]

theorem Chain.of_walk {after : Alarm → Option Nat} {h : Heap} :
    ∀ (fuel : Nat) {start : Option Nat} {ps : List Nat},
      walk after h fuel start = some ps → Chain after h start ps
  | 0, none, ps, hw => by
    simp [walk] at hw; subst hw; rfl
  | 0, some p, ps, hw => by simp [walk] at hw
  | fuel + 1, none, ps, hw => by
    simp [walk] at hw; subst hw; rfl
  | fuel + 1, some p, ps, hw => by
    cases hp : h[p]? with
    | none => simp [walk, hp] at hw
    | some a =>
      simp [walk, hp] at hw
      obtain ⟨qs, hq, rfl⟩ := hw
      exact ⟨rfl, a, hp, Chain.of_walk fuel hq⟩

/-- Chains are determined by their start. -/
theorem Chain.unique {after : Alarm → Option Nat} {h : Heap} :
    ∀ {ps qs : List Nat} {start : Option Nat}, Chain after h start ps →
      Chain after h start qs → ps = qs
  | [], [], _, _, _ => rfl
  | [], q :: qs, _, h1, h2 => by
    cases h1; obtain ⟨hs, _⟩ := h2; cases hs
  | p :: ps, [], _, h1, h2 => by
    cases h2; obtain ⟨hs, _⟩ := h1; cases hs
  | p :: ps, q :: qs, _, h1, h2 => by
    obtain ⟨hs1, a, ha, hr1⟩ := h1
    obtain ⟨hs2, b, hb, hr2⟩ := h2
    subst hs1
    cases hs2
    rw [ha] at hb; cases hb
    rw [Chain.unique hr1 hr2]

/-! ## Insertion without a key match -/

theorem FieldFrame.key_eq {F : LinkField} {ps : List Nat} {h h' : Heap}
    (hf : FieldFrame F ps h h') (p : Nat) : key h' p = key h p := by
  unfold key
  cases hp : h[p]? with
  | none =>
    have hlen : h.length ≤ p := by
      by_contra hlt
      have := List.getElem?_eq_getElem (Nat.lt_of_not_le hlt)
      simp [this] at hp
    have : h'[p]? = none := List.getElem?_eq_none (by rw [hf.length_eq]; exact hlen)
    simp [this]
  | some a =>
    obtain ⟨v, hv⟩ := hf.upd_of p a hp
    simp [hv, F.key_upd]

theorem ins_congr {h h' : Heap} (hk : ∀ p, key h' p = key h p) (n : Nat) :
    ∀ ps, ins h' n ps = ins h n ps
  | [] => rfl
  | q :: qs => by simp [ins, hk, ins_congr hk n qs]

theorem insert_after_ok (F : LinkField) {h : Heap} {node n : Nat} {x a : Alarm}
    (hx : h[node]? = some x) (ha : h[n]? = some a) (hne : node ≠ n) :
    F.insert_after h node n =
      .ok ((h.set n (F.upd a (F.after x))).set node (F.upd x (some n))) := by
  have h1 : (h.set n (F.upd a (F.after x)))[node]? = some x := by
    rw [List.getElem?_set_ne (Ne.symm hne)]; exact hx
  rw [F.after_eq, deref_some_eq hx, deref_some_eq ha]
  simp only [Except.bind]
  rw [deref_some_eq h1]

theorem getElem?_set_of_some {h : Heap} {p : Nat} {a b : Alarm} (hp : h[p]? = some a) :
    (h.set p b)[p]? = some b := by
  have hlt : p < h.length := by
    by_contra hlt
    have : h[p]? = none := List.getElem?_eq_none (Nat.le_of_not_lt hlt)
    simp [this] at hp
  simp [List.getElem?_set_self hlt]

/-- The effect of `insert_after` on the cells. -/
theorem insert_after_frame (F : LinkField) {h : Heap} {node n : Nat} {x a : Alarm}
    (hx : h[node]? = some x) (ha : h[n]? = some a) (hne : node ≠ n) :
    FieldFrame F [n, node] h ((h.set n (F.upd a (F.after x))).set node (F.upd x (some n))) := by
  refine ⟨by simp, ?_, ?_⟩
  · intro p b hb
    show ∃ v : Option Nat, _
    by_cases hpn : p = node
    · subst hpn
      rw [hx] at hb; cases hb
      exact ⟨some n, getElem?_set_of_some (by rw [List.getElem?_set_ne (Ne.symm hne)]; exact hx)⟩
    · rw [List.getElem?_set_ne (Ne.symm hpn)]
      by_cases hpm : p = n
      · subst hpm
        rw [ha] at hb; cases hb
        exact ⟨F.after x, getElem?_set_of_some ha⟩
      · rw [List.getElem?_set_ne (Ne.symm hpm)]
        exact ⟨F.after b, by rw [F.upd_after]; exact hb⟩
  · intro p hp
    simp at hp
    rw [List.getElem?_set_ne (Ne.symm hp.2), List.getElem?_set_ne (Ne.symm hp.1)]

theorem FieldFrame.mono {F : LinkField} {ps qs : List Nat} {h h' : Heap}
    (hf : FieldFrame F ps h h') (hsub : ps ⊆ qs) : FieldFrame F qs h h' :=
  ⟨hf.length_eq, hf.upd_of, fun p hp => hf.same_of p (fun hmem => hp (hsub hmem))⟩

theorem key_of_some {h : Heap} {p : Nat} {a : Alarm} (hp : h[p]? = some a) :
    key h p = a.msg_num := by
  simp [key, hp]

theorem is_equal_alarm_ok {h : Heap} {n q : Nat} {a b : Alarm} (hne : n ≠ q)
    (ha : h[n]? = some a) (hb : h[q]? = some b) :
    is_equal_alarm h n q = .ok (decide (key h n = key h q)) := by
  simp [is_equal_alarm, hne, deref_some_eq ha, deref_some_eq hb, key_of_some ha, key_of_some hb,
    bind, Except.bind, pure, Except.pure]

theorem is_less_alarm_ok {h : Heap} {n q : Nat} {a b : Alarm} (hne : n ≠ q)
    (ha : h[n]? = some a) (hb : h[q]? = some b) :
    is_less_alarm h n q = .ok (decide (key h n < key h q)) := by
  simp [is_less_alarm, hne, deref_some_eq ha, deref_some_eq hb, key_of_some ha, key_of_some hb,
    bind, Except.bind, pure, Except.pure]

/-- The loop of `insert_alarm` when no key comparison reports equality: the new
cell is spliced in front of the first cell with a larger key. -/
theorem insert_alarm_loop_ins (F : LinkField) (g : Bool) (head : Option Nat) (n : Nat)
    (a : Alarm) :
    ∀ (xs : List Nat) (fuel : Nat) (h : Heap) (c : Nat),
      xs.length < fuel → Chain F.after h (some c) (c :: xs) → (c :: xs).Nodup →
      n ∉ c :: xs → h[n]? = some a → (g = true → ∀ q ∈ xs, key h q ≠ key h n) →
      ∃ h', insert_alarm_loop F.after F.insert_after g head n fuel h c
              = .ok { heap := h', head := head, result := none, wait_on := none } ∧
        Chain F.after h' (some c) (c :: ins h n xs) ∧ FieldFrame F (n :: c :: xs) h h'
  | [], 0, _, _, hl, _, _, _, _, _ => by simp at hl
  | [], fuel + 1, h, c, _, hc, _, hn, ha, _ => by
    obtain ⟨_, ac, hac, hrest⟩ := hc
    have haft : F.after ac = none := hrest
    have hcn : c ≠ n := fun e => hn (by simp [e])
    refine ⟨(h.set n (F.upd a (F.after ac))).set c (F.upd ac (some n)), ?_, ?_, ?_⟩
    · simp [insert_alarm_loop, deref_some_eq hac, haft, insert_after_ok F hac ha hcn,
        bind, Except.bind, pure, Except.pure]
    · refine ⟨rfl, F.upd ac (some n), ?_, ?_⟩
      · exact getElem?_set_of_some (by rw [List.getElem?_set_ne (Ne.symm hcn)]; exact hac)
      · rw [F.after_upd]
        refine ⟨rfl, F.upd a (F.after ac), ?_, ?_⟩
        · rw [List.getElem?_set_ne hcn]; exact getElem?_set_of_some ha
        · rw [F.after_upd, haft]; rfl
    · exact (insert_after_frame F hac ha hcn).mono (by simp)
  | q :: qs, 0, _, _, hl, _, _, _, _, _ => by simp at hl
  | q :: qs, fuel + 1, h, c, hl, hc, hnd, hn, ha, hg => by
    obtain ⟨_, ac, hac, hrest⟩ := hc
    have hq : Chain F.after h (some q) (q :: qs) := by
      obtain ⟨hs, r⟩ := hrest
      exact ⟨rfl, r⟩
    have haft : F.after ac = some q := hrest.1
    obtain ⟨_, aq, haq, _⟩ := hq
    have hcn : c ≠ n := fun e => hn (by simp [e])
    have hnq : n ≠ q := fun e => hn (by simp [e])
    have heq : g = true → is_equal_alarm h n q = .ok false := by
      intro hgt
      have := hg hgt q (by simp)
      simp [is_equal_alarm_ok hnq ha haq, Ne.symm this]
    by_cases hlt : key h n < key h q
    · refine ⟨(h.set n (F.upd a (F.after ac))).set c (F.upd ac (some n)), ?_, ?_, ?_⟩
      · cases g
        · simp [insert_alarm_loop, deref_some_eq hac, haft, is_less_alarm_ok hnq ha haq,
            hlt, insert_after_ok F hac ha hcn, bind, Except.bind, pure, Except.pure]
        · simp [insert_alarm_loop, deref_some_eq hac, haft, heq rfl, is_less_alarm_ok hnq ha haq,
            hlt, insert_after_ok F hac ha hcn, bind, Except.bind, pure, Except.pure]
      · have hfr := insert_after_frame F hac ha hcn
        rw [haft] at hfr
        simp only [ins, hlt, if_true]
        refine ⟨rfl, F.upd ac (some n), ?_, ?_⟩
        · exact getElem?_set_of_some (by rw [List.getElem?_set_ne (Ne.symm hcn)]; exact hac)
        · rw [F.after_upd]
          refine ⟨rfl, F.upd a (F.after ac), ?_, ?_⟩
          · rw [List.getElem?_set_ne hcn]; exact getElem?_set_of_some ha
          · rw [F.after_upd, haft]
            refine Chain.frame (h := h) ⟨rfl, aq, haq, by assumption⟩ ?_
            intro p hp b hb
            refine ⟨b, ?_, rfl⟩
            rw [hfr.same_of p ?_]; exact hb
            intro hmem
            simp at hmem
            rcases hmem with rfl | rfl
            · exact hn (List.mem_cons_of_mem _ hp)
            · exact (List.nodup_cons.1 hnd).1 hp
      · exact (insert_after_frame F hac ha hcn).mono (by
          intro p hp; simp at hp; rcases hp with rfl | rfl <;> simp)
    · obtain ⟨h', hrun, hch, hfr⟩ := insert_alarm_loop_ins F g head n a qs fuel h q
        (by simpa using hl) ⟨rfl, aq, haq, by assumption⟩ (List.nodup_cons.1 hnd).2
        (fun hmem => hn (List.mem_cons_of_mem _ hmem)) ha
        (fun hgt r hr => hg hgt r (List.mem_cons_of_mem _ hr))
      refine ⟨h', ?_, ?_, ?_⟩
      · cases g
        · simp [insert_alarm_loop, deref_some_eq hac, haft, is_less_alarm_ok hnq ha haq,
            hlt, hrun, bind, Except.bind, pure, Except.pure]
        · simp [insert_alarm_loop, deref_some_eq hac, haft, heq rfl, is_less_alarm_ok hnq ha haq,
            hlt, hrun, bind, Except.bind, pure, Except.pure]
      · simp only [ins, hlt, if_false]
        refine ⟨rfl, ac, ?_, ?_⟩
        · rw [hfr.same_of c ?_]; exact hac
          intro hmem
          rcases List.mem_cons.1 hmem with e | hmem
          · exact hcn e
          · exact (List.nodup_cons.1 hnd).1 hmem
        · rw [haft]; exact hch
      · exact hfr.mono (by
          intro p hp
          rcases List.mem_cons.1 hp with rfl | hp
          · simp
          · exact List.mem_cons_of_mem _ (List.mem_cons_of_mem _ hp))

theorem FieldFrame.refl (F : LinkField) (ps : List Nat) (h : Heap) : FieldFrame F ps h h :=
  ⟨rfl, fun p a hp => ⟨F.after a, by rw [F.upd_after]; exact hp⟩, fun _ _ => rfl⟩

/-- Function `insert_alarm` when no key comparison reports equality: ordered insertion. -/
theorem insert_alarm_ins (F : LinkField) (g : Bool) {h : Heap} {head : Option Nat}
    {xs : List Nat} {n : Nat} {a : Alarm}
    (hc : Chain F.after h head xs) (hnd : xs.Nodup) (hn : n ∉ xs) (ha : h[n]? = some a)
    (hnull : F.after a = none) (hg : g = true → ∀ q ∈ xs, key h q ≠ key h n) :
    ∃ h' head', insert_alarm h head n F.after F.insert_first F.insert_after g
        = .ok { heap := h', head := head', result := none, wait_on := none } ∧
      Chain F.after h' head' (ins h n xs) ∧ FieldFrame F (n :: xs) h h' := by
  cases xs with
  | nil =>
    cases hc
    refine ⟨h, some n, ?_, ?_, FieldFrame.refl F _ h⟩
    · simp [insert_alarm, pure, Except.pure]
    · exact ⟨rfl, a, ha, hnull⟩
  | cons c xs =>
    obtain ⟨hs, ac, hac, hrest⟩ := hc
    subst hs
    have hnc : n ≠ c := fun e => hn (by simp [e])
    have heq : g = true → is_equal_alarm h n c = .ok false := by
      intro hgt
      have := hg hgt c (by simp)
      simp [is_equal_alarm_ok hnc ha hac, Ne.symm this]
    by_cases hlt : key h n < key h c
    · refine ⟨h.set n (F.upd a (some c)), some n, ?_, ?_, ?_⟩
      · cases g
        · simp [insert_alarm, is_less_alarm_ok hnc ha hac, hlt, F.first_eq, deref_some_eq ha,
            bind, Except.bind, pure, Except.pure]
        · simp [insert_alarm, heq rfl, is_less_alarm_ok hnc ha hac, hlt, F.first_eq,
            deref_some_eq ha, bind, Except.bind, pure, Except.pure]
      · simp only [ins, hlt, if_true]
        refine ⟨rfl, F.upd a (some c), getElem?_set_of_some ha, ?_⟩
        rw [F.after_upd]
        refine Chain.frame (h := h) ⟨rfl, ac, hac, hrest⟩ ?_
        intro p hp b hb
        refine ⟨b, ?_, rfl⟩
        rw [List.getElem?_set_ne]; exact hb
        intro e; subst e; exact hn hp
      · refine ⟨by simp, ?_, ?_⟩
        · intro p b hb
          by_cases hpn : p = n
          · subst hpn
            rw [ha] at hb; cases hb
            exact ⟨some c, getElem?_set_of_some ha⟩
          · exact ⟨F.after b, by rw [List.getElem?_set_ne (Ne.symm hpn), F.upd_after]; exact hb⟩
        · intro p hp
          rw [List.getElem?_set_ne]
          intro e; subst e; exact hp (by simp)
    · have hcc : Chain F.after h (some c) (c :: xs) := ⟨rfl, ac, hac, hrest⟩
      have hlen := hcc.length_le hnd
      obtain ⟨h', hrun, hch, hfr⟩ := insert_alarm_loop_ins F g (some c) n a xs h.length h c
        (by simpa using hlen) ⟨rfl, ac, hac, hrest⟩ hnd hn ha
        (fun hgt r hr => hg hgt r (List.mem_cons_of_mem _ hr))
      refine ⟨h', some c, ?_, ?_, hfr⟩
      · cases g
        · simp [insert_alarm, is_less_alarm_ok hnc ha hac, hlt, hrun,
            bind, Except.bind, pure, Except.pure]
        · simp [insert_alarm, heq rfl, is_less_alarm_ok hnc ha hac, hlt, hrun,
            bind, Except.bind, pure, Except.pure]
      · simp only [ins, hlt, if_false]
        exact hch

theorem KeysAscending.nodup {h : Heap} {ps : List Nat} (hs : KeysAscending h ps) :
    ps.Nodup := by
  have h1 : (ps.map (key h)).Nodup := List.Pairwise.imp (fun hlt => Nat.ne_of_lt hlt) hs
  exact List.Nodup.of_map _ h1

theorem KeysAscending.congr {h h' : Heap} {ps : List Nat}
    (hk : ∀ p ∈ ps, key h' p = key h p) (hs : KeysAscending h ps) : KeysAscending h' ps := by
  unfold KeysAscending at *
  have : ps.map (key h') = ps.map (key h) := List.map_congr_left hk
  rw [this]; exact hs

theorem mem_ins {h : Heap} {n : Nat} : ∀ (ps : List Nat) {p : Nat},
    p ∈ ins h n ps ↔ p = n ∨ p ∈ ps
  | [], p => by simp [ins]
  | q :: qs, p => by
    by_cases hlt : key h n < key h q
    · simp [ins, hlt]
    · simp only [ins, hlt, if_false, List.mem_cons, mem_ins qs]
      tauto

/-- Ordered insertion of a fresh key keeps the keys strictly ascending. -/
theorem ins_ascending {h : Heap} {n : Nat} : ∀ {ps : List Nat},
    KeysAscending h ps → (∀ q ∈ ps, key h q ≠ key h n) → KeysAscending h (ins h n ps)
  | [], _, _ => by simp [ins, KeysAscending]
  | q :: qs, hs, hne => by
    have hs' : KeysAscending h qs := (List.pairwise_cons.1 hs).2
    have hq : ∀ k ∈ qs.map (key h), key h q < k := (List.pairwise_cons.1 hs).1
    by_cases hlt : key h n < key h q
    · simp only [ins, hlt, if_true]
      refine List.pairwise_cons.2 ⟨?_, hs⟩
      intro k hk
      rcases List.mem_map.1 hk with ⟨r, hr, rfl⟩
      rcases List.mem_cons.1 hr with rfl | hr
      · exact hlt
      · exact Nat.lt_trans hlt (hq _ (List.mem_map_of_mem _ hr))
    · simp only [ins, hlt, if_false]
      have ih := ins_ascending hs' (fun r hr => hne r (List.mem_cons_of_mem _ hr))
      refine List.pairwise_cons.2 ⟨?_, ih⟩
      intro k hk
      rcases List.mem_map.1 hk with ⟨r, hr, rfl⟩
      rcases (mem_ins _).1 hr with rfl | hr
      · have := hne q (List.mem_cons_self _ _)
        omega
      · exact hq _ (List.mem_map_of_mem _ hr)

theorem sublist_ins (h : Heap) (n : Nat) : ∀ ps : List Nat, List.Sublist ps (ins h n ps)
  | [] => by simp
  | q :: qs => by
    by_cases hlt : key h n < key h q
    · simp [ins, hlt]
    · simp only [ins, hlt, if_false]
      exact (sublist_ins h n qs).cons₂ q

theorem length_ins (h : Heap) (n : Nat) : ∀ ps : List Nat, (ins h n ps).length = ps.length + 1
  | [] => rfl
  | q :: qs => by
    by_cases hlt : key h n < key h q
    · simp [ins, hlt]
    · simp [ins, hlt, length_ins h n qs]

/-! ## Insertion with a key match: replacement -/

theorem replace_alarm_ok {h : Heap} {e n : Nat} {ae a : Alarm}
    (he : h[e]? = some ae) (hn : h[n]? = some a) :
    replace_alarm h e n = .ok (h.set e (replaced_cell ae a), replaced_result ae) := by
  simp only [replace_alarm, deref_some_eq he, deref_some_eq hn, bind, Except.bind, pure,
    Except.pure, replaced_cell, replaced_result]
  cases ae.is_assigned <;> simp

theorem insert_alarm_replaced_ok {h : Heap} {head : Option Nat} {e n : Nat} {ae a : Alarm}
    (he : h[e]? = some ae) (hn : h[n]? = some a) :
    insert_alarm_replaced h head e n =
      .ok { heap := h.set e (replaced_cell ae a), head := head, result := replaced_result ae,
            wait_on := if (replaced_cell ae a).is_replaced then some e else none } := by
  have h1 : (h.set e (replaced_cell ae a))[e]? = some (replaced_cell ae a) :=
    getElem?_set_of_some he
  simp only [insert_alarm_replaced, replace_alarm_ok he hn, bind, Except.bind, deref_some_eq h1,
    pure, Except.pure]
  cases (replaced_cell ae a).is_replaced <;> simp

/-- The loop of `insert_alarm` on the global list reaches the cell with the
key of the new alarm and replaces it. -/
theorem insert_alarm_loop_replace (head : Option Nat) (n e : Nat) (a : Alarm) :
    ∀ (xs : List Nat) (fuel : Nat) (h : Heap) (c : Nat),
      xs.length < fuel → Chain next_alarm h (some c) (c :: xs) → KeysAscending h (c :: xs) →
      n ∉ c :: xs → h[n]? = some a → e ∈ xs → key h e = key h n →
      insert_alarm_loop next_alarm insert_after_alarm true head n fuel h c
        = insert_alarm_replaced h head e n
  | [], _, _, _, _, _, _, _, _, he, _ => by simp at he
  | q :: qs, 0, _, _, hl, _, _, _, _, _, _ => by simp at hl
  | q :: qs, fuel + 1, h, c, hl, hc, hs, hn, ha, he, hk => by
    obtain ⟨_, ac, hac, hrest⟩ := hc
    have haft : next_alarm ac = some q := hrest.1
    obtain ⟨_, aq, haq, hq⟩ := hrest
    have hnq : n ≠ q := fun e => hn (by simp [e])
    have hs' : KeysAscending h (q :: qs) := (List.pairwise_cons.1 hs).2
    by_cases hqe : q = e
    · subst hqe
      simp [insert_alarm_loop, deref_some_eq hac, haft, is_equal_alarm_ok hnq ha haq, hk,
        bind, Except.bind]
    · have heqs : e ∈ qs := by
        rcases List.mem_cons.1 he with h1 | h1
        · exact absurd h1.symm hqe
        · exact h1
      have hlt : key h q < key h e :=
        (List.pairwise_cons.1 hs').1 _ (List.mem_map_of_mem _ heqs)
      have hne : ¬ key h n = key h q := by omega
      have hnl : ¬ key h n < key h q := by omega
      have ih := insert_alarm_loop_replace head n e a qs fuel h q (by simpa using hl)
        ⟨rfl, aq, haq, hq⟩ hs' (fun hm => hn (List.mem_cons_of_mem _ hm)) ha heqs hk
      simp [insert_alarm_loop, deref_some_eq hac, haft, is_equal_alarm_ok hnq ha haq, hne,
        is_less_alarm_ok hnq ha haq, hnl, ih, bind, Except.bind]

/-- Function `insert_alarm` on the global list, when a listed cell `e` has the
key of the new alarm: the call is the replacement of `e`. -/
theorem insert_alarm_replace {h : Heap} {head : Option Nat} {xs : List Nat} {n e : Nat}
    {a : Alarm} (hc : Chain next_alarm h head xs) (hs : KeysAscending h xs) (hn : n ∉ xs)
    (ha : h[n]? = some a) (he : e ∈ xs) (hk : key h e = key h n) :
    insert_alarm h head n next_alarm insert_first_alarm insert_after_alarm true
      = insert_alarm_replaced h head e n := by
  cases xs with
  | nil => simp at he
  | cons c xs =>
    have hcc := hc
    obtain ⟨hs0, ac, hac, hrest⟩ := hc
    subst hs0
    have hnc : n ≠ c := fun e => hn (by simp [e])
    by_cases hce : c = e
    · subst hce
      simp [insert_alarm, is_equal_alarm_ok hnc ha hac, hk, bind, Except.bind]
    · have hexs : e ∈ xs := by
        rcases List.mem_cons.1 he with h1 | h1
        · exact absurd h1.symm hce
        · exact h1
      have hlt : key h c < key h e :=
        (List.pairwise_cons.1 hs).1 _ (List.mem_map_of_mem _ hexs)
      have hne : ¬ key h n = key h c := by omega
      have hnl : ¬ key h n < key h c := by omega
      have hlen := hcc.length_le hs.nodup
      have := insert_alarm_loop_replace (some c) n e a xs h.length h c (by simpa using hlen)
        hcc hs hn ha hexs hk
      simp [insert_alarm, is_equal_alarm_ok hnc ha hac, hne, is_less_alarm_ok hnc ha hac, hnl,
        this, bind, Except.bind]

/-! ## The allocation and insertion of one alarm by the command handler -/

theorem getElem?_append_old {h : Heap} {a b : Alarm} {p : Nat} (hp : h[p]? = some b) :
    (h ++ [a])[p]? = some b := by
  have hlt : p < h.length := by
    by_contra hlt
    have : h[p]? = none := List.getElem?_eq_none (Nat.le_of_not_lt hlt)
    simp [this] at hp
  rw [List.getElem?_append_left hlt]; exact hp

theorem getElem?_append_new (h : Heap) (a : Alarm) : (h ++ [a])[h.length]? = some a := by
  simp

theorem Chain.append {after : Alarm → Option Nat} {h : Heap} {start : Option Nat}
    {ps : List Nat} (hc : Chain after h start ps) (a : Alarm) :
    Chain after (h ++ [a]) start ps :=
  hc.frame (fun _ _ b hb => ⟨b, getElem?_append_old hb, rfl⟩)

theorem key_append_old {h : Heap} {a : Alarm} {p : Nat} (hp : p < h.length) :
    key (h ++ [a]) p = key h p := by
  simp [key, List.getElem?_append_left hp]

theorem key_append_new (h : Heap) (a : Alarm) : key (h ++ [a]) h.length = a.msg_num := by
  simp [key]

/-- The two outcomes of `cmd_handler_insert` on a well-formed ascending list:
the cell with the key of the command is replaced in place, or no cell has
that key and the new cell is spliced in at its ordered position. -/
theorem cmd_handler_insert_cases {h : Heap} {head : Option Nat} {xs : List Nat} (c : CmdA)
    (hc : Chain next_alarm h head xs) (hs : KeysAscending h xs) :
    (∃ e ae, e ∈ xs ∧ h[e]? = some ae ∧ ae.msg_num = c.msg_num ∧
      cmd_handler_insert h head c =
        .ok { heap := (h ++ [alarm_of_cmda c]).set e (replaced_cell ae (alarm_of_cmda c)),
              head := head, result := replaced_result ae,
              wait_on := if (replaced_cell ae (alarm_of_cmda c)).is_replaced then some e
                else none }) ∨
    ((∀ q ∈ xs, key h q ≠ c.msg_num) ∧ ∃ h' head',
      cmd_handler_insert h head c =
        .ok { heap := h', head := head', result := none, wait_on := none } ∧
      Chain next_alarm h' head' (ins (h ++ [alarm_of_cmda c]) h.length xs) ∧
      FieldFrame globalField (h.length :: xs) (h ++ [alarm_of_cmda c]) h') := by
  have hn : h.length ∉ xs := fun hm => Nat.lt_irrefl _ (hc.lt_length _ hm)
  have hc0 := hc.append (alarm_of_cmda c)
  have hk0 : ∀ p ∈ xs, key (h ++ [alarm_of_cmda c]) p = key h p :=
    fun p hp => key_append_old (hc.lt_length p hp)
  have hs0 : KeysAscending (h ++ [alarm_of_cmda c]) xs := hs.congr hk0
  have hnew := getElem?_append_new h (alarm_of_cmda c)
  have hkn : key (h ++ [alarm_of_cmda c]) h.length = c.msg_num := by
    rw [key_append_new]; rfl
  by_cases hex : ∃ e ∈ xs, key h e = c.msg_num
  · left
    obtain ⟨e, he, hke⟩ := hex
    obtain ⟨ae, hae⟩ := hc.valid e he
    refine ⟨e, ae, he, hae, ?_, ?_⟩
    · rw [← hke, key_of_some hae]
    · have := insert_alarm_replace hc0 hs0 hn hnew he (by rw [hk0 e he, hke, hkn])
      unfold cmd_handler_insert
      rw [this, insert_alarm_replaced_ok (getElem?_append_old hae) hnew]
  · right
    have hne : ∀ q ∈ xs, key h q ≠ c.msg_num := fun q hq hk => hex ⟨q, hq, hk⟩
    refine ⟨hne, ?_⟩
    exact insert_alarm_ins globalField true hc0 hs0.nodup hn hnew rfl
      (fun _ q hq => by rw [hk0 q hq, hkn]; exact hne q hq)

/-! ## C1: schedule commands keep the registry strictly ascending -/

theorem cells_map_key {h : Heap} : ∀ {ps : List Nat}, (∀ p ∈ ps, ∃ a, h[p]? = some a) →
    (cells h ps).map Alarm.msg_num = ps.map (key h)
  | [], _ => rfl
  | q :: qs, hv => by
    obtain ⟨a, ha⟩ := hv q (List.mem_cons_self _ _)
    have ih := cells_map_key (h := h) (fun p hp => hv p (List.mem_cons_of_mem _ hp))
    simp only [cells] at ih
    simp [cells, List.filterMap_cons, ha, key_of_some ha, ih]

/-- A well-formed ascending chain is what `global_list` computes. -/
theorem Chain.global_list_eq {h : Heap} {head : Option Nat} {xs : List Nat}
    (hc : Chain next_alarm h head xs) (hs : KeysAscending h xs) :
    global_list h head = some xs :=
  hc.walk_eq h.length (hc.length_le hs.nodup)

theorem mem_heap_of_frame {F : LinkField} {ps : List Nat} {h h' : Heap}
    (hf : FieldFrame F ps h h') {b : Alarm} (hb : b ∈ h') :
    ∃ a v, a ∈ h ∧ b = F.upd a v := by
  obtain ⟨p, hpb⟩ := List.mem_iff_getElem?.1 hb
  cases hpa : h[p]? with
  | none =>
    have hlen : h.length ≤ p := by
      by_contra hlt
      have := List.getElem?_eq_getElem (Nat.lt_of_not_le hlt)
      simp [this] at hpa
    have : h'[p]? = none := List.getElem?_eq_none (by rw [hf.length_eq]; exact hlen)
    simp [this] at hpb
  | some a =>
    obtain ⟨v, hv⟩ := hf.upd_of p a hpa
    rw [hpb] at hv
    exact ⟨a, v, List.getElem?_mem hpa, Option.some.inj hv⟩

theorem type_A_body_idle {st : State} {xs : List Nat} (c : CmdA) (hi : Idle st xs) :
    ∃ st' xs', cmd_handler_type_A_body st c = .ok st' ∧ Idle st' xs' := by
  have hq0 : ∀ a ∈ st.heap ++ [alarm_of_cmda c], a.is_assigned = false ∧ a.is_replaced = false := by
    intro a ha
    rcases List.mem_append.1 ha with h1 | h1
    · exact hi.quiet a h1
    · simp at h1; subst h1; exact ⟨rfl, rfl⟩
  rcases cmd_handler_insert_cases c hi.chain hi.asc with
    ⟨e, ae, he, hae, hk, hrun⟩ | ⟨hne, h', head', hrun, hch, hfr⟩
  · have hqe := hi.quiet ae (List.getElem?_mem hae)
    have hrep : (replaced_cell ae (alarm_of_cmda c)).is_replaced = false := by
      simp [replaced_cell, hqe.1, hqe.2]
    have hres : replaced_result ae = none := by simp [replaced_result, hqe.1]
    refine ⟨{ st with heap := (List.set (st.heap ++ [alarm_of_cmda c]) e
      (replaced_cell ae (alarm_of_cmda c))) }, xs, ?_, ?_, ?_, ?_⟩
    · simp [cmd_handler_type_A_body, hrun, hrep, hres, cmd_handler_join_with_alarm_handler,
        insert_alarm_handshake, bind, Except.bind, pure, Except.pure]
    · refine (hi.chain.append (alarm_of_cmda c)).frame ?_
      intro p _ b hb
      by_cases hpe : p = e
      · subst hpe
        have : b = ae := by
          have := getElem?_append_old (a := alarm_of_cmda c) hae
          rw [this] at hb; exact (Option.some.inj hb).symm
        subst this
        refine ⟨_, getElem?_set_of_some hb, ?_⟩
        simp only [replaced_cell, next_alarm]
        split <;> rfl
      · exact ⟨b, by rw [List.getElem?_set_ne (Ne.symm hpe)]; exact hb, rfl⟩
    · refine hi.asc.congr ?_
      intro p hp
      by_cases hpe : p = e
      · subst hpe
        have h1 : ((st.heap ++ [alarm_of_cmda c]).set p
            (replaced_cell ae (alarm_of_cmda c)))[p]? = some _ :=
          getElem?_set_of_some (getElem?_append_old hae)
        rw [key_of_some h1, key_of_some hae]
        simp only [replaced_cell]
        split <;> rfl
      · simp only [key]
        rw [List.getElem?_set_ne (Ne.symm hpe),
          List.getElem?_append_left (hi.chain.lt_length p hp)]
    · intro a ha
      rcases List.mem_or_eq_of_mem_set ha with h1 | h1
      · exact hq0 a h1
      · subst h1
        exact ⟨by simp [replaced_cell, hqe.1], hrep⟩
  · refine ⟨{ st with heap := h', alarm_list_head := head' }, _, ?_, hch, ?_, ?_⟩
    · simp [cmd_handler_type_A_body, hrun, cmd_handler_join_with_alarm_handler,
        insert_alarm_handshake, bind, Except.bind, pure, Except.pure]
    · have hk0 : ∀ p ∈ xs, key (st.heap ++ [alarm_of_cmda c]) p = key st.heap p :=
        fun p hp => key_append_old (hi.chain.lt_length p hp)
      have hs0 : KeysAscending (st.heap ++ [alarm_of_cmda c]) xs := hi.asc.congr hk0
      have hasc := ins_ascending (n := st.heap.length) hs0 (fun q hq => by
        rw [hk0 q hq, key_append_new]; exact hne q hq)
      exact hasc.congr (fun p _ => hfr.key_eq p)
    · intro b hb
      obtain ⟨a, v, ha, rfl⟩ := mem_heap_of_frame hfr hb
      exact hq0 a ha

theorem type_A_loop_idle : ∀ (cmds : List CmdA) {st : State} {xs : List Nat}, Idle st xs →
    ∃ st' xs', cmd_handler_type_A_loop cmds st = .ok st' ∧ Idle st' xs'
  | [], st, xs, hi => ⟨st, xs, rfl, hi⟩
  | c :: cs, st, xs, hi => by
    have hi' : Idle { st with cmda_list := cs } xs := ⟨hi.chain, hi.asc, hi.quiet⟩
    obtain ⟨st1, xs1, hrun, hi1⟩ := type_A_body_idle c hi'
    obtain ⟨st2, xs2, hrun2, hi2⟩ := type_A_loop_idle cs hi1
    exact ⟨st2, xs2, by simp [cmd_handler_type_A_loop, hrun, hrun2, bind, Except.bind], hi2⟩

/-- C1: every sequence of schedule commands that the command handler applies
to the initially empty registry (each through `insert_alarm` with
`global_list = true`) is processed without fault and leaves a global list
that is strictly ascending by `msg_num`, hence without two alarms of the same
`msg_num`.  Every prefix of a sequence is a sequence, so this holds after
every insertion. -/
theorem C1_schedules_keep_registry_ascending (cmds : List CmdA) :
    ∃ st xs, cmd_handler_type_A_loop cmds State.init = .ok st ∧
      global_list st.heap st.alarm_list_head = some xs ∧
      ((cells st.heap xs).map Alarm.msg_num).Pairwise (fun x y => x < y) ∧
      ((cells st.heap xs).map Alarm.msg_num).Nodup := by
  have h0 : Idle State.init [] :=
    ⟨rfl, List.Pairwise.nil, fun a ha => by simp [State.init] at ha⟩
  obtain ⟨st, xs, hrun, hi⟩ := type_A_loop_idle cmds h0
  have hkeys := cells_map_key (h := st.heap) hi.chain.valid
  have hasc : ((cells st.heap xs).map Alarm.msg_num).Pairwise (fun x y => x < y) := by
    rw [hkeys]; exact hi.asc
  exact ⟨st, xs, hrun, hi.chain.global_list_eq hi.asc, hasc,
    hasc.imp (fun hlt => Nat.ne_of_lt hlt)⟩

/-! ## C2: a schedule command for an existing key replaces in place -/

theorem HandlerFrame.get {h h2 : Heap} (hf : HandlerFrame h h2) {p : Nat} {a : Alarm}
    (ha : h[p]? = some a) : ∃ b, h2[p]? = some b ∧ b.fixed = a.fixed := by
  have h1 : (h2.map Alarm.fixed)[p]? = (h.map Alarm.fixed)[p]? := by rw [hf]
  rw [List.getElem?_map, List.getElem?_map, ha] at h1
  cases hb : h2[p]? with
  | none => simp [hb] at h1
  | some b =>
    simp [hb] at h1
    exact ⟨b, rfl, h1⟩

theorem fixed_link {a b : Alarm} (hf : b.fixed = a.fixed) : b.link = a.link := by
  have := congrArg Alarm.link hf
  simpa [Alarm.fixed] using this

theorem fixed_msg_num {a b : Alarm} (hf : b.fixed = a.fixed) : b.msg_num = a.msg_num := by
  have := congrArg Alarm.msg_num hf
  simpa [Alarm.fixed] using this

theorem fixed_wait_time {a b : Alarm} (hf : b.fixed = a.fixed) :
    b.wait_time = a.wait_time := by
  have := congrArg Alarm.wait_time hf
  simpa [Alarm.fixed] using this

theorem fixed_msg_type {a b : Alarm} (hf : b.fixed = a.fixed) : b.msg_type = a.msg_type := by
  have := congrArg Alarm.msg_type hf
  simpa [Alarm.fixed] using this

theorem fixed_msg {a b : Alarm} (hf : b.fixed = a.fixed) : b.msg = a.msg := by
  have := congrArg Alarm.msg hf
  simpa [Alarm.fixed] using this

theorem Chain.of_global_list {h : Heap} {head : Option Nat} {xs : List Nat}
    (hl : global_list h head = some xs) : Chain next_alarm h head xs :=
  Chain.of_walk h.length hl

theorem KeysAscending.of_cells {h : Heap} {head : Option Nat} {xs : List Nat}
    (hc : Chain next_alarm h head xs)
    (hs : ((cells h xs).map Alarm.msg_num).Pairwise (fun x y => x < y)) :
    KeysAscending h xs := by
  unfold KeysAscending
  rw [← cells_map_key hc.valid]; exact hs

/-- Two heaps whose listed cells agree on `link` and `msg_num` carry the same
ascending global list. -/
theorem global_list_transfer {h h' : Heap} {head : Option Nat} {xs : List Nat}
    (hc : Chain next_alarm h head xs) (hs : KeysAscending h xs)
    (hsame : ∀ p ∈ xs, ∀ a, h[p]? = some a →
      ∃ b, h'[p]? = some b ∧ b.link = a.link ∧ b.msg_num = a.msg_num) :
    global_list h' head = some xs ∧
      (cells h' xs).map Alarm.msg_num = (cells h xs).map Alarm.msg_num := by
  have hc' : Chain next_alarm h' head xs :=
    hc.frame (fun p hp a ha => by
      obtain ⟨b, hb, hl, _⟩ := hsame p hp a ha
      exact ⟨b, hb, hl⟩)
  have hk : ∀ p ∈ xs, key h' p = key h p := by
    intro p hp
    obtain ⟨a, ha⟩ := hc.valid p hp
    obtain ⟨b, hb, _, hm⟩ := hsame p hp a ha
    rw [key_of_some ha, key_of_some hb, hm]
  refine ⟨hc'.global_list_eq (hs.congr hk), ?_⟩
  rw [cells_map_key hc'.valid, cells_map_key hc.valid]
  exact List.map_congr_left hk

/-- C2: on a registry sorted by `msg_num` in which the cell `e` holds the key
of the new alarm, `insert_alarm` with `global_list = true` returns with the
same head and the same cells in the same order, and the cell `e` holds the
new alarm's `wait_time`, `msg_type` and `msg` under the old key.  The same is
true once the call completes after the handshake, whatever the alarm handler
threads did in between. -/
theorem C2_replace_in_place (h : Heap) (head : Option Nat) (xs : List Nat) (n e : Nat)
    (a ae : Alarm) (hl : global_list h head = some xs)
    (hs : ((cells h xs).map Alarm.msg_num).Pairwise (fun x y => x < y))
    (hn : n ∉ xs) (ha : h[n]? = some a) (he : e ∈ xs) (hae : h[e]? = some ae)
    (hk : ae.msg_num = a.msg_num) :
    ∃ out, insert_alarm h head n next_alarm insert_first_alarm insert_after_alarm true
        = .ok out ∧
      out.head = head ∧ global_list out.heap head = some xs ∧
      (cells out.heap xs).map Alarm.msg_num = (cells h xs).map Alarm.msg_num ∧
      (∃ b, out.heap[e]? = some b ∧ b.msg_num = a.msg_num ∧ b.wait_time = a.wait_time ∧
        b.msg_type = a.msg_type ∧ b.msg = a.msg) ∧
      ∀ h2, HandlerFrame out.heap h2 →
        ∃ h3, insert_alarm_resume h2 e = .ok h3 ∧ global_list h3 head = some xs ∧
          (cells h3 xs).map Alarm.msg_num = (cells h xs).map Alarm.msg_num ∧
          ∃ b, h3[e]? = some b ∧ b.msg_num = a.msg_num ∧ b.wait_time = a.wait_time ∧
            b.msg_type = a.msg_type ∧ b.msg = a.msg := by
  have hc := Chain.of_global_list hl
  have hasc := KeysAscending.of_cells hc hs
  have hrun := insert_alarm_replace hc hasc hn ha he
    (by rw [key_of_some hae, key_of_some ha, hk])
  rw [insert_alarm_replaced_ok hae ha] at hrun
  have hcell : (h.set e (replaced_cell ae a))[e]? = some (replaced_cell ae a) :=
    getElem?_set_of_some hae
  have hlink : (replaced_cell ae a).link = ae.link := by
    simp only [replaced_cell]; split <;> rfl
  have hnum : (replaced_cell ae a).msg_num = ae.msg_num := by
    simp only [replaced_cell]; split <;> rfl
  have hsame : ∀ p ∈ xs, ∀ x, h[p]? = some x →
      ∃ b, (h.set e (replaced_cell ae a))[p]? = some b ∧ b.link = x.link ∧
        b.msg_num = x.msg_num := by
    intro p _ x hx
    by_cases hpe : p = e
    · subst hpe
      rw [hae] at hx; cases hx
      exact ⟨_, hcell, hlink, hnum⟩
    · exact ⟨x, by rw [List.getElem?_set_ne (Ne.symm hpe)]; exact hx, rfl, rfl⟩
  have ht := global_list_transfer hc hasc hsame
  refine ⟨_, hrun, rfl, ht.1, ht.2, ⟨_, hcell, by rw [hnum, hk], rfl, rfl, rfl⟩, ?_⟩
  intro h2 hf
  obtain ⟨b2, hb2, hfix⟩ := hf.get hcell
  have hres : insert_alarm_resume h2 e = .ok (h2.set e { b2 with is_replaced := false }) := by
    simp [insert_alarm_resume, deref_some_eq hb2, bind, Except.bind, pure, Except.pure]
  have hcell3 : (h2.set e { b2 with is_replaced := false })[e]? =
      some { b2 with is_replaced := false } := getElem?_set_of_some hb2
  have hsame3 : ∀ p ∈ xs, ∀ x, h[p]? = some x →
      ∃ b, (h2.set e { b2 with is_replaced := false })[p]? = some b ∧ b.link = x.link ∧
        b.msg_num = x.msg_num := by
    intro p hp x hx
    by_cases hpe : p = e
    · subst hpe
      rw [hae] at hx; cases hx
      refine ⟨_, hcell3, ?_, ?_⟩
      · show b2.link = ae.link
        rw [fixed_link hfix, hlink]
      · show b2.msg_num = ae.msg_num
        rw [fixed_msg_num hfix, hnum]
    · obtain ⟨b, hb, hl1, hm1⟩ := hsame p hp x hx
      obtain ⟨b', hb', hfix'⟩ := hf.get hb
      refine ⟨b', by rw [List.getElem?_set_ne (Ne.symm hpe)]; exact hb', ?_, ?_⟩
      · rw [fixed_link hfix', hl1]
      · rw [fixed_msg_num hfix', hm1]
  have ht3 := global_list_transfer hc hasc hsame3
  refine ⟨_, hres, ht3.1, ht3.2, _, hcell3, ?_, ?_, ?_, ?_⟩
  · show b2.msg_num = a.msg_num
    rw [fixed_msg_num hfix, hnum, hk]
  · show b2.wait_time = a.wait_time
    rw [fixed_wait_time hfix]; rfl
  · show b2.msg_type = a.msg_type
    rw [fixed_msg_type hfix]; rfl
  · show b2.msg = a.msg
    rw [fixed_msg hfix]; rfl

/-! ## C3: a cancel command unlinks exactly the alarm with its key -/

theorem cmd_handler_search_hit_head {h : Heap} {e : Nat} {ae : Alarm} (k fuel : Nat)
    (prev : Option Nat) (hae : h[e]? = some ae) (hk : ae.msg_num = k) :
    cmd_handler_search k (fuel + 1) h (some e) prev (some e)
      = .ok (h.set e (cancelled_cell ae), ae.link, some e) := by
  simp [cmd_handler_search, deref_some_eq hae, hk, cancelled_cell, bind, Except.bind, pure,
    Except.pure]

theorem cmd_handler_search_hit_inner {h : Heap} {e pv : Nat} {ae apv : Alarm} (k fuel : Nat)
    (head : Option Nat) (hae : h[e]? = some ae) (hk : ae.msg_num = k) (hhead : head ≠ some e)
    (hpv : h[pv]? = some apv) (hne : pv ≠ e) :
    cmd_handler_search k (fuel + 1) h head (some pv) (some e)
      = .ok ((h.set pv { apv with link := ae.link }).set e (cancelled_cell ae), head,
          some e) := by
  have h1 : (h.set pv { apv with link := ae.link })[e]? = some ae := by
    rw [List.getElem?_set_ne hne]; exact hae
  have hhead' : ¬ some e = head := fun x => hhead x.symm
  simp [cmd_handler_search, deref_some_eq hae, hk, hhead', deref_some_eq hpv, deref_some_eq h1,
    cancelled_cell, bind, Except.bind, pure, Except.pure]

theorem cmd_handler_search_skip {h : Heap} {e pv : Nat} {post : List Nat} (k : Nat)
    (head : Option Nat) :
    ∀ (mid : List Nat) (c fuel : Nat) (prev : Option Nat),
      Chain next_alarm h (some c) (mid ++ pv :: e :: post) →
      (∀ q ∈ mid ++ [pv], key h q ≠ k) → mid.length + 1 < fuel →
      cmd_handler_search k fuel h head prev (some c)
        = cmd_handler_search k (fuel - (mid.length + 1)) h head (some pv) (some e)
  | [], c, 0, _, _, _, hl => by simp at hl
  | [], c, fuel + 1, prev, hc, hq, _ => by
    obtain ⟨hs, apv, hpv, hrest⟩ := hc
    cases hs
    have hlink : apv.link = some e := hrest.1
    have hk : ¬ apv.msg_num = k := by
      have := hq pv (by simp)
      rwa [key_of_some hpv] at this
    simp [cmd_handler_search, deref_some_eq hpv, hk, hlink, bind, Except.bind]
  | m :: mid, c, 0, _, _, _, hl => by simp at hl
  | m :: mid, c, fuel + 1, prev, hc, hq, hl => by
    obtain ⟨hs, am, hm, hrest⟩ := hc
    cases hs
    have hk : ¬ am.msg_num = k := by
      have := hq m (by simp)
      rwa [key_of_some hm] at this
    have hnext : ∃ c', next_alarm am = some c' ∧
        Chain next_alarm h (some c') (mid ++ pv :: e :: post) := by
      cases mid with
      | nil => exact ⟨pv, hrest.1, rfl, hrest.2⟩
      | cons m' mid' => exact ⟨m', hrest.1, rfl, hrest.2⟩
    obtain ⟨c', hc', hch'⟩ := hnext
    have hc'' : am.link = some c' := hc'
    have ih := cmd_handler_search_skip k head mid c' fuel (some m) hch'
      (fun q hq' => hq q (List.mem_cons_of_mem _ hq')) (by simpa using hl)
    simp only [cmd_handler_search, deref_some_eq hm, hk, hc'', bind, Except.bind, if_false]
    rw [ih]
    congr 1
    simp

/-- Unlinking `e` after its predecessor `pv` removes `e` from the chain. -/
theorem Chain.unlink {h : Heap} {e pv : Nat} {ae apv : Alarm} {post : List Nat}
    (hae : h[e]? = some ae) (hpv : h[pv]? = some apv) :
    ∀ (pre : List Nat) (s : Option Nat), Chain next_alarm h s (pre ++ pv :: e :: post) →
      (pre ++ pv :: e :: post).Nodup →
      Chain next_alarm ((h.set pv { apv with link := ae.link }).set e (cancelled_cell ae)) s
        (pre ++ pv :: post)
  | [], s, hc, hnd => by
    obtain ⟨hs, apv', hpv', hs2, ae', hae', hpost⟩ := hc
    rw [hae] at hae'; cases hae'
    have hne : pv ≠ e := by
      intro x; subst x; simp at hnd
    refine ⟨hs, { apv with link := ae.link }, ?_, ?_⟩
    · rw [List.getElem?_set_ne (Ne.symm hne)]; exact getElem?_set_of_some hpv
    · refine Chain.frame (h := h) hpost ?_
      intro p hp b hb
      have hp1 : p ≠ pv := by
        intro x; subst x; simp at hnd; exact hnd.1.2 hp
      have hp2 : p ≠ e := by
        intro x; subst x; simp at hnd; exact hnd.2.1 hp
      exact ⟨b, by rw [List.getElem?_set_ne (Ne.symm hp2),
        List.getElem?_set_ne (Ne.symm hp1)]; exact hb, rfl⟩
  | x :: pre, s, hc, hnd => by
    obtain ⟨hs, ax, hx, hrest⟩ := hc
    have hx1 : x ≠ pv := by
      intro y; subst y; simp at hnd
    have hx2 : x ≠ e := by
      intro y; subst y; simp at hnd
    refine ⟨hs, ax, ?_, ?_⟩
    · rw [List.getElem?_set_ne (Ne.symm hx2), List.getElem?_set_ne (Ne.symm hx1)]; exact hx
    · exact Chain.unlink hae hpv pre _ hrest (List.nodup_cons.1 hnd).2

theorem fixed_is_cancelled {a b : Alarm} (hf : b.fixed = a.fixed) :
    b.is_cancelled = a.is_cancelled := by
  have := congrArg Alarm.is_cancelled hf
  simpa [Alarm.fixed] using this

theorem cmd_handler_cancel_of_search {h h' : Heap} {head head' : Option Nat} {k e : Nat}
    {ae : Alarm}
    (hrun : cmd_handler_search k h.length h head none head = .ok (h', head', some e))
    (hcell : h'[e]? = some (cancelled_cell ae)) :
    cmd_handler_cancel h head k =
      .ok { heap := h', head := head', curr_alarm := e,
            handler_id := if ae.is_assigned then
              (if ae.link_handle = none then ae.handler_id else none) else none,
            wait_on := if ae.is_assigned then some e else none } := by
  simp only [cmd_handler_cancel, hrun, bind, Except.bind, deref_some_eq hcell, pure,
    Except.pure, cancelled_cell]
  cases ae.is_assigned <;> simp

/-- What follows from the shape of the heap after the search loop. -/
theorem cancel_conclusion {h' : Heap} {head' : Option Nat} {ys : List Nat} {e : Nat}
    {ae : Alarm} (hc' : Chain next_alarm h' head' ys) (hnd : ys.Nodup)
    (hcell : h'[e]? = some (cancelled_cell ae)) :
    global_list h' head' = some ys ∧
    ∀ h2, HandlerFrame h' h2 →
      global_list h2 head' = some ys ∧ ∃ b, h2[e]? = some b ∧ b.is_cancelled = true := by
  refine ⟨hc'.walk_eq h'.length (hc'.length_le hnd), ?_⟩
  intro h2 hf
  have hc2 : Chain next_alarm h2 head' ys :=
    hc'.frame (fun p _ a ha => by
      obtain ⟨b, hb, hfix⟩ := hf.get ha
      exact ⟨b, hb, fixed_link hfix⟩)
  refine ⟨hc2.walk_eq h2.length (hc2.length_le hnd), ?_⟩
  obtain ⟨b, hb, hfix⟩ := hf.get hcell
  exact ⟨b, hb, by rw [fixed_is_cancelled hfix]; rfl⟩

/-- The processing of a type C command whose key is in the global list, up to
the handshake. -/
theorem cmd_handler_cancel_hit {h : Heap} {head : Option Nat} {xs : List Nat} {k e : Nat}
    {ae : Alarm} (hc : Chain next_alarm h head xs) (hasc : KeysAscending h xs)
    (he : e ∈ xs) (hae : h[e]? = some ae) (hk : ae.msg_num = k) :
    ∃ out, cmd_handler_cancel h head k = .ok out ∧ out.curr_alarm = e ∧
      Chain next_alarm out.heap out.head (xs.erase e) ∧
      out.heap.length = h.length ∧
      out.heap[e]? = some (cancelled_cell ae) ∧
      (∀ p x, p ≠ e → h[p]? = some x →
        ∃ y, out.heap[p]? = some y ∧ { y with link := x.link } = x) ∧
      out.wait_on = (if ae.is_assigned then some e else none) ∧
      out.handler_id = (if ae.is_assigned then
        (if ae.link_handle = none then ae.handler_id else none) else none) := by
  have hnd := hasc.nodup
  have hlen := hc.length_le hnd
  have hkeys : ∀ q ∈ xs, q ≠ e → key h q ≠ k := by
    intro q hq hqe hkq
    have hinj : (xs.map (key h)).Nodup := List.Pairwise.imp (fun hlt => Nat.ne_of_lt hlt) hasc
    have := List.inj_on_of_nodup_map hinj hq he (by rw [hkq, key_of_some hae, hk])
    exact hqe this
  obtain ⟨s, t, hst⟩ := List.append_of_mem he
  subst hst
  have hes : e ∉ s := by
    intro hmem
    have := List.nodup_append.1 hnd
    exact this.2.2 hmem (List.mem_cons_self _ _)
  have herase : (s ++ e :: t).erase e = s ++ t := by
    rw [List.erase_append_right _ hes, List.erase_cons_head]
  rw [herase]
  rcases List.eq_nil_or_concat s with hnil | ⟨pre, pv, hconcat⟩
  · subst hnil
    obtain ⟨hs0, ae', hae', hpost⟩ := hc
    simp only [List.nil_append] at hs0 hae' hpost hnd hlen
    rw [hae] at hae'; cases hae'
    subst hs0
    have hpos : h.length = (h.length - 1) + 1 := by
      simp at hlen; omega
    have hrun : cmd_handler_search k h.length h (some e) none (some e)
        = .ok (h.set e (cancelled_cell ae), ae.link, some e) := by
      rw [hpos]; exact cmd_handler_search_hit_head k _ none hae hk
    have hcell : (h.set e (cancelled_cell ae))[e]? = some (cancelled_cell ae) :=
      getElem?_set_of_some hae
    have hc' : Chain next_alarm (h.set e (cancelled_cell ae)) ae.link t := by
      refine Chain.frame (h := h) hpost ?_
      intro p hp b hb
      refine ⟨b, ?_, rfl⟩
      rw [List.getElem?_set_ne]; exact hb
      intro x; subst x; exact (List.nodup_cons.1 hnd).1 hp
    refine ⟨_, cmd_handler_cancel_of_search hrun hcell, rfl, hc', by simp, hcell, ?_, rfl, rfl⟩
    intro p x hpe hx
    exact ⟨x, by rw [List.getElem?_set_ne (Ne.symm hpe)]; exact hx, rfl⟩
  · subst hconcat
    have hxs : pre.concat pv ++ e :: t = pre ++ pv :: e :: t := by simp
    rw [hxs] at hc hnd hlen hkeys
    have hpvmem : pv ∈ pre ++ pv :: e :: t := by simp
    obtain ⟨apv, hpv⟩ := hc.valid pv hpvmem
    have hpve : pv ≠ e := fun x => hes (by simp [x])
    -- the head of the list is not `e`
    have hhead : ∃ c, head = some c ∧ c ≠ e ∧
        Chain next_alarm h (some c) (pre ++ pv :: e :: t) := by
      cases pre with
      | nil =>
        obtain ⟨hs0, r⟩ := hc
        exact ⟨pv, hs0, hpve, rfl, r⟩
      | cons x pre' =>
        obtain ⟨hs0, r⟩ := hc
        refine ⟨x, hs0, ?_, rfl, r⟩
        intro y; subst y; exact hes (by simp)
    obtain ⟨c, hc0, hce, hcc⟩ := hhead
    subst hc0
    have hfuel : pre.length + 1 < h.length := by
      simp at hlen; omega
    have hskip := cmd_handler_search_skip k (some c) pre c h.length none hcc
      (fun q hq => hkeys q (by
          rcases List.mem_append.1 hq with h1 | h1
          · exact List.mem_append_left _ h1
          · simp at h1; subst h1; exact hpvmem)
        (fun x => hes (by rw [← x]; simpa using hq)))
      hfuel
    have hpos : h.length - (pre.length + 1) = (h.length - (pre.length + 1) - 1) + 1 := by
      omega
    have hrun : cmd_handler_search k h.length h (some c) none (some c)
        = .ok ((h.set pv { apv with link := ae.link }).set e (cancelled_cell ae), some c,
            some e) := by
      rw [hskip, hpos]
      exact cmd_handler_search_hit_inner k _ (some c) hae hk
        (fun x => hce (Option.some.inj x)) hpv hpve
    have hcell : ((h.set pv { apv with link := ae.link }).set e (cancelled_cell ae))[e]?
        = some (cancelled_cell ae) :=
      getElem?_set_of_some (by rw [List.getElem?_set_ne hpve]; exact hae)
    have hc' := Chain.unlink hae hpv pre (some c) hcc hnd
    have hnd' : (pre ++ pv :: t).Nodup := by
      have : List.Sublist (pre ++ pv :: t) (pre ++ pv :: e :: t) :=
        List.Sublist.append_left ((List.sublist_cons_self e t).cons₂ pv) pre
      exact hnd.sublist this
    have hgoal : pre.concat pv ++ t = pre ++ pv :: t := by simp
    rw [hgoal]
    refine ⟨_, cmd_handler_cancel_of_search hrun hcell, rfl, hc', by simp, hcell, ?_, rfl, rfl⟩
    intro p x hpe hx
    by_cases hpp : p = pv
    · subst hpp
      rw [hpv] at hx; cases hx
      exact ⟨{ apv with link := ae.link },
        by rw [List.getElem?_set_ne (Ne.symm hpe)]; exact getElem?_set_of_some hpv, rfl⟩
    · exact ⟨x, by rw [List.getElem?_set_ne (Ne.symm hpe),
        List.getElem?_set_ne (Ne.symm hpp)]; exact hx, rfl⟩

/-- C3: on a registry sorted by `msg_num` whose cell `e` holds the key `k`, the
processing of one cancel request for `k` ends its search at `e`; the global
list becomes the old list without `e` (same cells, same order); the cell `e`
keeps all its fields except that `link` is `NULL` and `is_cancelled` is set,
which is the state in which it is later freed; every other cell is unchanged
except for the `link` of the predecessor of `e`.  The handshake is entered
exactly when `e` was assigned, and no activity of the alarm handlers during
it changes the global list or clears `is_cancelled`. -/
theorem C3_cancel_removes_exactly_one (h : Heap) (head : Option Nat) (xs : List Nat)
    (k e : Nat) (ae : Alarm) (hl : global_list h head = some xs)
    (hs : ((cells h xs).map Alarm.msg_num).Pairwise (fun x y => x < y))
    (he : e ∈ xs) (hae : h[e]? = some ae) (hk : ae.msg_num = k) :
    ∃ out, cmd_handler_cancel h head k = .ok out ∧ out.curr_alarm = e ∧
      global_list out.heap out.head = some (xs.erase e) ∧
      out.heap[e]? = some { ae with link := none, is_cancelled := true } ∧
      (∀ p x, p ≠ e → h[p]? = some x →
        ∃ y, out.heap[p]? = some y ∧ { y with link := x.link } = x) ∧
      out.wait_on = (if ae.is_assigned then some e else none) ∧
      ∀ h2, HandlerFrame out.heap h2 →
        global_list h2 out.head = some (xs.erase e) ∧
          ∃ b, h2[e]? = some b ∧ b.is_cancelled = true := by
  have hc := Chain.of_global_list hl
  have hasc := KeysAscending.of_cells hc hs
  obtain ⟨out, hrun, hcurr, hc', _, hcell, hrest, hwait, _⟩ :=
    cmd_handler_cancel_hit hc hasc he hae hk
  have hconc := cancel_conclusion hc' (hasc.nodup.sublist (List.erase_sublist e xs)) hcell
  exact ⟨out, hrun, hcurr, hconc.1, hcell, hrest, hwait, hconc.2⟩

/-! ## Witnesses for C2 and C3 -/

/-- Scheduling key 5 twice with different messages leaves exactly one alarm
with key 5, holding the second message; and `C2_replace_in_place` at that
registry. -/
theorem C2_replace_in_place_witness :
    (cmd_handler_type_A_loop [ex_cmd_first, ex_cmd_second] State.init).toOption.map
        State.registry = some [alarm_of_cmda ex_cmd_second] ∧
    ∃ out, insert_alarm ex_heap_two (some 0) 1 next_alarm insert_first_alarm insert_after_alarm
        true = .ok out ∧
      out.head = some 0 ∧ global_list out.heap (some 0) = some [0] ∧
      ∃ b, out.heap[0]? = some b ∧ b.msg_num = 5 ∧ b.wait_time = 3 ∧ b.msg_type = 1 ∧
        b.msg = "world" := by
  refine ⟨by decide, ?_⟩
  obtain ⟨out, h1, h2, h3, _, h5, _⟩ :=
    C2_replace_in_place ex_heap_two (some 0) [0] 1 0 (alarm_of_cmda ex_cmd_second)
      (alarm_of_cmda ex_cmd_first) (by decide) (by decide) (by decide) (by decide) (by decide)
      (by decide) (by decide)
  exact ⟨out, h1, h2, h3, h5⟩

/-- Cancelling key 5 in the registry with the keys 3, 5, 7 leaves the cells of
3 and 7, in this order. -/
theorem C3_cancel_removes_exactly_one_witness :
    ∃ out, cmd_handler_cancel ex_heap_three (some 0) 5 = .ok out ∧ out.curr_alarm = 1 ∧
      global_list out.heap out.head = some [0, 2] := by
  obtain ⟨out, h1, h2, h3, _⟩ :=
    C3_cancel_removes_exactly_one ex_heap_three (some 0) [0, 1, 2] 5 1
      { alarm_of_cmda { wait_time := 1, msg_type := 2, msg_num := 5, msg := "b" } with
        link := some 2 }
      (by decide) (by decide) (by decide) (by decide) (by decide)
  exact ⟨out, h1, h2, h3⟩

/-! ## C4 and C5: two traces of the application -/

theorem ex_t6_reachable : Reachable ex_t6 := by
  have r1 : Reachable ex_t1 :=
    .step _ _ .init (.submit_A _ ex_c1 (by decide) (by decide) (by decide) (by decide))
  have r2 : Reachable ex_t2 :=
    .step _ _ r1 (.submit_A _ ex_c2 (by decide) (by decide) (by decide) (by decide))
  have r3 : Reachable ex_t3 := .step _ _ r2 (.submit_B _ 1 (by decide))
  have r4 : Reachable ex_t4 := .step _ _ r3 (.dispatch _ _ (by decide))
  have r5 : Reachable ex_t5 := .step _ _ r4 (.dispatch _ _ (by decide))
  exact .step _ _ r5
    (.scan ex_t5 ex_w0 ex_scan.1 ex_scan.2 (by decide) (by decide) (by decide))

/-- C4, the code at the failing input.  In a reachable state, thread 1 handles
the alarms 1 and 2 (local list `[0, 1]`).  For a schedule command with key 2,
`insert_alarm` (through `replace_alarm`) returns the id of thread 1, and so
does the cancel path for key 2, because the `link_handle` of alarm 2 is
`NULL`; after the handshake thread 1 still runs and handles alarm 1, and the
command handler blocks in the join with it. -/
theorem C4_handler_id_although_thread_keeps_an_alarm :
    Reachable ex_t7 ∧
    ex_t7.workers.map (fun w => handled_list ex_t7.heap w.handle_list_head) = [some [0, 1]] ∧
    (cmd_handler_insert ex_t7.heap ex_t7.alarm_list_head ex_c2_new).map
      (fun o => (o.result, o.wait_on)) = .ok (some 1, some 1) ∧
    (cmd_handler_cancel ex_t7.heap ex_t7.alarm_list_head 2).map
      (fun o => (o.handler_id, o.wait_on)) = .ok (some 1, some 1) ∧
    ((cmd_handler_insert ex_t7.heap ex_t7.alarm_list_head ex_c2_new).bind (fun o =>
        handshake { ex_t7 with heap := o.heap, alarm_list_head := o.head } 1)).map
      (fun s => s.workers.map (fun w => (w.tid, handled_list s.heap w.handle_list_head)))
      = .ok [(1, some [0])] ∧
    cmd_handler_section ex_t7 = .error .blocked := by
  refine ⟨?_, by decide, by decide, by decide, by decide, by decide⟩
  exact .step _ _ ex_t6_reachable
    (.submit_A _ ex_c2_new (by decide) (by decide) (by decide) (by decide))

/-- C5, the code at the failing input.  The state `ex_s5` is reachable: the
command handler stands at the release point before its type C section, the
registry holds only key 1, and `Cancel: Message(2)` is pending because a
schedule command for key 2 was pending when it was submitted.  The type C
section cancels key 1, then its search for key 2 ends with
`curr_alarm == NULL`, and the section dereferences it. -/
theorem C5_cancel_search_ends_with_null :
    Reachable ex_s5 ∧ ex_s5.pc = .before_C ∧
    ex_s5.cmdc_list = [{ msg_num := 1 }, { msg_num := 2 }] ∧
    ex_s5.registry.map Alarm.msg_num = [1] ∧
    ((cmd_handler_type_C_body { ex_s5 with cmdc_list := [{ msg_num := 2 }] }
        { msg_num := 1 }).bind (fun s =>
      cmd_handler_search 2 s.heap.length s.heap s.alarm_list_head none s.alarm_list_head)).map
      (fun r => r.2.2) = .ok none ∧
    cmd_handler_section ex_s5 = .error .null_deref := by
  refine ⟨?_, by decide, by decide, by decide, by decide, by decide⟩
  have r1 : Reachable ex_t1 :=
    .step _ _ .init (.submit_A _ ex_c1 (by decide) (by decide) (by decide) (by decide))
  have r2 : Reachable ex_s2 := .step _ _ r1 (.submit_C _ 1 (by decide))
  have r3 : Reachable ex_s3 := .step _ _ r2 (.dispatch _ _ (by decide))
  have r4 : Reachable ex_s4 :=
    .step _ _ r3 (.submit_A _ ex_c2 (by decide) (by decide) (by decide) (by decide))
  exact .step _ _ r4 (.submit_C _ 2 (by decide))

/-! ## C6: at most one type B record and one alarm handler per message type -/

theorem Keeps.of_eq {st st' : State} (h1 : st'.cmdb_done = st.cmdb_done)
    (h2 : st'.cmdb_new = st.cmdb_new) (h3 : st'.workers = st.workers)
    (h4 : st'.next_tid = st.next_tid) : Keeps st st' :=
  ⟨by simp [State.cmdb_types, h1, h2], by simp [State.threads, h3],
   fun r hr hn => absurd (h1 ▸ hr) hn, h4⟩

theorem Keeps.same (st : State) : Keeps st st := Keeps.of_eq rfl rfl rfl rfl

theorem mem_threads {st : State} {w : Worker} (hw : w ∈ st.workers) :
    (w.tid, w.msg_type) ∈ st.threads :=
  List.mem_map.2 ⟨w, hw, rfl⟩

theorem of_mem_threads {st : State} {x : Nat × Nat} (hx : x ∈ st.threads) :
    ∃ w ∈ st.workers, w.tid = x.1 ∧ w.msg_type = x.2 := by
  obtain ⟨w, hw, rfl⟩ := List.mem_map.1 hx
  exact ⟨w, hw, rfl, rfl⟩

theorem Keeps.worker {st st' : State} (hk : Keeps st st') {w : Worker}
    (hw : w ∈ st'.workers) : ∃ v ∈ st.workers, v.tid = w.tid ∧ v.msg_type = w.msg_type :=
  of_mem_threads (hk.threads.subset (mem_threads hw))

theorem Keeps.trans {a b c : State} (h1 : Keeps a b) (h2 : Keeps b c) : Keeps a c := by
  refine ⟨h2.types.trans h1.types, h2.threads.trans h1.threads, ?_, h2.next_tid.trans h1.next_tid⟩
  intro r hr hn w hw
  by_cases hb : r ∈ b.cmdb_done
  · exact h2.erased r hb hn w hw
  · obtain ⟨v, hv, htid, _⟩ := h2.worker hw
    rw [← htid]
    exact h1.erased r hr hb v hv

theorem OnePerType.keeps {st st' : State} (hi : OnePerType st) (hk : Keeps st st') :
    OnePerType st' := by
  refine ⟨hi.types_nodup.sublist hk.types, ?_, ?_, ?_⟩
  · have h1 : st'.workers.map Worker.tid = st'.threads.map Prod.fst := by
      simp [State.threads, List.map_map, Function.comp_def]
    have h2 : st.workers.map Worker.tid = st.threads.map Prod.fst := by
      simp [State.threads, List.map_map, Function.comp_def]
    rw [h1]
    exact (h2 ▸ hi.tids_nodup).sublist (hk.threads.map Prod.fst)
  · intro w hw
    obtain ⟨v, hv, htid, _⟩ := hk.worker hw
    rw [hk.next_tid, ← htid]
    exact hi.tids_lt v hv
  · intro w hw
    obtain ⟨v, hv, htid, htype⟩ := hk.worker hw
    obtain ⟨r, hr, hid, hty⟩ := hi.has_record v hv
    by_cases hr' : r ∈ st'.cmdb_done
    · exact ⟨r, hr', by rw [hid, htid], by rw [hty, htype]⟩
    · exact absurd (by rw [hid, htid]) (hk.erased r hr hr' w hw)

/-- The two ways in which a thread's entry changes: the thread exits, or its
local variables are replaced by values with the same id and message type. -/
theorem Keeps.of_workers {st st' : State} (hi : OnePerType st) (w w' : Worker)
    (hw : w ∈ st.workers) (htid : w'.tid = w.tid) (hty : w'.msg_type = w.msg_type)
    (h1 : st'.cmdb_done = st.cmdb_done) (h2 : st'.cmdb_new = st.cmdb_new)
    (h4 : st'.next_tid = st.next_tid)
    (h3 : st'.workers = st.workers.filter (fun v => v.tid ≠ w.tid) ∨
      st'.workers = st.workers.map (fun v => if v.tid = w.tid then w' else v)) :
    Keeps st st' := by
  refine ⟨by simp [State.cmdb_types, h1, h2], ?_, fun r hr hn => absurd (h1 ▸ hr) hn, h4⟩
  rcases h3 with h3 | h3
  · simp only [State.threads, h3]
    exact (List.filter_sublist _).map _
  · have : st'.threads = st.threads := by
      simp only [State.threads, h3, List.map_map]
      refine List.map_congr_left ?_
      intro v hv
      by_cases hvt : v.tid = w.tid
      · have hvw : v = w := List.inj_on_of_nodup_map hi.tids_nodup hv hw hvt
        subst hvw
        simp [htid, hty]
      · simp [hvt]
    rw [this]

theorem alarm_handler_tick_worker {h : Heap} {w : Worker} {it : IterOut}
    (ht : alarm_handler_tick h w = .ok it) :
    it.worker.tid = w.tid ∧ it.worker.msg_type = w.msg_type := by
  unfold alarm_handler_tick at ht
  simp only [bind, Except.bind, pure, Except.pure] at ht
  split at ht
  · cases ht
  · cases ht; exact ⟨rfl, rfl⟩

theorem alarm_handler_init_worker {h h' : Heap} {head : Option Nat} {tid t : Nat} {w' : Worker}
    (hs : alarm_handler_init h head tid t = .ok (h', w')) :
    w'.tid = tid ∧ w'.msg_type = t := by
  unfold alarm_handler_init at hs
  simp only [bind, Except.bind, pure, Except.pure] at hs
  split at hs
  · cases hs
  · cases hs; exact ⟨rfl, rfl⟩

theorem handshake_keeps {st st' : State} {p : Nat} (hi : OnePerType st)
    (hrun : handshake st p = .ok st') : Keeps st st' := by
  unfold handshake at hrun
  simp only [bind, Except.bind, pure, Except.pure] at hrun
  split at hrun
  · cases hrun
  · split at hrun
    · cases hrun; exact Keeps.same _
    · split at hrun
      · cases hrun
      · rename_i tid _
        split at hrun
        · cases hrun
        · rename_i w hfind
          split at hrun
          · cases hrun
          · rename_i it htick
            split at hrun
            · cases hrun
            · split at hrun
              · cases hrun
              · cases hrun
                have hw : w ∈ st.workers := List.mem_of_find?_eq_some hfind
                have hwt : w.tid = tid := by
                  have := List.find?_some hfind
                  simp at this
                  exact this.1
                obtain ⟨h1, h2⟩ := alarm_handler_tick_worker htick
                refine Keeps.of_workers hi w it.worker hw h1 h2 rfl rfl rfl ?_
                subst hwt
                by_cases hex : it.exited = true
                · left; simp [hex]
                · right; simp [hex]

theorem join_keeps {st st' : State} {hid : Option Nat} {t : Nat}
    (hrun : cmd_handler_join_with_alarm_handler st hid = .ok (st', t)) : Keeps st st' := by
  unfold cmd_handler_join_with_alarm_handler at hrun
  cases hid with
  | none =>
    simp only [pure, Except.pure] at hrun
    cases hrun; exact Keeps.same _
  | some tid =>
    simp only at hrun
    have hnone : ∀ {ws : List Worker}, ws.any (fun w => decide (w.tid = tid)) = false →
        ∀ w ∈ ws, w.tid ≠ tid := by
      intro ws hany w hw hwt
      have : ws.any (fun w => decide (w.tid = tid)) = true :=
        List.any_eq_true.2 ⟨w, hw, by simp [hwt]⟩
      rw [hany] at this; cases this
    split at hrun
    · split at hrun
      · cases hrun
      · rename_i hany
        simp only [pure, Except.pure] at hrun
        cases hrun
        have hany' : st.workers.any (fun w => decide (w.tid = tid)) = false := by
          simpa using hany
        refine ⟨?_, List.Sublist.refl _, ?_, rfl⟩
        · simp only [State.cmdb_types]
          exact ((List.eraseP_sublist _).append_right _).map _
        · intro r hr hn w hw hrid
          by_cases hf : (r.is_processed && decide (r.id = some tid)) = true
          · simp at hf
            have := hnone hany' w hw
            rw [hf.2] at hrid
            exact this (Option.some.inj hrid).symm
          · exact hn ((List.mem_eraseP_of_neg
              (p := fun x : CmdB => x.is_processed && decide (x.id = some tid))
              (l := st.cmdb_done) hf).2 hr)
    · split at hrun
      · split at hrun
        · cases hrun
        · simp only [pure, Except.pure] at hrun
          cases hrun
          refine ⟨?_, List.Sublist.refl _, fun r hr hn => absurd hr hn, rfl⟩
          simp only [State.cmdb_types]
          exact ((List.eraseP_sublist _).append_left _).map _
      · cases hrun

theorem bind_eq_ok {α β : Type} {x : Except Fault α} {f : α → Except Fault β} {y : β}
    (h : x >>= f = .ok y) : ∃ a, x = .ok a ∧ f a = .ok y := by
  cases x with
  | error e => simp [bind, Except.bind] at h
  | ok a => exact ⟨a, rfl, h⟩

theorem type_A_body_keeps {st st' : State} {c : CmdA} (hi : OnePerType st)
    (hrun : cmd_handler_type_A_body st c = .ok st') : Keeps st st' := by
  unfold cmd_handler_type_A_body at hrun
  obtain ⟨out, _, hrun⟩ := bind_eq_ok hrun
  obtain ⟨st2, h2, hrun⟩ := bind_eq_ok hrun
  obtain ⟨⟨st3, t⟩, h3, hrun⟩ := bind_eq_ok hrun
  simp only [pure, Except.pure] at hrun
  cases hrun
  have k1 : Keeps st { st with heap := out.heap, alarm_list_head := out.head } :=
    Keeps.of_eq rfl rfl rfl rfl
  have k2 : Keeps { st with heap := out.heap, alarm_list_head := out.head } st2 := by
    unfold insert_alarm_handshake at h2
    cases hw : out.wait_on with
    | none =>
      rw [hw] at h2
      simp only [pure, Except.pure] at h2
      cases h2; exact Keeps.same _
    | some p =>
      rw [hw] at h2
      obtain ⟨sa, ha, h2⟩ := bind_eq_ok h2
      obtain ⟨hb, _, h2⟩ := bind_eq_ok h2
      simp only [pure, Except.pure] at h2
      cases h2
      exact (handshake_keeps (hi.keeps k1) ha).trans (Keeps.of_eq rfl rfl rfl rfl)
  exact (k1.trans k2).trans (join_keeps h3)

theorem type_C_body_keeps {st st' : State} {c : CmdC} (hi : OnePerType st)
    (hrun : cmd_handler_type_C_body st c = .ok st') : Keeps st st' := by
  unfold cmd_handler_type_C_body at hrun
  obtain ⟨out, _, hrun⟩ := bind_eq_ok hrun
  obtain ⟨st2, h2, hrun⟩ := bind_eq_ok hrun
  obtain ⟨⟨st3, t⟩, h3, hrun⟩ := bind_eq_ok hrun
  simp only [pure, Except.pure] at hrun
  cases hrun
  have k1 : Keeps st { st with heap := out.heap, alarm_list_head := out.head } :=
    Keeps.of_eq rfl rfl rfl rfl
  have k2 : Keeps { st with heap := out.heap, alarm_list_head := out.head } st2 := by
    unfold cmd_handler_handshake at h2
    cases hw : out.wait_on with
    | none =>
      rw [hw] at h2
      simp only [pure, Except.pure] at h2
      cases h2; exact Keeps.same _
    | some p =>
      rw [hw] at h2
      exact handshake_keeps (hi.keeps k1) h2
  exact (k1.trans k2).trans (join_keeps h3)

theorem type_A_loop_keeps : ∀ (cmds : List CmdA) {st st' : State}, OnePerType st →
    cmd_handler_type_A_loop cmds st = .ok st' → Keeps st st'
  | [], st, st', _, hrun => by
    simp only [cmd_handler_type_A_loop, pure, Except.pure] at hrun
    cases hrun; exact Keeps.same _
  | c :: cs, st, st', hi, hrun => by
    unfold cmd_handler_type_A_loop at hrun
    obtain ⟨st1, h1, hrun⟩ := bind_eq_ok hrun
    have k0 : Keeps st { st with cmda_list := cs } := Keeps.of_eq rfl rfl rfl rfl
    have k1 := type_A_body_keeps (hi.keeps k0) h1
    have k2 := type_A_loop_keeps cs ((hi.keeps k0).keeps k1) hrun
    exact (k0.trans k1).trans k2

theorem type_C_loop_keeps : ∀ (cmds : List CmdC) {st st' : State}, OnePerType st →
    cmd_handler_type_C_loop cmds st = .ok st' → Keeps st st'
  | [], st, st', _, hrun => by
    simp only [cmd_handler_type_C_loop, pure, Except.pure] at hrun
    cases hrun; exact Keeps.same _
  | c :: cs, st, st', hi, hrun => by
    unfold cmd_handler_type_C_loop at hrun
    obtain ⟨st1, h1, hrun⟩ := bind_eq_ok hrun
    have k0 : Keeps st { st with cmdc_list := cs } := Keeps.of_eq rfl rfl rfl rfl
    have k1 := type_C_body_keeps (hi.keeps k0) h1
    have k2 := type_C_loop_keeps cs ((hi.keeps k0).keeps k1) hrun
    exact (k0.trans k1).trans k2

/-- The type B loop gives every new record a fresh thread of its type. -/
theorem type_B_loop_one_per_type : ∀ (rs : List CmdB) {st : State}, st.cmdb_new = rs →
    OnePerType st → OnePerType (cmd_handler_type_B_loop rs st)
  | [], _, _, hi => hi
  | r :: rs, st, hnew, hi => by
    unfold cmd_handler_type_B_loop
    refine type_B_loop_one_per_type rs rfl ⟨?_, ?_, ?_, ?_⟩
    · have := hi.types_nodup
      simp only [State.cmdb_types, hnew] at this ⊢
      simpa using this
    · simp only [List.map_append, List.map_cons, List.map_nil]
      refine List.Nodup.append hi.tids_nodup (List.nodup_singleton _) ?_
      intro x hx hx'
      simp at hx'
      subst hx'
      obtain ⟨w, hw, hwt⟩ := List.mem_map.1 hx
      have := hi.tids_lt w hw
      omega
    · intro w hw
      rcases List.mem_append.1 hw with h1 | h1
      · exact Nat.lt_succ_of_lt (hi.tids_lt w h1)
      · simp at h1; subst h1; exact Nat.lt_succ_self _
    · intro w hw
      rcases List.mem_append.1 hw with h1 | h1
      · obtain ⟨x, hx, hid, hty⟩ := hi.has_record w h1
        exact ⟨x, List.mem_append_left _ hx, hid, hty⟩
      · simp at h1; subst h1
        exact ⟨_, List.mem_append_right _ (List.mem_singleton_self _), rfl, rfl⟩

theorem OnePerType.of_same_lists {st st' : State} (hi : OnePerType st)
    (h1 : st'.cmdb_done = st.cmdb_done) (h2 : st'.cmdb_new = st.cmdb_new)
    (h3 : st'.workers = st.workers) (h4 : st'.next_tid = st.next_tid) : OnePerType st' :=
  hi.keeps (Keeps.of_eq h1 h2 h3 h4)

theorem from_B_one_per_type {st : State} (hi : OnePerType st) :
    OnePerType (cmd_handler_from_B st) := by
  have h1 : OnePerType (cmd_handler_type_B st) := type_B_loop_one_per_type _ rfl hi
  unfold cmd_handler_from_B
  simp only
  split
  · exact h1.of_same_lists rfl rfl rfl rfl
  · exact h1.of_same_lists rfl rfl rfl rfl

theorem from_C_one_per_type {st st' : State} (hi : OnePerType st)
    (hrun : cmd_handler_from_C st = .ok st') : OnePerType st' := by
  unfold cmd_handler_from_C at hrun
  obtain ⟨st1, h1, hrun⟩ := bind_eq_ok hrun
  simp only [pure, Except.pure] at hrun
  cases hrun
  exact (hi.keeps (type_C_loop_keeps _ hi h1)).of_same_lists rfl rfl rfl rfl

theorem section_one_per_type {st st' : State} (hi : OnePerType st)
    (hrun : cmd_handler_section st = .ok st') : OnePerType st' := by
  unfold cmd_handler_section at hrun
  split at hrun
  · split at hrun
    · cases hrun
    · split at hrun
      · split at hrun
        · exact from_C_one_per_type hi hrun
        · simp only [pure, Except.pure] at hrun
          cases hrun; exact from_B_one_per_type hi
      · obtain ⟨st1, h1, hrun⟩ := bind_eq_ok hrun
        have hi1 := hi.keeps (type_A_loop_keeps _ hi h1)
        split at hrun
        · split at hrun
          · simp only [pure, Except.pure] at hrun
            cases hrun; exact hi1.of_same_lists rfl rfl rfl rfl
          · simp only [pure, Except.pure] at hrun
            cases hrun; exact hi1.of_same_lists rfl rfl rfl rfl
        · simp only [pure, Except.pure] at hrun
          cases hrun; exact hi1.of_same_lists rfl rfl rfl rfl
  · simp only [pure, Except.pure] at hrun
    cases hrun; exact from_B_one_per_type hi
  · exact from_C_one_per_type hi hrun

theorem main_type_A_one_per_type {st : State} (c : CmdA) (hi : OnePerType st) :
    OnePerType (main_type_A st c) := by
  unfold main_type_A
  split
  · exact hi.of_same_lists rfl rfl rfl rfl
  · exact hi.of_same_lists rfl rfl rfl rfl

theorem main_type_C_one_per_type {st : State} (k : Nat) (reg : List Alarm)
    (hi : OnePerType st) : OnePerType (main_type_C st k reg) := by
  unfold main_type_C
  simp only
  split
  · split
    · exact hi
    · exact hi.of_same_lists rfl rfl rfl rfl
  · exact hi

theorem main_type_B_one_per_type {st : State} (t : Nat) (reg : List Alarm)
    (hi : OnePerType st) : OnePerType (main_type_B st t reg) := by
  unfold main_type_B
  simp only
  split
  · split
    · exact hi
    · rename_i hany
      refine ⟨?_, hi.tids_nodup, hi.tids_lt, hi.has_record⟩
      have hnot : t ∉ st.cmdb_types := by
        intro hmem
        obtain ⟨r, hr, hrt⟩ := List.mem_map.1 hmem
        exact hany (List.any_eq_true.2 ⟨r, hr, by simp [hrt]⟩)
      have : State.cmdb_types { st with cmdb_new := st.cmdb_new ++
          [{ msg_type := t, id := none, is_processed := false }] } = st.cmdb_types ++ [t] := by
        simp [State.cmdb_types]
      rw [this]
      refine List.Nodup.append hi.types_nodup (List.nodup_singleton _) ?_
      intro x hx hx'
      simp at hx'
      subst hx'
      exact hnot hx
  · exact hi

theorem step_one_per_type {st st' : State} (hi : OnePerType st) (hs : Step st st') :
    OnePerType st' := by
  cases hs
  · exact main_type_A_one_per_type _ hi
  · exact main_type_B_one_per_type _ _ hi
  · exact main_type_C_one_per_type _ _ hi
  · rename_i hsec
    exact section_one_per_type hi hsec
  · rename_i w h0 w' hw hst hscan
    obtain ⟨h1, h2⟩ := alarm_handler_init_worker hscan
    exact hi.keeps (Keeps.of_workers hi w w' hw h1 h2 rfl rfl rfl (Or.inr rfl))
  · rename_i w it hw hst htick
    obtain ⟨h1, h2⟩ := alarm_handler_tick_worker htick
    refine hi.keeps (Keeps.of_workers hi w it.worker hw h1 h2 rfl rfl rfl ?_)
    by_cases hex : it.exited = true
    · left; simp [hex]
    · right; simp [hex]

theorem reachable_one_per_type {st : State} (hr : Reachable st) : OnePerType st := by
  induction hr with
  | init =>
    exact ⟨List.nodup_nil, List.nodup_nil, fun w hw => by simp [State.init] at hw,
      fun w hw => by simp [State.init] at hw⟩
  | step st st' _ hs ih => exact step_one_per_type ih hs

/-- C6: in every reachable state the type B list (processed and pending
records, from `cmdb_list_head`) holds at most one record per `msg_type`, and
at most one alarm handler thread exists per `msg_type`. -/
theorem C6_one_record_and_one_thread_per_type (st : State) (hr : Reachable st) :
    ((st.cmdb_done ++ st.cmdb_new).map CmdB.msg_type).Nodup ∧
    (st.workers.map Worker.msg_type).Nodup := by
  have hi := reachable_one_per_type hr
  refine ⟨hi.types_nodup, ?_⟩
  have hnd : st.workers.Nodup := List.Nodup.of_map _ hi.tids_nodup
  refine List.Nodup.map_on ?_ hnd
  intro v hv w hw hty
  obtain ⟨r1, hr1, hid1, ht1⟩ := hi.has_record v hv
  obtain ⟨r2, hr2, hid2, ht2⟩ := hi.has_record w hw
  have hrr : r1 = r2 := by
    refine List.inj_on_of_nodup_map hi.types_nodup (List.mem_append_left _ hr1)
      (List.mem_append_left _ hr2) ?_
    rw [ht1, ht2, hty]
  have htid : v.tid = w.tid := by
    have : some v.tid = some w.tid := by rw [← hid1, ← hid2, hrr]
    exact Option.some.inj this
  exact List.inj_on_of_nodup_map hi.tids_nodup hv hw htid

/-- The state `ex_t6` is reachable and holds one record and one thread, both of type 1. -/
theorem C6_one_record_and_one_thread_per_type_witness :
    Reachable ex_t6 ∧
    ((ex_t6.cmdb_done ++ ex_t6.cmdb_new).map CmdB.msg_type).Nodup ∧
    (ex_t6.workers.map Worker.msg_type).Nodup :=
  ⟨ex_t6_reachable, C6_one_record_and_one_thread_per_type ex_t6 ex_t6_reachable⟩

/-! ## C7: the initial scan of an alarm handler -/

theorem ins_eq_append {h : Heap} {n : Nat} : ∀ {ys : List Nat},
    (∀ y ∈ ys, ¬ key h n < key h y) → ins h n ys = ys ++ [n]
  | [], _ => rfl
  | y :: ys, hy => by
    have h1 := hy y (List.mem_cons_self _ _)
    simp only [ins, h1, if_false, List.cons_append]
    rw [ins_eq_append (fun z hz => hy z (List.mem_cons_of_mem _ hz))]

theorem picked_congr {h h' : Heap} {t : Nat} {ps : List Nat}
    (hsame : ∀ p ∈ ps, h'[p]? = h[p]?) : picked h' t ps = picked h t ps := by
  unfold picked
  refine List.filter_congr ?_
  intro p hp
  simp [selected, hsame p hp]

theorem key_congr {h h' : Heap} {p : Nat} (hsame : h'[p]? = h[p]?) : key h' p = key h p := by
  simp [key, hsame]

/-- The scan loop from a cell of the global list, with the local list `ys`
built so far. -/
theorem alarm_handler_scan_spec (tid t : Nat) :
    ∀ (rest : List Nat) (fuel : Nat) (hc : Heap) (hd : Option Nat) (ys : List Nat)
      (curr : Option Nat),
      Chain next_alarm hc curr rest → Chain next_handled_alarm hc hd ys →
      (ys ++ rest).Nodup → KeysAscending hc rest →
      (∀ y ∈ ys, ∀ r ∈ rest, key hc y < key hc r) →
      (∀ r ∈ rest, ∀ a, hc[r]? = some a → a.is_assigned = false → a.link_handle = none) →
      rest.length ≤ fuel →
      ∃ h' hd', alarm_handler_scan tid t fuel hc hd curr = .ok (h', hd') ∧
        Chain next_handled_alarm h' hd' (ys ++ picked hc t rest) ∧
        h'.length = hc.length ∧
        (∀ p a, hc[p]? = some a → ∃ v : Option Nat, h'[p]? = some
          (if p ∈ picked hc t rest then assigned_cell a tid v else { a with link_handle := v })) ∧
        (∀ p, p ∉ ys → p ∉ picked hc t rest → h'[p]? = hc[p]?)
  | [], fuel, hc, hd, ys, curr, hg, hl, _, _, _, _, _ => by
    cases hg
    refine ⟨hc, hd, ?_, ?_, rfl, ?_, fun _ _ _ => rfl⟩
    · cases fuel <;> simp [alarm_handler_scan, pure, Except.pure]
    · simpa [picked] using hl
    · intro p a ha
      exact ⟨a.link_handle, by simpa [picked] using ha⟩
  | c :: rest, 0, _, _, _, _, _, _, _, _, _, _, hlen => by simp at hlen
  | c :: rest, fuel + 1, hc, hd, ys, curr, hg, hl, hnd, hasc, hlt, hwf, hlen => by
    obtain ⟨hs0, ac, hac, hrest⟩ := hg
    subst hs0
    have hnd' : (ys ++ rest).Nodup := by
      have : List.Sublist (ys ++ rest) (ys ++ c :: rest) :=
        List.Sublist.append_left (List.sublist_cons_self c rest) ys
      exact hnd.sublist this
    have hcys : c ∉ ys := by
      intro hm
      exact (List.nodup_append.1 hnd).2.2 hm (List.mem_cons_self _ _)
    have hcrest : c ∉ rest := by
      have := (List.nodup_append.1 hnd).2.1
      exact (List.nodup_cons.1 this).1
    have hasc' : KeysAscending hc rest := (List.pairwise_cons.1 hasc).2
    have hclt : ∀ r ∈ rest, key hc c < key hc r :=
      fun r hr => (List.pairwise_cons.1 hasc).1 _ (List.mem_map_of_mem _ hr)
    by_cases hsel : ((!ac.is_assigned) && decide (ac.msg_type = t)) = true
    · -- the alarm is picked
      have hun : ac.is_assigned = false := by
        cases hx : ac.is_assigned <;> simp [hx] at hsel ⊢
      have hnull : ac.link_handle = none := hwf c (List.mem_cons_self _ _) ac hac hun
      let ac' : Alarm := { ac with is_assigned := true, handler_id := some tid }
      have h1c : (hc.set c ac')[c]? = some ac' := getElem?_set_of_some hac
      have h1o : ∀ p, p ≠ c → (hc.set c ac')[p]? = hc[p]? :=
        fun p hp => List.getElem?_set_ne (Ne.symm hp)
      have hl1 : Chain next_handled_alarm (hc.set c ac') hd ys :=
        hl.frame (fun p hp a ha => ⟨a, by
          rw [h1o p (fun x => hcys (x ▸ hp))]; exact ha, rfl⟩)
      obtain ⟨h2, hd2, hrun2, hch2, hfr2⟩ :=
        insert_alarm_ins handledField false hl1
          (List.nodup_append.1 hnd').1 hcys h1c hnull (fun x => by cases x)
      have hk1 : ∀ p, key (hc.set c ac') p = key hc p := by
        intro p
        by_cases hp : p = c
        · subst hp; rw [key_of_some h1c, key_of_some hac]
        · exact key_congr (h1o p hp)
      have hk2 : ∀ p, key h2 p = key hc p := fun p => by rw [hfr2.key_eq p, hk1 p]
      have hins : ins (hc.set c ac') c ys = ys ++ [c] := by
        refine ins_eq_append ?_
        intro y hy
        rw [hk1, hk1]
        have := hlt y hy c (List.mem_cons_self _ _)
        omega
      rw [hins] at hch2
      obtain ⟨v1, hv1⟩ := hfr2.upd_of c ac' h1c
      have h2o : ∀ p, p ≠ c → p ∉ ys → h2[p]? = hc[p]? := by
        intro p hp hpy
        rw [hfr2.same_of p (by simp [hp, hpy]), h1o p hp]
      have hrestsame : ∀ r ∈ rest, h2[r]? = hc[r]? := by
        intro r hr
        refine h2o r (fun x => hcrest (x ▸ hr)) ?_
        intro hm
        exact (List.nodup_append.1 hnd').2.2 hm hr
      have hg2 : Chain next_alarm h2 ac.link rest :=
        hrest.frame (fun p hp a ha => ⟨a, by rw [hrestsame p hp]; exact ha, rfl⟩)
      obtain ⟨h', hd', hrun, hch, hlen', hf2, hf3⟩ :=
        alarm_handler_scan_spec tid t rest fuel h2 hd2 (ys ++ [c]) ac.link hg2 hch2
          (by simpa [List.append_assoc] using hnd)
          (hasc'.congr (fun p _ => hk2 p))
          (by
            intro y hy r hr
            rw [hk2, hk2]
            rcases List.mem_append.1 hy with h1 | h1
            · exact hlt y h1 r (List.mem_cons_of_mem _ hr)
            · simp at h1; subst h1; exact hclt r hr)
          (by
            intro r hr a ha
            rw [hrestsame r hr] at ha
            exact hwf r (List.mem_cons_of_mem _ hr) a ha)
          (by simpa using hlen)
      have hpk : picked h2 t rest = picked hc t rest := picked_congr hrestsame
      have hpkc : picked hc t (c :: rest) = c :: picked hc t rest := by
        have : selected hc t c = true := by simp [selected, hac, hsel]
        simp [picked, List.filter_cons, this]
      have hcpk : c ∉ picked hc t rest := fun hm => hcrest (List.mem_filter.1 hm).1
      refine ⟨h', hd', ?_, ?_, ?_, ?_, ?_⟩
      · have hd1 : deref h2 (some c) = .ok (handledField.upd ac' v1) := deref_some_eq hv1
        simp only [alarm_handler_scan, deref_some_eq hac, bind, Except.bind, hsel, if_true]
        have hrun2' : insert_alarm (hc.set c ac') hd c next_handled_alarm
            insert_first_handled_alarm insert_after_handled_alarm false
            = .ok { heap := h2, head := hd2, result := none, wait_on := none } := hrun2
        rw [hrun2']
        simp only [hd1]
        exact hrun
      · rw [hpkc]
        rw [hpk] at hch
        simpa [List.append_assoc] using hch
      · rw [hlen', hfr2.length_eq]; simp
      · intro p a ha
        by_cases hp : p = c
        · subst hp
          rw [hac] at ha; cases ha
          obtain ⟨v, hv⟩ := hf2 p (handledField.upd ac' v1) hv1
          rw [hpk, if_neg hcpk] at hv
          refine ⟨v, ?_⟩
          rw [hv, hpkc, if_pos (List.mem_cons_self _ _)]
          rfl
        · have h1p : (hc.set c ac')[p]? = some a := by rw [h1o p hp]; exact ha
          obtain ⟨v2, hv2⟩ := hfr2.upd_of p a h1p
          obtain ⟨v, hv⟩ := hf2 p _ hv2
          refine ⟨v, ?_⟩
          rw [hv, hpk, hpkc]
          have hiff : (p ∈ c :: picked hc t rest) ↔ p ∈ picked hc t rest := by
            simp [hp]
          by_cases hm : p ∈ picked hc t rest
          · rw [if_pos hm, if_pos (hiff.2 hm)]; rfl
          · rw [if_neg hm, if_neg (fun x => hm (hiff.1 x))]; rfl
      · intro p hpy hpp
        rw [hpkc] at hpp
        have hp : p ≠ c := fun x => hpp (by simp [x])
        have hpp' : p ∉ picked hc t rest := fun x => hpp (List.mem_cons_of_mem _ x)
        rw [hf3 p (by simp [hpy, hp]) (by rw [hpk]; exact hpp'), h2o p hp hpy]
    · -- the alarm is skipped
      obtain ⟨h', hd', hrun, hch, hlen', hf2, hf3⟩ :=
        alarm_handler_scan_spec tid t rest fuel hc hd ys ac.link hrest hl hnd' hasc'
          (fun y hy r hr => hlt y hy r (List.mem_cons_of_mem _ hr))
          (fun r hr => hwf r (List.mem_cons_of_mem _ hr)) (by simpa using hlen)
      have hpkc : picked hc t (c :: rest) = picked hc t rest := by
        have : selected hc t c = false := by
          simp only [selected, hac]
          cases hx : ((!ac.is_assigned) && decide (ac.msg_type = t))
          · rfl
          · exact absurd hx hsel
        simp [picked, List.filter_cons, this]
      refine ⟨h', hd', ?_, ?_, hlen', ?_, ?_⟩
      · simp only [alarm_handler_scan, deref_some_eq hac, bind, Except.bind, hsel, if_false]
        exact hrun
      · rw [hpkc]; exact hch
      · rw [hpkc]; exact hf2
      · rw [hpkc]; exact hf3

/-- C7: on a registry sorted by `msg_num` (in which, as in every state of the
application, an unassigned alarm has a `NULL` `link_handle`), the initial scan
of the alarm handler `tid` for type `t` returns a local list that consists of
exactly the cells of the global list that held an unassigned alarm of type
`t`, in the order of the global list, hence ascending by `msg_num`; each of
them is now assigned to `tid` and differs from its old value in nothing but
`is_assigned`, `handler_id` and `link_handle`; every other cell is unchanged
and the global list is the same. -/
theorem C7_initial_scan (h : Heap) (head : Option Nat) (xs : List Nat) (tid t : Nat)
    (hl : global_list h head = some xs)
    (hs : ((cells h xs).map Alarm.msg_num).Pairwise (fun x y => x < y))
    (hwf : ∀ p ∈ xs, ∀ a, h[p]? = some a → a.is_assigned = false → a.link_handle = none) :
    ∃ h' w, alarm_handler_init h head tid t = .ok (h', w) ∧
      w.tid = tid ∧ w.msg_type = t ∧
      handled_list h' w.handle_list_head = some (picked h t xs) ∧
      ((cells h' (picked h t xs)).map Alarm.msg_num).Pairwise (fun x y => x < y) ∧
      (∀ p ∈ picked h t xs, ∀ a, h[p]? = some a →
        ∃ v, h'[p]? = some { a with is_assigned := true, handler_id := some tid,
                                    link_handle := v }) ∧
      (∀ p, p ∉ picked h t xs → h'[p]? = h[p]?) ∧
      global_list h' head = some xs := by
  have hc := Chain.of_global_list hl
  have hasc := KeysAscending.of_cells hc hs
  obtain ⟨h', hd', hrun, hch, hlen, hf2, hf3⟩ :=
    alarm_handler_scan_spec tid t xs h.length h none [] head hc rfl
      (by simpa using hasc.nodup) hasc (fun y hy => by simp at hy) hwf
      (hc.length_le hasc.nodup)
  simp only [List.nil_append] at hch
  have hsub : List.Sublist (picked h t xs) xs := List.filter_sublist _
  have hpnd : (picked h t xs).Nodup := hasc.nodup.sublist hsub
  have hkey : ∀ p, key h' p = key h p := by
    intro p
    cases hp : h[p]? with
    | none =>
      have hlen0 : h.length ≤ p := by
        by_contra hlt
        have := List.getElem?_eq_getElem (Nat.lt_of_not_le hlt)
        simp [this] at hp
      have : h'[p]? = none := List.getElem?_eq_none (by rw [hlen]; exact hlen0)
      simp [key, hp, this]
    | some a =>
      obtain ⟨v, hv⟩ := hf2 p a hp
      rw [key_of_some hv, key_of_some hp]
      split <;> rfl
  refine ⟨h', { tid := tid, msg_type := t, handle_list_head := hd', time_since_create := 0,
                started := true }, ?_, rfl, rfl, ?_, ?_, ?_, ?_, ?_⟩
  · simp [alarm_handler_init, hrun, bind, Except.bind, pure, Except.pure]
  · exact hch.walk_eq h'.length (hch.length_le hpnd)
  · rw [cells_map_key hch.valid]
    have h1 : (picked h t xs).map (key h') = (picked h t xs).map (key h) :=
      List.map_congr_left (fun p _ => hkey p)
    rw [h1]
    exact List.Pairwise.sublist (hsub.map _) hasc
  · intro p hp a ha
    obtain ⟨v, hv⟩ := hf2 p a ha
    rw [if_pos hp] at hv
    exact ⟨v, hv⟩
  · intro p hp
    exact hf3 p (by simp) hp
  · refine (global_list_transfer hc hasc ?_).1
    intro p _ a ha
    obtain ⟨v, hv⟩ := hf2 p a ha
    refine ⟨_, hv, ?_, ?_⟩ <;> split <;> rfl

/-- The scan for type 1 on the registry with the keys 3 (type 1), 5 (type 2)
and 7 (type 1) picks the cells of 3 and 7. -/
theorem C7_initial_scan_witness :
    picked ex_heap_three 1 [0, 1, 2] = [0, 2] ∧
    ∃ h' w, alarm_handler_init ex_heap_three (some 0) 9 1 = .ok (h', w) ∧
      handled_list h' w.handle_list_head = some [0, 2] ∧
      global_list h' (some 0) = some [0, 1, 2] := by
  refine ⟨by decide, ?_⟩
  obtain ⟨h', w, h1, _, _, h4, _, _, _, h8⟩ :=
    C7_initial_scan ex_heap_three (some 0) [0, 1, 2] 9 1 (by decide) (by decide) (by decide)
  exact ⟨h', w, h1, h4, h8⟩

/-! ## C8: one tick of an alarm handler -/

theorem Chain.head_eq {after : Alarm → Option Nat} {h : Heap} {s : Option Nat}
    {ps : List Nat} (hc : Chain after h s ps) : s = ps.head? := by
  cases ps with
  | nil => exact hc
  | cons q qs => exact hc.1

theorem Chain.suffix {after : Alarm → Option Nat} {h : Heap} :
    ∀ (l1 : List Nat) {l2 : List Nat} {s : Option Nat}, Chain after h s (l1 ++ l2) →
      ∃ s', Chain after h s' l2
  | [], _, s, hc => ⟨s, hc⟩
  | _ :: l1, _, _, hc => by
    obtain ⟨_, a, _, hrest⟩ := hc
    exact Chain.suffix l1 hrest

/-- A chain that reaches `NULL` visits no cell twice. -/
theorem Chain.no_repeat {after : Alarm → Option Nat} {h : Heap} :
    ∀ {ps : List Nat} {s : Option Nat}, Chain after h s ps → ps.Nodup
  | [], _, _ => List.nodup_nil
  | q :: qs, _, hc => by
    have hc' := hc
    obtain ⟨_, a, ha, hrest⟩ := hc
    refine List.nodup_cons.2 ⟨?_, Chain.no_repeat hrest⟩
    intro hq
    obtain ⟨l1, l2, hsplit⟩ := List.append_of_mem hq
    have hsuf : ∃ s', Chain after h s' (q :: l2) := by
      rw [hsplit] at hrest
      exact Chain.suffix l1 hrest
    obtain ⟨s', hs'⟩ := hsuf
    have hs'' : Chain after h (some q) (q :: l2) := by
      have := hs'.1
      rw [this] at hs'; exact hs'
    have h1 : Chain after h (some q) (q :: qs) := ⟨rfl, a, ha, hrest⟩
    have := Chain.unique h1 hs''
    have hlen := congrArg List.length this
    rw [hsplit] at hlen
    simp at hlen
    omega

/-- Unlinking `e` after its predecessor `pv`, for either link field; the cell
of `e` may be overwritten at will. -/
theorem Chain.unlink_field (F : LinkField) {h : Heap} {e pv : Nat} {ae apv : Alarm}
    {post : List Nat} (ce : Alarm) (hae : h[e]? = some ae) (hpv : h[pv]? = some apv) :
    ∀ (pre : List Nat) (s : Option Nat), Chain F.after h s (pre ++ pv :: e :: post) →
      (pre ++ pv :: e :: post).Nodup →
      Chain F.after ((h.set pv (F.upd apv (F.after ae))).set e ce) s (pre ++ pv :: post)
  | [], s, hc, hnd => by
    obtain ⟨hs, apv', hpv', hs2, ae', hae', hpost⟩ := hc
    rw [hae] at hae'; cases hae'
    have hne : pv ≠ e := by
      intro x; subst x; simp at hnd
    refine ⟨hs, F.upd apv (F.after ae), ?_, ?_⟩
    · rw [List.getElem?_set_ne (Ne.symm hne)]; exact getElem?_set_of_some hpv
    · rw [F.after_upd]
      refine Chain.frame (h := h) hpost ?_
      intro p hp b hb
      have hp1 : p ≠ pv := by
        intro x; subst x; simp at hnd; exact hnd.1.2 hp
      have hp2 : p ≠ e := by
        intro x; subst x; simp at hnd; exact hnd.2.1 hp
      exact ⟨b, by rw [List.getElem?_set_ne (Ne.symm hp2),
        List.getElem?_set_ne (Ne.symm hp1)]; exact hb, rfl⟩
  | x :: pre, s, hc, hnd => by
    obtain ⟨hs, ax, hx, hrest⟩ := hc
    have hx1 : x ≠ pv := by
      intro y; subst y; simp at hnd
    have hx2 : x ≠ e := by
      intro y; subst y; simp at hnd
    refine ⟨hs, ax, ?_, ?_⟩
    · rw [List.getElem?_set_ne (Ne.symm hx2), List.getElem?_set_ne (Ne.symm hx1)]; exact hx
    · exact Chain.unlink_field F ce hae hpv pre _ hrest (List.nodup_cons.1 hnd).2

theorem kept_congr {h h' : Heap} {ps : List Nat} (hsame : ∀ p ∈ ps, h'[p]? = h[p]?) :
    kept h' ps = kept h ps := by
  unfold kept
  refine List.filter_congr ?_
  intro p hp
  simp [hsame p hp]

theorem tick_events_congr {h h' : Heap} {t : Nat} {ps : List Nat}
    (hsame : ∀ p ∈ ps, h'[p]? = h[p]?) : tick_events h' t ps = tick_events h t ps := by
  unfold tick_events
  induction ps with
  | nil => rfl
  | cons q qs ih =>
    simp only [List.flatMap_cons]
    rw [hsame q (List.mem_cons_self _ _), ih (fun p hp => hsame p (List.mem_cons_of_mem _ hp))]

theorem kept_cons_flagged {h : Heap} {c : Nat} {ac : Alarm} {rest : List Nat}
    (hac : h[c]? = some ac) (hf : ac.flagged = true) : kept h (c :: rest) = kept h rest := by
  simp [kept, List.filter_cons, hac, hf]

theorem kept_cons_unflagged {h : Heap} {c : Nat} {ac : Alarm} {rest : List Nat}
    (hac : h[c]? = some ac) (hf : ac.flagged = false) :
    kept h (c :: rest) = c :: kept h rest := by
  simp [kept, List.filter_cons, hac, hf]

theorem tick_events_cons {h : Heap} {t c : Nat} {ac : Alarm} {rest : List Nat}
    (hac : h[c]? = some ac) :
    tick_events h t (c :: rest) = alarm_events t ac ++ tick_events h t rest := by
  simp [tick_events, List.flatMap_cons, hac]

/-- The `for` loop of a tick from the cell after the kept prefix `pre`. -/
theorem alarm_handler_loop_spec (t : Nat) :
    ∀ (rest : List Nat) (fuel : Nat) (s : TickOut) (pre : List Nat),
      Chain next_handled_alarm s.heap s.handle_list_head (pre ++ rest) →
      (∀ p ∈ rest, ∀ a, s.heap[p]? = some a → a.flagged = false → 0 < a.wait_time) →
      rest.length ≤ fuel →
      ∃ s', alarm_handler_loop t fuel s pre.getLast? rest.head? = .ok s' ∧
        Chain next_handled_alarm s'.heap s'.handle_list_head (pre ++ kept s.heap rest) ∧
        s'.events = s.events ++ tick_events s.heap t rest ∧
        s'.heap.length = s.heap.length ∧
        (∀ p ∈ rest, ∀ a, s.heap[p]? = some a → a.flagged = true →
          s'.heap[p]? = some (reset_cell a)) ∧
        (∀ p a, s.heap[p]? = some a → (p ∈ rest → a.flagged = false) →
          ∃ v : Option Nat, s'.heap[p]? = some { a with link_handle := v }) ∧
        (∀ p, p ∉ pre → p ∉ rest → s'.heap[p]? = s.heap[p]?)
  | [], fuel, s, pre, hc, _, _ => by
    refine ⟨s, ?_, ?_, ?_, rfl, ?_, ?_, fun _ _ _ => rfl⟩
    · cases fuel <;> simp [alarm_handler_loop, pure, Except.pure]
    · simpa [kept] using hc
    · simp [tick_events]
    · intro p hp; simp at hp
    · intro p a ha _
      exact ⟨a.link_handle, ha⟩
  | c :: rest, 0, _, _, _, _, hlen => by simp at hlen
  | c :: rest, fuel + 1, s, pre, hc, hwt, hlen => by
    have hnd := hc.no_repeat
    obtain ⟨ac, hac⟩ := hc.valid c (by simp)
    have hnext : ac.link_handle = rest.head? ∧
        Chain next_handled_alarm s.heap ac.link_handle rest := by
      obtain ⟨s0, hs0⟩ := Chain.suffix pre hc
      obtain ⟨_, ac', hac', hr⟩ := hs0
      rw [hac] at hac'; cases hac'
      exact ⟨hr.head_eq, hr⟩
    have hcpre : c ∉ pre := fun hm =>
      (List.nodup_append.1 hnd).2.2 hm (List.mem_cons_self _ _)
    have hcrest : c ∉ rest := (List.nodup_cons.1 (List.nodup_append.1 hnd).2.1).1
    have hndr : (pre ++ rest).Nodup :=
      hnd.sublist (List.Sublist.append_left (List.sublist_cons_self c rest) pre)
    cases hflag : ac.flagged with
    | true =>
      have hflag' : (ac.is_replaced || ac.is_cancelled) = true := hflag
      rcases List.eq_nil_or_concat pre with hnil | ⟨pre0, pv, hconcat⟩
      · -- the flagged alarm is the head of the local list
        subst hnil
        simp only [List.nil_append] at hc hnd hndr
        have hhead : s.handle_list_head = some c := hc.1
        let s1 : TickOut :=
          { heap := s.heap.set c (reset_cell ac), handle_list_head := ac.link_handle,
            events := s.events ++ [.stopped ac.msg_num] }
        have hsame : ∀ p, p ≠ c → s1.heap[p]? = s.heap[p]? :=
          fun p hp => List.getElem?_set_ne (Ne.symm hp)
        have hsamer : ∀ p ∈ rest, s1.heap[p]? = s.heap[p]? :=
          fun p hp => hsame p (fun x => hcrest (x ▸ hp))
        have hc1 : Chain next_handled_alarm s1.heap s1.handle_list_head ([] ++ rest) :=
          hnext.2.frame (fun p hp a ha => ⟨a, by rw [hsamer p hp]; exact ha, rfl⟩)
        obtain ⟨s', hrun, hch, hev, hlen', ht2, ht3, ht4⟩ :=
          alarm_handler_loop_spec t rest fuel s1 [] hc1
            (fun p hp a ha => hwt p (List.mem_cons_of_mem _ hp) a (by
              rw [← hsamer p hp]; exact ha))
            (by simpa using hlen)
        refine ⟨s', ?_, ?_, ?_, ?_, ?_, ?_, ?_⟩
        · simp only [alarm_handler_loop, List.head?_cons, deref_some_eq hac, bind, Except.bind,
            hflag', if_true, hhead, deref_some_eq hac]
          rw [← hnext.1] at hrun
          exact hrun
        · rw [kept_cons_flagged hac hflag]
          rw [kept_congr hsamer] at hch
          exact hch
        · rw [hev, tick_events_cons hac, tick_events_congr hsamer]
          simp [alarm_events, hflag, s1]
        · rw [hlen']; simp [s1]
        · intro p hp a ha hf
          rcases List.mem_cons.1 hp with h1 | h1
          · subst h1
            rw [hac] at ha; cases ha
            rw [ht4 p (by simp) hcrest]
            exact getElem?_set_of_some hac
          · exact ht2 p h1 a (by rw [hsamer p h1]; exact ha) hf
        · intro p a ha hcond
          have hpc : p ≠ c := by
            intro x; subst x
            rw [hac] at ha; cases ha
            have := hcond (List.mem_cons_self _ _)
            rw [hflag] at this; cases this
          exact ht3 p a (by rw [hsame p hpc]; exact ha)
            (fun hm => hcond (List.mem_cons_of_mem _ hm))
        · intro p hp1 hp2
          have hpc : p ≠ c := fun x => hp2 (by simp [x])
          rw [ht4 p hp1 (fun hm => hp2 (List.mem_cons_of_mem _ hm)), hsame p hpc]
      · -- the flagged alarm follows the kept alarm `pv`
        subst hconcat
        have hpre : pre0.concat pv = pre0 ++ [pv] := by simp
        rw [hpre] at hc hnd hndr hcpre ⊢
        have hc' : Chain next_handled_alarm s.heap s.handle_list_head
            (pre0 ++ pv :: c :: rest) := by simpa using hc
        have hnd' : (pre0 ++ pv :: c :: rest).Nodup := by simpa using hnd
        obtain ⟨apv, hpv⟩ := hc'.valid pv (by simp)
        have hpvc : pv ≠ c := fun x => hcpre (by simp [x])
        have hheadne : ¬ some c = s.handle_list_head := by
          intro x
          have := hc'.head_eq
          rw [← x] at this
          cases pre0 with
          | nil => simp at this; exact hpvc this.symm
          | cons y pre1 =>
            simp at this
            exact hcpre (by simp [this])
        let h1 : Heap := s.heap.set pv { apv with link_handle := ac.link_handle }
        let h2 : Heap := h1.set c (reset_cell ac)
        let s1 : TickOut :=
          { heap := h2, handle_list_head := s.handle_list_head,
            events := s.events ++ [.stopped ac.msg_num] }
        have h1c : h1[c]? = some ac := by
          show (s.heap.set pv _)[c]? = some ac
          rw [List.getElem?_set_ne hpvc]; exact hac
        have h2pv : h2[pv]? = some { apv with link_handle := ac.link_handle } := by
          show ((s.heap.set pv _).set c _)[pv]? = _
          rw [List.getElem?_set_ne (Ne.symm hpvc)]; exact getElem?_set_of_some hpv
        have h2c : h2[c]? = some (reset_cell ac) := getElem?_set_of_some h1c
        have hsame : ∀ p, p ≠ c → p ≠ pv → h2[p]? = s.heap[p]? := by
          intro p hp1 hp2
          show ((s.heap.set pv _).set c _)[p]? = _
          rw [List.getElem?_set_ne (Ne.symm hp1), List.getElem?_set_ne (Ne.symm hp2)]
        have hpvrest : pv ∉ rest := by
          intro hm
          have := (List.nodup_append.1 hndr).2.2 (List.mem_append_right pre0
            (List.mem_singleton_self pv)) hm
          exact this
        have hsamer : ∀ p ∈ rest, h2[p]? = s.heap[p]? :=
          fun p hp => hsame p (fun x => hcrest (x ▸ hp)) (fun x => hpvrest (x ▸ hp))
        have hc1 : Chain next_handled_alarm s1.heap s1.handle_list_head
            ((pre0 ++ [pv]) ++ rest) := by
          have := Chain.unlink_field handledField (reset_cell ac) hac hpv pre0
            s.handle_list_head hc' hnd'
          simpa using this
        obtain ⟨s', hrun, hch, hev, hlen', ht2, ht3, ht4⟩ :=
          alarm_handler_loop_spec t rest fuel s1 (pre0 ++ [pv]) hc1
            (fun p hp a ha => hwt p (List.mem_cons_of_mem _ hp) a (by
              rw [← hsamer p hp]; exact ha))
            (by simpa using hlen)
        have hlast : (pre0 ++ [pv]).getLast? = some pv := by simp
        refine ⟨s', ?_, ?_, ?_, ?_, ?_, ?_, ?_⟩
        · rw [hlast] at hrun ⊢
          simp only [alarm_handler_loop, List.head?_cons, deref_some_eq hac, bind, Except.bind,
            hflag', if_true, hheadne, if_false, deref_some_eq hpv, Option.getD_some]
          have e1 : deref (s.heap.set pv { apv with link_handle := ac.link_handle }) (some c)
              = .ok ac := deref_some_eq h1c
          rw [e1]
          simp only []
          have e2 : deref ((s.heap.set pv { apv with link_handle := ac.link_handle }).set c
              { ac with link_handle := none, is_assigned := false, handler_id := none })
              (some pv) = .ok { apv with link_handle := ac.link_handle } := deref_some_eq h2pv
          rw [e2]
          simp only []
          rw [← hnext.1] at hrun
          exact hrun
        · rw [kept_cons_flagged hac hflag]
          rw [kept_congr hsamer] at hch
          exact hch
        · rw [hev, tick_events_cons hac, tick_events_congr hsamer]
          simp [alarm_events, hflag, s1]
        · rw [hlen']; simp [s1, h2, h1]
        · intro p hp a ha hf
          rcases List.mem_cons.1 hp with hpc | hpr
          · subst hpc
            rw [hac] at ha; cases ha
            rw [ht4 p hcpre hcrest]
            exact h2c
          · exact ht2 p hpr a (by rw [hsamer p hpr]; exact ha) hf
        · intro p a ha hcond
          have hpc : p ≠ c := by
            intro x; subst x
            rw [hac] at ha; cases ha
            have := hcond (List.mem_cons_self _ _)
            rw [hflag] at this; cases this
          by_cases hppv : p = pv
          · subst hppv
            rw [hpv] at ha; cases ha
            obtain ⟨v, hv⟩ := ht3 p _ h2pv (fun hm => absurd hm hpvrest)
            exact ⟨v, hv⟩
          · exact ht3 p a (by rw [hsame p hpc hppv]; exact ha)
              (fun hm => hcond (List.mem_cons_of_mem _ hm))
        · intro p hp1 hp2
          have hpc : p ≠ c := fun x => hp2 (by simp [x])
          have hppv : p ≠ pv := fun x => hp1 (by simp [x])
          rw [ht4 p hp1 (fun hm => hp2 (List.mem_cons_of_mem _ hm)), hsame p hpc hppv]
    | false =>
      have hflag' : ¬ (ac.is_replaced || ac.is_cancelled) = true := by
        have : (ac.is_replaced || ac.is_cancelled) = false := hflag
        rw [this]; simp
      have hw : ¬ ac.wait_time = 0 :=
        Nat.pos_iff_ne_zero.1 (hwt c (List.mem_cons_self _ _) ac hac hflag)
      let s1 : TickOut :=
        { s with events := s.events ++
            (if t % ac.wait_time = 0 then [Event.printed ac.msg_num ac.msg] else []) }
      have hc1 : Chain next_handled_alarm s1.heap s1.handle_list_head
          ((pre ++ [c]) ++ rest) := by simpa using hc
      obtain ⟨s', hrun, hch, hev, hlen', ht2, ht3, ht4⟩ :=
        alarm_handler_loop_spec t rest fuel s1 (pre ++ [c]) hc1
          (fun p hp a ha => hwt p (List.mem_cons_of_mem _ hp) a ha)
          (by simpa using hlen)
      have hlast : (pre ++ [c]).getLast? = some c := by simp
      refine ⟨s', ?_, ?_, ?_, ?_, ?_, ?_, ?_⟩
      · rw [hlast] at hrun
        simp only [alarm_handler_loop, List.head?_cons, deref_some_eq hac, bind, Except.bind,
          hflag', if_false, hw]
        rw [← hnext.1] at hrun
        exact hrun
      · rw [kept_cons_unflagged hac hflag]
        have : kept s1.heap rest = kept s.heap rest := rfl
        rw [this] at hch
        simpa using hch
      · rw [hev, tick_events_cons hac]
        have : tick_events s1.heap t rest = tick_events s.heap t rest := rfl
        rw [this]
        simp [alarm_events, hflag, s1]
      · exact hlen'
      · intro p hp a ha hf
        rcases List.mem_cons.1 hp with hpc | hpr
        · subst hpc
          rw [hac] at ha; cases ha
          rw [hflag] at hf; cases hf
        · exact ht2 p hpr a ha hf
      · intro p a ha hcond
        exact ht3 p a ha (fun hm => hcond (List.mem_cons_of_mem _ hm))
      · intro p hp1 hp2
        exact ht4 p (by
          intro hm
          rcases List.mem_append.1 hm with h1 | h1
          · exact hp1 h1
          · simp at h1; exact hp2 (by simp [h1]))
          (fun hm => hp2 (List.mem_cons_of_mem _ hm))

theorem Chain.of_handled_list {h : Heap} {head : Option Nat} {ys : List Nat}
    (hl : handled_list h head = some ys) : Chain next_handled_alarm h head ys :=
  Chain.of_walk h.length hl

theorem Chain.handled_list_eq {h : Heap} {head : Option Nat} {ys : List Nat}
    (hc : Chain next_handled_alarm h head ys) : handled_list h head = some ys :=
  hc.walk_eq h.length (hc.length_le hc.no_repeat)

/-- One iteration of the `while (true)` loop on a well-formed local list. -/
theorem alarm_handler_tick_spec {h : Heap} {w : Worker} {ys : List Nat}
    (hl : handled_list h w.handle_list_head = some ys)
    (hwt : ∀ p ∈ ys, ∀ a, h[p]? = some a → a.flagged = false → 0 < a.wait_time) :
    ∃ s : TickOut,
      alarm_handler_tick h w = .ok
        { heap := s.heap,
          worker := { w with handle_list_head := s.handle_list_head,
                             time_since_create := (w.time_since_create + 1) % 2 ^ 64 },
          events := s.events, exited := decide (s.handle_list_head = none) } ∧
      Chain next_handled_alarm s.heap s.handle_list_head (kept h ys) ∧
      s.events = tick_events h ((w.time_since_create + 1) % 2 ^ 64) ys ∧
      (∀ p ∈ ys, ∀ a, h[p]? = some a → a.flagged = true → s.heap[p]? = some (reset_cell a)) ∧
      (∀ p a, h[p]? = some a → (p ∈ ys → a.flagged = false) →
        ∃ v : Option Nat, s.heap[p]? = some { a with link_handle := v }) ∧
      (∀ p, p ∉ ys → s.heap[p]? = h[p]?) := by
  have hc := Chain.of_handled_list hl
  obtain ⟨s, hrun, hch, hev, _, ht2, ht3, ht4⟩ :=
    alarm_handler_loop_spec ((w.time_since_create + 1) % 2 ^ 64) ys h.length
      { heap := h, handle_list_head := w.handle_list_head, events := [] } [] hc hwt
      (hc.length_le hc.no_repeat)
  refine ⟨s, ?_, by simpa using hch, by simpa using hev, ht2, ht3, fun p hp => ht4 p (by simp) hp⟩
  have hhead : w.handle_list_head = ys.head? := hc.head_eq
  simp only [List.getLast?_nil] at hrun
  rw [← hhead] at hrun
  simp only [alarm_handler_tick, bind, Except.bind, pure, Except.pure]
  rw [hrun]

/-- C8: one tick of an alarm handler on its local list `ys` (whose unflagged
alarms have a positive `wait_time`).  The local list becomes the unflagged
cells of `ys` in their old order.  Every flagged cell has `link_handle`
cleared, `is_assigned` false and `handler_id` `NULL`, its other fields
unchanged; an unflagged cell changes at most in `link_handle`; cells outside
`ys` are unchanged.  The events written are, in list order, "stopped" for a
flagged alarm (never "printed"), and for an unflagged alarm "printed" exactly
when `time_since_create % wait_time = 0` with the incremented counter. -/
theorem C8_tick_detaches_flagged_and_prints_due (h : Heap) (w : Worker) (ys : List Nat)
    (hl : handled_list h w.handle_list_head = some ys)
    (hwt : ∀ p ∈ ys, ∀ a, h[p]? = some a → a.flagged = false → 0 < a.wait_time) :
    ∃ it, alarm_handler_tick h w = .ok it ∧
      it.worker.time_since_create = (w.time_since_create + 1) % 2 ^ 64 ∧
      handled_list it.heap it.worker.handle_list_head
        = some (ys.filter (fun p => match h[p]? with
            | some a => !(a.is_replaced || a.is_cancelled)
            | none => false)) ∧
      (∀ p ∈ ys, ∀ a, h[p]? = some a → (a.is_replaced || a.is_cancelled) = true →
        it.heap[p]? = some { a with link_handle := none, is_assigned := false,
                                    handler_id := none }) ∧
      (∀ p ∈ ys, ∀ a, h[p]? = some a → (a.is_replaced || a.is_cancelled) = false →
        ∃ v, it.heap[p]? = some { a with link_handle := v }) ∧
      (∀ p, p ∉ ys → it.heap[p]? = h[p]?) ∧
      it.events = ys.flatMap (fun p => match h[p]? with
        | some a =>
          if a.is_replaced || a.is_cancelled then [Event.stopped a.msg_num]
          else if it.worker.time_since_create % a.wait_time = 0 then
            [Event.printed a.msg_num a.msg]
          else []
        | none => []) := by
  obtain ⟨s, hrun, hch, hev, ht2, ht3, ht4⟩ := alarm_handler_tick_spec hl hwt
  refine ⟨_, hrun, rfl, hch.handled_list_eq, ht2, ?_, ht4, hev⟩
  intro p _ a ha hf
  exact ht3 p a ha (fun _ => hf)

/-- C10: an alarm handler exits at the end of a tick exactly when its local
list is empty after the processing of that tick, which is exactly when every
alarm of the list was flagged; otherwise the local list is non-empty and the
thread goes on to the next tick. -/
theorem C10_exit_iff_local_list_empty (h : Heap) (w : Worker) (ys : List Nat)
    (hl : handled_list h w.handle_list_head = some ys)
    (hwt : ∀ p ∈ ys, ∀ a, h[p]? = some a → a.flagged = false → 0 < a.wait_time) :
    ∃ it, alarm_handler_tick h w = .ok it ∧
      (it.exited = true ↔ handled_list it.heap it.worker.handle_list_head = some []) ∧
      (it.exited = false ↔
        ∃ p ps, handled_list it.heap it.worker.handle_list_head = some (p :: ps)) ∧
      (it.exited = true ↔ ∀ p ∈ ys, ∀ a, h[p]? = some a → a.flagged = true) := by
  obtain ⟨s, hrun, hch, _, _, _, _⟩ := alarm_handler_tick_spec hl hwt
  have hlist := hch.handled_list_eq
  have hiff : s.handle_list_head = none ↔ kept h ys = [] := by
    constructor
    · intro hn
      have := hch.head_eq
      rw [hn] at this
      cases hk : kept h ys with
      | nil => rfl
      | cons q qs => rw [hk] at this; simp at this
    · intro hk
      rw [hk] at hch
      exact hch
  have hall : kept h ys = [] ↔ ∀ p ∈ ys, ∀ a, h[p]? = some a → a.flagged = true := by
    have hv := (Chain.of_handled_list hl).valid
    unfold kept
    rw [List.filter_eq_nil_iff]
    constructor
    · intro hx p hp a ha
      have := hx p hp
      simp only [ha] at this
      cases hf : a.flagged
      · simp [hf] at this
      · rfl
    · intro hx p hp
      obtain ⟨a, ha⟩ := hv p hp
      simp [ha, hx p hp a ha]
  refine ⟨_, hrun, ?_, ?_, ?_⟩
  · show decide (s.handle_list_head = none) = true ↔
      handled_list s.heap s.handle_list_head = some []
    constructor
    · intro hx
      rw [hlist, hiff.1 (of_decide_eq_true hx)]
    · intro hx
      rw [hlist] at hx
      exact decide_eq_true (hiff.2 (Option.some.inj hx))
  · show decide (s.handle_list_head = none) = false ↔
      ∃ p ps, handled_list s.heap s.handle_list_head = some (p :: ps)
    constructor
    · intro hx
      have hk : ¬ kept h ys = [] := fun hk => of_decide_eq_false hx (hiff.2 hk)
      cases hkk : kept h ys with
      | nil => exact absurd hkk hk
      | cons q qs => exact ⟨q, qs, by rw [← hkk]; exact hlist⟩
    · rintro ⟨q, qs, hx⟩
      refine decide_eq_false ?_
      intro hn
      rw [hlist, hiff.1 hn] at hx
      cases hx
  · show decide (s.handle_list_head = none) = true ↔ _
    constructor
    · intro hx
      exact hall.1 (hiff.1 (of_decide_eq_true hx))
    · intro hx
      exact decide_eq_true (hiff.2 (hall.2 hx))

/-! ## C9: an unflagged alarm is printed every `wait_time` ticks -/

theorem count_alarm_events_other {t : Nat} {a c : Alarm} (hne : c.msg_num ≠ a.msg_num) :
    (alarm_events t c).count (Event.printed a.msg_num a.msg) = 0 := by
  unfold alarm_events
  split
  · simp
  · split
    · rw [List.count_singleton]
      have : ¬ (Event.printed c.msg_num c.msg = Event.printed a.msg_num a.msg) := by
        intro hx; injection hx with h1 _; exact hne h1
      simp [this]
    · simp

theorem count_alarm_events_self {t : Nat} {a b : Alarm} (hf : b.flagged = false)
    (hw : b.wait_time = a.wait_time) (hn : b.msg_num = a.msg_num) (hm : b.msg = a.msg) :
    (alarm_events t b).count (Event.printed a.msg_num a.msg)
      = if t % a.wait_time = 0 then 1 else 0 := by
  unfold alarm_events
  rw [hf, hw, hn, hm]
  simp only [Bool.false_eq_true, if_false]
  split <;> simp

theorem count_tick_events_none {h : Heap} {t : Nat} {a : Alarm} :
    ∀ {ps : List Nat}, (∀ q ∈ ps, key h q ≠ a.msg_num) →
      (tick_events h t ps).count (Event.printed a.msg_num a.msg) = 0
  | [], _ => by simp [tick_events]
  | q :: qs, hq => by
    have ih := count_tick_events_none (h := h) (t := t) (a := a)
      (fun r hr => hq r (List.mem_cons_of_mem _ hr))
    cases hc : h[q]? with
    | none =>
      have : tick_events h t (q :: qs) = tick_events h t qs := by
        simp [tick_events, List.flatMap_cons, hc]
      rw [this]; exact ih
    | some c =>
      rw [tick_events_cons hc, List.count_append, ih]
      have := hq q (List.mem_cons_self _ _)
      rw [key_of_some hc] at this
      rw [count_alarm_events_other this]

/-- In the events of a tick, the message of an unflagged alarm of the local
list occurs once when the tick count is a multiple of its `wait_time`, and
not at all otherwise. -/
theorem count_tick_events {h : Heap} {t p : Nat} {a b : Alarm} (hb : h[p]? = some b)
    (hf : b.flagged = false) (hw : b.wait_time = a.wait_time) (hn : b.msg_num = a.msg_num)
    (hm : b.msg = a.msg) :
    ∀ {ps : List Nat}, p ∈ ps → (ps.map (key h)).Nodup →
      (tick_events h t ps).count (Event.printed a.msg_num a.msg)
        = if t % a.wait_time = 0 then 1 else 0
  | [], hp, _ => by simp at hp
  | q :: qs, hp, hnd => by
    have hnd' := List.nodup_cons.1 hnd
    by_cases hqp : q = p
    · subst hqp
      have hnone : ∀ r ∈ qs, key h r ≠ a.msg_num := by
        intro r hr hk
        apply hnd'.1
        rw [key_of_some hb, hn, ← hk]
        exact List.mem_map_of_mem _ hr
      rw [tick_events_cons hb, List.count_append, count_tick_events_none hnone,
        count_alarm_events_self hf hw hn hm]
      simp
    · have hpq : p ∈ qs := by
        rcases List.mem_cons.1 hp with h1 | h1
        · exact absurd h1.symm hqp
        · exact h1
      have ih := count_tick_events (t := t) hb hf hw hn hm hpq hnd'.2
      have hkq : key h q ≠ a.msg_num := by
        intro hk
        apply hnd'.1
        rw [hk, ← hn, ← key_of_some hb]
        exact List.mem_map_of_mem _ hpq
      cases hc : h[q]? with
      | none =>
        have : tick_events h t (q :: qs) = tick_events h t qs := by
          simp [tick_events, List.flatMap_cons, hc]
        rw [this]; exact ih
      | some c =>
        rw [key_of_some hc] at hkq
        rw [tick_events_cons hc, List.count_append, ih, count_alarm_events_other hkq]
        simp

/-- The number of `i < n` with `(i + 1) % w = 0` is `n / w`. -/
theorem sum_multiples (w : Nat) : ∀ n : Nat,
    ((List.range n).map (fun i => if (i + 1) % w = 0 then 1 else 0)).sum = n / w
  | 0 => by simp
  | n + 1 => by
    rw [List.range_succ, List.map_append, List.sum_append, sum_multiples w n, Nat.succ_div]
    simp [Nat.dvd_iff_mod_eq_zero]

/-- A tick of a thread that handles the unflagged alarm `a`: the thread does
not exit and still handles `a`, and the message of `a` is written once or not
at all, according to the incremented counter. -/
theorem tick_handles {p : Nat} {a : Alarm} {h : Heap} {w : Worker} (hh : Handles p a h w) :
    ∃ it, alarm_handler_tick h w = .ok it ∧ it.exited = false ∧
      Handles p a it.heap it.worker ∧
      it.worker.time_since_create = (w.time_since_create + 1) % 2 ^ 64 ∧
      it.events.count (Event.printed a.msg_num a.msg)
        = if ((w.time_since_create + 1) % 2 ^ 64) % a.wait_time = 0 then 1 else 0 := by
  obtain ⟨ys, b, hl, hp, hnd, hwt, hb, hf, hw, hn, hm⟩ := hh
  obtain ⟨s, hrun, hch, hev, _, ht3, _⟩ := alarm_handler_tick_spec hl hwt
  have hvalid := (Chain.of_handled_list hl).valid
  have hkept : ∀ q, q ∈ kept h ys ↔ q ∈ ys ∧ ∃ c, h[q]? = some c ∧ c.flagged = false := by
    intro q
    unfold kept
    rw [List.mem_filter]
    constructor
    · rintro ⟨hq, hx⟩
      obtain ⟨c, hc⟩ := hvalid q hq
      refine ⟨hq, c, hc, ?_⟩
      simp only [hc] at hx
      cases hcf : c.flagged
      · rfl
      · simp [hcf] at hx
    · rintro ⟨hq, c, hc, hcf⟩
      exact ⟨hq, by simp [hc, hcf]⟩
  have hpk : p ∈ kept h ys := (hkept p).2 ⟨hp, b, hb, hf⟩
  have hcell : ∀ q ∈ kept h ys, ∀ c, h[q]? = some c →
      ∃ v : Option Nat, s.heap[q]? = some { c with link_handle := v } := by
    intro q hq c hc
    obtain ⟨_, c', hc', hcf⟩ := (hkept q).1 hq
    rw [hc] at hc'; cases hc'
    exact ht3 q c hc (fun _ => hcf)
  have hkeys : ∀ q ∈ kept h ys, key s.heap q = key h q := by
    intro q hq
    obtain ⟨c, hc⟩ := hvalid q ((hkept q).1 hq).1
    obtain ⟨v, hv⟩ := hcell q hq c hc
    rw [key_of_some hv, key_of_some hc]
  have hne : s.handle_list_head ≠ none := by
    intro hx
    have := hch.head_eq
    rw [hx] at this
    cases hk : kept h ys with
    | nil => rw [hk] at hpk; simp at hpk
    | cons q qs => rw [hk] at this; simp at this
  obtain ⟨vp, hvp⟩ := hcell p hpk b hb
  refine ⟨_, hrun, decide_eq_false hne, ?_, rfl, ?_⟩
  · refine ⟨kept h ys, { b with link_handle := vp }, hch.handled_list_eq, hpk, ?_, ?_, hvp, hf,
      hw, hn, hm⟩
    · have h1 : (kept h ys).map (key s.heap) = (kept h ys).map (key h) :=
        List.map_congr_left hkeys
      show ((kept h ys).map (key s.heap)).Nodup
      rw [h1]
      exact hnd.sublist ((List.filter_sublist _).map _)
    · intro q hq c' hc' hcf'
      obtain ⟨hqy, c, hc, hcf⟩ := (hkept q).1 hq
      obtain ⟨v, hv⟩ := hcell q hq c hc
      have : c' = { c with link_handle := v } := by
        have hx : s.heap[q]? = some c' := hc'
        rw [hv] at hx; exact (Option.some.inj hx).symm
      subst this
      exact hwt q hqy c hc hcf
  · show s.events.count _ = _
    rw [hev]
    exact count_tick_events hb hf hw hn hm hp hnd

/-- A run of a thread that handles the unflagged alarm `a`, from iteration `i`. -/
theorem run_handles {p : Nat} {a : Alarm} (env : Nat → Heap → Heap)
    (henv : ∀ i h w, Handles p a h w → Handles p a (env i h) w) :
    ∀ (n i : Nat) (h : Heap) (w : Worker), Handles p a h w → w.time_since_create = i →
      i + n < 2 ^ 64 →
      ∃ evs, alarm_handler_run env n i h w = .ok evs ∧
        evs.map (fun e => e.count (Event.printed a.msg_num a.msg))
          = (List.range n).map (fun j => if (i + j + 1) % a.wait_time = 0 then 1 else 0)
  | 0, _, _, _, _, _, _ => ⟨[], rfl, rfl⟩
  | n + 1, i, h, w, hh, hi, hlt => by
    obtain ⟨it, hrun, hex, hh', htime, hcnt⟩ := tick_handles (henv i h w hh)
    have hmod : (w.time_since_create + 1) % 2 ^ 64 = i + 1 := by
      rw [hi]; exact Nat.mod_eq_of_lt (by omega)
    rw [hmod] at htime hcnt
    obtain ⟨evs, hrest, hmap⟩ := run_handles env henv n (i + 1) it.heap it.worker hh' htime
      (by omega)
    refine ⟨it.events :: evs, ?_, ?_⟩
    · simp [alarm_handler_run, hrun, hex, hrest, bind, Except.bind, pure, Except.pure]
    · rw [List.map_cons, hcnt, hmap, List.range_succ_eq_map, List.map_cons, List.map_map]
      congr 1
      refine List.map_congr_left ?_
      intro j _
      simp only [Function.comp, Nat.succ_eq_add_one]
      have : i + 1 + j + 1 = i + (j + 1) + 1 := by omega
      rw [this]

/-- C9: let a thread, just created (`time_since_create = 0`), handle an alarm
`a` with `wait_time >= 1` in cell `p`, and let the other threads act on the
heap between the ticks in any way that leaves `a` unflagged in the local list
of the thread.  Then for every `T < 2 ^ 64` the first `T` ticks run without
fault (no division by zero); the message of `a` is written once at tick
`j + 1` when `(j + 1) % wait_time = 0` and not at all otherwise, hence
`T / wait_time` times in total. -/
theorem C9_printed_every_wait_time_ticks (env : Nat → Heap → Heap) (p : Nat) (a : Alarm)
    (h : Heap) (w : Worker) (T : Nat) (hh : Handles p a h w)
    (henv : ∀ i h w, Handles p a h w → Handles p a (env i h) w)
    (h0 : w.time_since_create = 0) (hT : T < 2 ^ 64) :
    0 < a.wait_time ∧
    ∃ evs, alarm_handler_run env T 0 h w = .ok evs ∧ evs.length = T ∧
      (∀ j, j < T → ∃ e, evs[j]? = some e ∧
        e.count (Event.printed a.msg_num a.msg) = if (j + 1) % a.wait_time = 0 then 1 else 0) ∧
      (evs.map (fun e => e.count (Event.printed a.msg_num a.msg))).sum = T / a.wait_time := by
  have hpos : 0 < a.wait_time := by
    obtain ⟨ys, b, _, hp, _, hwt, hb, hf, hw, _, _⟩ := hh
    rw [← hw]; exact hwt p hp b hb hf
  obtain ⟨evs, hrun, hmap⟩ := run_handles env henv T 0 h w hh h0 (by omega)
  simp only [Nat.zero_add] at hmap
  have hlen : evs.length = T := by
    have := congrArg List.length hmap
    simpa using this
  refine ⟨hpos, evs, hrun, hlen, ?_, ?_⟩
  · intro j hj
    have h1 := congrArg (fun l => l[j]?) hmap
    simp only [List.getElem?_map] at h1
    have h2 : (List.range T)[j]? = some j := by
      rw [List.getElem?_range hj]
    rw [h2] at h1
    cases he : evs[j]? with
    | none => rw [he] at h1; simp at h1
    | some e =>
      rw [he] at h1
      simp only [Option.map_some'] at h1
      exact ⟨e, rfl, Option.some.inj h1⟩
  · rw [hmap]
    exact sum_multiples a.wait_time T

/-! ## Witnesses for the alarm handler theorems -/

/-- In the second tick of thread 1 the cancelled alarm 2 is detached and the
alarm 1 (`wait_time` 2) is printed. -/
theorem C8_tick_detaches_flagged_and_prints_due_witness :
    ∃ it, alarm_handler_tick ex_heap_tick ex_worker_one = .ok it ∧
      it.worker.time_since_create = 2 ∧
      handled_list it.heap it.worker.handle_list_head = some [0] ∧
      it.events = [Event.printed 1 "x", Event.stopped 2] := by
  obtain ⟨it, h1, h2, h3, _, _, _, h7⟩ :=
    C8_tick_detaches_flagged_and_prints_due ex_heap_tick ex_worker_one [0, 1] (by decide)
      (by decide)
  refine ⟨it, h1, h2, h3, ?_⟩
  rw [h7, h2]
  decide

/-- Five ticks of thread 1 print the alarm with `wait_time` 2 at the ticks 2
and 4. -/
theorem C9_printed_every_wait_time_ticks_witness :
    ∃ evs, alarm_handler_run (fun _ h => h) 5 0 ex_heap_run ex_worker = .ok evs ∧
      evs.length = 5 ∧
      (evs.map (fun e => e.count (Event.printed 1 "x"))).sum = 2 := by
  obtain ⟨_, evs, h1, h2, _, h4⟩ :=
    C9_printed_every_wait_time_ticks (fun _ h => h) 0
      { link := some 1, link_handle := some 1, wait_time := 2, msg_type := 1, msg_num := 1,
        msg := "x", is_assigned := true, handler_id := some 1, is_replaced := false,
        is_cancelled := false }
      ex_heap_run ex_worker 5
      ⟨[0, 1], _, by decide, by decide, by decide, by decide, rfl, rfl, rfl, rfl, rfl⟩
      (fun _ _ _ hx => hx) rfl (by decide)
  exact ⟨evs, h1, h2, h4⟩

/-- A thread whose only alarm is marked replaced exits at the end of the tick. -/
theorem C10_exit_iff_local_list_empty_witness :
    ∃ it, alarm_handler_tick ex_heap_last ex_worker = .ok it ∧ it.exited = true ∧
      handled_list it.heap it.worker.handle_list_head = some [] := by
  obtain ⟨it, h1, h2, _, h4⟩ :=
    C10_exit_iff_local_list_empty ex_heap_last ex_worker [0] (by decide) (by decide)
  have hex : it.exited = true := h4.2 (by decide)
  exact ⟨it, h1, hex, h2.1 hex⟩

/-! ## C14: a schedule submission overwrites a pending command or appends -/

theorem main_type_A_overwrite_none (c : CmdA) : ∀ (l : List CmdA),
    (∀ x ∈ l, x.msg_num ≠ c.msg_num) → main_type_A_overwrite c l = none
  | [], _ => rfl
  | x :: xs, hx => by
    have h1 : x.msg_num ≠ c.msg_num := hx x (List.mem_cons_self _ _)
    simp [main_type_A_overwrite, h1,
      main_type_A_overwrite_none c xs (fun y hy => hx y (List.mem_cons_of_mem _ hy))]

theorem main_type_A_overwrite_some (c : CmdA) : ∀ (l : List CmdA),
    (l.map CmdA.msg_num).Nodup → (∃ x ∈ l, x.msg_num = c.msg_num) →
    main_type_A_overwrite c l = some (l.map (fun x =>
      if x.msg_num = c.msg_num then
        { x with wait_time := c.wait_time, msg_type := c.msg_type, msg := c.msg }
      else x))
  | [], _, hx => by simp at hx
  | x :: xs, hnd, hx => by
    have hnd' : x.msg_num ∉ xs.map CmdA.msg_num ∧ (xs.map CmdA.msg_num).Nodup :=
      List.nodup_cons.1 hnd
    by_cases h1 : x.msg_num = c.msg_num
    · have hrest : ∀ y ∈ xs, ¬ y.msg_num = c.msg_num := by
        intro y hy hyc
        exact hnd'.1 (List.mem_map.2 ⟨y, hy, by rw [hyc, h1]⟩)
      have hmap : xs.map (fun x =>
          if x.msg_num = c.msg_num then
            { x with wait_time := c.wait_time, msg_type := c.msg_type, msg := c.msg }
          else x) = xs := by
        conv_rhs => rw [← List.map_id xs]
        exact List.map_congr_left (fun y hy => by simp [hrest y hy])
      simp [main_type_A_overwrite, h1, hmap]
    · have hx' : ∃ y ∈ xs, y.msg_num = c.msg_num := by
        obtain ⟨y, hy, hyc⟩ := hx
        rcases List.mem_cons.1 hy with rfl | hy
        · exact absurd hyc h1
        · exact ⟨y, hy, hyc⟩
      simp [main_type_A_overwrite, h1, main_type_A_overwrite_some c xs hnd'.2 hx']

/-- C14: a schedule submission with key `c.msg_num` on a pending type A list
with pairwise distinct keys.  When a pending command has the key, that command
(and no other) receives the new `wait_time`, `msg_type` and message in place:
the list keeps its length and the order of its keys.  When no pending command
has the key, the command is appended at the tail.  In both cases the keys of
the pending list stay pairwise distinct, and nothing but the type A list
changes. -/
theorem C14_schedule_submission_overwrites_or_appends (st : State) (c : CmdA)
    (hd : (st.cmda_list.map CmdA.msg_num).Nodup) :
    ((∃ x ∈ st.cmda_list, x.msg_num = c.msg_num) →
      (main_type_A st c).cmda_list = st.cmda_list.map (fun x =>
          if x.msg_num = c.msg_num then
            { x with wait_time := c.wait_time, msg_type := c.msg_type, msg := c.msg }
          else x) ∧
      (main_type_A st c).cmda_list.length = st.cmda_list.length ∧
      (main_type_A st c).cmda_list.map CmdA.msg_num = st.cmda_list.map CmdA.msg_num) ∧
    ((∀ x ∈ st.cmda_list, x.msg_num ≠ c.msg_num) →
      (main_type_A st c).cmda_list = st.cmda_list ++ [c]) ∧
    ((main_type_A st c).cmda_list.map CmdA.msg_num).Nodup ∧
    main_type_A st c = { st with cmda_list := (main_type_A st c).cmda_list } := by
  have hkeys : (st.cmda_list.map (fun x =>
      if x.msg_num = c.msg_num then
        { x with wait_time := c.wait_time, msg_type := c.msg_type, msg := c.msg }
      else x)).map CmdA.msg_num = st.cmda_list.map CmdA.msg_num := by
    rw [List.map_map]
    refine List.map_congr_left (fun x _ => ?_)
    by_cases hx : x.msg_num = c.msg_num <;> simp [hx]
  by_cases hex : ∃ x ∈ st.cmda_list, x.msg_num = c.msg_num
  · have hrun := main_type_A_overwrite_some c st.cmda_list hd hex
    have hres : (main_type_A st c).cmda_list = st.cmda_list.map (fun x =>
        if x.msg_num = c.msg_num then
          { x with wait_time := c.wait_time, msg_type := c.msg_type, msg := c.msg }
        else x) := by
      simp [main_type_A, hrun]
    refine ⟨fun _ => ⟨hres, by rw [hres, List.length_map], by rw [hres, hkeys]⟩, ?_, ?_, ?_⟩
    · intro hno
      obtain ⟨x, hx, hxc⟩ := hex
      exact absurd hxc (hno x hx)
    · rw [hres, hkeys]; exact hd
    · simp [main_type_A, hrun]
  · have hno : ∀ x ∈ st.cmda_list, x.msg_num ≠ c.msg_num :=
      fun x hx hxc => hex ⟨x, hx, hxc⟩
    have hrun := main_type_A_overwrite_none c st.cmda_list hno
    have hres : (main_type_A st c).cmda_list = st.cmda_list ++ [c] := by
      simp [main_type_A, hrun]
    refine ⟨fun h => absurd h hex, fun _ => hres, ?_, ?_⟩
    · rw [hres, List.map_append]
      refine List.Nodup.append hd (List.nodup_singleton _) ?_
      intro k hk hk'
      simp at hk'
      subst hk'
      obtain ⟨x, hx, hxc⟩ := List.mem_map.1 hk
      exact hno x hx hxc
    · simp [main_type_A, hrun]

/-- C14 at concrete inputs: a second command for key 2 overwrites the pending
one in place, a command for key 3 is appended. -/
theorem C14_schedule_submission_overwrites_or_appends_witness :
    (main_type_A ex_t2 ex_c2_new).cmda_list = [ex_c1, ex_c2_new] ∧
    (main_type_A ex_t2 { ex_c1 with msg_num := 3 }).cmda_list
      = [ex_c1, ex_c2, { ex_c1 with msg_num := 3 }] ∧
    ((main_type_A ex_t2 ex_c2_new).cmda_list.map CmdA.msg_num).Nodup := by
  have h := C14_schedule_submission_overwrites_or_appends ex_t2 ex_c2_new (by decide)
  exact ⟨by decide, by decide, h.2.2.1⟩

/-! ## C15 and C16: start-worker and cancel submissions -/

/-- C15: a start-worker submission for the message type `t`, with the registry
as the main thread read it.  Exactly when some registry alarm or some pending
type A command has type `t` and no type B record of type `t` exists (processed
or not), one unprocessed record is appended at the tail of the type B list and
nothing else changes; in every other case the state is left as it is. -/
theorem C15_start_worker_submission (st : State) (t : Nat) (registry : List Alarm) :
    ((((∃ a ∈ registry, a.msg_type = t) ∨ (∃ x ∈ st.cmda_list, x.msg_type = t)) ∧
        ¬ (∃ r ∈ st.cmdb_done ++ st.cmdb_new, r.msg_type = t)) →
      main_type_B st t registry = { st with cmdb_new := st.cmdb_new ++
          [{ msg_type := t, id := none, is_processed := false }] } ∧
      (main_type_B st t registry).cmdb_done ++ (main_type_B st t registry).cmdb_new
        = (st.cmdb_done ++ st.cmdb_new) ++ [{ msg_type := t, id := none, is_processed := false }]) ∧
    (¬ (((∃ a ∈ registry, a.msg_type = t) ∨ (∃ x ∈ st.cmda_list, x.msg_type = t)) ∧
        ¬ (∃ r ∈ st.cmdb_done ++ st.cmdb_new, r.msg_type = t)) →
      main_type_B st t registry = st) := by
  have hex : (registry.any (fun a => decide (a.msg_type = t)) ||
      st.cmda_list.any (fun x => decide (x.msg_type = t))) = true ↔
      ((∃ a ∈ registry, a.msg_type = t) ∨ (∃ x ∈ st.cmda_list, x.msg_type = t)) := by
    simp [List.any_eq_true]
  have hdup : ((st.cmdb_done ++ st.cmdb_new).any (fun r => decide (r.msg_type = t))) = true ↔
      ∃ r ∈ st.cmdb_done ++ st.cmdb_new, r.msg_type = t := by
    rw [List.any_eq_true]
    constructor
    · rintro ⟨r, hr, hrt⟩
      exact ⟨r, hr, of_decide_eq_true hrt⟩
    · rintro ⟨r, hr, hrt⟩
      exact ⟨r, hr, decide_eq_true hrt⟩
  constructor
  · rintro ⟨h1, h2⟩
    have e1 := hex.2 h1
    have e2 : ((st.cmdb_done ++ st.cmdb_new).any (fun r => decide (r.msg_type = t))) = false := by
      cases hb : (st.cmdb_done ++ st.cmdb_new).any (fun r => decide (r.msg_type = t))
      · rfl
      · exact absurd (hdup.1 hb) h2
    have hrun : main_type_B st t registry = { st with cmdb_new := st.cmdb_new ++
        [{ msg_type := t, id := none, is_processed := false }] } := by
      unfold main_type_B
      simp only [e1, e2, if_true]
      simp
    refine ⟨hrun, ?_⟩
    rw [hrun]
    simp
  · intro hn
    unfold main_type_B
    by_cases h1 : (registry.any (fun a => decide (a.msg_type = t)) ||
        st.cmda_list.any (fun x => decide (x.msg_type = t))) = true
    · have h2 : ∃ r ∈ st.cmdb_done ++ st.cmdb_new, r.msg_type = t := by
        by_contra hc
        exact hn ⟨hex.1 h1, hc⟩
      simp only [h1, hdup.2 h2, if_true]
    · simp only [h1]
      simp

theorem main_lookup_iff (k : Nat) : ∀ (registry : List Alarm),
    (registry.map Alarm.msg_num).Pairwise (fun x y => x < y) →
    (main_lookup k registry = true ↔ ∃ a ∈ registry, a.msg_num = k)
  | [], _ => by simp [main_lookup]
  | a :: rest, hs => by
    have hs' : a.msg_num :: rest.map Alarm.msg_num = (a :: rest).map Alarm.msg_num := rfl
    rw [← hs'] at hs
    obtain ⟨hlt, hrest⟩ := List.pairwise_cons.1 hs
    by_cases h1 : a.msg_num = k
    · simp [main_lookup, h1]
    · by_cases h2 : a.msg_num > k
      · have hnone : ¬ ∃ b ∈ rest, b.msg_num = k := by
          rintro ⟨b, hb, hbk⟩
          have := hlt b.msg_num (List.mem_map_of_mem _ hb)
          omega
        simp only [main_lookup, h1, h2, if_true, if_false, List.mem_cons, exists_eq_or_imp]
        simp [hnone]
      · simp only [main_lookup, h1, h2, if_false, List.mem_cons, exists_eq_or_imp, false_or]
        exact main_lookup_iff k rest hrest

/-- C16: a cancel submission for the key `k`, with the registry as the main
thread read it (strictly ascending by `msg_num`).  Exactly when some registry
alarm or some pending type A command has key `k` and no pending type C command
has key `k`, one command is appended at the tail of the type C list and nothing
else changes; in every other case the state (all command lists and the
registry) is left as it is.  The submission is a total function: there is no
error outcome. -/
theorem C16_cancel_submission (st : State) (k : Nat) (registry : List Alarm)
    (hs : (registry.map Alarm.msg_num).Pairwise (fun x y => x < y)) :
    ((((∃ a ∈ registry, a.msg_num = k) ∨ (∃ x ∈ st.cmda_list, x.msg_num = k)) ∧
        ¬ (∃ x ∈ st.cmdc_list, x.msg_num = k)) →
      main_type_C st k registry
        = { st with cmdc_list := st.cmdc_list ++ [{ msg_num := k }] }) ∧
    (¬ (((∃ a ∈ registry, a.msg_num = k) ∨ (∃ x ∈ st.cmda_list, x.msg_num = k)) ∧
        ¬ (∃ x ∈ st.cmdc_list, x.msg_num = k)) →
      main_type_C st k registry = st) := by
  have hex : (main_lookup k registry ||
      st.cmda_list.any (fun x => decide (x.msg_num = k))) = true ↔
      ((∃ a ∈ registry, a.msg_num = k) ∨ (∃ x ∈ st.cmda_list, x.msg_num = k)) := by
    rw [Bool.or_eq_true, main_lookup_iff k registry hs]
    simp [List.any_eq_true]
  have hdup : (st.cmdc_list.any (fun x => decide (x.msg_num = k))) = true ↔
      ∃ x ∈ st.cmdc_list, x.msg_num = k := by
    simp [List.any_eq_true]
  constructor
  · rintro ⟨h1, h2⟩
    have e1 := hex.2 h1
    have e2 : (st.cmdc_list.any (fun x => decide (x.msg_num = k))) = false := by
      cases hb : st.cmdc_list.any (fun x => decide (x.msg_num = k))
      · rfl
      · exact absurd (hdup.1 hb) h2
    unfold main_type_C
    simp only [e1, e2, if_true]
    simp
  · intro hn
    unfold main_type_C
    by_cases h1 : (main_lookup k registry ||
        st.cmda_list.any (fun x => decide (x.msg_num = k))) = true
    · have h2 : ∃ x ∈ st.cmdc_list, x.msg_num = k := by
        by_contra hc
        exact hn ⟨hex.1 h1, hc⟩
      simp only [h1, hdup.2 h2, if_true]
    · simp only [h1]
      simp

/-- C16 at concrete inputs: with the alarms 1 and 2 in the registry, a cancel
for key 2 is appended, a second one is coalesced, and a cancel for the absent
key 7 changes nothing. -/
theorem C16_cancel_submission_witness :
    (ex_t6.registry.map Alarm.msg_num).Pairwise (fun x y => x < y) ∧
    main_type_C ex_t6 2 ex_t6.registry
      = { ex_t6 with cmdc_list := ex_t6.cmdc_list ++ [{ msg_num := 2 }] } ∧
    main_type_C (main_type_C ex_t6 2 ex_t6.registry) 2 ex_t6.registry
      = main_type_C ex_t6 2 ex_t6.registry ∧
    main_type_C ex_t6 7 ex_t6.registry = ex_t6 :=
  ⟨by decide,
    (C16_cancel_submission ex_t6 2 ex_t6.registry (by decide)).1 ⟨by decide, by decide⟩,
    by decide, by decide⟩

/-! ## C18: replacing an unassigned alarm does not wait -/

/-- C18: `insert_alarm` with `global_list = true` of a new alarm `n` whose key
is that of the unassigned alarm in cell `e` of a well-formed registry.  The
call returns `NULL`; when it enters the handshake block at all (only for an
alarm whose `is_replaced` was already set), the condition `is_assigned` of the
`while` loop is false, so it does not wait: for every state of the rest of the
application, also one without any alarm handler thread, the call completes
without a step of another thread.  The alarm is left with the fields of the
new alarm, `is_replaced` false and `is_assigned` false. -/
theorem C18_replace_of_unassigned_does_not_wait (h : Heap) (head : Option Nat)
    (xs : List Nat) (n e : Nat) (a ae : Alarm) (hl : global_list h head = some xs)
    (hs : ((cells h xs).map Alarm.msg_num).Pairwise (fun x y => x < y))
    (hn : n ∉ xs) (ha : h[n]? = some a) (he : e ∈ xs) (hae : h[e]? = some ae)
    (hk : ae.msg_num = a.msg_num) (hu : ae.is_assigned = false) :
    ∃ out, insert_alarm h head n next_alarm insert_first_alarm insert_after_alarm true
        = .ok out ∧
      out.result = none ∧
      (∀ p, out.wait_on = some p → ∃ b, out.heap[p]? = some b ∧ b.is_assigned = false) ∧
      (ae.is_replaced = false → out.wait_on = none) ∧
      ∀ st : State, ∃ h3,
        insert_alarm_handshake { st with heap := out.heap, alarm_list_head := out.head }
            out.wait_on
          = .ok { st with heap := h3, alarm_list_head := out.head } ∧
        h3[e]? = some { ae with wait_time := a.wait_time, msg_type := a.msg_type,
                                msg := a.msg, is_replaced := false } ∧
        ∀ b, h3[e]? = some b → b.is_replaced = false ∧ b.is_assigned = false := by
  have hc := Chain.of_global_list hl
  have hasc := KeysAscending.of_cells hc hs
  have hrun := insert_alarm_replace hc hasc hn ha he
    (by rw [key_of_some hae, key_of_some ha, hk])
  rw [insert_alarm_replaced_ok hae ha] at hrun
  have hrc : replaced_cell ae a
      = { ae with wait_time := a.wait_time, msg_type := a.msg_type, msg := a.msg } := by
    simp [replaced_cell, hu]
  have hrr : replaced_result ae = none := by simp [replaced_result, hu]
  have hcell : (h.set e (replaced_cell ae a))[e]? = some (replaced_cell ae a) :=
    getElem?_set_of_some hae
  refine ⟨_, hrun, hrr, ?_, ?_, ?_⟩
  · intro p hp
    have hp' : (if (replaced_cell ae a).is_replaced = true then some e else none) = some p := hp
    split at hp'
    · cases hp'
      exact ⟨_, hcell, by rw [hrc]; exact hu⟩
    · cases hp'
  · intro hf
    show (if (replaced_cell ae a).is_replaced = true then some e else none) = none
    rw [hrc]
    simp [hf]
  · intro st
    cases hrep : ae.is_replaced
    · refine ⟨h.set e (replaced_cell ae a), ?_, ?_, ?_⟩
      · have : (replaced_cell ae a).is_replaced = false := by rw [hrc]; exact hrep
        simp [insert_alarm_handshake, this, pure, Except.pure]
      · rw [hcell, hrc]
        congr 1
        cases ae
        simp_all
      · intro b hb
        rw [hcell] at hb
        cases hb
        rw [hrc]
        exact ⟨hrep, hu⟩
    · refine ⟨(h.set e (replaced_cell ae a)).set e
        { replaced_cell ae a with is_replaced := false }, ?_, ?_, ?_⟩
      · have h1 : (replaced_cell ae a).is_replaced = true := by rw [hrc]; exact hrep
        have h2 : (replaced_cell ae a).is_assigned = false := by rw [hrc]; exact hu
        simp [insert_alarm_handshake, h1, handshake, deref_some_eq hcell, h2,
          insert_alarm_resume, bind, Except.bind, pure, Except.pure]
      · rw [getElem?_set_of_some hcell, hrc]
      · intro b hb
        rw [getElem?_set_of_some hcell] at hb
        cases hb
        rw [hrc]
        exact ⟨rfl, hu⟩

/-- C18 at a concrete input: key 5 is scheduled again while its alarm is
unassigned. -/
theorem C18_replace_of_unassigned_does_not_wait_witness :
    ∃ out, insert_alarm ex_heap_two (some 0) 1 next_alarm insert_first_alarm insert_after_alarm
        true = .ok out ∧
      out.result = none ∧ out.wait_on = none ∧
      (out.heap[0]?).map (fun b => (b.is_replaced, b.is_assigned, b.msg)) =
        some (false, false, "world") := by
  obtain ⟨out, hrun, hres, _, hw, _⟩ :=
    C18_replace_of_unassigned_does_not_wait ex_heap_two (some 0) [0] 1 0
      (alarm_of_cmda ex_cmd_second) (alarm_of_cmda ex_cmd_first)
      (by decide) (by decide) (by decide) (by decide) (by decide) (by decide) (by decide)
      (by decide)
  refine ⟨out, hrun, hres, hw (by decide), ?_⟩
  have hout : insert_alarm ex_heap_two (some 0) 1 next_alarm insert_first_alarm
      insert_after_alarm true = .ok
        { heap := ex_heap_two.set 0 (alarm_of_cmda { ex_cmd_second with msg_num := 5 }),
          head := some 0, result := none, wait_on := none } := by decide
  rw [hout] at hrun
  cases hrun
  decide

/-! ## C12: the cleanup routine of a cancelled alarm handler -/

/-- C12, the code at the failing input.  In the reachable state `ex_t6` thread 1
handles the alarms 1 and 2 (local list `[0, 1]`).  When the thread is
cancelled, `cleanup_alarm_handler` runs on the argument pushed at line 98,
which is `NULL`: its loop body is never entered, the heap is unchanged and both
alarms keep `is_assigned` and `handler_id`.  The routine itself, called with
the head of the local list, would detach both alarms. -/
theorem C12_cleanup_runs_on_a_null_list :
    Reachable ex_t6 ∧
    ex_t6.workers.map (fun w => handled_list ex_t6.heap w.handle_list_head) = [some [0, 1]] ∧
    ex_t6.workers.map (fun w => alarm_handler_cancel ex_t6.heap w) = [.ok ex_t6.heap] ∧
    ex_t6.heap.map (fun a => (a.link_handle, a.is_assigned, a.handler_id))
      = [(some 1, true, some 1), (none, true, some 1)] ∧
    ex_t6.workers.map (fun w =>
        (cleanup_alarm_handler ex_t6.heap.length ex_t6.heap w.handle_list_head).map
          (fun h => h.map (fun a => (a.link_handle, a.is_assigned, a.handler_id))))
      = [.ok [(none, false, none), (none, false, none)]] :=
  ⟨ex_t6_reachable, by decide, by decide, by decide, by decide⟩

/-! ## C20: the message of a type A command -/

/-- C20, the code at the failing input.  On the line `1 Message(1, 1)` of 15
chars `sscanf` reads the numbers 1, 1 and 1.  The canonical header
`1 Message(1, 1) ` has 16 chars, and with `msg_start = 16` and
`msg_end = MIN(66, 15) = 15` the copy loop starts at an index above `msg_end`;
its first iteration reads `line[16]`, and so does the extraction as a whole.
The line `1 Message(1, 1) ` of 16 chars is rejected as an empty message, and on
`1 Message(1, 1) x` the message `x` is stored. -/
theorem C20_message_copy_starts_past_the_line :
    ("1 Message(1, 1)".toList).length = 15 ∧
    main_header 1 1 1 = "1 Message(1, 1) ".toList ∧
    (main_header 1 1 1).length = 16 ∧
    min ((16 + MAX_MSG_LEN) % 2 ^ 64) 15 = 15 ∧
    main_type_A_message "1 Message(1, 1)".toList 1 1 1 = .error (.line_read 16) ∧
    main_copy_msg "1 Message(1, 1)".toList 16 15 (2 ^ 64) 16 [] = .error (.line_read 16) ∧
    main_type_A_message "1 Message(1, 1) ".toList 1 1 1 = .ok .empty_message ∧
    main_type_A_message "1 Message(1, 1) x".toList 1 1 1 = .ok (.stored ['x']) :=
  ⟨by decide, by decide, by decide, by decide, by decide, by decide, by decide, by decide⟩

/-! ## C19: the reader/writer lock -/

theorem weight_set {α : Type} (f : α → Nat) (b : α) : ∀ {l : List α} {i : Nat} {a : α},
    l[i]? = some a → weight f (l.set i b) + f a = weight f l + f b
  | [], i, a, h => by simp at h
  | x :: xs, 0, a, h => by
    simp at h; subst h
    simp [weight]; omega
  | x :: xs, i + 1, a, h => by
    have ih := weight_set f b (l := xs) (i := i) (a := a) (by simpa using h)
    simp only [weight, List.set_cons_succ, List.map_cons, List.sum_cons] at ih ⊢
    omega

theorem weight_get {α : Type} (f : α → Nat) : ∀ {l : List α} {i : Nat} {a : α},
    l[i]? = some a → f a ≤ weight f l
  | [], i, a, h => by simp at h
  | x :: xs, 0, a, h => by
    simp at h; subst h
    simp [weight]
  | x :: xs, i + 1, a, h => by
    have ih := weight_get f (l := xs) (i := i) (a := a) (by simpa using h)
    simp only [weight, List.map_cons, List.sum_cons] at ih ⊢
    omega

theorem weight_two {α : Type} (f : α → Nat) : ∀ {l : List α} {i j : Nat} {a b : α},
    i ≠ j → l[i]? = some a → l[j]? = some b → f a + f b ≤ weight f l
  | [], i, j, a, b, _, h, _ => by simp at h
  | x :: xs, 0, 0, a, b, hne, _, _ => absurd rfl hne
  | x :: xs, 0, j + 1, a, b, _, h1, h2 => by
    simp at h1; subst h1
    have := weight_get f (l := xs) (i := j) (a := b) (by simpa using h2)
    simp only [weight, List.map_cons, List.sum_cons] at this ⊢
    omega
  | x :: xs, i + 1, 0, a, b, _, h1, h2 => by
    simp at h2; subst h2
    have := weight_get f (l := xs) (i := i) (a := a) (by simpa using h1)
    simp only [weight, List.map_cons, List.sum_cons] at this ⊢
    omega
  | x :: xs, i + 1, j + 1, a, b, hne, h1, h2 => by
    have := weight_two f (l := xs) (i := i) (j := j) (a := a) (b := b)
      (fun e => hne (by rw [e])) (by simpa using h1) (by simpa using h2)
    simp only [weight, List.map_cons, List.sum_cons] at this ⊢
    omega

theorem weight_le_length {α : Type} (f : α → Nat) (hf : ∀ a, f a ≤ 1) :
    ∀ l : List α, weight f l ≤ l.length
  | [] => by simp [weight]
  | x :: xs => by
    have ih := weight_le_length f hf xs
    have := hf x
    simp only [weight, List.map_cons, List.sum_cons, List.length_cons] at ih ⊢
    omega

theorem weight_replicate {α : Type} (f : α → Nat) (a : α) (n : Nat) :
    weight f (List.replicate n a) = n * f a := by
  induction n with
  | zero => simp [weight]
  | succ n ih =>
    simp only [weight, List.replicate_succ, List.map_cons, List.sum_cons] at ih ⊢
    rw [ih]; ring

theorem census_set {α : Type} [DecidableEq α] {l : List α} {i : Nat} {a : α}
    (h : l[i]? = some a) (b x : α) :
    census (l.set i b) x + (if a = x then 1 else 0) = census l x + (if b = x then 1 else 0) :=
  weight_set (fun a => if a = x then 1 else 0) b h

theorem census_replicate {α : Type} [DecidableEq α] (a x : α) (n : Nat) :
    census (List.replicate n a) x = if a = x then n else 0 := by
  unfold census
  rw [weight_replicate]
  split <;> simp

theorem census_total : ∀ l : List ReaderPc,
    census l .idle + census l .obtain_has_r + census l .obtain_first + census l .obtain_post_r +
      census l .reading + census l .release_has_r + census l .release_last +
      census l .release_post_r = l.length
  | [] => by simp [census, weight]
  | x :: xs => by
    have ih := census_total xs
    simp only [census, weight, List.map_cons, List.sum_cons, List.length_cons] at ih ⊢
    cases x <;> simp only [reduceCtorEq, if_true, if_false] <;> omega

theorem lockInv_init (nr nw : Nat) (hn : nr < 2 ^ 64) : LockInv (LockState.init nr nw) := by
  refine ⟨by simpa [LockState.init] using hn, ?_, ?_, ?_, ?_, ?_⟩ <;>
    simp [LockState.init, census_replicate]

theorem reader_step_inv {s s' : LockState} {i : Nat} (hi : LockInv s)
    (h : reader_step s i = some s') : LockInv s' := by
  obtain ⟨hfew, hr, hc, hrw, hfirst, hlast⟩ := hi
  have htot := census_total s.readers
  unfold reader_step at h
  cases hpc : s.readers[i]? with
  | none => simp [hpc] at h
  | some pc =>
    have hset := census_set hpc
    cases pc with
    | idle =>
      simp only [hpc] at h
      split at h
      · cases h
        have c0 := hset .obtain_has_r .idle
        have c1 := hset .obtain_has_r .obtain_has_r
        have c2 := hset .obtain_has_r .obtain_first
        have c3 := hset .obtain_has_r .obtain_post_r
        have c4 := hset .obtain_has_r .reading
        have c5 := hset .obtain_has_r .release_has_r
        have c6 := hset .obtain_has_r .release_last
        have c7 := hset .obtain_has_r .release_post_r
        simp only [reduceCtorEq, if_true, if_false] at c0 c1 c2 c3 c4 c5 c6 c7
        refine ⟨by simpa using hfew, ?_, ?_, ?_, ?_, ?_⟩ <;> simp only [] <;> omega
      · cases h
    | obtain_has_r =>
      simp only [hpc, Option.some.injEq] at h
      subst h
      by_cases hb : (s.reader_count + 1) % 2 ^ 64 = 1
      · simp only [hb, if_true]
        have c0 := hset .obtain_first .idle
        have c1 := hset .obtain_first .obtain_has_r
        have c2 := hset .obtain_first .obtain_first
        have c3 := hset .obtain_first .obtain_post_r
        have c4 := hset .obtain_first .reading
        have c5 := hset .obtain_first .release_has_r
        have c6 := hset .obtain_first .release_last
        have c7 := hset .obtain_first .release_post_r
        simp only [reduceCtorEq, if_true, if_false] at c0 c1 c2 c3 c4 c5 c6 c7
        refine ⟨by simpa using hfew, ?_, ?_, ?_, ?_, ?_⟩ <;> simp only [] <;> first | omega | simp
      · simp only [hb, if_false]
        have c0 := hset .obtain_post_r .idle
        have c1 := hset .obtain_post_r .obtain_has_r
        have c2 := hset .obtain_post_r .obtain_first
        have c3 := hset .obtain_post_r .obtain_post_r
        have c4 := hset .obtain_post_r .reading
        have c5 := hset .obtain_post_r .release_has_r
        have c6 := hset .obtain_post_r .release_last
        have c7 := hset .obtain_post_r .release_post_r
        simp only [reduceCtorEq, if_true, if_false] at c0 c1 c2 c3 c4 c5 c6 c7
        refine ⟨by simpa using hfew, ?_, ?_, ?_, ?_, ?_⟩ <;> simp only [] <;> omega
    | obtain_first =>
      simp only [hpc] at h
      split at h
      · cases h
        have c0 := hset .obtain_post_r .idle
        have c1 := hset .obtain_post_r .obtain_has_r
        have c2 := hset .obtain_post_r .obtain_first
        have c3 := hset .obtain_post_r .obtain_post_r
        have c4 := hset .obtain_post_r .reading
        have c5 := hset .obtain_post_r .release_has_r
        have c6 := hset .obtain_post_r .release_last
        have c7 := hset .obtain_post_r .release_post_r
        simp only [reduceCtorEq, if_true, if_false] at c0 c1 c2 c3 c4 c5 c6 c7
        refine ⟨by simpa using hfew, ?_, ?_, ?_, ?_, ?_⟩ <;> simp only [] <;> omega
      · cases h
    | obtain_post_r =>
      simp only [hpc, Option.some.injEq] at h
      subst h
      have c0 := hset .reading .idle
      have c1 := hset .reading .obtain_has_r
      have c2 := hset .reading .obtain_first
      have c3 := hset .reading .obtain_post_r
      have c4 := hset .reading .reading
      have c5 := hset .reading .release_has_r
      have c6 := hset .reading .release_last
      have c7 := hset .reading .release_post_r
      simp only [reduceCtorEq, if_true, if_false] at c0 c1 c2 c3 c4 c5 c6 c7
      refine ⟨by simpa using hfew, ?_, ?_, ?_, ?_, ?_⟩ <;> simp only [] <;> omega
    | reading =>
      simp only [hpc] at h
      split at h
      · cases h
        have c0 := hset .release_has_r .idle
        have c1 := hset .release_has_r .obtain_has_r
        have c2 := hset .release_has_r .obtain_first
        have c3 := hset .release_has_r .obtain_post_r
        have c4 := hset .release_has_r .reading
        have c5 := hset .release_has_r .release_has_r
        have c6 := hset .release_has_r .release_last
        have c7 := hset .release_has_r .release_post_r
        simp only [reduceCtorEq, if_true, if_false] at c0 c1 c2 c3 c4 c5 c6 c7
        refine ⟨by simpa using hfew, ?_, ?_, ?_, ?_, ?_⟩ <;> simp only [] <;> omega
      · cases h
    | release_has_r =>
      simp only [hpc, Option.some.injEq] at h
      subst h
      by_cases hb : (s.reader_count + 2 ^ 64 - 1) % 2 ^ 64 = 0
      · simp only [hb, if_true]
        have c0 := hset .release_last .idle
        have c1 := hset .release_last .obtain_has_r
        have c2 := hset .release_last .obtain_first
        have c3 := hset .release_last .obtain_post_r
        have c4 := hset .release_last .reading
        have c5 := hset .release_last .release_has_r
        have c6 := hset .release_last .release_last
        have c7 := hset .release_last .release_post_r
        simp only [reduceCtorEq, if_true, if_false] at c0 c1 c2 c3 c4 c5 c6 c7
        refine ⟨by simpa using hfew, ?_, ?_, ?_, ?_, ?_⟩ <;> simp only [] <;> first | omega | simp
      · simp only [hb, if_false]
        have c0 := hset .release_post_r .idle
        have c1 := hset .release_post_r .obtain_has_r
        have c2 := hset .release_post_r .obtain_first
        have c3 := hset .release_post_r .obtain_post_r
        have c4 := hset .release_post_r .reading
        have c5 := hset .release_post_r .release_has_r
        have c6 := hset .release_post_r .release_last
        have c7 := hset .release_post_r .release_post_r
        simp only [reduceCtorEq, if_true, if_false] at c0 c1 c2 c3 c4 c5 c6 c7
        refine ⟨by simpa using hfew, ?_, ?_, ?_, ?_, ?_⟩ <;> simp only [] <;> omega
    | release_last =>
      simp only [hpc, Option.some.injEq] at h
      subst h
      have c0 := hset .release_post_r .idle
      have c1 := hset .release_post_r .obtain_has_r
      have c2 := hset .release_post_r .obtain_first
      have c3 := hset .release_post_r .obtain_post_r
      have c4 := hset .release_post_r .reading
      have c5 := hset .release_post_r .release_has_r
      have c6 := hset .release_post_r .release_last
      have c7 := hset .release_post_r .release_post_r
      simp only [reduceCtorEq, if_true, if_false] at c0 c1 c2 c3 c4 c5 c6 c7
      refine ⟨by simpa using hfew, ?_, ?_, ?_, ?_, ?_⟩ <;> simp only [] <;> omega
    | release_post_r =>
      simp only [hpc, Option.some.injEq] at h
      subst h
      have c0 := hset .idle .idle
      have c1 := hset .idle .obtain_has_r
      have c2 := hset .idle .obtain_first
      have c3 := hset .idle .obtain_post_r
      have c4 := hset .idle .reading
      have c5 := hset .idle .release_has_r
      have c6 := hset .idle .release_last
      have c7 := hset .idle .release_post_r
      simp only [reduceCtorEq, if_true, if_false] at c0 c1 c2 c3 c4 c5 c6 c7
      refine ⟨by simpa using hfew, ?_, ?_, ?_, ?_, ?_⟩ <;> simp only [] <;> omega

theorem writer_step_inv {s s' : LockState} {j : Nat} (hi : LockInv s)
    (h : writer_step s j = some s') : LockInv s' := by
  obtain ⟨hfew, hr, hc, hrw, hfirst, hlast⟩ := hi
  unfold writer_step at h
  cases hpc : s.writers[j]? with
  | none => simp [hpc] at h
  | some pc =>
    have hset := census_set hpc
    cases pc with
    | idle =>
      simp only [hpc] at h
      split at h
      · cases h
        have c0 := hset .has_rw .idle
        have c1 := hset .has_rw .has_rw
        have c2 := hset .has_rw .writing
        have c3 := hset .has_rw .unlocked
        simp only [reduceCtorEq, if_true, if_false] at c0 c1 c2 c3
        refine ⟨by simpa using hfew, ?_, ?_, ?_, ?_, ?_⟩ <;> simp only [] <;> omega
      · cases h
    | has_rw =>
      simp only [hpc] at h
      split at h
      · cases h
      · cases h
        have c0 := hset .writing .idle
        have c1 := hset .writing .has_rw
        have c2 := hset .writing .writing
        have c3 := hset .writing .unlocked
        simp only [reduceCtorEq, if_true, if_false] at c0 c1 c2 c3
        refine ⟨by simpa using hfew, ?_, ?_, ?_, ?_, ?_⟩ <;> simp only [] <;> omega
    | writing =>
      simp only [hpc, Option.some.injEq] at h
      subst h
      have c0 := hset .unlocked .idle
      have c1 := hset .unlocked .has_rw
      have c2 := hset .unlocked .writing
      have c3 := hset .unlocked .unlocked
      simp only [reduceCtorEq, if_true, if_false] at c0 c1 c2 c3
      refine ⟨by simpa using hfew, ?_, ?_, ?_, ?_, ?_⟩ <;> simp only [] <;> omega
    | unlocked =>
      simp only [hpc, Option.some.injEq] at h
      subst h
      have c0 := hset .idle .idle
      have c1 := hset .idle .has_rw
      have c2 := hset .idle .writing
      have c3 := hset .idle .unlocked
      simp only [reduceCtorEq, if_true, if_false] at c0 c1 c2 c3
      refine ⟨by simpa using hfew, ?_, ?_, ?_, ?_, ?_⟩ <;> simp only [] <;> omega

theorem main_cmd_mutex_step_inv {s s' : LockState} (hi : LockInv s)
    (h : main_cmd_mutex_step s = some s') : LockInv s' := by
  obtain ⟨hfew, hr, hc, hrw, hfirst, hlast⟩ := hi
  unfold main_cmd_mutex_step at h
  split at h
  · cases h; exact ⟨hfew, hr, hc, hrw, hfirst, hlast⟩
  · split at h
    · cases h
    · cases h; exact ⟨hfew, hr, hc, hrw, hfirst, hlast⟩

theorem lockReachable_inv {s0 s : LockState} (h0 : LockInv s0) (hr : LockReachable s0 s) :
    LockInv s := by
  induction hr with
  | start => exact h0
  | step s s' _ hs ih =>
    cases hs with
    | reader i h => exact reader_step_inv ih h
    | writer j h => exact writer_step_inv ih h
    | main h => exact main_cmd_mutex_step_inv ih h


theorem replicate_getElem?_mid {α : Type} (a x : α) (l : List α) :
    ∀ k : Nat, (List.replicate k a ++ x :: l)[k]? = some x
  | 0 => by simp
  | k + 1 => by
    simp only [List.replicate_succ, List.cons_append, List.getElem?_cons_succ]
    exact replicate_getElem?_mid a x l k

theorem replicate_set_mid {α : Type} (a x y : α) (l : List α) :
    ∀ k : Nat, (List.replicate k a ++ x :: l).set k y = List.replicate k a ++ y :: l
  | 0 => by simp
  | k + 1 => by
    simp only [List.replicate_succ, List.cons_append, List.set_cons_succ]
    rw [replicate_set_mid a x y l k]

theorem replicate_append_cons {α : Type} (a : α) (l : List α) (k : Nat) :
    List.replicate k a ++ a :: l = List.replicate (k + 1) a ++ l := by
  rw [List.replicate_succ', List.append_assoc]; rfl

theorem readers_mid {l : List ReaderPc} {k : Nat} {c : ReaderPc} {t : List ReaderPc}
    (hs : l = List.replicate k .reading ++ c :: t) :
    l[k]? = some c ∧
    ∀ pc', l.set k pc' = List.replicate k .reading ++ pc' :: t := by
  subst hs
  exact ⟨replicate_getElem?_mid _ _ _ k, fun pc' => replicate_set_mid _ _ _ _ k⟩

/-- From the state in which `k` readers read, the next reader obtains the
reader lock as well. -/
theorem readers_in_succ (k m nw : Nat) (hk : k + 1 < 2 ^ 64) {s0 : LockState}
    (hr : LockReachable s0 (LockState.readers_in k (m + 1) nw)) :
    LockReachable s0 (LockState.readers_in (k + 1) m nw) := by
  have hmod : (k + 1) % 2 ^ 64 = k + 1 := Nat.mod_eq_of_lt hk
  -- `sem_wait(&alarm_r_bin_sem)`
  have r1 : LockReachable s0
      { alarm_r_bin_sem := 0, alarm_rw_bin_sem := if k = 0 then 1 else 0, reader_count := k,
        cmd_mutex := false, main_has_cmd_mutex := false,
        readers := List.replicate k .reading ++ .obtain_has_r :: List.replicate m .idle,
        writers := List.replicate nw .idle } := by
    refine .step _ _ hr (.reader _ _ k ?_)
    obtain ⟨hget, hset⟩ := readers_mid (l := (LockState.readers_in k (m + 1) nw).readers)
      (k := k) (c := .idle) (t := List.replicate m .idle)
      (by simp [LockState.readers_in, List.replicate_succ])
    unfold reader_step
    rw [hget]
    simp only [hset]
    simp [LockState.readers_in]
  -- `++reader_count`
  have r2 : LockReachable s0
      { alarm_r_bin_sem := 0, alarm_rw_bin_sem := if k = 0 then 1 else 0, reader_count := k + 1,
        cmd_mutex := false, main_has_cmd_mutex := false,
        readers := List.replicate k .reading ++
          (if k = 0 then .obtain_first else .obtain_post_r) :: List.replicate m .idle,
        writers := List.replicate nw .idle } := by
    refine .step _ _ r1 (.reader _ _ k ?_)
    obtain ⟨hget, hset⟩ := readers_mid
      (l := List.replicate k .reading ++ .obtain_has_r :: List.replicate m .idle)
      (k := k) (c := .obtain_has_r) (t := List.replicate m .idle) rfl
    unfold reader_step
    simp only []
    rw [hget]
    simp only [hset, hmod]
    have hk1 : (k + 1 = 1) = (k = 0) := by simp
    simp [hk1]
  -- `sem_wait(&alarm_rw_bin_sem)` for the first reader
  have r3 : LockReachable s0
      { alarm_r_bin_sem := 0, alarm_rw_bin_sem := 0, reader_count := k + 1,
        cmd_mutex := false, main_has_cmd_mutex := false,
        readers := List.replicate k .reading ++ .obtain_post_r :: List.replicate m .idle,
        writers := List.replicate nw .idle } := by
    by_cases h0 : k = 0
    · subst h0
      refine .step _ _ r2 (.reader _ _ 0 ?_)
      simp [reader_step]
    · simpa [h0] using r2
  -- `sem_post(&alarm_r_bin_sem)`
  refine .step _ _ r3 (.reader _ _ k ?_)
  obtain ⟨hget, hset⟩ := readers_mid
    (l := List.replicate k .reading ++ .obtain_post_r :: List.replicate m .idle)
    (k := k) (c := .obtain_post_r) (t := List.replicate m .idle) rfl
  unfold reader_step
  simp only []
  rw [hget]
  simp only [hset]
  simp [LockState.readers_in, replicate_append_cons]

theorem readers_in_reachable (nw : Nat) : ∀ k m : Nat, k + m < 2 ^ 64 →
    LockReachable (LockState.init (k + m) nw) (LockState.readers_in k m nw)
  | 0, m, _ => by
    have : LockState.readers_in 0 m nw = LockState.init (0 + m) nw := by
      simp [LockState.readers_in, LockState.init]
    rw [this]
    exact .start
  | k + 1, m, h => by
    have ih := readers_in_reachable nw k (m + 1) (by omega)
    have e : k + (m + 1) = k + 1 + m := by omega
    rw [e] at ih
    exact readers_in_succ k m nw (by omega) ih


theorem census_get {α : Type} [DecidableEq α] {l : List α} {i : Nat} {a : α}
    (h : l[i]? = some a) : 1 ≤ census l a := by
  have := weight_get (fun b => if b = a then 1 else 0) h
  simpa [census] using this

theorem census_two {α : Type} [DecidableEq α] {l : List α} {i j : Nat} {a : α}
    (hne : i ≠ j) (h1 : l[i]? = some a) (h2 : l[j]? = some a) : 2 ≤ census l a := by
  have := weight_two (fun b => if b = a then 1 else 0) hne h1 h2
  simpa [census] using this

/-- C19: in every state that the threads reach from the initial lock state,
in any interleaving of their semaphore operations (with fewer than `2 ^ 64`
reader threads, the range of `reader_count`): no reader holds the alarms list
while a writer holds it, at most one writer holds it, and the lock sets no
bound on the readers: there is an interleaving after which all `nr` reader
threads hold the list at the same time. -/
theorem C19_readers_and_writers_exclude (nr nw : Nat) (hn : nr < 2 ^ 64) (s : LockState)
    (hr : LockReachable (LockState.init nr nw) s) :
    (∀ (i j : Nat) (r : ReaderPc) (w : WriterPc), s.readers[i]? = some r → s.writers[j]? = some w → w.holds = true →
      r.holds = false) ∧
    (∀ (j k : Nat) (w v : WriterPc), s.writers[j]? = some w → s.writers[k]? = some v → w.holds = true →
      v.holds = true → j = k) ∧
    ∃ s', LockReachable (LockState.init nr nw) s' ∧ s'.readers = List.replicate nr .reading := by
  have hi := lockReachable_inv (lockInv_init nr nw hn) hr
  obtain ⟨_, _, _, hrw, _, _⟩ := hi
  refine ⟨?_, ?_, ?_⟩
  · intro i j r w hr' hw hwh
    have cw := census_get hw
    cases hrh : r.holds
    · rfl
    · exfalso
      have cr := census_get hr'
      cases w <;> cases r <;> simp [WriterPc.holds, ReaderPc.holds] at hwh hrh <;> omega
  · intro j k w v hw hv hwh hvh
    by_contra hne
    have cw := census_get hw
    have cv := census_get hv
    by_cases hwv : w = v
    · subst hwv
      have c2 := census_two hne hw hv
      cases w <;> simp [WriterPc.holds] at hwh <;> omega
    · cases w <;> cases v <;> simp [WriterPc.holds] at hwh hvh hwv <;> omega
  · have h := readers_in_reachable nw nr 0 (by simpa using hn)
    refine ⟨LockState.readers_in nr 0 nw, by simpa using h, ?_⟩
    simp [LockState.readers_in]

/-- C19 at a concrete state: two readers hold the list together; the writer
is outside. -/
theorem C19_readers_and_writers_exclude_witness :
    LockReachable (LockState.init 2 1) (LockState.readers_in 2 0 1) ∧
    (LockState.readers_in 2 0 1).readers = [.reading, .reading] ∧
    (∀ (i j : Nat) (r : ReaderPc) (w : WriterPc), (LockState.readers_in 2 0 1).readers[i]? = some r →
      (LockState.readers_in 2 0 1).writers[j]? = some w → w.holds = true → r.holds = false) ∧
    writer_step (LockState.readers_in 2 0 1) 0 = none :=
  ⟨readers_in_reachable 1 2 0 (by decide), by decide,
    (C19_readers_and_writers_exclude 2 1 (by decide) _
      (readers_in_reachable 1 2 0 (by decide))).1, by decide⟩

/-! ## C11 and C13: the invariant of the running application -/

theorem getElem?_of_mem {h : Heap} {a : Alarm} (ha : a ∈ h) : ∃ p : Nat, h[p]? = some a :=
  List.mem_iff_getElem?.1 ha

theorem mem_of_getElem? {h : Heap} {a : Alarm} {p : Nat} (ha : h[p]? = some a) : a ∈ h :=
  List.mem_iff_getElem?.2 ⟨p, ha⟩

theorem getElem?_some_of_lt {h : Heap} {p : Nat} (hp : p < h.length) : ∃ a, h[p]? = some a :=
  ⟨h[p], List.getElem?_eq_getElem hp⟩

theorem lt_of_getElem? {h : Heap} {a : Alarm} {p : Nat} (ha : h[p]? = some a) : p < h.length := by
  by_contra hlt
  rw [List.getElem?_eq_none (by omega)] at ha
  cases ha

/-- The invariant `Owned` only reads `link_handle`, `is_assigned` and
`handler_id`. -/
theorem Owned.same_owner {h h' : Heap} {ws : List Worker} (ho : Owned h ws)
    (hlen : h'.length = h.length)
    (hcell : ∀ (p : Nat) (a : Alarm), h[p]? = some a →
      ∃ a' : Alarm, h'[p]? = some a' ∧ a'.link_handle = a.link_handle ∧
        a'.is_assigned = a.is_assigned ∧ a'.handler_id = a.handler_id) : Owned h' ws := by
  have back : ∀ (p : Nat) (b : Alarm), h'[p]? = some b →
      ∃ a : Alarm, h[p]? = some a ∧ b.link_handle = a.link_handle ∧
        b.is_assigned = a.is_assigned ∧ b.handler_id = a.handler_id := by
    intro p b hb
    obtain ⟨a, ha⟩ := getElem?_some_of_lt (h := h) (by rw [← hlen]; exact lt_of_getElem? hb)
    obtain ⟨a', ha', h1, h2, h3⟩ := hcell p a ha
    rw [hb] at ha'; cases ha'
    exact ⟨a, ha, h1, h2, h3⟩
  have hchain : ∀ {s : Option Nat} {ys : List Nat}, Chain next_handled_alarm h s ys →
      Chain next_handled_alarm h' s ys := by
    intro s ys hc
    refine Chain.frame hc (fun p _ a ha => ?_)
    obtain ⟨a', ha', h1, _, _⟩ := hcell p a ha
    exact ⟨a', ha', h1⟩
  refine ⟨?_, ?_, ?_, ?_, ho.fresh, ho.tids⟩
  · intro b hb
    obtain ⟨p, hp⟩ := getElem?_of_mem hb
    obtain ⟨a, ha, _, h2, h3⟩ := back p b hp
    rw [h2, h3]
    exact ho.assigned_iff a (mem_of_getElem? ha)
  · intro b hb hu
    obtain ⟨p, hp⟩ := getElem?_of_mem hb
    obtain ⟨a, ha, h1, h2, _⟩ := back p b hp
    rw [h1]
    exact ho.detached a (mem_of_getElem? ha) (by rw [← h2]; exact hu)
  · intro w hw
    obtain ⟨ys, hc, hys⟩ := ho.lists w hw
    refine ⟨ys, hchain hc, fun q hq => ?_⟩
    obtain ⟨a, ha, h2, h3⟩ := hys q hq
    obtain ⟨a', ha', _, e2, e3⟩ := hcell q a ha
    exact ⟨a', ha', by rw [e2, h2], by rw [e3, h3]⟩
  · intro p b hb hasg
    obtain ⟨a, ha, _, h2, h3⟩ := back p b hb
    obtain ⟨w, hw, hid, ys, hc, hp⟩ := ho.owner p a ha (by rw [← h2]; exact hasg)
    exact ⟨w, hw, by rw [h3, hid], ys, hchain hc, hp⟩

/-- An unassigned cell at the end of the arena. -/
theorem Owned.extend {h : Heap} {ws : List Worker} (ho : Owned h ws) (c : CmdA) :
    Owned (h ++ [alarm_of_cmda c]) ws := by
  refine ⟨?_, ?_, ?_, ?_, ho.fresh, ho.tids⟩
  · intro b hb
    rcases List.mem_append.1 hb with hb | hb
    · exact ho.assigned_iff b hb
    · simp at hb; subst hb; rfl
  · intro b hb hu
    rcases List.mem_append.1 hb with hb | hb
    · exact ho.detached b hb hu
    · simp at hb; subst hb; rfl
  · intro w hw
    obtain ⟨ys, hc, hys⟩ := ho.lists w hw
    refine ⟨ys, hc.append _, fun q hq => ?_⟩
    obtain ⟨a, ha, h2, h3⟩ := hys q hq
    exact ⟨a, getElem?_append_old ha, h2, h3⟩
  · intro p b hb hasg
    by_cases hp : p < h.length
    · obtain ⟨a, ha⟩ := getElem?_some_of_lt hp
      have := getElem?_append_old (a := alarm_of_cmda c) ha
      rw [hb] at this; cases this
      obtain ⟨w, hw, hid, ys, hc, hpy⟩ := ho.owner p b ha hasg
      exact ⟨w, hw, hid, ys, hc.append _, hpy⟩
    · have hlen := lt_of_getElem? hb
      simp at hlen
      have hpe : p = h.length := by omega
      subst hpe
      rw [getElem?_append_new] at hb
      cases hb
      cases hasg



theorem fixed_is_replaced {a b : Alarm} (hf : b.fixed = a.fixed) :
    b.is_replaced = a.is_replaced := by
  have := congrArg Alarm.is_replaced hf
  simpa [Alarm.fixed] using this

theorem HandlerFrame.of_fixed_cells {h h2 : Heap}
    (hcell : ∀ p : Nat, (h2[p]?).map Alarm.fixed = (h[p]?).map Alarm.fixed) :
    HandlerFrame h h2 := by
  unfold HandlerFrame
  apply List.ext_getElem?
  intro p
  rw [List.getElem?_map, List.getElem?_map]
  exact hcell p

theorem HandlerFrame.length_eq {h h2 : Heap} (hf : HandlerFrame h h2) :
    h2.length = h.length := by
  have := congrArg List.length hf
  simpa using this

theorem HandlerFrame.back {h h2 : Heap} (hf : HandlerFrame h h2) {p : Nat} {b : Alarm}
    (hb : h2[p]? = some b) : ∃ a, h[p]? = some a ∧ b.fixed = a.fixed := by
  obtain ⟨a, ha⟩ := getElem?_some_of_lt (h := h) (by rw [← hf.length_eq]; exact lt_of_getElem? hb)
  obtain ⟨b', hb', hfix⟩ := hf.get ha
  rw [hb] at hb'; cases hb'
  exact ⟨a, ha, hfix⟩

theorem HandlerFrame.persist {h h2 : Heap} (hf : HandlerFrame h h2) : Persist h h2 := by
  intro p a ha
  obtain ⟨b, hb, hfix⟩ := hf.get ha
  exact ⟨b, hb, fixed_msg_num hfix, fun hc => by rw [fixed_is_cancelled hfix]; exact hc⟩

/-- What one tick of the thread `w` does to the heap, cell by cell. -/
theorem alarm_handler_tick_cells {h : Heap} {w : Worker} {ys : List Nat} {it : IterOut}
    (hc : Chain next_handled_alarm h w.handle_list_head ys)
    (hwt : ∀ a ∈ h, 0 < a.wait_time) (hrun : alarm_handler_tick h w = .ok it) :
    it.worker = { w with handle_list_head := it.worker.handle_list_head,
                         time_since_create := (w.time_since_create + 1) % 2 ^ 64 } ∧
    it.exited = decide (it.worker.handle_list_head = none) ∧
    Chain next_handled_alarm it.heap it.worker.handle_list_head (kept h ys) ∧
    (∀ p ∈ ys, ∀ a, h[p]? = some a → a.flagged = true → it.heap[p]? = some (reset_cell a)) ∧
    (∀ (p : Nat) (a : Alarm), h[p]? = some a → (p ∈ ys → a.flagged = false) →
      ∃ v : Option Nat, it.heap[p]? = some { a with link_handle := v }) ∧
    (∀ p : Nat, p ∉ ys → it.heap[p]? = h[p]?) ∧
    HandlerFrame h it.heap := by
  obtain ⟨s, hs, hchain, _, hflag, hkeep, hsame⟩ :=
    alarm_handler_tick_spec (w := w) hc.handled_list_eq
      (fun p _ a ha _ => hwt a (mem_of_getElem? ha))
  rw [hrun] at hs
  cases hs
  refine ⟨rfl, rfl, hchain, hflag, hkeep, hsame, ?_⟩
  apply HandlerFrame.of_fixed_cells
  intro p
  cases hp : h[p]? with
  | none =>
    have hpy : p ∉ ys := fun hpy => by
      obtain ⟨a, ha⟩ := hc.valid p hpy
      rw [hp] at ha; cases ha
    rw [hsame p hpy, hp]
  | some a =>
    by_cases hcase : p ∈ ys ∧ a.flagged = true
    · rw [hflag p hcase.1 a hp hcase.2]
      simp [reset_cell, Alarm.fixed]
    · obtain ⟨v, hv⟩ := hkeep p a hp (fun hpy => by
        cases hf : a.flagged
        · rfl
        · exact absurd ⟨hpy, hf⟩ hcase)
      rw [hv]
      simp [Alarm.fixed]



theorem mem_kept {h : Heap} {ys : List Nat} {q : Nat} :
    q ∈ kept h ys ↔ q ∈ ys ∧ ∃ a, h[q]? = some a ∧ a.flagged = false := by
  unfold kept
  rw [List.mem_filter]
  constructor
  · rintro ⟨hq, hf⟩
    refine ⟨hq, ?_⟩
    cases ha : h[q]? with
    | none => simp [ha] at hf
    | some a => exact ⟨a, rfl, by simpa [ha] using hf⟩
  · rintro ⟨hq, a, ha, hf⟩
    exact ⟨hq, by simp [ha, hf]⟩

theorem worker_eq_of_tid {ws : List Worker} (hnd : (ws.map Worker.tid).Nodup) {v w : Worker}
    (hv : v ∈ ws) (hw : w ∈ ws) (ht : v.tid = w.tid) : v = w :=
  List.inj_on_of_nodup_map hnd hv hw ht

/-- The threads after a step of the thread `w` that leaves `w'` in its place:
the other threads, and `w'` unless the thread has exited. -/
theorem mem_workers_after {ws : List Worker} {w w' v : Worker} {exited : Bool}
    (hv : v ∈ (if exited then ws.filter (fun v => v.tid ≠ w.tid)
      else ws.map (fun v => if v.tid = w.tid then w' else v))) :
    (v ∈ ws ∧ v.tid ≠ w.tid) ∨ (v = w' ∧ exited = false) := by
  cases exited with
  | true =>
    simp only [if_true] at hv
    have := List.mem_filter.1 hv
    exact Or.inl ⟨this.1, by simpa using this.2⟩
  | false =>
    simp only [Bool.false_eq_true, if_false] at hv
    obtain ⟨u, hu, rfl⟩ := List.mem_map.1 hv
    by_cases hut : u.tid = w.tid
    · right; simp [hut]
    · left; simp [hut, hu]

theorem mem_workers_after_other {ws : List Worker} {w w' v : Worker} {exited : Bool}
    (hv : v ∈ ws) (hne : v.tid ≠ w.tid) :
    v ∈ (if exited then ws.filter (fun v => v.tid ≠ w.tid)
      else ws.map (fun v => if v.tid = w.tid then w' else v)) := by
  cases exited with
  | true =>
    simp only [if_true]
    exact List.mem_filter.2 ⟨hv, by simpa using hne⟩
  | false =>
    simp only [Bool.false_eq_true, if_false]
    exact List.mem_map.2 ⟨v, hv, by simp [hne]⟩

theorem mem_workers_after_self {ws : List Worker} {w w' : Worker} (hw : w ∈ ws) :
    w' ∈ (if false then ws.filter (fun v => v.tid ≠ w.tid)
      else ws.map (fun v => if v.tid = w.tid then w' else v)) := by
  simp only [Bool.false_eq_true, if_false]
  exact List.mem_map.2 ⟨w, hw, by simp⟩

theorem workers_after_tids {ws : List Worker} {w w' : Worker} {x : Bool}
    (hnd : (ws.map Worker.tid).Nodup) (ht : w'.tid = w.tid) :
    ((if x then ws.filter (fun v => v.tid ≠ w.tid)
      else ws.map (fun v => if v.tid = w.tid then w' else v)).map Worker.tid).Nodup := by
  cases x with
  | true =>
    simp only [if_true]
    exact hnd.sublist ((List.filter_sublist _).map _)
  | false =>
    simp only [Bool.false_eq_true, if_false]
    have : (ws.map (fun v => if v.tid = w.tid then w' else v)).map Worker.tid
        = ws.map Worker.tid := by
      rw [List.map_map]
      refine List.map_congr_left (fun v _ => ?_)
      by_cases hv : v.tid = w.tid <;> simp [hv, ht]
    rw [this]
    exact hnd



/-- A tick of a started thread keeps the threads and the assigned alarms
accounted for. -/
theorem Owned.tick {h : Heap} {ws : List Worker} {w : Worker} {it : IterOut}
    (ho : Owned h ws) (hwt : ∀ a ∈ h, 0 < a.wait_time) (hw : w ∈ ws) (hst : w.started = true)
    (hrun : alarm_handler_tick h w = .ok it) :
    Owned it.heap (if it.exited then ws.filter (fun v => v.tid ≠ w.tid)
      else ws.map (fun v => if v.tid = w.tid then it.worker else v)) := by
  obtain ⟨ys, hc, hys⟩ := ho.lists w hw
  obtain ⟨hwk, hex, hchain, hflag, hkeep, hsame, hframe⟩ := alarm_handler_tick_cells hc hwt hrun
  have htid : it.worker.tid = w.tid := by rw [hwk]
  have hstarted : it.worker.started = true := by rw [hwk]; exact hst
  -- the cells of the new heap
  have hcells : ∀ (p : Nat) (b : Alarm), it.heap[p]? = some b → ∃ a, h[p]? = some a ∧
      ((p ∈ ys ∧ a.flagged = true ∧ b = reset_cell a) ∨
       ((p ∈ ys → a.flagged = false) ∧ ∃ v : Option Nat, b = { a with link_handle := v })) := by
    intro p b hb
    obtain ⟨a, ha, _⟩ := hframe.back hb
    refine ⟨a, ha, ?_⟩
    by_cases hcase : p ∈ ys ∧ a.flagged = true
    · left
      have := hflag p hcase.1 a ha hcase.2
      rw [hb] at this; cases this
      exact ⟨hcase.1, hcase.2, rfl⟩
    · right
      have hu : p ∈ ys → a.flagged = false := fun hpy => by
        cases hf : a.flagged
        · rfl
        · exact absurd ⟨hpy, hf⟩ hcase
      obtain ⟨v, hv⟩ := hkeep p a ha hu
      rw [hb] at hv; cases hv
      exact ⟨hu, v, rfl⟩
  -- the lists of the other threads are untouched
  have hother : ∀ v ∈ ws, v.tid ≠ w.tid → ∀ zs, Chain next_handled_alarm h v.handle_list_head zs →
      (∀ q ∈ zs, ∃ a, h[q]? = some a ∧ a.is_assigned = true ∧ a.handler_id = some v.tid) →
      Chain next_handled_alarm it.heap v.handle_list_head zs ∧
      ∀ q ∈ zs, ∃ a, it.heap[q]? = some a ∧ a.is_assigned = true ∧
        a.handler_id = some v.tid := by
    intro v _ hne zs hcz hzs
    have hdisj : ∀ q ∈ zs, q ∉ ys := by
      intro q hq hqy
      obtain ⟨a, ha, _, hid⟩ := hzs q hq
      obtain ⟨a', ha', _, hid'⟩ := hys q hqy
      rw [ha] at ha'; cases ha'
      rw [hid] at hid'
      exact hne (Option.some.inj hid')
    refine ⟨Chain.frame hcz (fun q hq a ha => ⟨a, by rw [hsame q (hdisj q hq)]; exact ha, rfl⟩),
      fun q hq => ?_⟩
    obtain ⟨a, ha, h2, h3⟩ := hzs q hq
    exact ⟨a, by rw [hsame q (hdisj q hq)]; exact ha, h2, h3⟩
  -- the list of the thread itself
  have hself : ∀ q ∈ kept h ys, ∃ a, it.heap[q]? = some a ∧ a.is_assigned = true ∧
      a.handler_id = some it.worker.tid := by
    intro q hq
    obtain ⟨hqy, a, ha, hf⟩ := mem_kept.1 hq
    obtain ⟨a', ha', h2, h3⟩ := hys q hqy
    rw [ha] at ha'; cases ha'
    obtain ⟨v, hv⟩ := hkeep q a ha (fun _ => hf)
    exact ⟨_, hv, h2, by rw [htid]; exact h3⟩
  refine ⟨?_, ?_, ?_, ?_, ?_, workers_after_tids ho.tids htid⟩
  · intro b hb
    obtain ⟨p, hp⟩ := getElem?_of_mem hb
    obtain ⟨a, ha, hcase⟩ := hcells p b hp
    rcases hcase with ⟨_, _, rfl⟩ | ⟨_, v, rfl⟩
    · rfl
    · exact ho.assigned_iff a (mem_of_getElem? ha)
  · intro b hb hu
    obtain ⟨p, hp⟩ := getElem?_of_mem hb
    obtain ⟨a, ha, hcase⟩ := hcells p b hp
    rcases hcase with ⟨_, _, rfl⟩ | ⟨_, v, rfl⟩
    · rfl
    · have hpy : p ∉ ys := by
        intro hpy
        obtain ⟨a', ha', h2, _⟩ := hys p hpy
        rw [ha] at ha'; cases ha'
        have hu' : a.is_assigned = false := hu
        rw [h2] at hu'; cases hu'
      have := hsame p hpy
      rw [hp, ha] at this
      rw [Option.some.inj this]
      exact ho.detached a (mem_of_getElem? ha) hu
  · intro v hv
    rcases mem_workers_after hv with ⟨hvw, hne⟩ | ⟨rfl, _⟩
    · obtain ⟨zs, hcz, hzs⟩ := ho.lists v hvw
      exact ⟨zs, hother v hvw hne zs hcz hzs⟩
    · exact ⟨kept h ys, hchain, hself⟩
  · intro p b hb hasg
    obtain ⟨a, ha, hcase⟩ := hcells p b hb
    rcases hcase with ⟨_, _, rfl⟩ | ⟨hu, v, rfl⟩
    · cases hasg
    · have hasg' : a.is_assigned = true := hasg
      obtain ⟨u, hu', hid, zs, hcz, hpz⟩ := ho.owner p a ha hasg'
      by_cases hut : u.tid = w.tid
      · have huw := worker_eq_of_tid ho.tids hu' hw hut
        subst huw
        have hzy := Chain.unique hcz hc
        subst hzy
        have hpk : p ∈ kept h zs := mem_kept.2 ⟨hpz, a, ha, hu hpz⟩
        have hne : it.worker.handle_list_head ≠ none := by
          intro hnone
          rw [hnone] at hchain
          have := hchain.head_eq
          cases hk : kept h zs with
          | nil => rw [hk] at hpk; cases hpk
          | cons x xs => rw [hk] at this; cases this
        have hexf : it.exited = false := by rw [hex]; simp [hne]
        refine ⟨it.worker, ?_, by rw [htid]; exact hid, kept h zs, hchain, hpk⟩
        rw [hexf]
        exact mem_workers_after_self hu'
      · obtain ⟨hcz', _⟩ := hother u hu' hut zs hcz (by
          obtain ⟨zs', hcz2, hzs2⟩ := ho.lists u hu'
          have := Chain.unique hcz hcz2
          subst this
          exact hzs2)
        exact ⟨u, mem_workers_after_other hu' hut, hid, zs, hcz', hpz⟩
  · intro v hv hvs
    rcases mem_workers_after hv with ⟨hvw, _⟩ | ⟨rfl, _⟩
    · exact ho.fresh v hvw hvs
    · rw [hstarted] at hvs; cases hvs

theorem mem_picked {h : Heap} {t : Nat} {xs : List Nat} {p : Nat} :
    p ∈ picked h t xs ↔ p ∈ xs ∧ ∃ a, h[p]? = some a ∧ a.is_assigned = false ∧ a.msg_type = t := by
  unfold picked selected
  rw [List.mem_filter]
  constructor
  · rintro ⟨hp, hs⟩
    refine ⟨hp, ?_⟩
    cases ha : h[p]? with
    | none => simp [ha] at hs
    | some a =>
      simp [ha] at hs
      exact ⟨a, rfl, hs.1, hs.2⟩
  · rintro ⟨hp, a, ha, h1, h2⟩
    exact ⟨hp, by simp [ha, h1, h2]⟩

/-- What the initial scan of a thread does to the heap, cell by cell. -/
theorem alarm_handler_init_cells {h h' : Heap} {head : Option Nat} {xs : List Nat}
    {tid t : Nat} {w' : Worker}
    (hc : Chain next_alarm h head xs) (hasc : KeysAscending h xs)
    (hwf : ∀ a ∈ h, a.is_assigned = false → a.link_handle = none)
    (hrun : alarm_handler_init h head tid t = .ok (h', w')) :
    w' = { tid := tid, msg_type := t, handle_list_head := w'.handle_list_head,
           time_since_create := 0, started := true } ∧
    Chain next_handled_alarm h' w'.handle_list_head (picked h t xs) ∧
    (∀ p ∈ picked h t xs, ∀ a, h[p]? = some a →
      ∃ v : Option Nat, h'[p]? = some (assigned_cell a tid v)) ∧
    (∀ p : Nat, p ∉ picked h t xs → h'[p]? = h[p]?) ∧
    HandlerFrame h h' := by
  obtain ⟨h2, hd2, hscan, hch, hlen, hf2, hf3⟩ :=
    alarm_handler_scan_spec tid t xs h.length h none [] head hc rfl
      (by simpa using hasc.nodup) hasc (fun y hy => by simp at hy)
      (fun r _ a ha => hwf a (mem_of_getElem? ha)) (hc.length_le hasc.nodup)
  simp only [List.nil_append] at hch
  have hinit : alarm_handler_init h head tid t = .ok (h2,
      { tid := tid, msg_type := t, handle_list_head := hd2, time_since_create := 0,
        started := true }) := by
    simp [alarm_handler_init, hscan, bind, Except.bind, pure, Except.pure]
  rw [hrun] at hinit
  cases hinit
  refine ⟨rfl, hch, ?_, fun p hp => hf3 p (by simp) hp, ?_⟩
  · intro p hp a ha
    obtain ⟨v, hv⟩ := hf2 p a ha
    rw [if_pos hp] at hv
    exact ⟨v, hv⟩
  · apply HandlerFrame.of_fixed_cells
    intro p
    cases hp : h[p]? with
    | none =>
      have : h'[p]? = none := List.getElem?_eq_none (by
        rw [hlen]
        by_contra hlt
        obtain ⟨a, ha⟩ := getElem?_some_of_lt (h := h) (Nat.lt_of_not_le hlt)
        rw [hp] at ha; cases ha)
      rw [this]
    | some a =>
      obtain ⟨v, hv⟩ := hf2 p a hp
      rw [hv]
      split <;> simp [assigned_cell, Alarm.fixed]

/-- The initial scan of a thread that has not started keeps the threads and
the assigned alarms accounted for. -/
theorem Owned.scan {h h' : Heap} {head : Option Nat} {xs : List Nat} {ws : List Worker}
    {w w' : Worker} (ho : Owned h ws)
    (hc : Chain next_alarm h head xs) (hasc : KeysAscending h xs)
    (hw : w ∈ ws) (hst : w.started = false)
    (hrun : alarm_handler_init h head w.tid w.msg_type = .ok (h', w')) :
    Owned h' (ws.map (fun v => if v.tid = w.tid then w' else v)) ∧ HandlerFrame h h' := by
  obtain ⟨hwk, hchain, hpick, hsame, hframe⟩ := alarm_handler_init_cells hc hasc ho.detached hrun
  refine ⟨?_, hframe⟩
  have htid : w'.tid = w.tid := by rw [hwk]
  have hstarted : w'.started = true := by rw [hwk]
  have hcells : ∀ (p : Nat) (b : Alarm), h'[p]? = some b → ∃ a, h[p]? = some a ∧
      ((p ∈ picked h w.msg_type xs ∧ ∃ v : Option Nat, b = assigned_cell a w.tid v) ∨
       (p ∉ picked h w.msg_type xs ∧ b = a)) := by
    intro p b hb
    obtain ⟨a, ha, _⟩ := hframe.back hb
    refine ⟨a, ha, ?_⟩
    by_cases hp : p ∈ picked h w.msg_type xs
    · left
      obtain ⟨v, hv⟩ := hpick p hp a ha
      rw [hb] at hv; cases hv
      exact ⟨hp, v, rfl⟩
    · right
      have := hsame p hp
      rw [hb, ha] at this
      exact ⟨hp, Option.some.inj this⟩
  have hmem : ∀ v, v ∈ ws.map (fun v => if v.tid = w.tid then w' else v) →
      (v ∈ ws ∧ v.tid ≠ w.tid) ∨ v = w' := by
    intro v hv
    obtain ⟨u, hu, rfl⟩ := List.mem_map.1 hv
    by_cases hut : u.tid = w.tid
    · right; simp [hut]
    · left; simp [hut, hu]
  have hother : ∀ v ∈ ws, ∀ zs, Chain next_handled_alarm h v.handle_list_head zs →
      (∀ q ∈ zs, ∃ a, h[q]? = some a ∧ a.is_assigned = true ∧ a.handler_id = some v.tid) →
      Chain next_handled_alarm h' v.handle_list_head zs ∧
      ∀ q ∈ zs, ∃ a, h'[q]? = some a ∧ a.is_assigned = true ∧ a.handler_id = some v.tid := by
    intro v _ zs hcz hzs
    have hdisj : ∀ q ∈ zs, q ∉ picked h w.msg_type xs := by
      intro q hq hqp
      obtain ⟨a, ha, hasg, _⟩ := hzs q hq
      obtain ⟨_, a', ha', hun, _⟩ := mem_picked.1 hqp
      rw [ha] at ha'; cases ha'
      rw [hasg] at hun; cases hun
    refine ⟨Chain.frame hcz (fun q hq a ha => ⟨a, by rw [hsame q (hdisj q hq)]; exact ha, rfl⟩),
      fun q hq => ?_⟩
    obtain ⟨a, ha, h2, h3⟩ := hzs q hq
    exact ⟨a, by rw [hsame q (hdisj q hq)]; exact ha, h2, h3⟩
  have hself : ∀ q ∈ picked h w.msg_type xs, ∃ a, h'[q]? = some a ∧ a.is_assigned = true ∧
      a.handler_id = some w'.tid := by
    intro q hq
    obtain ⟨_, a, ha, _, _⟩ := mem_picked.1 hq
    obtain ⟨v, hv⟩ := hpick q hq a ha
    exact ⟨_, hv, rfl, by rw [htid]; rfl⟩
  have hnd : ((ws.map (fun v => if v.tid = w.tid then w' else v)).map Worker.tid).Nodup := by
    have := workers_after_tids (x := false) ho.tids htid
    simpa using this
  refine ⟨?_, ?_, ?_, ?_, ?_, hnd⟩
  · intro b hb
    obtain ⟨p, hp⟩ := getElem?_of_mem hb
    obtain ⟨a, ha, hcase⟩ := hcells p b hp
    rcases hcase with ⟨_, v, rfl⟩ | ⟨_, rfl⟩
    · rfl
    · exact ho.assigned_iff _ (mem_of_getElem? ha)
  · intro b hb hu
    obtain ⟨p, hp⟩ := getElem?_of_mem hb
    obtain ⟨a, ha, hcase⟩ := hcells p b hp
    rcases hcase with ⟨_, v, rfl⟩ | ⟨_, rfl⟩
    · cases hu
    · exact ho.detached _ (mem_of_getElem? ha) hu
  · intro v hv
    rcases hmem v hv with ⟨hvw, _⟩ | rfl
    · obtain ⟨zs, hcz, hzs⟩ := ho.lists v hvw
      exact ⟨zs, hother v hvw zs hcz hzs⟩
    · exact ⟨_, hchain, hself⟩
  · intro p b hb hasg
    obtain ⟨a, ha, hcase⟩ := hcells p b hb
    rcases hcase with ⟨hp, v, rfl⟩ | ⟨hp, rfl⟩
    · refine ⟨w', List.mem_map.2 ⟨w, hw, by simp⟩, by rw [htid]; rfl, _, hchain, hp⟩
    · obtain ⟨u, hu', hid, zs, hcz, hpz⟩ := ho.owner p b ha hasg
      by_cases hut : u.tid = w.tid
      · have huw := worker_eq_of_tid ho.tids hu' hw hut
        subst huw
        have hnone := ho.fresh u hu' hst
        rw [hnone] at hcz
        have := hcz.head_eq
        cases zs with
        | nil => cases hpz
        | cons x zs => cases this
      · obtain ⟨hcz', _⟩ := hother u hu' zs hcz (by
          obtain ⟨zs', hcz2, hzs2⟩ := ho.lists u hu'
          have := Chain.unique hcz hcz2
          subst this
          exact hzs2)
        exact ⟨u, List.mem_map.2 ⟨u, hu', by simp [hut]⟩, hid, zs, hcz', hpz⟩
  · intro v hv hvs
    rcases hmem v hv with ⟨hvw, _⟩ | rfl
    · exact ho.fresh v hvw hvs
    · rw [hstarted] at hvs; cases hvs



/-- The two ways in which the handshake on the alarm `p` returns: at once for
an unassigned alarm, or after a tick of the started thread that `handler_id`
names, which has detached the alarm. -/
theorem handshake_cases {st st' : State} {p : Nat} (hrun : handshake st p = .ok st') :
    (st' = st ∧ ∃ a, st.heap[p]? = some a ∧ a.is_assigned = false) ∨
    (∃ a w it a1, st.heap[p]? = some a ∧ a.is_assigned = true ∧ a.handler_id = some w.tid ∧
      w ∈ st.workers ∧ w.started = true ∧ alarm_handler_tick st.heap w = .ok it ∧
      it.heap[p]? = some a1 ∧ a1.is_assigned = false ∧
      st' = { st with heap := it.heap,
                      workers := if it.exited then st.workers.filter (fun v => v.tid ≠ w.tid)
                        else st.workers.map (fun v => if v.tid = w.tid then it.worker else v) }) := by
  unfold handshake at hrun
  simp only [bind, Except.bind, pure, Except.pure] at hrun
  split at hrun
  · cases hrun
  · rename_i a ha
    obtain ⟨i, hi, hai⟩ := deref_eq_ok ha
    cases hi
    split at hrun
    · rename_i hun
      cases hrun
      exact Or.inl ⟨rfl, a, hai, by simpa using hun⟩
    · rename_i hasg
      split at hrun
      · cases hrun
      · rename_i tid htid
        split at hrun
        · cases hrun
        · rename_i w hfind
          split at hrun
          · cases hrun
          · rename_i it htick
            split at hrun
            · cases hrun
            · rename_i a1 ha1
              obtain ⟨j, hj, ha1j⟩ := deref_eq_ok ha1
              cases hj
              split at hrun
              · cases hrun
              · rename_i hun1
                cases hrun
                have hw : w ∈ st.workers := List.mem_of_find?_eq_some hfind
                have hprop := List.find?_some hfind
                simp only [Bool.and_eq_true, decide_eq_true_eq] at hprop
                obtain ⟨hwt, hws⟩ := hprop
                subst hwt
                exact Or.inr ⟨a, w, it, a1, hai, by simpa using hasg, htid, hw, hws, htick,
                  ha1j, by simpa using hun1, rfl⟩

/-- The join leaves everything but the type B list as it is. -/
theorem join_shape {st s : State} {hid : Option Nat} {t : Nat}
    (hrun : cmd_handler_join_with_alarm_handler st hid = .ok (s, t)) :
    s = { st with cmdb_done := s.cmdb_done, cmdb_new := s.cmdb_new } := by
  unfold cmd_handler_join_with_alarm_handler at hrun
  cases hid with
  | none =>
    simp only [pure, Except.pure] at hrun
    cases hrun; rfl
  | some tid =>
    simp only at hrun
    split at hrun
    · split at hrun
      · cases hrun
      · simp only [pure, Except.pure] at hrun
        cases hrun; rfl
    · split at hrun
      · split at hrun
        · cases hrun
        · simp only [pure, Except.pure] at hrun
          cases hrun; rfl
      · cases hrun

/-- The handshake keeps the threads and the assigned alarms accounted for, and
changes only fields that alarm handlers write. -/
theorem handshake_owned {st st' : State} {p : Nat} (ho : Owned st.heap st.workers)
    (hwt : ∀ a ∈ st.heap, 0 < a.wait_time) (hrun : handshake st p = .ok st') :
    Owned st'.heap st'.workers ∧ HandlerFrame st.heap st'.heap ∧
    st' = { st with heap := st'.heap, workers := st'.workers } ∧
    ∃ a, st'.heap[p]? = some a ∧ a.is_assigned = false := by
  rcases handshake_cases hrun with ⟨rfl, a, ha, hun⟩ |
    ⟨a, w, it, a1, ha, hasg, hid, hw, hws, htick, ha1, hun1, rfl⟩
  · exact ⟨ho, rfl, rfl, a, ha, hun⟩
  · obtain ⟨ys, hc, _⟩ := ho.lists w hw
    obtain ⟨_, _, _, _, _, _, hframe⟩ := alarm_handler_tick_cells hc hwt htick
    exact ⟨ho.tick hwt hw hws htick, hframe, rfl, a1, ha1, hun1⟩



/-- Well-formedness of the global list only reads `link` and `msg_num`. -/
theorem registry_transfer {h g : Heap} {head : Option Nat} {xs : List Nat}
    (hc : Chain next_alarm h head xs) (hasc : KeysAscending h xs)
    (hcell : ∀ p ∈ xs, ∀ a, h[p]? = some a →
      ∃ b, g[p]? = some b ∧ b.link = a.link ∧ b.msg_num = a.msg_num) :
    Chain next_alarm g head xs ∧ KeysAscending g xs := by
  refine ⟨Chain.frame hc (fun p hp a ha => ?_), hasc.congr (fun p hp => ?_)⟩
  · obtain ⟨b, hb, hl, _⟩ := hcell p hp a ha
    exact ⟨b, hb, hl⟩
  · obtain ⟨a, ha⟩ := hc.valid p hp
    obtain ⟨b, hb, _, hm⟩ := hcell p hp a ha
    rw [key_of_some hb, key_of_some ha, hm]

theorem Persist.id_heap (h : Heap) : Persist h h := fun _ a ha => ⟨a, ha, rfl, id⟩

theorem Persist.compose {h1 h2 h3 : Heap} (p12 : Persist h1 h2) (p23 : Persist h2 h3) :
    Persist h1 h3 := by
  intro p a ha
  obtain ⟨b, hb, hm, hcn⟩ := p12 p a ha
  obtain ⟨c, hc, hm', hcn'⟩ := p23 p b hb
  exact ⟨c, hc, by rw [hm', hm], fun hx => hcn' (hcn hx)⟩

theorem Persist.grow (h : Heap) (a : Alarm) : Persist h (h ++ [a]) :=
  fun _ b hb => ⟨b, getElem?_append_old hb, rfl, id⟩

theorem Persist.set {h : Heap} {e : Nat} {ae b : Alarm} (hae : h[e]? = some ae)
    (hm : b.msg_num = ae.msg_num) (hcn : ae.is_cancelled = true → b.is_cancelled = true) :
    Persist h (h.set e b) := by
  intro p a ha
  by_cases hpe : p = e
  · subst hpe
    rw [hae] at ha; cases ha
    exact ⟨b, getElem?_set_of_some hae, hm, hcn⟩
  · exact ⟨a, by rw [List.getElem?_set_ne (Ne.symm hpe)]; exact ha, rfl, id⟩

theorem Persist.of_frame {F : LinkField} {ps : List Nat} {h h' : Heap}
    (hf : FieldFrame F ps h h')
    (hcn : ∀ a v, (F.upd a v).is_cancelled = a.is_cancelled) : Persist h h' := by
  intro p a ha
  obtain ⟨v, hv⟩ := hf.upd_of p a ha
  exact ⟨_, hv, F.key_upd a v, fun hx => by rw [hcn]; exact hx⟩

/-- Fields written by alarm handlers do not matter to the global part of the
invariant. -/
theorem SoundBut.handler_frame {e : Option Nat} {st : State} {h2 : Heap} {ws2 : List Worker}
    (hs : SoundBut e st) (hf : HandlerFrame st.heap h2) (ho : Owned h2 ws2) :
    SoundBut e { st with heap := h2, workers := ws2 } := by
  obtain ⟨xs, hc, hasc⟩ := hs.chain
  have hreg := registry_transfer (g := h2) hc hasc (fun p _ a ha => by
    obtain ⟨b, hb, hfix⟩ := hf.get ha
    exact ⟨b, hb, fixed_link hfix, fixed_msg_num hfix⟩)
  refine ⟨⟨xs, hreg.1, hreg.2⟩, ?_, ?_, hs.pending, ho⟩
  · intro b hb
    obtain ⟨p, hp⟩ := getElem?_of_mem hb
    obtain ⟨a, ha, hfix⟩ := hf.back hp
    rw [fixed_wait_time hfix]
    exact hs.positive a (mem_of_getElem? ha)
  · intro p b hp hne
    obtain ⟨a, ha, hfix⟩ := hf.back hp
    show b.is_replaced = false
    rw [fixed_is_replaced hfix]
    exact hs.unreplaced p a ha hne

theorem Sound.no_replaced {st : State} (hs : Sound st) : ∀ a ∈ st.heap, a.is_replaced = false := by
  intro a ha
  obtain ⟨p, hp⟩ := getElem?_of_mem ha
  exact hs.unreplaced p a hp (by simp)

/-- The invariant only reads the heap, `alarm_list_head`, the type A list and
the threads. -/
theorem SoundBut.of_same_fields {e : Option Nat} {st st' : State} (hs : SoundBut e st)
    (h1 : st'.heap = st.heap) (h2 : st'.alarm_list_head = st.alarm_list_head)
    (h3 : st'.workers = st.workers) (h4 : ∀ c ∈ st'.cmda_list, 0 < c.wait_time) :
    SoundBut e st' := by
  obtain ⟨hc, hp, hu, _, ho⟩ := hs
  exact ⟨by rw [h1, h2]; exact hc, by rw [h1]; exact hp, by rw [h1]; exact hu, h4,
    by rw [h1, h3]; exact ho⟩

/-- A tick of a started alarm handler thread keeps the invariant. -/
theorem tick_sound {st : State} {w : Worker} {it : IterOut} (hs : Sound st)
    (hw : w ∈ st.workers) (hst : w.started = true)
    (hrun : alarm_handler_tick st.heap w = .ok it) :
    Sound { st with heap := it.heap,
                    workers := if it.exited then st.workers.filter (fun v => v.tid ≠ w.tid)
                      else st.workers.map (fun v => if v.tid = w.tid then it.worker else v) } ∧
    Persist st.heap it.heap := by
  obtain ⟨ys, hc, _⟩ := hs.owned.lists w hw
  obtain ⟨_, _, _, _, _, _, hframe⟩ := alarm_handler_tick_cells hc hs.positive hrun
  exact ⟨SoundBut.handler_frame hs hframe (hs.owned.tick hs.positive hw hst hrun),
    hframe.persist⟩

/-- The initial scan of an alarm handler thread keeps the invariant. -/
theorem scan_sound {st : State} {w w' : Worker} {h' : Heap} (hs : Sound st)
    (hw : w ∈ st.workers) (hst : w.started = false)
    (hrun : alarm_handler_init st.heap st.alarm_list_head w.tid w.msg_type = .ok (h', w')) :
    Sound { st with heap := h',
                    workers := st.workers.map (fun v => if v.tid = w.tid then w' else v) } ∧
    Persist st.heap h' := by
  obtain ⟨xs, hc, hasc⟩ := hs.chain
  obtain ⟨ho, hframe⟩ := hs.owned.scan hc hasc hw hst hrun
  exact ⟨SoundBut.handler_frame hs hframe ho, hframe.persist⟩

theorem insert_alarm_resume_eq {h h' : Heap} {p : Nat} (hrun : insert_alarm_resume h p = .ok h') :
    ∃ b, h[p]? = some b ∧ h' = h.set p { b with is_replaced := false } := by
  unfold insert_alarm_resume at hrun
  obtain ⟨b, hb, hrest⟩ := bind_eq_ok hrun
  obtain ⟨i, hi, hbi⟩ := deref_eq_ok hb
  cases hi
  simp only [pure, Except.pure] at hrest
  cases hrest
  exact ⟨b, hbi, rfl⟩

/-- The end of a replacing `insert_alarm` call: after the handshake and the
reset of `is_replaced` the invariant holds without exception. -/
theorem insert_alarm_handshake_sound {st st2 : State} {wait_on : Option Nat}
    (hs : SoundBut wait_on st) (hrun : insert_alarm_handshake st wait_on = .ok st2) :
    Sound st2 ∧ Persist st.heap st2.heap ∧
    st2 = { st with heap := st2.heap, workers := st2.workers } := by
  cases wait_on with
  | none =>
    simp only [insert_alarm_handshake, pure, Except.pure] at hrun
    cases hrun
    exact ⟨hs, Persist.id_heap _, rfl⟩
  | some e =>
    simp only [insert_alarm_handshake] at hrun
    obtain ⟨st1, hhs, hrest⟩ := bind_eq_ok hrun
    obtain ⟨h3, hres, hrest⟩ := bind_eq_ok hrest
    simp only [pure, Except.pure] at hrest
    cases hrest
    obtain ⟨ho, hframe, hshape, _⟩ := handshake_owned hs.owned hs.positive hhs
    have hs1 : SoundBut (some e) st1 := by
      rw [hshape]
      exact hs.handler_frame hframe ho
    obtain ⟨b, hb, rfl⟩ := insert_alarm_resume_eq hres
    obtain ⟨xs, hc, hasc⟩ := hs1.chain
    have hcell : ∀ (p : Nat) (a : Alarm), st1.heap[p]? = some a →
        ∃ a' : Alarm, (st1.heap.set e { b with is_replaced := false })[p]? = some a' ∧
          a'.link = a.link ∧ a'.msg_num = a.msg_num ∧ a'.link_handle = a.link_handle ∧
          a'.is_assigned = a.is_assigned ∧ a'.handler_id = a.handler_id ∧
          a'.wait_time = a.wait_time ∧ a'.is_cancelled = a.is_cancelled ∧
          (p ≠ e → a' = a) ∧ (p = e → a'.is_replaced = false) := by
      intro p a ha
      by_cases hpe : p = e
      · subst hpe
        rw [hb] at ha; cases ha
        exact ⟨_, getElem?_set_of_some hb, rfl, rfl, rfl, rfl, rfl, rfl, rfl,
          fun hne => absurd rfl hne, fun _ => rfl⟩
      · exact ⟨a, by rw [List.getElem?_set_ne (Ne.symm hpe)]; exact ha, rfl, rfl, rfl, rfl,
          rfl, rfl, rfl, fun _ => rfl, fun he => absurd he hpe⟩
    have hback : ∀ (p : Nat) (a' : Alarm),
        (st1.heap.set e { b with is_replaced := false })[p]? = some a' →
        ∃ a, st1.heap[p]? = some a := by
      intro p a' hp
      exact getElem?_some_of_lt (by simpa using lt_of_getElem? hp)
    have hreg := registry_transfer (g := st1.heap.set e { b with is_replaced := false }) hc hasc
      (fun p _ a ha => by
        obtain ⟨a', ha', h1, h2, _⟩ := hcell p a ha
        exact ⟨a', ha', h1, h2⟩)
    refine ⟨⟨⟨xs, hreg.1, hreg.2⟩, ?_, ?_, hs1.pending, ?_⟩, ?_, ?_⟩
    · intro a' ha'
      obtain ⟨p, hp⟩ := getElem?_of_mem ha'
      obtain ⟨a, ha⟩ := hback p a' hp
      obtain ⟨a'', ha'', _, _, _, _, _, hw, _⟩ := hcell p a ha
      rw [hp] at ha''; cases ha''
      rw [hw]
      exact hs1.positive a (mem_of_getElem? ha)
    · intro p a' hp _
      obtain ⟨a, ha⟩ := hback p a' hp
      obtain ⟨a'', ha'', _, _, _, _, _, _, _, hne, heq⟩ := hcell p a ha
      have hp' : (st1.heap.set e { b with is_replaced := false })[p]? = some a' := hp
      rw [hp'] at ha''; cases ha''
      by_cases hpe : p = e
      · exact heq hpe
      · rw [hne hpe]
        exact hs1.unreplaced p a ha (fun hx => hpe (Option.some.inj hx).symm)
    · refine hs1.owned.same_owner (by simp) (fun p a ha => ?_)
      obtain ⟨a', ha', _, _, h3, h4, h5, _⟩ := hcell p a ha
      exact ⟨a', ha', h3, h4, h5⟩
    · refine hframe.persist.compose (fun p a ha => ?_)
      obtain ⟨a', ha', _, h2, _, _, _, _, h7, _⟩ := hcell p a ha
      exact ⟨a', ha', h2, fun hx => by rw [h7]; exact hx⟩
    · rw [hshape]



theorem FieldFrame.back_cell {F : LinkField} {ps : List Nat} {h h' : Heap}
    (hf : FieldFrame F ps h h') {p : Nat} {b : Alarm} (hb : h'[p]? = some b) :
    ∃ a v, h[p]? = some a ∧ b = F.upd a v := by
  obtain ⟨a, ha⟩ := getElem?_some_of_lt (h := h) (by rw [← hf.length_eq]; exact lt_of_getElem? hb)
  obtain ⟨v, hv⟩ := hf.upd_of p a ha
  rw [hb] at hv; cases hv
  exact ⟨a, v, ha, rfl⟩

theorem getElem?_append_cases {h : Heap} {x b : Alarm} {p : Nat}
    (hb : (h ++ [x])[p]? = some b) : h[p]? = some b ∨ (p = h.length ∧ b = x) := by
  by_cases hp : p < h.length
  · left
    rw [List.getElem?_append_left hp] at hb
    exact hb
  · right
    have hlen := lt_of_getElem? hb
    simp at hlen
    have hpe : p = h.length := by omega
    subst hpe
    rw [getElem?_append_new] at hb
    exact ⟨rfl, (Option.some.inj hb).symm⟩

/-- The allocation and insertion of one alarm by the command handler, up to
the handshake: the invariant holds except for `is_replaced` of the alarm that
the command handler waits on. -/
theorem cmd_handler_insert_sound {st : State} {c : CmdA} {out : InsertOut} (hs : Sound st)
    (hpos : 0 < c.wait_time)
    (hrun : cmd_handler_insert st.heap st.alarm_list_head c = .ok out) :
    SoundBut out.wait_on { st with heap := out.heap, alarm_list_head := out.head } ∧
    Persist st.heap out.heap := by
  obtain ⟨xs, hc, hasc⟩ := hs.chain
  have hc0 := hc.append (alarm_of_cmda c)
  have hk0 : ∀ p ∈ xs, key (st.heap ++ [alarm_of_cmda c]) p = key st.heap p :=
    fun p hp => key_append_old (hc.lt_length p hp)
  have hs0 : KeysAscending (st.heap ++ [alarm_of_cmda c]) xs := hasc.congr hk0
  have hpos0 : ∀ a ∈ st.heap ++ [alarm_of_cmda c], 0 < a.wait_time := by
    intro a ha
    rcases List.mem_append.1 ha with h1 | h1
    · exact hs.positive a h1
    · simp at h1; subst h1; exact hpos
  have hun0 : ∀ (p : Nat) (a : Alarm), (st.heap ++ [alarm_of_cmda c])[p]? = some a →
      a.is_replaced = false := by
    intro p a ha
    rcases getElem?_append_cases ha with h1 | ⟨_, rfl⟩
    · exact hs.unreplaced p a h1 (by simp)
    · rfl
  have ho0 := hs.owned.extend c
  rcases cmd_handler_insert_cases c hc hasc with
    ⟨e, ae, he, hae, hk, hrun'⟩ | ⟨hne, h', head', hrun', hch, hfr⟩
  · rw [hrun] at hrun'
    cases hrun'
    have hae0 := getElem?_append_old (a := alarm_of_cmda c) hae
    have hcell : ∀ (p : Nat) (a : Alarm), (st.heap ++ [alarm_of_cmda c])[p]? = some a →
        ∃ a' : Alarm, ((st.heap ++ [alarm_of_cmda c]).set e
            (replaced_cell ae (alarm_of_cmda c)))[p]? = some a' ∧
          a'.link = a.link ∧ a'.msg_num = a.msg_num ∧ a'.link_handle = a.link_handle ∧
          a'.is_assigned = a.is_assigned ∧ a'.handler_id = a.handler_id ∧
          a'.is_cancelled = a.is_cancelled ∧
          (p ≠ e → a' = a) ∧ (p = e → a' = replaced_cell ae (alarm_of_cmda c)) := by
      intro p a ha
      by_cases hpe : p = e
      · subst hpe
        rw [hae0] at ha; cases ha
        refine ⟨_, getElem?_set_of_some hae0, ?_, ?_, ?_, ?_, ?_, ?_,
          fun hne => absurd rfl hne, fun _ => rfl⟩ <;>
          (simp only [replaced_cell]; split <;> rfl)
      · exact ⟨a, by rw [List.getElem?_set_ne (Ne.symm hpe)]; exact ha, rfl, rfl, rfl, rfl,
          rfl, rfl, fun _ => rfl, fun he' => absurd he' hpe⟩
    have hback : ∀ (p : Nat) (a' : Alarm), ((st.heap ++ [alarm_of_cmda c]).set e
        (replaced_cell ae (alarm_of_cmda c)))[p]? = some a' →
        ∃ a, (st.heap ++ [alarm_of_cmda c])[p]? = some a := by
      intro p a' hp
      exact getElem?_some_of_lt (by simpa using lt_of_getElem? hp)
    have hreg := registry_transfer (g := (st.heap ++ [alarm_of_cmda c]).set e
      (replaced_cell ae (alarm_of_cmda c))) hc0 hs0 (fun p _ a ha => by
        obtain ⟨a', ha', h1, h2, _⟩ := hcell p a ha
        exact ⟨a', ha', h1, h2⟩)
    refine ⟨⟨⟨xs, hreg.1, hreg.2⟩, ?_, ?_, hs.pending, ?_⟩, ?_⟩
    · intro a' ha'
      rcases List.mem_or_eq_of_mem_set ha' with h1 | h1
      · exact hpos0 a' h1
      · subst h1
        exact hpos
    · intro p a' hp hne'
      obtain ⟨a, ha⟩ := hback p a' hp
      obtain ⟨a'', ha'', _, _, _, _, _, _, hother, hself⟩ := hcell p a ha
      have hp' : ((st.heap ++ [alarm_of_cmda c]).set e
        (replaced_cell ae (alarm_of_cmda c)))[p]? = some a' := hp
      rw [hp'] at ha''; cases ha''
      by_cases hpe : p = e
      · subst hpe
        rw [hself rfl]
        cases hrep : (replaced_cell ae (alarm_of_cmda c)).is_replaced
        · rfl
        · exfalso
          apply hne'
          show (if (replaced_cell ae (alarm_of_cmda c)).is_replaced = true then some p else none)
            = some p
          rw [hrep]; rfl
      · rw [hother hpe]
        exact hun0 p a ha
    · refine ho0.same_owner (by simp) (fun p a ha => ?_)
      obtain ⟨a', ha', _, _, h3, h4, h5, _⟩ := hcell p a ha
      exact ⟨a', ha', h3, h4, h5⟩
    · refine (Persist.grow st.heap (alarm_of_cmda c)).compose (fun p a ha => ?_)
      obtain ⟨a', ha', _, h2, _, _, _, h6, _⟩ := hcell p a ha
      exact ⟨a', ha', h2, fun hx => by rw [h6]; exact hx⟩
  · rw [hrun] at hrun'
    cases hrun'
    have hasc' : KeysAscending h' (ins (st.heap ++ [alarm_of_cmda c]) st.heap.length xs) := by
      have := ins_ascending (n := st.heap.length) hs0 (fun q hq => by
        rw [hk0 q hq, key_append_new]; exact hne q hq)
      exact this.congr (fun p _ => hfr.key_eq p)
    refine ⟨⟨⟨_, hch, hasc'⟩, ?_, ?_, hs.pending, ?_⟩, ?_⟩
    · intro b hb
      obtain ⟨a, v, ha, rfl⟩ := mem_heap_of_frame hfr hb
      exact hpos0 a ha
    · intro p b hb _
      obtain ⟨a, v, ha, rfl⟩ := hfr.back_cell hb
      exact hun0 p a ha
    · refine ho0.same_owner hfr.length_eq (fun p a ha => ?_)
      obtain ⟨v, hv⟩ := hfr.upd_of p a ha
      exact ⟨_, hv, rfl, rfl, rfl⟩
    · exact (Persist.grow st.heap (alarm_of_cmda c)).compose
        (Persist.of_frame hfr (fun _ _ => rfl))

/-- The body of the type A loop keeps the invariant. -/
theorem type_A_body_sound {st st' : State} {c : CmdA} (hs : Sound st) (hpos : 0 < c.wait_time)
    (hrun : cmd_handler_type_A_body st c = .ok st') :
    Sound st' ∧ Persist st.heap st'.heap ∧
    st' = { st with heap := st'.heap, alarm_list_head := st'.alarm_list_head,
                    workers := st'.workers, cmdb_done := st'.cmdb_done,
                    cmdb_new := st'.cmdb_new } := by
  unfold cmd_handler_type_A_body at hrun
  obtain ⟨out, hins, hrun⟩ := bind_eq_ok hrun
  obtain ⟨st2, hhs, hrun⟩ := bind_eq_ok hrun
  obtain ⟨r, hjoin, hrun⟩ := bind_eq_ok hrun
  simp only [pure, Except.pure] at hrun
  cases hrun
  obtain ⟨hmid, hp1⟩ := cmd_handler_insert_sound hs hpos hins
  obtain ⟨hs2, hp2, hshape2⟩ := insert_alarm_handshake_sound hmid hhs
  have hshape3 := join_shape (s := r.1) (t := r.2) hjoin
  have hs3 : Sound r.1 := by
    rw [hshape3]
    exact SoundBut.of_same_fields hs2 rfl rfl rfl hs2.pending
  refine ⟨hs3, hp1.compose (by rw [hshape3]; exact hp2), ?_⟩
  rw [hshape3, hshape2]

theorem cmd_handler_search_miss (k : Nat) (head : Option Nat) :
    ∀ (xs : List Nat) (fuel : Nat) (h : Heap) (prev curr : Option Nat),
      Chain next_alarm h curr xs → (∀ q ∈ xs, key h q ≠ k) → xs.length ≤ fuel →
      cmd_handler_search k fuel h head prev curr = .ok (h, head, none)
  | [], fuel, h, prev, curr, hc, _, _ => by
    cases hc
    cases fuel <;> simp [cmd_handler_search, pure, Except.pure]
  | x :: xs, 0, _, _, _, _, _, hl => by simp at hl
  | x :: xs, fuel + 1, h, prev, curr, hc, hq, hl => by
    obtain ⟨hs, ax, hax, hrest⟩ := hc
    subst hs
    have hk : ¬ ax.msg_num = k := by
      have := hq x (List.mem_cons_self _ _)
      rwa [key_of_some hax] at this
    have ih := cmd_handler_search_miss k head xs fuel h (some x) ax.link hrest
      (fun q hq' => hq q (List.mem_cons_of_mem _ hq')) (by simpa using hl)
    simp [cmd_handler_search, deref_some_eq hax, hk, bind, Except.bind]
    exact ih

/-- A type C command whose key is not in the global list makes the command
handler dereference `NULL`. -/
theorem cmd_handler_cancel_miss {h : Heap} {head : Option Nat} {xs : List Nat} {k : Nat}
    (hc : Chain next_alarm h head xs) (hnd : xs.Nodup) (hq : ∀ q ∈ xs, key h q ≠ k) :
    cmd_handler_cancel h head k = .error .null_deref := by
  have := cmd_handler_search_miss k head xs h.length h none head hc hq (hc.length_le hnd)
  simp [cmd_handler_cancel, this, deref, bind, Except.bind]

theorem with_link_eq {x y : Alarm} (h : { y with link := x.link } = x) :
    y.link_handle = x.link_handle ∧ y.wait_time = x.wait_time ∧ y.msg_type = x.msg_type ∧
    y.msg_num = x.msg_num ∧ y.msg = x.msg ∧ y.is_assigned = x.is_assigned ∧
    y.handler_id = x.handler_id ∧ y.is_replaced = x.is_replaced ∧
    y.is_cancelled = x.is_cancelled := by
  cases x; cases y
  simp only [Alarm.mk.injEq] at h
  simp [h]

/-- The processing of one type C command up to the handshake keeps the
invariant. -/
theorem cmd_handler_cancel_sound {st : State} {k : Nat} {out : CancelOut} (hs : Sound st)
    (hrun : cmd_handler_cancel st.heap st.alarm_list_head k = .ok out) :
    Sound { st with heap := out.heap, alarm_list_head := out.head } ∧
    Persist st.heap out.heap := by
  obtain ⟨xs, hc, hasc⟩ := hs.chain
  by_cases hex : ∃ e ∈ xs, key st.heap e = k
  · obtain ⟨e, he, hke⟩ := hex
    obtain ⟨ae, hae⟩ := hc.valid e he
    have hk : ae.msg_num = k := by rw [← hke, key_of_some hae]
    obtain ⟨out', hrun', _, hc', hlen, hcell, hrest, _, _⟩ :=
      cmd_handler_cancel_hit hc hasc he hae hk
    rw [hrun] at hrun'
    cases hrun'
    have hcells : ∀ (p : Nat) (a : Alarm), st.heap[p]? = some a →
        ∃ a' : Alarm, out.heap[p]? = some a' ∧ a'.msg_num = a.msg_num ∧
          a'.link_handle = a.link_handle ∧ a'.is_assigned = a.is_assigned ∧
          a'.handler_id = a.handler_id ∧ a'.wait_time = a.wait_time ∧
          a'.is_replaced = a.is_replaced ∧ (a.is_cancelled = true → a'.is_cancelled = true) := by
      intro p a ha
      by_cases hpe : p = e
      · subst hpe
        rw [hae] at ha; cases ha
        exact ⟨_, hcell, rfl, rfl, rfl, rfl, rfl, rfl, fun _ => rfl⟩
      · obtain ⟨y, hy, hyx⟩ := hrest p a hpe ha
        obtain ⟨h1, h2, _, h4, _, h6, h7, h8, h9⟩ := with_link_eq hyx
        exact ⟨y, hy, h4, h1, h6, h7, h2, h8, fun hx => by rw [h9]; exact hx⟩
    have hback : ∀ (p : Nat) (a' : Alarm), out.heap[p]? = some a' →
        ∃ a, st.heap[p]? = some a := by
      intro p a' hp
      exact getElem?_some_of_lt (by rw [← hlen]; exact lt_of_getElem? hp)
    have hasc' : KeysAscending out.heap (xs.erase e) := by
      have h1 : KeysAscending st.heap (xs.erase e) :=
        List.Pairwise.sublist ((List.erase_sublist e xs).map _) hasc
      refine h1.congr (fun p hp => ?_)
      obtain ⟨a, ha⟩ := hc.valid p (List.mem_of_mem_erase hp)
      obtain ⟨a', ha', hm, _⟩ := hcells p a ha
      rw [key_of_some ha', key_of_some ha, hm]
    refine ⟨⟨⟨_, hc', hasc'⟩, ?_, ?_, hs.pending, ?_⟩, ?_⟩
    · intro a' ha'
      obtain ⟨p, hp⟩ := getElem?_of_mem ha'
      obtain ⟨a, ha⟩ := hback p a' hp
      obtain ⟨a'', ha'', _, _, _, _, hw, _⟩ := hcells p a ha
      rw [hp] at ha''; cases ha''
      rw [hw]
      exact hs.positive a (mem_of_getElem? ha)
    · intro p a' hp hne
      obtain ⟨a, ha⟩ := hback p a' hp
      obtain ⟨a'', ha'', _, _, _, _, _, hr, _⟩ := hcells p a ha
      have hp' : out.heap[p]? = some a' := hp
      rw [hp'] at ha''; cases ha''
      rw [hr]
      exact hs.unreplaced p a ha hne
    · refine hs.owned.same_owner hlen (fun p a ha => ?_)
      obtain ⟨a', ha', _, h2, h3, h4, _⟩ := hcells p a ha
      exact ⟨a', ha', h2, h3, h4⟩
    · intro p a ha
      obtain ⟨a', ha', h1, _, _, _, _, _, h7⟩ := hcells p a ha
      exact ⟨a', ha', h1, h7⟩
  · have := cmd_handler_cancel_miss hc hasc.nodup (fun q hq hk => hex ⟨q, hq, hk⟩)
    rw [hrun] at this
    cases this

/-- The body of the type C loop keeps the invariant. -/
theorem type_C_body_sound {st st' : State} {c : CmdC} (hs : Sound st)
    (hrun : cmd_handler_type_C_body st c = .ok st') :
    Sound st' ∧ Persist st.heap st'.heap ∧
    st' = { st with heap := st'.heap, alarm_list_head := st'.alarm_list_head,
                    workers := st'.workers, cmdb_done := st'.cmdb_done,
                    cmdb_new := st'.cmdb_new } := by
  unfold cmd_handler_type_C_body at hrun
  obtain ⟨out, hcan, hrun⟩ := bind_eq_ok hrun
  obtain ⟨st2, hhs, hrun⟩ := bind_eq_ok hrun
  obtain ⟨r, hjoin, hrun⟩ := bind_eq_ok hrun
  simp only [pure, Except.pure] at hrun
  cases hrun
  obtain ⟨hmid, hp1⟩ := cmd_handler_cancel_sound hs hcan
  have h2 : Sound st2 ∧ Persist out.heap st2.heap ∧
      st2 = { st with heap := st2.heap, alarm_list_head := out.head, workers := st2.workers } := by
    cases hw : out.wait_on with
    | none =>
      rw [hw] at hhs
      simp only [cmd_handler_handshake, pure, Except.pure] at hhs
      cases hhs
      exact ⟨hmid, Persist.id_heap _, rfl⟩
    | some p =>
      rw [hw] at hhs
      simp only [cmd_handler_handshake] at hhs
      obtain ⟨ho, hframe, hshape, _⟩ := handshake_owned hmid.owned hmid.positive hhs
      refine ⟨?_, hframe.persist, ?_⟩
      · rw [hshape]
        exact SoundBut.handler_frame hmid hframe ho
      · rw [hshape]
  obtain ⟨hs2, hp2, hshape2⟩ := h2
  have hshape3 := join_shape (s := r.1) (t := r.2) hjoin
  have hs3 : Sound r.1 := by
    rw [hshape3]
    exact SoundBut.of_same_fields hs2 rfl rfl rfl hs2.pending
  refine ⟨hs3, hp1.compose (by rw [hshape3]; exact hp2), ?_⟩
  rw [hshape3, hshape2]

/-- The type A loop keeps the invariant and empties the list it drains. -/
theorem type_A_loop_sound : ∀ (cmds : List CmdA) {st st' : State}, Sound st →
    (∀ c ∈ cmds, 0 < c.wait_time) → cmd_handler_type_A_loop cmds st = .ok st' →
    Sound st' ∧ Persist st.heap st'.heap ∧
    st' = { st with heap := st'.heap, alarm_list_head := st'.alarm_list_head,
                    workers := st'.workers, cmdb_done := st'.cmdb_done,
                    cmdb_new := st'.cmdb_new,
                    cmda_list := if cmds = [] then st.cmda_list else [] }
  | [], st, st', hs, _, hrun => by
    simp only [cmd_handler_type_A_loop, pure, Except.pure] at hrun
    cases hrun
    exact ⟨hs, Persist.id_heap _, rfl⟩
  | c :: cs, st, st', hs, hpos, hrun => by
    unfold cmd_handler_type_A_loop at hrun
    obtain ⟨st1, h1, hrun⟩ := bind_eq_ok hrun
    have hpos' : ∀ x ∈ cs, 0 < x.wait_time := fun x hx => hpos x (List.mem_cons_of_mem _ hx)
    have hs0 : Sound { st with cmda_list := cs } := SoundBut.of_same_fields hs rfl rfl rfl hpos'
    obtain ⟨hs1, hp1, hshape1⟩ := type_A_body_sound hs0 (hpos c (List.mem_cons_self _ _)) h1
    obtain ⟨hs2, hp2, hshape2⟩ := type_A_loop_sound cs hs1 hpos' hrun
    refine ⟨hs2, Persist.compose hp1 hp2, ?_⟩
    rw [hshape2, hshape1]
    cases cs <;> simp

/-- The type C loop keeps the invariant and empties the list it drains. -/
theorem type_C_loop_sound : ∀ (cmds : List CmdC) {st st' : State}, Sound st →
    cmd_handler_type_C_loop cmds st = .ok st' →
    Sound st' ∧ Persist st.heap st'.heap ∧
    st' = { st with heap := st'.heap, alarm_list_head := st'.alarm_list_head,
                    workers := st'.workers, cmdb_done := st'.cmdb_done,
                    cmdb_new := st'.cmdb_new,
                    cmdc_list := if cmds = [] then st.cmdc_list else [] }
  | [], st, st', hs, hrun => by
    simp only [cmd_handler_type_C_loop, pure, Except.pure] at hrun
    cases hrun
    exact ⟨hs, Persist.id_heap _, rfl⟩
  | c :: cs, st, st', hs, hrun => by
    unfold cmd_handler_type_C_loop at hrun
    obtain ⟨st1, h1, hrun⟩ := bind_eq_ok hrun
    have hs0 : Sound { st with cmdc_list := cs } := SoundBut.of_same_fields hs rfl rfl rfl hs.pending
    obtain ⟨hs1, hp1, hshape1⟩ := type_C_body_sound hs0 h1
    obtain ⟨hs2, hp2, hshape2⟩ := type_C_loop_sound cs hs1 hrun
    refine ⟨hs2, Persist.compose hp1 hp2, ?_⟩
    rw [hshape2, hshape1]
    cases cs <;> simp

theorem Owned.create {h : Heap} {ws : List Worker} (ho : Owned h ws) (tid t : Nat)
    (hlt : ∀ w ∈ ws, w.tid < tid) :
    Owned h (ws ++ [{ tid := tid, msg_type := t, handle_list_head := none,
                      time_since_create := 0, started := false }]) := by
  refine ⟨ho.assigned_iff, ho.detached, ?_, ?_, ?_, ?_⟩
  · intro w hw
    rcases List.mem_append.1 hw with h1 | h1
    · exact ho.lists w h1
    · simp at h1; subst h1
      exact ⟨[], rfl, fun q hq => by simp at hq⟩
  · intro p a ha hasg
    obtain ⟨w, hw, hrest⟩ := ho.owner p a ha hasg
    exact ⟨w, List.mem_append_left _ hw, hrest⟩
  · intro w hw hst
    rcases List.mem_append.1 hw with h1 | h1
    · exact ho.fresh w h1 hst
    · simp at h1; subst h1; rfl
  · simp only [List.map_append, List.map_cons, List.map_nil]
    refine List.Nodup.append ho.tids (List.nodup_singleton _) ?_
    intro x hx hx'
    simp at hx'
    subst hx'
    obtain ⟨w, hw, hwt⟩ := List.mem_map.1 hx
    have := hlt w hw
    omega

/-- The type B loop creates threads that have not started, with fresh ids; it
leaves the heap and the other command lists as they are and processes every
new record. -/
theorem type_B_loop_sound : ∀ (rs : List CmdB) {st : State}, Sound st →
    (∀ w ∈ st.workers, w.tid < st.next_tid) → st.cmdb_new = rs →
    Sound (cmd_handler_type_B_loop rs st) ∧
    (cmd_handler_type_B_loop rs st).heap = st.heap ∧
    (cmd_handler_type_B_loop rs st).cmda_list = st.cmda_list ∧
    (cmd_handler_type_B_loop rs st).cmdc_list = st.cmdc_list ∧
    (cmd_handler_type_B_loop rs st).cmdb_new = [] ∧
    (cmd_handler_type_B_loop rs st).pc = st.pc
  | [], st, hs, _, hnew => ⟨hs, rfl, rfl, rfl, hnew, rfl⟩
  | r :: rs, st, hs, hlt, _ => by
    unfold cmd_handler_type_B_loop
    have hs1 : Sound
        { st with
          cmdb_done := st.cmdb_done ++ [{ r with is_processed := true, id := some st.next_tid }],
          cmdb_new := rs,
          workers := st.workers ++ [{ tid := st.next_tid, msg_type := r.msg_type,
                                      handle_list_head := none, time_since_create := 0,
                                      started := false }],
          next_tid := st.next_tid + 1 } :=
      ⟨hs.chain, hs.positive, hs.unreplaced, hs.pending,
        hs.owned.create st.next_tid r.msg_type hlt⟩
    obtain ⟨h1, h2, h3, h4, h5, h6⟩ := type_B_loop_sound rs hs1 (by
      intro w hw
      rcases List.mem_append.1 hw with h1 | h1
      · exact Nat.lt_succ_of_lt (hlt w h1)
      · simp at h1; subst h1; exact Nat.lt_succ_self _) rfl
    exact ⟨h1, h2, h3, h4, h5, h6⟩

/-- One locked section of the command handler keeps the invariant. -/
theorem section_sound {st st' : State} (hs : Sound st) (hi : OnePerType st)
    (hrun : cmd_handler_section st = .ok st') : Sound st' ∧ Persist st.heap st'.heap := by
  have hB : Sound (cmd_handler_from_B st) ∧ (cmd_handler_from_B st).heap = st.heap := by
    obtain ⟨h1, h2, _⟩ := type_B_loop_sound st.cmdb_new hs hi.tids_lt rfl
    unfold cmd_handler_from_B cmd_handler_type_B
    simp only []
    split
    · exact ⟨SoundBut.of_same_fields h1 rfl rfl rfl h1.pending, h2⟩
    · exact ⟨SoundBut.of_same_fields h1 rfl rfl rfl h1.pending, h2⟩
  have hC : ∀ {s'}, cmd_handler_from_C st = .ok s' → Sound s' ∧ Persist st.heap s'.heap := by
    intro s' hrun
    unfold cmd_handler_from_C cmd_handler_type_C at hrun
    obtain ⟨st1, h1, hrun⟩ := bind_eq_ok hrun
    simp only [pure, Except.pure] at hrun
    cases hrun
    obtain ⟨hs1, hp1, _⟩ := type_C_loop_sound st.cmdc_list hs h1
    exact ⟨SoundBut.of_same_fields hs1 rfl rfl rfl hs1.pending, hp1⟩
  unfold cmd_handler_section at hrun
  split at hrun
  · split at hrun
    · cases hrun
    · split at hrun
      · split at hrun
        · exact hC hrun
        · simp only [pure, Except.pure] at hrun
          cases hrun
          exact ⟨hB.1, by rw [hB.2]; exact Persist.id_heap _⟩
      · unfold cmd_handler_type_A at hrun
        obtain ⟨st1, h1, hrun⟩ := bind_eq_ok hrun
        obtain ⟨hs1, hp1, _⟩ := type_A_loop_sound st.cmda_list hs hs.pending h1
        split at hrun
        · split at hrun
          · simp only [pure, Except.pure] at hrun
            cases hrun
            exact ⟨SoundBut.of_same_fields hs1 rfl rfl rfl hs1.pending, hp1⟩
          · simp only [pure, Except.pure] at hrun
            cases hrun
            exact ⟨SoundBut.of_same_fields hs1 rfl rfl rfl hs1.pending, hp1⟩
        · simp only [pure, Except.pure] at hrun
          cases hrun
          exact ⟨SoundBut.of_same_fields hs1 rfl rfl rfl hs1.pending, hp1⟩
  · simp only [pure, Except.pure] at hrun
    cases hrun
    exact ⟨hB.1, by rw [hB.2]; exact Persist.id_heap _⟩
  · exact hC hrun

theorem main_type_A_positive {st : State} {c : CmdA} (hpos : 0 < c.wait_time)
    (hp : ∀ x ∈ st.cmda_list, 0 < x.wait_time) :
    ∀ x ∈ (main_type_A st c).cmda_list, 0 < x.wait_time := by
  have hov : ∀ (l l' : List CmdA), (∀ x ∈ l, 0 < x.wait_time) →
      main_type_A_overwrite c l = some l' → ∀ x ∈ l', 0 < x.wait_time := by
    intro l
    induction l with
    | nil => intro l' _ h; simp [main_type_A_overwrite] at h
    | cons y ys ih =>
      intro l' hl h
      unfold main_type_A_overwrite at h
      split at h
      · cases h
        intro x hx
        rcases List.mem_cons.1 hx with rfl | hx
        · exact hpos
        · exact hl x (List.mem_cons_of_mem _ hx)
      · cases hrec : main_type_A_overwrite c ys with
        | none => simp [hrec] at h
        | some l2 =>
          simp [hrec] at h
          subst h
          intro x hx
          rcases List.mem_cons.1 hx with rfl | hx
          · exact hl _ (List.mem_cons_self _ _)
          · exact ih l2 (fun z hz => hl z (List.mem_cons_of_mem _ hz)) hrec x hx
  unfold main_type_A
  cases hrec : main_type_A_overwrite c st.cmda_list with
  | none =>
    intro x hx
    rcases List.mem_append.1 hx with h1 | h1
    · exact hp x h1
    · simp at h1; subst h1; exact hpos
  | some l => exact hov st.cmda_list l hp hrec

/-- The submissions of the main thread leave the heap and the threads as they
are. -/
theorem main_type_A_shape (st : State) (c : CmdA) :
    main_type_A st c = { st with cmda_list := (main_type_A st c).cmda_list } := by
  unfold main_type_A
  split <;> rfl

theorem main_type_B_shape (st : State) (t : Nat) (reg : List Alarm) :
    main_type_B st t reg = { st with cmdb_new := (main_type_B st t reg).cmdb_new } := by
  unfold main_type_B
  simp only []
  split
  · split <;> rfl
  · rfl

theorem main_type_C_shape (st : State) (k : Nat) (reg : List Alarm) :
    main_type_C st k reg = { st with cmdc_list := (main_type_C st k reg).cmdc_list } := by
  unfold main_type_C
  simp only []
  split
  · split <;> rfl
  · rfl

/-- Every step of the application keeps the invariant, and no step removes a
cell or takes back `is_cancelled`. -/
theorem step_sound {st st' : State} (hs : Sound st) (hi : OnePerType st) (hstep : Step st st') :
    Sound st' ∧ Persist st.heap st'.heap := by
  cases hstep
  · rename_i c hw _ _ _
    rw [main_type_A_shape]
    exact ⟨SoundBut.of_same_fields hs rfl rfl rfl (main_type_A_positive hw hs.pending), Persist.id_heap _⟩
  · rename_i t _
    rw [main_type_B_shape]
    exact ⟨SoundBut.of_same_fields hs rfl rfl rfl hs.pending, Persist.id_heap _⟩
  · rename_i k _
    rw [main_type_C_shape]
    exact ⟨SoundBut.of_same_fields hs rfl rfl rfl hs.pending, Persist.id_heap _⟩
  · rename_i h
    exact section_sound hs hi h
  · rename_i w h' w' hw hst h
    exact scan_sound hs hw hst h
  · rename_i w it hw hst h
    exact tick_sound hs hw hst h

theorem sound_init : Sound State.init := by
  refine ⟨⟨[], rfl, by simp [KeysAscending]⟩, ?_, ?_, ?_, ?_⟩
  · intro a ha; simp [State.init] at ha
  · intro p a ha; simp [State.init] at ha
  · intro c hc; simp [State.init] at hc
  · refine ⟨?_, ?_, ?_, ?_, ?_, ?_⟩ <;> simp [State.init]

/-- The invariant holds in every reachable state. -/
theorem reachable_sound {st : State} (hr : Reachable st) : Sound st := by
  induction hr with
  | init => exact sound_init
  | step st st' hr hs ih => exact (step_sound ih (reachable_one_per_type hr) hs).1

/-- In every state that the running application reaches, before `cleanup_main`
shuts it down, every alarm has `is_assigned` equal to `handler_id != NULL`, and
every assigned alarm is in the local list of the thread that `handler_id` names
and in the local list of no other thread. -/
theorem running_assigned_alarm_has_one_handler {st : State} (hr : Reachable st) :
    (∀ a ∈ st.heap, a.is_assigned = a.handler_id.isSome) ∧
    ∀ (p : Nat) (a : Alarm), st.heap[p]? = some a → a.is_assigned = true →
      ∃ w ∈ st.workers, a.handler_id = some w.tid ∧
        (∃ ys, handled_list st.heap w.handle_list_head = some ys ∧ p ∈ ys) ∧
        ∀ v ∈ st.workers,
          (∃ ys, handled_list st.heap v.handle_list_head = some ys ∧ p ∈ ys) → v = w := by
  have ho := (reachable_sound hr).owned
  refine ⟨ho.assigned_iff, ?_⟩
  intro p a ha hasg
  obtain ⟨w, hw, hid, ys, hc, hp⟩ := ho.owner p a ha hasg
  refine ⟨w, hw, hid, ⟨ys, hc.handled_list_eq, hp⟩, ?_⟩
  rintro v hv ⟨zs, hz, hpz⟩
  obtain ⟨zs', hc', hall⟩ := ho.lists v hv
  have hzz : zs = zs' := (Chain.of_handled_list hz).unique hc'
  subst hzz
  obtain ⟨b, hb, _, hbid⟩ := hall p hpz
  rw [ha] at hb
  cases hb
  rw [hid] at hbid
  exact worker_eq_of_tid ho.tids hv hw (Option.some.inj hbid).symm

theorem running_assigned_alarm_has_one_handler_example :
    Reachable ex_t6 ∧ ex_t6.heap.map Alarm.is_assigned = [true, true] ∧
    ((∀ a ∈ ex_t6.heap, a.is_assigned = a.handler_id.isSome) ∧
    ∀ (p : Nat) (a : Alarm), ex_t6.heap[p]? = some a → a.is_assigned = true →
      ∃ w ∈ ex_t6.workers, a.handler_id = some w.tid ∧
        (∃ ys, handled_list ex_t6.heap w.handle_list_head = some ys ∧ p ∈ ys) ∧
        ∀ v ∈ ex_t6.workers,
          (∃ ys, handled_list ex_t6.heap v.handle_list_head = some ys ∧ p ∈ ys) → v = w) :=
  ⟨ex_t6_reachable, by decide, running_assigned_alarm_has_one_handler ex_t6_reachable⟩

theorem ex_r1_reachable : Reachable ex_r1 :=
  .step _ _ ex_t6_reachable (.submit_A ex_t6 ex_c1_new (by decide) (by decide) (by decide)
    (by decide))

/-- C13, counterexample: with thread 1 handling alarm 1 (cell 0), the command
handler processes `4 Message(1, 1) z`.  The flag `is_replaced` of the cell is
false before, `replace_alarm` raises it, it is still raised when the handshake
has ended, and the rest of `insert_alarm` sets it back to false; the section
of the command handler returns with the flag false. -/
theorem C13_is_replaced_is_set_back :
    Reachable ex_r1 ∧
    ex_r1.heap[0]?.map Alarm.is_replaced = some false ∧
    (cmd_handler_insert ex_r1.heap ex_r1.alarm_list_head ex_c1_new).map
      (fun out => (out.wait_on, out.heap[0]?.map Alarm.is_replaced)) =
        .ok (some 0, some true) ∧
    ((cmd_handler_insert ex_r1.heap ex_r1.alarm_list_head ex_c1_new).bind
      (fun out => handshake { ex_r1 with cmda_list := [], heap := out.heap,
                                         alarm_list_head := out.head } 0)).map
      (fun st => st.heap[0]?.map Alarm.is_replaced) = .ok (some true) ∧
    ((cmd_handler_insert ex_r1.heap ex_r1.alarm_list_head ex_c1_new).bind
      (fun out => insert_alarm_handshake { ex_r1 with cmda_list := [], heap := out.heap,
                                                      alarm_list_head := out.head }
        out.wait_on)).map
      (fun st => st.heap[0]?.map Alarm.is_replaced) = .ok (some false) ∧
    (cmd_handler_section ex_r1).map
      (fun st => st.heap[0]?.map Alarm.is_replaced) = .ok (some false) :=
  ⟨ex_r1_reachable, by decide, by decide, by decide, by decide, by decide⟩

/-- What `insert_alarm` does to the flags of the registry alarm `e` whose number
a type A command carries, in a state in which the command handler holds no
lock: `replace_alarm` raises `is_replaced` exactly when the alarm is assigned,
the flag is still raised when the handshake has ended, and the rest of
`insert_alarm` sets it back; `is_cancelled` is not changed. -/
theorem insert_alarm_flags {st : State} (hs : Sound st) (c : CmdA) (xs : List Nat) (e : Nat)
    (ae : Alarm) (hpos : 0 < c.wait_time)
    (hl : global_list st.heap st.alarm_list_head = some xs) (he : e ∈ xs)
    (hae : st.heap[e]? = some ae) (hk : ae.msg_num = c.msg_num) :
    ∃ out, cmd_handler_insert st.heap st.alarm_list_head c = .ok out ∧
      out.wait_on = (if ae.is_assigned then some e else none) ∧
      (∃ b, out.heap[e]? = some b ∧ b.is_replaced = ae.is_assigned ∧
        b.is_cancelled = ae.is_cancelled) ∧
      (∀ s1, handshake { st with heap := out.heap, alarm_list_head := out.head } e = .ok s1 →
        ∃ b, s1.heap[e]? = some b ∧ b.is_replaced = ae.is_assigned ∧
          b.is_cancelled = ae.is_cancelled ∧ b.is_assigned = false) ∧
      (∀ s2, insert_alarm_handshake { st with heap := out.heap, alarm_list_head := out.head }
          out.wait_on = .ok s2 →
        ∃ b, s2.heap[e]? = some b ∧ b.is_replaced = false ∧
          b.is_cancelled = ae.is_cancelled) := by
  have hc := Chain.of_global_list hl
  obtain ⟨xs', hc', hasc'⟩ := hs.chain
  have hxs : xs = xs' := hc.unique hc'
  subst hxs
  have hnr : ae.is_replaced = false := hs.no_replaced ae (mem_of_getElem? hae)
  have hcellflags : (replaced_cell ae (alarm_of_cmda c)).is_replaced = ae.is_assigned ∧
      (replaced_cell ae (alarm_of_cmda c)).is_cancelled = ae.is_cancelled := by
    simp only [replaced_cell]
    cases hasg : ae.is_assigned
    · simp [hnr]
    · simp
  rcases cmd_handler_insert_cases c hc hasc' with ⟨e', ae', he', hae', hk', hrun⟩ | ⟨hno, _⟩
  · have hee : e' = e := by
      have hinj := List.inj_on_of_nodup_map (hasc'.imp (fun hlt => Nat.ne_of_lt hlt))
      exact hinj he' he (by rw [key_of_some hae', key_of_some hae, hk', hk])
    subst hee
    rw [hae] at hae'; cases hae'
    have hcell : ((st.heap ++ [alarm_of_cmda c]).set e'
        (replaced_cell ae (alarm_of_cmda c)))[e']? = some (replaced_cell ae (alarm_of_cmda c)) :=
      getElem?_set_of_some (getElem?_append_old hae)
    obtain ⟨hmid, _⟩ := cmd_handler_insert_sound hs hpos hrun
    refine ⟨_, hrun, ?_, ⟨_, hcell, hcellflags.1, hcellflags.2⟩, ?_, ?_⟩
    · show (if (replaced_cell ae (alarm_of_cmda c)).is_replaced = true then some e' else none) = _
      rw [hcellflags.1]
    · intro s1 hrun1
      obtain ⟨_, hf, _, a1, ha1, hasg1⟩ := handshake_owned hmid.owned hmid.positive hrun1
      obtain ⟨b, hb, hfix⟩ := hf.get hcell
      rw [ha1] at hb; cases hb
      exact ⟨a1, ha1, by rw [fixed_is_replaced hfix, hcellflags.1],
        by rw [fixed_is_cancelled hfix, hcellflags.2], hasg1⟩
    · intro s2 hrun2
      obtain ⟨hs2, _, _⟩ := insert_alarm_handshake_sound hmid hrun2
      change insert_alarm_handshake _
        (if (replaced_cell ae (alarm_of_cmda c)).is_replaced = true then some e' else none) =
          .ok s2 at hrun2
      by_cases hrep : (replaced_cell ae (alarm_of_cmda c)).is_replaced = true
      · rw [if_pos hrep] at hrun2
        unfold insert_alarm_handshake at hrun2
        obtain ⟨s1, hrun1, hrun3⟩ := bind_eq_ok hrun2
        obtain ⟨h3, hres, hrun4⟩ := bind_eq_ok hrun3
        simp only [pure, Except.pure] at hrun4
        cases hrun4
        obtain ⟨_, hf, _, _⟩ := handshake_owned hmid.owned hmid.positive hrun1
        obtain ⟨b, hb, hfix⟩ := hf.get hcell
        obtain ⟨b', hb', hh3⟩ := insert_alarm_resume_eq hres
        rw [hb] at hb'; cases hb'
        refine ⟨{ b with is_replaced := false }, ?_, rfl, ?_⟩
        · show h3[e']? = _
          rw [hh3]
          exact getElem?_set_of_some hb
        · show b.is_cancelled = ae.is_cancelled
          rw [fixed_is_cancelled hfix, hcellflags.2]
      · rw [if_neg hrep] at hrun2
        simp only [insert_alarm_handshake, pure, Except.pure] at hrun2
        cases hrun2
        exact ⟨_, hcell, by simpa using hrep, hcellflags.2⟩
  · exact absurd (by rw [key_of_some hae, hk]) (hno e he)


theorem ex_k3_reachable : Reachable ex_k3 := by
  have r1 : Reachable ex_k1 := .step _ _ ex_t6_reachable (.submit_C ex_t6 1 (by decide))
  have r2 : Reachable ex_k2 := .step _ _ r1 (.dispatch _ _ (by decide))
  exact .step _ _ r2 (.submit_A ex_k2 ex_c2_new (by decide) (by decide) (by decide) (by decide))

/-- C13, amended: over every step of the application from a reachable state,
every alarm keeps its cell and its `msg_num`, and an alarm whose
`is_cancelled` is true keeps it true; `is_replaced` is false on every alarm
before and after the step, that is whenever the command handler is outside its
locked sections.  Inside a section, when `insert_alarm` meets the registry
alarm `e` with the number of the type A command: `replace_alarm` raises
`is_replaced` on `e` exactly when `e` is assigned, and `insert_alarm` then
waits on `e`; when the handshake with the alarm handler has ended the alarm is
detached and the flag is still raised; the rest of `insert_alarm` sets the flag
back to false.  None of this changes `is_cancelled`. -/
theorem C13_cancelled_stays_and_replaced_is_transient {st st' : State} (hr : Reachable st)
    (hs : Step st st') :
    (∀ (p : Nat) (a : Alarm), st.heap[p]? = some a →
      ∃ a' : Alarm, st'.heap[p]? = some a' ∧ a'.msg_num = a.msg_num ∧
        (a.is_cancelled = true → a'.is_cancelled = true)) ∧
    (∀ a ∈ st.heap, a.is_replaced = false) ∧ (∀ a ∈ st'.heap, a.is_replaced = false) ∧
    ∀ (c : CmdA) (xs : List Nat) (e : Nat) (ae : Alarm), 0 < c.wait_time →
      global_list st.heap st.alarm_list_head = some xs → e ∈ xs →
      st.heap[e]? = some ae → ae.msg_num = c.msg_num →
      ∃ out, cmd_handler_insert st.heap st.alarm_list_head c = .ok out ∧
        out.wait_on = (if ae.is_assigned then some e else none) ∧
        (∃ b, out.heap[e]? = some b ∧ b.is_replaced = ae.is_assigned ∧
          b.is_cancelled = ae.is_cancelled) ∧
        (∀ s1, handshake { st with heap := out.heap, alarm_list_head := out.head } e = .ok s1 →
          ∃ b, s1.heap[e]? = some b ∧ b.is_replaced = ae.is_assigned ∧
            b.is_cancelled = ae.is_cancelled ∧ b.is_assigned = false) ∧
        (∀ s2, insert_alarm_handshake { st with heap := out.heap, alarm_list_head := out.head }
            out.wait_on = .ok s2 →
          ∃ b, s2.heap[e]? = some b ∧ b.is_replaced = false ∧
            b.is_cancelled = ae.is_cancelled) := by
  have h0 := reachable_sound hr
  obtain ⟨h1, hp⟩ := step_sound h0 (reachable_one_per_type hr) hs
  exact ⟨hp, h0.no_replaced, h1.no_replaced,
    fun c xs e ae hpos hl he hae hk => insert_alarm_flags h0 c xs e ae hpos hl he hae hk⟩

/-- The step that replaces alarm 2 while the cell of the cancelled alarm 1 is
kept: the cancelled cell stays cancelled, no flag `is_replaced` is raised before
or after the step, and inside the step `replace_alarm` raises the flag of alarm
2 (cell 1), which `insert_alarm` sets back after the handshake. -/
theorem C13_cancelled_stays_and_replaced_is_transient_witness :
    Reachable ex_k3 ∧ Step ex_k3 ex_k4 ∧
    ex_k3.heap.map (fun a => (a.is_cancelled, a.is_assigned)) = [(true, false), (false, true)] ∧
    ex_k4.heap.map (fun a => (a.is_cancelled, a.is_replaced)) =
      [(true, false), (false, false), (false, false)] ∧
    ((∀ (p : Nat) (a : Alarm), ex_k3.heap[p]? = some a →
      ∃ a' : Alarm, ex_k4.heap[p]? = some a' ∧ a'.msg_num = a.msg_num ∧
        (a.is_cancelled = true → a'.is_cancelled = true)) ∧
    (∀ a ∈ ex_k3.heap, a.is_replaced = false) ∧ (∀ a ∈ ex_k4.heap, a.is_replaced = false)) ∧
    ∃ out, cmd_handler_insert ex_k3.heap ex_k3.alarm_list_head ex_c2_new = .ok out ∧
      out.wait_on = some 1 ∧
      (∃ b, out.heap[1]? = some b ∧ b.is_replaced = true) ∧
      (∀ s1, handshake { ex_k3 with heap := out.heap, alarm_list_head := out.head } 1 = .ok s1 →
        ∃ b, s1.heap[1]? = some b ∧ b.is_replaced = true ∧ b.is_assigned = false) ∧
      ∀ s2, insert_alarm_handshake { ex_k3 with heap := out.heap, alarm_list_head := out.head }
          out.wait_on = .ok s2 →
        ∃ b, s2.heap[1]? = some b ∧ b.is_replaced = false := by
  have hstep : Step ex_k3 ex_k4 := .dispatch _ _ (by decide)
  have h := C13_cancelled_stays_and_replaced_is_transient ex_k3_reachable hstep
  refine ⟨ex_k3_reachable, hstep, by decide, by decide, ⟨h.1, h.2.1, h.2.2.1⟩, ?_⟩
  cases hae : ex_k3.heap[1]? with
  | none => exact absurd hae (by decide)
  | some ae =>
    have hasg : ae.is_assigned = true := by
      have : ex_k3.heap[1]?.map Alarm.is_assigned = some true := by decide
      rw [hae] at this
      exact Option.some.inj this
    have hnum : ae.msg_num = ex_c2_new.msg_num := by
      have : ex_k3.heap[1]?.map Alarm.msg_num = some 2 := by decide
      rw [hae] at this
      exact Option.some.inj this
    obtain ⟨out, hrun, hw, ⟨b, hb, hrep, _⟩, hshake, hback⟩ :=
      h.2.2.2 ex_c2_new [1] 1 ae (by decide) (by decide) (by decide) hae hnum
    rw [hasg] at hw hrep hshake
    refine ⟨out, hrun, hw, ⟨b, hb, hrep⟩, ?_, ?_⟩
    · intro s1 h1
      obtain ⟨b1, hb1, hr1, _, ha1⟩ := hshake s1 h1
      exact ⟨b1, hb1, hr1, ha1⟩
    · intro s2 h2
      obtain ⟨b2, hb2, hr2, _⟩ := hback s2 h2
      exact ⟨b2, hb2, hr2⟩

/-- The handshake does not read the position of the command handler. -/
theorem handshake_pc (st : State) (p : Nat) (x : Pc) :
    handshake { st with pc := x } p = (handshake st p).map (fun t => { t with pc := x }) := by
  unfold handshake
  simp only []
  cases deref st.heap (some p) with
  | error e => rfl
  | ok a =>
    simp only [bind, Except.bind]
    split
    · rfl
    · split
      · rfl
      · split
        · rfl
        · rename_i w _
          cases alarm_handler_tick st.heap w with
          | error e => rfl
          | ok it =>
            simp only []
            cases deref it.heap (some p) with
            | error e => rfl
            | ok a1 =>
              simp only []
              split <;> rfl

theorem join_pc (st : State) (r : Option Nat) (x : Pc) :
    cmd_handler_join_with_alarm_handler { st with pc := x } r =
      (cmd_handler_join_with_alarm_handler st r).map (fun t => ({ t.1 with pc := x }, t.2)) := by
  unfold cmd_handler_join_with_alarm_handler
  cases r with
  | none => rfl
  | some tid =>
    simp only []
    split
    · split <;> rfl
    · split
      · split <;> rfl
      · rfl

theorem type_C_body_pc (st : State) (c : CmdC) (x : Pc) :
    cmd_handler_type_C_body { st with pc := x } c =
      (cmd_handler_type_C_body st c).map (fun t => { t with pc := x }) := by
  unfold cmd_handler_type_C_body
  simp only []
  cases cmd_handler_cancel st.heap st.alarm_list_head c.msg_num with
  | error e => rfl
  | ok out =>
    simp only [bind, Except.bind]
    have h1 : cmd_handler_handshake { st with pc := x, heap := out.heap, alarm_list_head := out.head }
        out.wait_on = (cmd_handler_handshake { st with heap := out.heap, alarm_list_head := out.head }
        out.wait_on).map (fun t => { t with pc := x }) := by
      unfold cmd_handler_handshake
      cases out.wait_on with
      | none => rfl
      | some p =>
        simp only []
        exact handshake_pc { st with heap := out.heap, alarm_list_head := out.head } p x
    rw [h1]
    cases cmd_handler_handshake { st with heap := out.heap, alarm_list_head := out.head }
        out.wait_on with
    | error e => rfl
    | ok st2 =>
      simp only [Except.map]
      rw [join_pc]
      cases cmd_handler_join_with_alarm_handler st2 out.handler_id with
      | error e => rfl
      | ok r => rfl

theorem type_C_loop_pc : ∀ (cs : List CmdC) (st : State) (x : Pc),
    cmd_handler_type_C_loop cs { st with pc := x } =
      (cmd_handler_type_C_loop cs st).map (fun t => { t with pc := x })
  | [], st, x => rfl
  | c :: cs, st, x => by
    unfold cmd_handler_type_C_loop
    have h := type_C_body_pc { st with cmdc_list := cs } c x
    simp only [bind, Except.bind] at h ⊢
    rw [h]
    cases cmd_handler_type_C_body { st with cmdc_list := cs } c with
    | error e => rfl
    | ok st1 =>
      simp only [Except.map]
      exact type_C_loop_pc cs st1 x

theorem type_B_loop_pc : ∀ (rs : List CmdB) (st : State) (x : Pc),
    cmd_handler_type_B_loop rs { st with pc := x } =
      { cmd_handler_type_B_loop rs st with pc := x }
  | [], st, x => rfl
  | r :: rs, st, x => by
    unfold cmd_handler_type_B_loop
    simp only []
    exact type_B_loop_pc rs
      { st with
        cmdb_done := st.cmdb_done ++ [{ r with is_processed := true, id := some st.next_tid }],
        cmdb_new := rs,
        workers := st.workers ++ [{ tid := st.next_tid, msg_type := r.msg_type,
                                    handle_list_head := none, time_since_create := 0,
                                    started := false }],
        next_tid := st.next_tid + 1 } x



/-- The handshake leaves the command lists as they are. -/
theorem handshake_lists {st st' : State} {p : Nat} (hrun : handshake st p = .ok st') :
    st'.cmda_list = st.cmda_list ∧ st'.cmdb_new = st.cmdb_new ∧
    st'.cmdc_list = st.cmdc_list ∧ st'.pc = st.pc := by
  rcases handshake_cases hrun with ⟨h, _⟩ | ⟨a, w, it, a1, _, _, _, _, _, _, _, _, h⟩
  · subst h; exact ⟨rfl, rfl, rfl, rfl⟩
  · subst h; exact ⟨rfl, rfl, rfl, rfl⟩

/-- The join leaves the type A and type C lists as they are, and an empty list
of unprocessed type B records empty. -/
theorem join_lists {st s : State} {hid : Option Nat} {t : Nat}
    (hrun : cmd_handler_join_with_alarm_handler st hid = .ok (s, t)) :
    s.cmda_list = st.cmda_list ∧ (st.cmdb_new = [] → s.cmdb_new = []) ∧
    s.cmdc_list = st.cmdc_list ∧ s.pc = st.pc := by
  have hsh := join_shape hrun
  refine ⟨by rw [hsh], ?_, by rw [hsh], by rw [hsh]⟩
  intro hnil
  unfold cmd_handler_join_with_alarm_handler at hrun
  cases hid with
  | none =>
    simp only [pure, Except.pure] at hrun
    cases hrun; exact hnil
  | some tid =>
    simp only at hrun
    split at hrun
    · split at hrun
      · cases hrun
      · simp only [pure, Except.pure] at hrun
        cases hrun; exact hnil
    · rw [hnil] at hrun
      simp at hrun

theorem type_A_body_lists {st st' : State} {c : CmdA}
    (hrun : cmd_handler_type_A_body st c = .ok st') :
    st'.cmda_list = st.cmda_list ∧ (st.cmdb_new = [] → st'.cmdb_new = []) ∧
    st'.cmdc_list = st.cmdc_list ∧ st'.pc = st.pc := by
  unfold cmd_handler_type_A_body at hrun
  obtain ⟨out, _, hrun⟩ := bind_eq_ok hrun
  obtain ⟨st2, hhs, hrun⟩ := bind_eq_ok hrun
  obtain ⟨r, hjoin, hrun⟩ := bind_eq_ok hrun
  simp only [pure, Except.pure] at hrun
  cases hrun
  have h2 : st2.cmda_list = st.cmda_list ∧ st2.cmdb_new = st.cmdb_new ∧
      st2.cmdc_list = st.cmdc_list ∧ st2.pc = st.pc := by
    unfold insert_alarm_handshake at hhs
    cases hw : out.wait_on with
    | none =>
      rw [hw] at hhs
      simp only [pure, Except.pure] at hhs
      cases hhs; exact ⟨rfl, rfl, rfl, rfl⟩
    | some p =>
      rw [hw] at hhs
      simp only at hhs
      obtain ⟨s1, h1, hhs⟩ := bind_eq_ok hhs
      obtain ⟨h', _, hhs⟩ := bind_eq_ok hhs
      simp only [pure, Except.pure] at hhs
      cases hhs
      have := handshake_lists h1
      exact this
  obtain ⟨j1, j2, j3, j4⟩ := join_lists (t := r.2) (s := r.1) hjoin
  exact ⟨j1.trans h2.1, fun hn => j2 (h2.2.1.trans hn), j3.trans h2.2.2.1, j4.trans h2.2.2.2⟩

theorem type_C_body_lists {st st' : State} {c : CmdC}
    (hrun : cmd_handler_type_C_body st c = .ok st') :
    st'.cmda_list = st.cmda_list ∧ (st.cmdb_new = [] → st'.cmdb_new = []) ∧
    st'.cmdc_list = st.cmdc_list ∧ st'.pc = st.pc := by
  unfold cmd_handler_type_C_body at hrun
  obtain ⟨out, _, hrun⟩ := bind_eq_ok hrun
  obtain ⟨st2, hhs, hrun⟩ := bind_eq_ok hrun
  obtain ⟨r, hjoin, hrun⟩ := bind_eq_ok hrun
  simp only [pure, Except.pure] at hrun
  cases hrun
  have h2 : st2.cmda_list = st.cmda_list ∧ st2.cmdb_new = st.cmdb_new ∧
      st2.cmdc_list = st.cmdc_list ∧ st2.pc = st.pc := by
    unfold cmd_handler_handshake at hhs
    cases hw : out.wait_on with
    | none =>
      rw [hw] at hhs
      simp only [pure, Except.pure] at hhs
      cases hhs; exact ⟨rfl, rfl, rfl, rfl⟩
    | some p =>
      rw [hw] at hhs
      simp only at hhs
      have := handshake_lists hhs
      exact this
  obtain ⟨j1, j2, j3, j4⟩ := join_lists (t := r.2) (s := r.1) hjoin
  exact ⟨j1.trans h2.1, fun hn => j2 (h2.2.1.trans hn), j3.trans h2.2.2.1, j4.trans h2.2.2.2⟩

/-- The type A loop on the pending list ends with `cmda_list_head == NULL` and
leaves the type C list as it is. -/
theorem type_A_loop_lists : ∀ (cmds : List CmdA) {st st' : State},
    st.cmda_list = cmds → cmd_handler_type_A_loop cmds st = .ok st' →
    st'.cmda_list = [] ∧ (st.cmdb_new = [] → st'.cmdb_new = []) ∧
    st'.cmdc_list = st.cmdc_list ∧ st'.pc = st.pc
  | [], st, st', hl, hrun => by
    simp only [cmd_handler_type_A_loop, pure, Except.pure] at hrun
    cases hrun; exact ⟨hl, id, rfl, rfl⟩
  | c :: cs, st, st', _, hrun => by
    unfold cmd_handler_type_A_loop at hrun
    obtain ⟨st1, h1, hrun⟩ := bind_eq_ok hrun
    obtain ⟨b1, b2, b3, b4⟩ := type_A_body_lists h1
    obtain ⟨l1, l2, l3, l4⟩ := type_A_loop_lists cs b1 hrun
    exact ⟨l1, fun hn => l2 (b2 hn), l3.trans b3, l4.trans b4⟩

/-- The type C loop on the pending list ends with `cmdc_list_head == NULL` and
leaves the type A list as it is. -/
theorem type_C_loop_lists : ∀ (cmds : List CmdC) {st st' : State},
    st.cmdc_list = cmds → cmd_handler_type_C_loop cmds st = .ok st' →
    st'.cmda_list = st.cmda_list ∧ (st.cmdb_new = [] → st'.cmdb_new = []) ∧
    st'.cmdc_list = [] ∧ st'.pc = st.pc
  | [], st, st', hl, hrun => by
    simp only [cmd_handler_type_C_loop, pure, Except.pure] at hrun
    cases hrun; exact ⟨rfl, id, hl, rfl⟩
  | c :: cs, st, st', _, hrun => by
    unfold cmd_handler_type_C_loop at hrun
    obtain ⟨st1, h1, hrun⟩ := bind_eq_ok hrun
    obtain ⟨b1, b2, b3, b4⟩ := type_C_body_lists h1
    obtain ⟨l1, l2, l3, l4⟩ := type_C_loop_lists cs b3 hrun
    exact ⟨l1.trans b1, fun hn => l2 (b2 hn), l3, l4.trans b4⟩

/-- The type B loop on the unprocessed records ends with
`cmdb_list_new_elm == NULL` and leaves the type A and type C lists as they
are. -/
theorem type_B_loop_lists : ∀ (rs : List CmdB) (st : State), st.cmdb_new = rs →
    (cmd_handler_type_B_loop rs st).cmda_list = st.cmda_list ∧
    (cmd_handler_type_B_loop rs st).cmdb_new = [] ∧
    (cmd_handler_type_B_loop rs st).cmdc_list = st.cmdc_list ∧
    (cmd_handler_type_B_loop rs st).pc = st.pc
  | [], st, hl => ⟨rfl, hl, rfl, rfl⟩
  | r :: rs, st, _ => by
    unfold cmd_handler_type_B_loop
    exact type_B_loop_lists rs
      { st with
        cmdb_done := st.cmdb_done ++ [{ r with is_processed := true, id := some st.next_tid }],
        cmdb_new := rs,
        workers := st.workers ++ [{ tid := st.next_tid, msg_type := r.msg_type,
                                    handle_list_head := none, time_since_create := 0,
                                    started := false }],
        next_tid := st.next_tid + 1 } rfl

/-- The type C section ends at the top, whatever the position it starts from. -/
theorem cmd_handler_from_C_pc (s : State) (x : Pc) :
    cmd_handler_from_C { s with pc := x } =
      (cmd_handler_type_C s).map (fun sc => { sc with pc := .top }) := by
  unfold cmd_handler_from_C cmd_handler_type_C
  have h := type_C_loop_pc s.cmdc_list s x
  simp only [bind, Except.bind] at h ⊢
  rw [h]
  cases cmd_handler_type_C_loop s.cmdc_list s with
  | error e => rfl
  | ok sc => rfl

/-- A result of the type C section ends the cycle. -/
theorem cmd_handler_from_C_ends (s : State) (x : Pc) (f : State → Except Fault State) :
    (cmd_handler_from_C { s with pc := x }).bind
        (fun st2 => if st2.pc = .top then pure st2 else f st2) =
      (cmd_handler_type_C s).map (fun sc => { sc with pc := .top }) := by
  rw [cmd_handler_from_C_pc]
  cases cmd_handler_type_C s with
  | error e => rfl
  | ok sc => rfl

/-- The rest of a cycle from the type B section, when that section is the
first of the cycle. -/
theorem cmd_handler_from_B_ends (s : State) (x : Pc) :
    (if (cmd_handler_from_B { s with pc := x }).pc = .top
      then pure (cmd_handler_from_B { s with pc := x })
      else (cmd_handler_section (cmd_handler_from_B { s with pc := x })).bind
        (fun st2 => if st2.pc = .top then pure st2 else cmd_handler_section st2)) =
      (cmd_handler_type_C (cmd_handler_type_B s)).map (fun sc => { sc with pc := .top }) := by
  have hb : cmd_handler_type_B { s with pc := x } = { cmd_handler_type_B s with pc := x } := by
    unfold cmd_handler_type_B
    exact type_B_loop_pc s.cmdb_new s x
  by_cases hc : (cmd_handler_type_B s).cmdc_list = []
  · have hfb : cmd_handler_from_B { s with pc := x } = { cmd_handler_type_B s with pc := .top } := by
      unfold cmd_handler_from_B
      simp only [hb]
      rw [if_pos hc]
    have hC : cmd_handler_type_C (cmd_handler_type_B s) = .ok (cmd_handler_type_B s) := by
      unfold cmd_handler_type_C
      rw [hc]; rfl
    rw [hfb, hC, if_pos rfl]
    rfl
  · have hfb : cmd_handler_from_B { s with pc := x } =
        { cmd_handler_type_B s with pc := .before_C } := by
      unfold cmd_handler_from_B
      simp only [hb]
      rw [if_neg hc]
    rw [hfb, if_neg (by simp)]
    exact cmd_handler_from_C_ends (cmd_handler_type_B s) .before_C cmd_handler_section

/-- The rest of a cycle from the type B section, when that section follows the
type A section. -/
theorem cmd_handler_from_B_last (s : State) (x : Pc) :
    (if (cmd_handler_from_B { s with pc := x }).pc = .top
      then pure (cmd_handler_from_B { s with pc := x })
      else cmd_handler_section (cmd_handler_from_B { s with pc := x })) =
      (cmd_handler_type_C (cmd_handler_type_B s)).map (fun sc => { sc with pc := .top }) := by
  have hb : cmd_handler_type_B { s with pc := x } = { cmd_handler_type_B s with pc := x } := by
    unfold cmd_handler_type_B
    exact type_B_loop_pc s.cmdb_new s x
  by_cases hc : (cmd_handler_type_B s).cmdc_list = []
  · have hfb : cmd_handler_from_B { s with pc := x } = { cmd_handler_type_B s with pc := .top } := by
      unfold cmd_handler_from_B
      simp only [hb]
      rw [if_pos hc]
    have hC : cmd_handler_type_C (cmd_handler_type_B s) = .ok (cmd_handler_type_B s) := by
      unfold cmd_handler_type_C
      rw [hc]; rfl
    rw [hfb, hC, if_pos rfl]
    rfl
  · have hfb : cmd_handler_from_B { s with pc := x } =
        { cmd_handler_type_B s with pc := .before_C } := by
      unfold cmd_handler_from_B
      simp only [hb]
      rw [if_neg hc]
    rw [hfb, if_neg (by simp)]
    exact cmd_handler_from_C_pc (cmd_handler_type_B s) .before_C

/-- A cycle of the command handler from the top is the type A phase, then the
type B phase, then the type C phase: the short circuits only skip phases that
have nothing to do. -/
theorem cmd_handler_cycle_eq (st : State) (hpc : st.pc = .top)
    (hne : ¬(st.cmda_list = [] ∧ st.cmdb_new = [] ∧ st.cmdc_list = [])) :
    cmd_handler_cycle st =
      (cmd_handler_type_A st).bind (fun sa =>
        (cmd_handler_type_C (cmd_handler_type_B sa)).map (fun sc => { sc with pc := .top })) := by
  have hcyc : cmd_handler_cycle st = (cmd_handler_section st).bind (fun st1 =>
      if st1.pc = .top then pure st1
      else (cmd_handler_section st1).bind
        (fun st2 => if st2.pc = .top then pure st2 else cmd_handler_section st2)) := rfl
  have hsec : cmd_handler_section st =
      (if st.cmda_list = [] ∧ st.cmdb_new = [] ∧ st.cmdc_list = [] then .error .blocked
      else if st.cmda_list = [] then
        if st.cmdb_new = [] then cmd_handler_from_C st
        else pure (cmd_handler_from_B st)
      else (cmd_handler_type_A st).bind (fun st1 =>
        if st1.cmdb_new = [] then
          if st1.cmdc_list = [] then pure { st1 with pc := .top }
          else pure { st1 with pc := .before_C }
        else pure { st1 with pc := .before_B })) := by
    unfold cmd_handler_section
    rw [hpc]
    rfl
  rw [hcyc, hsec, if_neg hne]
  by_cases ha : st.cmda_list = []
  · have hA : cmd_handler_type_A st = .ok st := by
      unfold cmd_handler_type_A
      rw [ha]; rfl
    rw [if_pos ha, hA]
    by_cases hb : st.cmdb_new = []
    · have hB : cmd_handler_type_B st = st := by
        unfold cmd_handler_type_B
        rw [hb]; rfl
      rw [if_pos hb]
      show _ = (cmd_handler_type_C (cmd_handler_type_B st)).map _
      rw [hB]
      exact cmd_handler_from_C_ends st st.pc _
    · rw [if_neg hb]
      exact cmd_handler_from_B_ends st st.pc
  · rw [if_neg ha]
    cases cmd_handler_type_A st with
    | error e => rfl
    | ok sa =>
      show (if sa.cmdb_new = [] then
          if sa.cmdc_list = [] then (pure { sa with pc := .top } : Except Fault State)
          else pure { sa with pc := .before_C }
        else pure { sa with pc := .before_B }).bind _ =
        (cmd_handler_type_C (cmd_handler_type_B sa)).map _
      by_cases hb : sa.cmdb_new = []
      · have hB : cmd_handler_type_B sa = sa := by
          unfold cmd_handler_type_B
          rw [hb]; rfl
        rw [if_pos hb, hB]
        by_cases hc : sa.cmdc_list = []
        · have hC : cmd_handler_type_C sa = .ok sa := by
            unfold cmd_handler_type_C
            rw [hc]; rfl
          rw [if_pos hc, hC]
          rfl
        · rw [if_neg hc]
          exact cmd_handler_from_C_ends sa .before_C cmd_handler_section
      · rw [if_neg hb]
        have e1 : ∀ (x : State) (f : State → Except Fault State),
            (pure x : Except Fault State).bind f = f x := fun _ _ => rfl
        have e2 : cmd_handler_section { sa with pc := .before_B } =
            pure (cmd_handler_from_B { sa with pc := .before_B }) := rfl
        rw [e1]
        simp only []
        rw [if_neg (show ¬(Pc.before_B = Pc.top) by decide), e2, e1]
        exact cmd_handler_from_B_last sa .before_B

/-- A cycle that completes ends at the top with `cmda_list_head`,
`cmdb_list_new_elm` and `cmdc_list_head` all `NULL`. -/
theorem cmd_handler_cycle_ends {st st' : State} (hpc : st.pc = .top)
    (hne : ¬(st.cmda_list = [] ∧ st.cmdb_new = [] ∧ st.cmdc_list = []))
    (hrun : cmd_handler_cycle st = .ok st') :
    st'.cmda_list = [] ∧ st'.cmdb_new = [] ∧ st'.cmdc_list = [] ∧ st'.pc = .top := by
  rw [cmd_handler_cycle_eq st hpc hne] at hrun
  cases hA : cmd_handler_type_A st with
  | error e => rw [hA] at hrun; cases hrun
  | ok sa =>
    rw [hA] at hrun
    cases hC : cmd_handler_type_C (cmd_handler_type_B sa) with
    | error e =>
      simp only [Except.bind, hC, Except.map] at hrun
      cases hrun
    | ok sc =>
      simp only [Except.bind, hC, Except.map] at hrun
      cases hrun
      obtain ⟨a1, _, _, _⟩ := type_A_loop_lists st.cmda_list rfl hA
      obtain ⟨b1, b2, _, _⟩ := type_B_loop_lists sa.cmdb_new sa rfl
      obtain ⟨c1, c2, c3, _⟩ := type_C_loop_lists (cmd_handler_type_B sa).cmdc_list rfl hC
      exact ⟨c1.trans (b1.trans a1), c2 b2, c3, rfl⟩



theorem ex_q1_reachable : Reachable ex_q1 :=
  .step _ _
    (.step _ _ ex_t6_reachable
      (.submit_A ex_t6 ex_c2_new (by decide) (by decide) (by decide) (by decide)))
    (.submit_C ex_t7 1 (by decide))

/-- A cycle that completes: from the state with the pending commands
`1 Message(1, 1) x`, `1 Message(1, 2) y` and `Create_Thread: MessageType(1)`
the cycle inserts both alarms, creates thread 1 and ends with the three lists
empty. -/
theorem cmd_handler_cycle_example :
    (cmd_handler_cycle ex_t3).map (fun s => (s.cmda_list, s.cmdb_new, s.cmdc_list)) =
      .ok ([], [], []) ∧
    (cmd_handler_cycle ex_t3).map (fun s =>
      (s.pc, s.heap.map Alarm.msg_num, s.workers.map Worker.tid)) = .ok (.top, [1, 2], [1]) :=
  ⟨by decide, by decide⟩

/-- C17: a cycle of the command handler that does not end.  The state is
reachable, the command handler is at the top of its loop, thread 1 handles the
alarms 1 and 2, and `4 Message(1, 2) z` and `Cancel: Message(1)` are pending.
The type A phase replaces alarm 2; `insert_alarm` returns the id of thread 1
(as in C4) although the thread still handles alarm 1 (cell 0) after the
handshake; the join with thread 1 blocks, so the section and the cycle do not
return: the pending cancel command is never applied and `cmdc_list_head`
stays non-`NULL`. -/
theorem C17_cycle_blocks_in_the_join :
    Reachable ex_q1 ∧ ex_q1.pc = .top ∧
    ex_q1.cmda_list = [ex_c2_new] ∧ ex_q1.cmdb_new = [] ∧
    ex_q1.cmdc_list = [{ msg_num := 1 }] ∧
    ex_q_insert.map (fun out => (out.result, out.wait_on)) = .ok (some 1, some 1) ∧
    ex_q_inserted.map (fun s => (s.workers.map Worker.tid,
      s.workers.map Worker.handle_list_head, s.heap.map Alarm.is_assigned, s.cmdc_list)) =
      .ok ([1], [some 0], [true, false, false], [{ msg_num := 1 }]) ∧
    ex_q_inserted.bind (fun s => cmd_handler_join_with_alarm_handler s (some 1)) =
      .error .blocked ∧
    cmd_handler_section ex_q1 = .error .blocked ∧
    cmd_handler_cycle ex_q1 = .error .blocked :=
  ⟨ex_q1_reachable, by decide, by decide, by decide, by decide, by decide, by decide,
    by decide, by decide, by decide⟩

/-- Euclid's loop returns the greatest common divisor within `min + 1`
iterations. -/
theorem gcd_loop_eq : ∀ (fuel min max : Nat), min < fuel →
    gcd_loop fuel min max = some (Nat.gcd min max)
  | _, 0, max, _ => by simp [gcd_loop]
  | 0, _ + 1, _, h => by omega
  | fuel + 1, min + 1, max, h => by
    have hlt : max % (min + 1) < min + 1 := Nat.mod_lt _ (Nat.succ_pos _)
    rw [gcd_loop, gcd_loop_eq fuel (max % (min + 1)) (min + 1) (by omega)]
    rw [← Nat.gcd_rec]

/-- C22: for all 64-bit values `x` and `y`, `gcd` returns, and its result is
the greatest common divisor of `x` and `y`: it divides both, and every common
divisor divides it; `gcd(0, 0) = 0`, `gcd(0, y) = y` and `gcd(x, 0) = x`. -/
theorem C22_gcd_returns_the_greatest_common_divisor (x y : Nat) (hx : x < 2 ^ 64)
    (hy : y < 2 ^ 64) :
    gcd x y = some (Nat.gcd x y) ∧
    Nat.gcd x y ∣ x ∧ Nat.gcd x y ∣ y ∧ (∀ d, d ∣ x → d ∣ y → d ∣ Nat.gcd x y) ∧
    gcd 0 0 = some 0 ∧ gcd 0 y = some y ∧ gcd x 0 = some x := by
  have hmain : ∀ a b : Nat, a < 2 ^ 64 → b < 2 ^ 64 → gcd a b = some (Nat.gcd a b) := by
    intro a b ha hb
    unfold gcd
    by_cases h1 : a = b
    · simp [h1]
    · rw [if_neg h1]
      by_cases h2 : a = 1 ∨ b = 1
      · rw [if_pos h2]
        rcases h2 with h2 | h2 <;> simp [h2]
      · rw [if_neg h2]
        by_cases h3 : a = 0
        · simp [h3]
        · rw [if_neg h3]
          by_cases h4 : b = 0
          · simp [h4]
          · rw [if_neg h4]
            by_cases h5 : a < b
            · rw [if_pos h5, gcd_loop_eq _ _ _ ha]
            · rw [if_neg h5, gcd_loop_eq _ _ _ hb, Nat.gcd_comm]
  refine ⟨hmain x y hx hy, Nat.gcd_dvd_left x y, Nat.gcd_dvd_right x y,
    fun d h1 h2 => Nat.dvd_gcd h1 h2, ?_, ?_, ?_⟩
  · decide
  · have := hmain 0 y (by decide) hy
    simpa using this
  · have := hmain x 0 hx (by decide)
    simpa using this

theorem C22_gcd_returns_the_greatest_common_divisor_witness :
    gcd 12 18 = some (Nat.gcd 12 18) ∧
    Nat.gcd 12 18 ∣ 12 ∧ Nat.gcd 12 18 ∣ 18 ∧ (∀ d, d ∣ 12 → d ∣ 18 → d ∣ Nat.gcd 12 18) ∧
    gcd 0 0 = some 0 ∧ gcd 0 18 = some 18 ∧ gcd 12 0 = some 12 :=
  C22_gcd_returns_the_greatest_common_divisor 12 18 (by decide) (by decide)



/-- C26: on a registry that is strictly ascending by `msg_num`, the early-exit
lookup of the main thread (`alarm_app.c`, lines 520-540 and 892-908: stop at
the first alarm with `msg_num == k` or `msg_num > k`) reports the key exactly
when a search of the whole registry finds it. -/
theorem C26_early_exit_lookup_finds_the_key (k : Nat) (registry : List Alarm)
    (hs : (registry.map Alarm.msg_num).Pairwise (fun x y => x < y)) :
    main_lookup k registry = spec_key_in_registry k registry ∧
    (main_lookup k registry = true ↔ ∃ a ∈ registry, a.msg_num = k) := by
  have h := main_lookup_iff k registry hs
  refine ⟨?_, h⟩
  have h2 : spec_key_in_registry k registry = true ↔ ∃ a ∈ registry, a.msg_num = k := by
    unfold spec_key_in_registry
    rw [List.any_eq_true]
    constructor
    · rintro ⟨a, ha, hk⟩
      exact ⟨a, ha, of_decide_eq_true hk⟩
    · rintro ⟨a, ha, hk⟩
      exact ⟨a, ha, decide_eq_true hk⟩
  cases h1 : main_lookup k registry with
  | true => exact ((h2.2 (h.1 h1))).symm
  | false =>
    cases h3 : spec_key_in_registry k registry with
    | false => rfl
    | true => rw [h.2 (h2.1 h3)] at h1; cases h1

theorem C26_early_exit_lookup_finds_the_key_witness :
    ex_heap_three.map Alarm.msg_num = [3, 5, 7] ∧
    (main_lookup 4 ex_heap_three = spec_key_in_registry 4 ex_heap_three ∧
    (main_lookup 4 ex_heap_three = true ↔ ∃ a ∈ ex_heap_three, a.msg_num = 4)) :=
  ⟨by decide, C26_early_exit_lookup_finds_the_key 4 ex_heap_three (by decide)⟩

theorem str_to_uf64_scan_none : ∀ (s : List Char) (l : Nat),
    str_to_uf64_scan s l = none ↔ ∃ c ∈ s, isdigit c = false
  | [], l => by simp [str_to_uf64_scan]
  | c :: rest, l => by
    unfold str_to_uf64_scan
    by_cases hc : isdigit c = true
    · rw [if_pos hc, str_to_uf64_scan_none rest (l + 1)]
      simp [hc]
    · rw [if_neg hc]
      simp only [Bool.not_eq_true] at hc
      simp [hc]

theorem str_to_uf64_scan_some : ∀ (s : List Char) (l k : Nat),
    str_to_uf64_scan s l = some k → k = l + s.length
  | [], l, k, h => by
    simp [str_to_uf64_scan] at h
    simp [h]
  | c :: rest, l, k, h => by
    unfold str_to_uf64_scan at h
    split at h
    · have := str_to_uf64_scan_some rest (l + 1) k h
      simp only [List.length_cons]
      omega
    · cases h

/-- The part of the claim about invalid strings holds: for the empty string
and for every string with a character that is not a digit, `str_to_uf64`
returns 0 and sets `errno` to -1. -/
theorem str_to_uf64_invalid (s : List Char) (errno : Int)
    (h : s = [] ∨ ∃ c ∈ s, isdigit c = false) : str_to_uf64 s errno = (0, -1) := by
  unfold str_to_uf64
  rcases h with rfl | h
  · rfl
  · rw [(str_to_uf64_scan_none s 0).2 h]

theorem str_to_uf64_step_result (s : List Char) (l i : Nat) (v : ParseVars) :
    (str_to_uf64_step s l i v).result =
      ((v.result + ((ctoi (s.getD (l - i) '0')) % (2 ^ 32 : Int)).toNat) % 2 ^ 64 * 10)
        % 2 ^ 64 := by
  unfold str_to_uf64_step
  simp only []
  split <;> rfl

theorem str_to_uf64_parse_result (s : List Char) (l : Nat) : ∀ (n i : Nat) (v : ParseVars),
    (str_to_uf64_parse s l n i v).result =
      ((List.range' i n).map (fun j => s.getD (l - j) '0')).foldl
        (fun r c => ((r + ((ctoi c) % (2 ^ 32 : Int)).toNat) % 2 ^ 64 * 10) % 2 ^ 64) v.result
  | 0, i, v => rfl
  | n + 1, i, v => by
    rw [str_to_uf64_parse, str_to_uf64_parse_result s l n (i + 1), str_to_uf64_step_result]
    rfl

theorem range_getD_reverse (s : List Char) :
    (List.range' 0 s.length).map (fun j => s.getD (s.length - 1 - j) '0') = s.reverse := by
  apply List.ext_getElem
  · simp
  · intro n h1 h2
    simp only [List.length_map, List.length_range'] at h1
    simp only [List.getElem_map, List.getElem_range', List.getElem_reverse]
    rw [List.getD_eq_getElem _ _ (by omega)]
    simp

theorem ctoi_digit {c : Char} (h : isdigit c = true) :
    ((ctoi c) % (2 ^ 32 : Int)).toNat = c.toNat - '0'.toNat := by
  unfold ctoi
  rw [if_pos h]
  unfold isdigit at h
  have h' := of_decide_eq_true h
  have h0 : '0'.toNat = 48 := by decide
  have h9 : '9'.toNat = 57 := by decide
  rw [h0, h9] at h'
  rw [h0]
  omega

theorem str_to_uf64_fold : ∀ (cs : List Char) (r V : Nat), (∀ c ∈ cs, isdigit c = true) →
    r = (10 * V) % 2 ^ 64 →
    cs.foldl (fun r c => ((r + ((ctoi c) % (2 ^ 32 : Int)).toNat) % 2 ^ 64 * 10) % 2 ^ 64) r =
      (10 * cs.foldl (fun r c => 10 * r + (c.toNat - '0'.toNat)) V) % 2 ^ 64
  | [], r, V, _, h => h
  | c :: cs, r, V, hd, h => by
    simp only [List.foldl_cons]
    apply str_to_uf64_fold cs _ _ (fun x hx => hd x (List.mem_cons_of_mem _ hx))
    rw [ctoi_digit (hd c (List.mem_cons_self _ _)), h]
    omega

/-- What `str_to_uf64` returns for a non-empty string of digits: ten times the
value of the digits read from right to left, modulo 2^64. -/
theorem str_to_uf64_digits (s : List Char) (errno : Int) (hne : s ≠ [])
    (hd : ∀ c ∈ s, isdigit c = true) :
    (str_to_uf64 s errno).1 = (10 * decimal_value s.reverse) % 2 ^ 64 := by
  unfold str_to_uf64
  cases hscan : str_to_uf64_scan s 0 with
  | none =>
    obtain ⟨c, hc, hf⟩ := (str_to_uf64_scan_none s 0).1 hscan
    rw [hd c hc] at hf
    cases hf
  | some l =>
    have hl : l = s.length := by simpa using str_to_uf64_scan_some s 0 l hscan
    subst hl
    have hpos : s.length ≠ 0 := by
      intro h0
      exact hne (List.length_eq_zero.1 h0)
    simp only [if_neg hpos]
    rw [str_to_uf64_parse_result, range_getD_reverse]
    exact str_to_uf64_fold s.reverse 0 0 (fun c hc => hd c (List.mem_reverse.1 hc)) (by simp)

/-- C23: `str_to_uf64` does not return the numeric value of a string of digits.
Its second loop reads the digits from the last to the first and multiplies
after each addition: for `"12"` it returns 210, for `"7"` 70 and for `"123"`
3210, each with `errno == 0`; for `"00"` it sets `errno` to 1. -/
theorem C23_str_to_uf64_reads_the_digits_backwards :
    str_to_uf64 "12".toList 0 = (210, 0) ∧ decimal_value "12".toList = 12 ∧
    str_to_uf64 "7".toList 0 = (70, 0) ∧ decimal_value "7".toList = 7 ∧
    str_to_uf64 "123".toList 0 = (3210, 0) ∧ decimal_value "123".toList = 123 ∧
    str_to_uf64 "00".toList 0 = (0, 1) := by
  decide

theorem digitChar_digit (k : Nat) (hk : k < 10) :
    isdigit (Nat.digitChar k) = true ∧ (Nat.digitChar k).toNat - '0'.toNat = k ∧
      (k ≠ 0 → Nat.digitChar k ≠ '0') := by
  interval_cases k <;> decide

theorem digitChar_of_isdigit {c : Char} (h : isdigit c = true) :
    Nat.digitChar (c.toNat - '0'.toNat) = c ∧ c.toNat - '0'.toNat < 10 ∧
      (c ≠ '0' → c.toNat - '0'.toNat ≠ 0) := by
  simp only [isdigit, decide_eq_true_eq] at h
  obtain ⟨h1, h2⟩ := h
  have hc := (Char.ofNat_toNat c).symm
  have e0 : '0'.toNat = 48 := rfl
  have e9 : '9'.toNat = 57 := rfl
  rw [e0] at h1 ⊢
  rw [e9] at h2
  generalize c.toNat = m at h1 h2 hc
  subst hc
  interval_cases m <;> decide

theorem decimal_value_snoc (ds : List Char) (c : Char) :
    decimal_value (ds ++ [c]) = 10 * decimal_value ds + (c.toNat - '0'.toNat) := by
  simp [decimal_value, List.foldl_append]

/-- The chars that `Nat.toDigitsCore` puts before `ds` are the decimal notation
of `n`. -/
theorem toDigitsCore_decimal : ∀ (fuel n : Nat) (ds : List Char), n < fuel → 0 < n →
    ∃ hs, Nat.toDigitsCore 10 fuel n ds = hs ++ ds ∧ DecimalDigitsOf hs n
  | 0, n, ds, h, _ => by omega
  | fuel + 1, n, ds, h, hpos => by
    obtain ⟨hd1, hd2, hd3⟩ := digitChar_digit (n % 10) (Nat.mod_lt _ (by decide))
    by_cases h0 : n / 10 = 0
    · refine ⟨[Nat.digitChar (n % 10)], by simp [Nat.toDigitsCore, h0], ?_⟩
      have hlt : n < 10 := by omega
      have hmod : n % 10 = n := Nat.mod_eq_of_lt hlt
      rw [hmod] at hd1 hd2 hd3 ⊢
      refine ⟨by simp, ?_, ?_, ?_⟩
      · intro c hc
        simp at hc
        rw [hc]; exact hd1
      · simp only [List.head?_cons, ne_eq, Option.some.injEq]
        exact hd3 (by omega)
      · have e0 : '0'.toNat = 48 := rfl
        rw [e0] at hd2
        simpa [decimal_value] using hd2
    · obtain ⟨hs, he, hne, hdig, hhead, hval⟩ := toDigitsCore_decimal fuel (n / 10)
        (Nat.digitChar (n % 10) :: ds) (by omega) (by omega)
      refine ⟨hs ++ [Nat.digitChar (n % 10)], by simp [Nat.toDigitsCore, h0, he], ?_⟩
      refine ⟨by simp, ?_, ?_, ?_⟩
      · intro c hc
        rcases List.mem_append.1 hc with hc | hc
        · exact hdig c hc
        · simp at hc
          rw [hc]; exact hd1
      · cases hs with
        | nil => exact absurd rfl hne
        | cons x xs => simpa using hhead
      · rw [decimal_value_snoc, hval, hd2]
        omega

/-- What `toString` prints for a positive number is its decimal notation
without leading zeros. -/
theorem toString_decimal {n : Nat} (hn : n ≠ 0) : DecimalDigitsOf (toString n).toList n := by
  obtain ⟨hs, he, hd⟩ := toDigitsCore_decimal (n + 1) n [] (by omega) (by omega)
  have : (toString n).toList = hs := by
    show Nat.toDigits 10 n = hs
    unfold Nat.toDigits
    rw [he, List.append_nil]
  rw [this]
  exact hd

theorem decimal_value_ofDigits (ds : List Char) :
    decimal_value ds = Nat.ofDigits 10 (ds.reverse.map (fun c => c.toNat - 48)) := by
  induction ds using List.reverseRecOn with
  | nil => rfl
  | append_singleton ds c ih =>
    rw [decimal_value_snoc, ih]
    have e0 : '0'.toNat = 48 := rfl
    rw [e0]
    simp [Nat.ofDigits_cons]
    omega

theorem digits_ofDigits_of_getLast? (L : List Nat) (hlt : ∀ l ∈ L, l < 10)
    (hlast : L.getLast? ≠ some 0) : Nat.digits 10 (Nat.ofDigits 10 L) = L := by
  refine Nat.digits_ofDigits 10 (by decide) L hlt ?_
  intro hne h0
  apply hlast
  rw [List.getLast?_eq_getLast _ hne, h0]

/-- A number has one decimal notation without leading zeros. -/
theorem decimal_digits_canonical {xs : List Char} {n : Nat} (hd : DecimalDigitsOf xs n) :
    xs = ((Nat.digits 10 n).map Nat.digitChar).reverse := by
  obtain ⟨hne, hdig, hhead, hval⟩ := hd
  have e0 : '0'.toNat = 48 := rfl
  have hL : Nat.digits 10 n = xs.reverse.map (fun c => c.toNat - 48) := by
    rw [← hval, decimal_value_ofDigits]
    refine digits_ofDigits_of_getLast? _ ?_ ?_
    · intro l hl
      obtain ⟨c, hc, rfl⟩ := List.mem_map.1 hl
      have := (digitChar_of_isdigit (hdig c (List.mem_reverse.1 hc))).2.1
      rw [e0] at this
      exact this
    · cases xs with
      | nil => exact absurd rfl hne
      | cons x xs =>
        have hx : x ≠ '0' := by simpa using hhead
        have := (digitChar_of_isdigit (hdig x (List.mem_cons_self _ _))).2.2 hx
        rw [e0] at this
        simpa using this
  rw [hL, List.map_map, ← List.map_reverse, List.reverse_reverse]
  symm
  calc List.map (Nat.digitChar ∘ fun c => c.toNat - 48) xs = List.map id xs := by
        refine List.map_congr_left (fun c hc => ?_)
        have := (digitChar_of_isdigit (hdig c hc)).1
        rw [e0] at this
        exact this
    _ = xs := List.map_id xs

theorem decimal_digits_unique {ds es : List Char} {n : Nat} (hd : DecimalDigitsOf ds n)
    (he : DecimalDigitsOf es n) : ds = es := by
  rw [decimal_digits_canonical hd, decimal_digits_canonical he]

theorem is_valid_cmd_eq_one (line : List Char) (cmd_type : Char) (n : Nat) :
    (is_valid_cmd true line cmd_type n = 1 ↔ line = is_valid_cmd_expected cmd_type n) ∧
    (is_valid_cmd true line cmd_type n ≠ 1 → is_valid_cmd true line cmd_type n = 0) := by
  unfold is_valid_cmd
  by_cases h : line = is_valid_cmd_expected cmd_type n
  · simp [h]
  · simp [h]

theorem is_valid_cmd_expected_B (n : Nat) : is_valid_cmd_expected 'B' n =
    "Create_Thread: MessageType(".toList ++ (toString n).toList ++ [')'] := by
  unfold is_valid_cmd_expected
  rw [if_pos rfl]
  simp [String.toList]

theorem is_valid_cmd_expected_C (n : Nat) : is_valid_cmd_expected 'C' n =
    "Cancel: Message(".toList ++ (toString n).toList ++ [')'] := by
  unfold is_valid_cmd_expected
  rw [if_neg (by decide)]
  simp [String.toList]

/-- The call of `sprintf` on a valid line writes one char more than the buffer
`expected` has. -/
theorem is_valid_cmd_writes_past_expected (line : List Char) (cmd_type : Char) (n : Nat)
    (h : is_valid_cmd true line cmd_type n = 1) :
    is_valid_cmd_written cmd_type n = line.length + 1 := by
  rw [((is_valid_cmd_eq_one line cmd_type n).1).1 h]
  rfl

/-- C21: for every line and every `n != 0`, when the allocation succeeds,
`is_valid_cmd(line, len, 'B', n)` returns 1 if and only if the line is
`Create_Thread: MessageType(` followed by the decimal digits of `n` without
leading zeros and `)`, and `is_valid_cmd(line, len, 'C', n)` returns 1 if and
only if the line is `Cancel: Message(` followed by those digits and `)`;
otherwise the function returns 0.  When the allocation fails it returns -1. -/
theorem C21_is_valid_cmd_accepts_exactly_the_expected_line (line : List Char) (n : Nat)
    (hn : n ≠ 0) :
    (is_valid_cmd true line 'B' n = 1 ↔
      ∃ ds, DecimalDigitsOf ds n ∧
        line = "Create_Thread: MessageType(".toList ++ ds ++ [')']) ∧
    (is_valid_cmd true line 'B' n ≠ 1 → is_valid_cmd true line 'B' n = 0) ∧
    (is_valid_cmd true line 'C' n = 1 ↔
      ∃ ds, DecimalDigitsOf ds n ∧ line = "Cancel: Message(".toList ++ ds ++ [')']) ∧
    (is_valid_cmd true line 'C' n ≠ 1 → is_valid_cmd true line 'C' n = 0) ∧
    (∀ cmd_type : Char, is_valid_cmd false line cmd_type n = -1) := by
  have hB := is_valid_cmd_eq_one line 'B' n
  have hC := is_valid_cmd_eq_one line 'C' n
  refine ⟨?_, hB.2, ?_, hC.2, fun _ => rfl⟩
  · rw [hB.1, is_valid_cmd_expected_B]
    constructor
    · intro h
      exact ⟨_, toString_decimal hn, h⟩
    · rintro ⟨ds, hd, h⟩
      rw [h, decimal_digits_unique hd (toString_decimal hn)]
  · rw [hC.1, is_valid_cmd_expected_C]
    constructor
    · intro h
      exact ⟨_, toString_decimal hn, h⟩
    · rintro ⟨ds, hd, h⟩
      rw [h, decimal_digits_unique hd (toString_decimal hn)]

/-- The line `Cancel: Message(12)` is accepted for the number 12 and the line
`Cancel: Message(012)` is not; `Create_Thread: MessageType(7)` is accepted for
the type 7. -/
theorem C21_is_valid_cmd_accepts_exactly_the_expected_line_witness :
    (12 : Nat) ≠ 0 ∧
    is_valid_cmd true "Cancel: Message(12)".toList 'C' 12 = 1 ∧
    is_valid_cmd true "Cancel: Message(012)".toList 'C' 12 = 0 ∧
    is_valid_cmd true "Create_Thread: MessageType(7)".toList 'B' 7 = 1 :=
  ⟨by decide,
    (C21_is_valid_cmd_accepts_exactly_the_expected_line "Cancel: Message(12)".toList 12
      (by decide)).2.2.1.2 ⟨"12".toList, ⟨by decide, by decide, by decide, by decide⟩, by decide⟩,
    (C21_is_valid_cmd_accepts_exactly_the_expected_line "Cancel: Message(012)".toList 12
      (by decide)).2.2.2.1 (by decide),
    by decide⟩

/-- C27: `cleanup_main` resets `data.err.val` to 0 (line 52) before it tests
it against the extreme error values (lines 61-69), so the test never
succeeds.  For every argument the actions after the first `print_error` do
not depend on the error value.  For each of the nine extreme values, with the
command handler thread created and every library call successful, the routine
cancels the command handler thread (id 100) and the alarm handler thread (id
1), frees the lists, destroys the synchronisation objects and ends the process
with `exit(0)`. -/
theorem C27_extreme_errors_are_cleaned_up_like_any_other :
    (∀ (arg : MLData) (w : CleanupWorld) (val : Int),
      cleanup_main { arg with err := { arg.err with val := val } } w =
        .print_error val :: (cleanup_main arg w).tail) ∧
    [MUTEX_LOCK_ERR, MUTEX_UNLOCK_ERR, SEM_WAIT_ERR, SEM_SIGNAL_ERR, THREAD_CANCEL_ERR,
      THREAD_JOIN_ERR, THREAD_CANCEL_RETVAL_ERR, CANCELLATION_ENABLE_ERR,
      CANCELLATION_DISABLE_ERR].map is_extreme_error = List.replicate 9 true ∧
    [MUTEX_LOCK_ERR, MUTEX_UNLOCK_ERR, SEM_WAIT_ERR, SEM_SIGNAL_ERR, THREAD_CANCEL_ERR,
      THREAD_JOIN_ERR, THREAD_CANCEL_RETVAL_ERR, CANCELLATION_ENABLE_ERR,
      CANCELLATION_DISABLE_ERR].map
        (fun val => cleanup_main (ex_cleanup_data val) ex_cleanup_world) =
    [MUTEX_LOCK_ERR, MUTEX_UNLOCK_ERR, SEM_WAIT_ERR, SEM_SIGNAL_ERR, THREAD_CANCEL_ERR,
      THREAD_JOIN_ERR, THREAD_CANCEL_RETVAL_ERR, CANCELLATION_ENABLE_ERR,
      CANCELLATION_DISABLE_ERR].map
        (fun val => [.print_error val, .free_line, .cancel_thread 100, .free_cmda_list 1,
          .free_cmdc_list 0, .cancel_thread 1, .free_cmdb 1, .free_alarm_list 1,
          .destroy "cmd_mutex", .destroy "new_cmd_insert_mutex",
          .destroy "new_cmd_insert_cond_var", .destroy "alarm_rw_bin_sem",
          .destroy "alarm_r_bin_sem", .destroy "alarm_cancel_mutex",
          .destroy "alarm_cancel_cond_var", .print_error 0, .exit 0]) := by
  refine ⟨fun arg w val => rfl, by decide, by decide⟩

/-- The critical sections of two cycles: with two schedule commands and a
start-thread record pending, A then B (the type C phase is skipped); with a
schedule command and a cancel command pending, A then C (the type B phase is
skipped). -/
theorem cmd_handler_cycle_log_example :
    (cmd_handler_cycle_log ex_t3).map (fun r => r.2) =
      .ok [{ phase := .type_A, pending := 2 }, { phase := .type_B, pending := 1 }] ∧
    (cmd_handler_cycle_log ex_s2).map (fun r => r.2) =
      .ok [{ phase := .type_A, pending := 1 }, { phase := .type_C, pending := 1 }] :=
  ⟨by decide, by decide⟩

theorem ex_v6_reachable : Reachable ex_v6 := by
  have r1 : Reachable ex_t1 :=
    .step _ _ .init (.submit_A _ ex_c1 (by decide) (by decide) (by decide) (by decide))
  have r2 : Reachable ex_v1 := .step _ _ r1 (.dispatch _ _ (by decide))
  have r3 : Reachable ex_v2 := .step _ _ r2 (.submit_B _ 1 (by decide))
  have r4 : Reachable ex_v3 :=
    .step _ _ r3 (.submit_A _ ex_c1_type2 (by decide) (by decide) (by decide) (by decide))
  have r5 : Reachable ex_v4 := .step _ _ r4 (.dispatch _ _ (by decide))
  have r6 : Reachable ex_v5 := .step _ _ r5 (.dispatch _ _ (by decide))
  exact .step _ _ r6
    (.scan ex_v5 ex_w0 ex_v_scan.1 ex_v_scan.2 (by decide) (by decide) (by decide))

/-- C24: a thread that is created for a message type without an alarm.  Alarm
1 of type 1 is in the registry; `Create_Thread: MessageType(1)` is accepted;
`1 Message(2, 1) x` is accepted before the command handler runs.  The cycle
first gives alarm 1 the type 2, then its type B section creates thread 1 for
type 1 while the registry holds no alarm of type 1.  The initial scan of the
thread leaves its local list empty and the thread terminates itself in the
first iteration of its loop.  Its type B record stays in the list, so a later
`Create_Thread: MessageType(1)` is refused although an alarm of type 1 waits
unassigned. -/
theorem C24_thread_created_without_alarm_of_its_type :
    Reachable ex_v6 ∧
    ex_v2.cmdb_new.map CmdB.msg_type = [1] ∧
    ex_v3.cmda_list = [ex_c1_type2] ∧
    ex_v4.pc = .before_B ∧ ex_v4.cmdb_new.map CmdB.msg_type = [1] ∧
    ex_v4.registry.map (fun a => (a.msg_num, a.msg_type, a.is_assigned)) = [(1, 2, false)] ∧
    cmd_handler_section ex_v4 = .ok ex_v5 ∧
    ex_v5.workers = [ex_w0] ∧
    ex_v5.registry.map (fun a => (a.msg_num, a.msg_type, a.is_assigned)) = [(1, 2, false)] ∧
    alarm_handler_init ex_v5.heap ex_v5.alarm_list_head 1 1 = .ok ex_v_scan ∧
    ex_v_scan.2.handle_list_head = none ∧
    (alarm_handler_tick ex_v6.heap ex_v_scan.2).map (fun it => (it.exited, it.events)) =
      .ok (true, []) ∧
    ex_v8.registry.map (fun a => (a.msg_num, a.msg_type, a.is_assigned)) =
      [(1, 2, false), (2, 1, false)] ∧
    ex_v8.workers = [] ∧
    main_type_B ex_v8 1 ex_v8.registry = ex_v8 :=
  ⟨ex_v6_reachable, by decide, by decide, by decide, by decide, by decide, by decide,
    by decide, by decide, by decide, by decide, by decide, by decide, by decide, by decide⟩

/-- The link of a listed cell is the next cell of the chain. -/
theorem Chain.link_of {after : Alarm → Option Nat} {h : Heap} (l1 : List Nat) {l2 : List Nat}
    {p : Nat} {s : Option Nat} (hc : Chain after h s (l1 ++ p :: l2)) :
    ∃ b, h[p]? = some b ∧ after b = l2.head? := by
  obtain ⟨s', hc'⟩ := Chain.suffix l1 hc
  obtain ⟨_, b, hb, hrest⟩ := hc'
  exact ⟨b, hb, hrest.head_eq⟩

/-- Ordered insertion splits the list in two and puts the new address between. -/
theorem ins_split (h : Heap) (n : Nat) : ∀ ps : List Nat,
    ∃ pre post, ps = pre ++ post ∧ ins h n ps = pre ++ n :: post
  | [] => ⟨[], [], rfl, rfl⟩
  | q :: qs => by
    by_cases hlt : key h n < key h q
    · exact ⟨[], q :: qs, rfl, by simp [ins, hlt]⟩
    · obtain ⟨pre, post, h1, h2⟩ := ins_split h n qs
      exact ⟨q :: pre, post, by simp [h1], by simp [ins, hlt, h2]⟩

/-- The cells of a heap after the new address `n` was spliced into the chain
`pre ++ post`: only the last cell of `pre` has another link. -/
theorem splice_frame {h h' : Heap} {head head' : Option Nat} {pre post : List Nat} {n : Nat}
    (hc : Chain next_alarm h head (pre ++ post))
    (hc' : Chain next_alarm h' head' (pre ++ n :: post))
    (hf : FieldFrame globalField (n :: (pre ++ post)) h h') {p : Nat} {b : Alarm}
    (hb : h[p]? = some b) (hpn : p ≠ n) :
    (pre.getLast? ≠ some p → h'[p]? = some b) ∧
    (pre.getLast? = some p → h'[p]? = some { b with link := some n }) := by
  obtain ⟨v, hv⟩ := hf.upd_of p b hb
  have hupd : ∀ w, globalField.upd b w = { b with link := w } := fun _ => rfl
  have hsame : ∀ w, b.link = w → globalField.upd b w = b := by
    intro w hw
    rw [hupd, ← hw]
  by_cases hin : p ∈ pre ++ post
  · rcases List.mem_append.1 hin with hp | hp
    · obtain ⟨l1, l2, rfl⟩ := List.append_of_mem hp
      have e1 : (l1 ++ p :: l2) ++ post = l1 ++ p :: (l2 ++ post) := by simp
      have e2 : (l1 ++ p :: l2) ++ n :: post = l1 ++ p :: (l2 ++ n :: post) := by simp
      rw [e1] at hc
      rw [e2] at hc'
      obtain ⟨b1, hb1, hl1⟩ := Chain.link_of l1 hc
      obtain ⟨b2, hb2, hl2⟩ := Chain.link_of l1 hc'
      rw [hb] at hb1; cases hb1
      rw [hv] at hb2; cases hb2
      have hv2 : v = (l2 ++ n :: post).head? := by
        rw [← hl2]; rfl
      cases l2 with
      | nil =>
        constructor
        · intro hlast; simp at hlast
        · intro _
          rw [hv, hupd]
          simp at hv2
          rw [hv2]
      | cons y ys =>
        constructor
        · intro _
          rw [hv, hsame]
          have : b.link = ((y :: ys) ++ post).head? := hl1
          rw [this, hv2]; rfl
        · intro hlast
          have hnd := hc.no_repeat
          have hx : (y :: ys).getLast? = some ((y :: ys).getLast (by simp)) :=
            List.getLast?_eq_getLast _ _
          rw [show l1 ++ p :: y :: ys = (l1 ++ [p]) ++ (y :: ys) by simp,
            List.getLast?_append, hx] at hlast
          simp only [Option.or, Option.some.injEq] at hlast
          have hmem : p ∈ y :: ys := by
            rw [← hlast]
            exact List.getLast_mem _
          exfalso
          have hnd2 : (l1 ++ p :: ((y :: ys) ++ post)).Nodup := hnd
          rw [List.nodup_append] at hnd2
          have h3 := (List.nodup_cons.1 hnd2.2.1).1
          exact h3 (List.mem_append_left _ hmem)
    · obtain ⟨l1, l2, rfl⟩ := List.append_of_mem hp
      have e1 : pre ++ (l1 ++ p :: l2) = (pre ++ l1) ++ p :: l2 := by simp
      have e2 : pre ++ n :: (l1 ++ p :: l2) = (pre ++ n :: l1) ++ p :: l2 := by simp
      have hnd := hc.no_repeat
      rw [e1] at hc
      rw [e2] at hc'
      obtain ⟨b1, hb1, hl1⟩ := Chain.link_of _ hc
      obtain ⟨b2, hb2, hl2⟩ := Chain.link_of _ hc'
      rw [hb] at hb1; cases hb1
      rw [hv] at hb2; cases hb2
      have hv2 : v = l2.head? := by
        rw [← hl2]; rfl
      constructor
      · intro _
        rw [hv, hsame]
        have : b.link = l2.head? := hl1
        rw [this, hv2]
      · intro hlast
        exfalso
        have hmem : p ∈ pre := List.mem_of_getLast?_eq_some hlast
        rw [List.nodup_append] at hnd
        exact hnd.2.2 hmem (by simp)
  · have hnot : p ∉ n :: (pre ++ post) := by
      intro h1
      rcases List.mem_cons.1 h1 with h1 | h1
      · exact hpn h1
      · exact hin h1
    constructor
    · intro _
      rw [hf.same_of p hnot]; exact hb
    · intro hlast
      exact absurd (List.mem_append_left _ (List.mem_of_getLast?_eq_some hlast)) hin



/-- C29: `insert_alarm` with `global_list = true` of the new alarm `n` into a
registry that is well formed and sorted by `msg_num`.  The call returns (up
to its handshake); every alarm of the heap whose `msg_num` differs from the
new alarm's keeps all its fields, except that one alarm may have its `link`
set to the new node; that alarm is unique, it is in the registry, and this
happens only when the new node is spliced in (the registry is then the old
list with the new node in its ordered position).  For the registry alarm with
the `msg_num` of the new alarm, `replace_alarm` leaves `link`, `link_handle`,
`msg_num`, `is_assigned`, `handler_id` and `is_cancelled` as they are, and no
other cell changes. -/
theorem C29_insert_alarm_frame (h : Heap) (head : Option Nat) (xs : List Nat) (n : Nat)
    (a : Alarm) (hl : global_list h head = some xs)
    (hs : ((cells h xs).map Alarm.msg_num).Pairwise (fun x y => x < y))
    (hn : n ∉ xs) (ha : h[n]? = some a) (hnull : a.link = none) :
    ∃ out, insert_alarm h head n next_alarm insert_first_alarm insert_after_alarm true
        = .ok out ∧
      out.heap.length = h.length ∧
      (∀ (p : Nat) (b : Alarm), h[p]? = some b → b.msg_num ≠ a.msg_num →
        out.heap[p]? = some b ∨ out.heap[p]? = some { b with link := some n }) ∧
      (∀ (p q : Nat) (bp bq : Alarm), h[p]? = some bp → h[q]? = some bq →
        bp.msg_num ≠ a.msg_num → bq.msg_num ≠ a.msg_num →
        out.heap[p]? ≠ some bp → out.heap[q]? ≠ some bq → p = q) ∧
      (∀ (p : Nat) (b : Alarm), h[p]? = some b → b.msg_num ≠ a.msg_num →
        out.heap[p]? ≠ some b →
        p ∈ xs ∧ out.wait_on = none ∧ global_list out.heap out.head = some (ins h n xs)) ∧
      (∀ (e : Nat) (ae : Alarm), e ∈ xs → h[e]? = some ae → ae.msg_num = a.msg_num →
        (∃ b, out.heap[e]? = some b ∧ b.link = ae.link ∧ b.link_handle = ae.link_handle ∧
          b.msg_num = ae.msg_num ∧ b.is_assigned = ae.is_assigned ∧
          b.handler_id = ae.handler_id ∧ b.is_cancelled = ae.is_cancelled) ∧
        ∀ p : Nat, p ≠ e → out.heap[p]? = h[p]?) := by
  have hc := Chain.of_global_list hl
  have hasc := KeysAscending.of_cells hc hs
  have hkn : key h n = a.msg_num := key_of_some ha
  by_cases hex : ∃ e ∈ xs, key h e = key h n
  · -- replacement of the cell `e`
    obtain ⟨e, he, hk⟩ := hex
    obtain ⟨ae, hae⟩ := hc.valid e he
    have hrun := insert_alarm_replace hc hasc hn ha he hk
    rw [insert_alarm_replaced_ok hae ha] at hrun
    have hother : ∀ p : Nat, p ≠ e → (h.set e (replaced_cell ae a))[p]? = h[p]? :=
      fun p hp => List.getElem?_set_ne (Ne.symm hp)
    have hcell : (h.set e (replaced_cell ae a))[e]? = some (replaced_cell ae a) :=
      getElem?_set_of_some hae
    have hkey : ae.msg_num = a.msg_num := by rw [← key_of_some hae, hk, hkn]
    have hunch : ∀ (p : Nat) (b : Alarm), h[p]? = some b → b.msg_num ≠ a.msg_num →
        (h.set e (replaced_cell ae a))[p]? = some b := by
      intro p b hb hne
      have hpe : p ≠ e := by
        rintro rfl
        rw [hae] at hb; cases hb
        exact hne hkey
      rw [hother p hpe]; exact hb
    refine ⟨_, hrun, by simp, ?_, ?_, ?_, ?_⟩
    · intro p b hb hne
      exact Or.inl (hunch p b hb hne)
    · intro p q bp bq hbp _ hnp _ hcp _
      exact absurd (hunch p bp hbp hnp) hcp
    · intro p b hb hne hch
      exact absurd (hunch p b hb hne) hch
    · intro e' ae' he' hae' hk'
      have hee : e' = e := by
        have hpw : (xs.map (key h)).Pairwise (fun x y => x < y) := hasc
        have hnodup : (xs.map (key h)).Nodup := hpw.imp (fun hlt => Nat.ne_of_lt hlt)
        have h1 : key h e' = key h e := by rw [key_of_some hae', hk', hk, hkn]
        exact List.inj_on_of_nodup_map hnodup he' he h1
      subst hee
      rw [hae] at hae'; cases hae'
      refine ⟨⟨_, hcell, ?_, ?_, ?_, ?_, ?_, ?_⟩, hother⟩ <;>
        (simp only [replaced_cell]; split <;> rfl)
  · -- the new node is spliced in
    have hne : ∀ q ∈ xs, key h q ≠ key h n := fun q hq hk => hex ⟨q, hq, hk⟩
    obtain ⟨h', head', hrun, hc', hf⟩ :=
      insert_alarm_ins globalField true hc hc.no_repeat hn ha hnull (fun _ => hne)
    obtain ⟨pre, post, hxs, hins⟩ := ins_split h n xs
    have hcs : Chain next_alarm h head (pre ++ post) := by rw [← hxs]; exact hc
    have hcs' : Chain next_alarm h' head' (pre ++ n :: post) := by rw [← hins]; exact hc'
    have hfs : FieldFrame globalField (n :: (pre ++ post)) h h' := by rw [← hxs]; exact hf
    have hpn : ∀ (p : Nat) (b : Alarm), h[p]? = some b → b.msg_num ≠ a.msg_num → p ≠ n := by
      rintro p b hb hneq rfl
      rw [ha] at hb; cases hb
      exact hneq rfl
    have hasc' : KeysAscending h' (ins h n xs) :=
      (ins_ascending hasc hne).congr (fun p _ => hf.key_eq p)
    have hgl : global_list h' head' = some (ins h n xs) := Chain.global_list_eq hc' hasc'
    refine ⟨_, hrun, hf.length_eq, ?_, ?_, ?_, ?_⟩
    · intro p b hb hneq
      have hsp := splice_frame hcs hcs' hfs hb (hpn p b hb hneq)
      by_cases hlast : pre.getLast? = some p
      · exact Or.inr (hsp.2 hlast)
      · exact Or.inl (hsp.1 hlast)
    · intro p q bp bq hbp hbq hnp hnq hcp hcq
      have hsp := splice_frame hcs hcs' hfs hbp (hpn p bp hbp hnp)
      have hsq := splice_frame hcs hcs' hfs hbq (hpn q bq hbq hnq)
      have h1 : pre.getLast? = some p := by
        by_contra hlast
        exact hcp (hsp.1 hlast)
      have h2 : pre.getLast? = some q := by
        by_contra hlast
        exact hcq (hsq.1 hlast)
      rw [h1] at h2
      exact Option.some.inj h2
    · intro p b hb hneq hch
      have hsp := splice_frame hcs hcs' hfs hb (hpn p b hb hneq)
      have h1 : pre.getLast? = some p := by
        by_contra hlast
        exact hch (hsp.1 hlast)
      refine ⟨?_, rfl, hgl⟩
      rw [hxs]
      exact List.mem_append_left _ (List.mem_of_getLast?_eq_some h1)
    · intro e ae he hae hk
      exact absurd (by rw [key_of_some hae, hk, hkn]) (hne e he)



theorem C29_insert_alarm_frame_witness :
    global_list ex_heap_four (some 0) = some [0, 1, 2] ∧
    (insert_alarm ex_heap_four (some 0) 3 next_alarm insert_first_alarm insert_after_alarm
      true).map (fun out => out.heap.map Alarm.link) = .ok [some 1, some 3, none, some 2] ∧
    ∃ out, insert_alarm ex_heap_four (some 0) 3 next_alarm insert_first_alarm
        insert_after_alarm true = .ok out ∧
      out.heap.length = ex_heap_four.length ∧
      (∀ (p : Nat) (b : Alarm), ex_heap_four[p]? = some b → b.msg_num ≠ ex_alarm_six.msg_num →
        out.heap[p]? = some b ∨ out.heap[p]? = some { b with link := some 3 }) ∧
      (∀ (p q : Nat) (bp bq : Alarm), ex_heap_four[p]? = some bp → ex_heap_four[q]? = some bq →
        bp.msg_num ≠ ex_alarm_six.msg_num → bq.msg_num ≠ ex_alarm_six.msg_num →
        out.heap[p]? ≠ some bp → out.heap[q]? ≠ some bq → p = q) ∧
      (∀ (p : Nat) (b : Alarm), ex_heap_four[p]? = some b → b.msg_num ≠ ex_alarm_six.msg_num →
        out.heap[p]? ≠ some b →
        p ∈ [0, 1, 2] ∧ out.wait_on = none ∧
          global_list out.heap out.head = some (ins ex_heap_four 3 [0, 1, 2])) ∧
      (∀ (e : Nat) (ae : Alarm), e ∈ [0, 1, 2] → ex_heap_four[e]? = some ae →
        ae.msg_num = ex_alarm_six.msg_num →
        (∃ b, out.heap[e]? = some b ∧ b.link = ae.link ∧ b.link_handle = ae.link_handle ∧
          b.msg_num = ae.msg_num ∧ b.is_assigned = ae.is_assigned ∧
          b.handler_id = ae.handler_id ∧ b.is_cancelled = ae.is_cancelled) ∧
        ∀ p : Nat, p ≠ e → out.heap[p]? = ex_heap_four[p]?) :=
  ⟨by decide, by decide,
    C29_insert_alarm_frame ex_heap_four (some 0) [0, 1, 2] 3 ex_alarm_six (by decide)
      (by decide) (by decide) (by decide) rfl⟩

theorem Linked.cell_of {α : Type} {after : α → Option Nat} {h : List α} :
    ∀ {ps : List Nat} {start : Option Nat}, Linked after h start ps →
      ∀ p ∈ ps, ∃ a, h[p]? = some a
  | [], _, _, p, hp => by simp at hp
  | q :: qs, _, hc, p, hp => by
    obtain ⟨_, a, ha, hrest⟩ := hc
    rcases List.mem_cons.1 hp with rfl | hp
    · exact ⟨a, ha⟩
    · exact Linked.cell_of hrest p hp

theorem Linked.below_length {α : Type} {after : α → Option Nat} {h : List α} {ps : List Nat}
    {start : Option Nat} (hc : Linked after h start ps) : ∀ p ∈ ps, p < h.length := by
  intro p hp
  obtain ⟨a, ha⟩ := hc.cell_of p hp
  by_contra hlt
  have : h[p]? = none := List.getElem?_eq_none (Nat.le_of_not_lt hlt)
  simp [this] at ha

/-- A linked list only depends on the cells it visits and on their `after`
field. -/
theorem Linked.transfer {α : Type} {after : α → Option Nat} {h h' : List α} :
    ∀ {ps : List Nat} {start : Option Nat}, Linked after h start ps →
      (∀ p ∈ ps, ∀ a, h[p]? = some a → ∃ a', h'[p]? = some a' ∧ after a' = after a) →
      Linked after h' start ps
  | [], _, hc, _ => hc
  | q :: qs, _, hc, hf => by
    obtain ⟨hs, a, ha, hrest⟩ := hc
    obtain ⟨a', ha', haft⟩ := hf q (List.mem_cons_self _ _) a ha
    refine ⟨hs, a', ha', ?_⟩
    rw [haft]
    exact Linked.transfer hrest (fun p hp => hf p (List.mem_cons_of_mem _ hp))

theorem Linked.determined {α : Type} {after : α → Option Nat} {h : List α} :
    ∀ {ps qs : List Nat} {start : Option Nat}, Linked after h start ps →
      Linked after h start qs → ps = qs
  | [], [], _, _, _ => rfl
  | [], q :: qs, _, h1, h2 => by
    cases h1; obtain ⟨hs, _⟩ := h2; cases hs
  | p :: ps, [], _, h1, h2 => by
    cases h2; obtain ⟨hs, _⟩ := h1; cases hs
  | p :: ps, q :: qs, _, h1, h2 => by
    obtain ⟨hs1, a, ha, hr1⟩ := h1
    obtain ⟨hs2, b, hb, hr2⟩ := h2
    subst hs1
    cases hs2
    rw [ha] at hb; cases hb
    rw [Linked.determined hr1 hr2]

theorem Linked.tail_part {α : Type} {after : α → Option Nat} {h : List α} :
    ∀ (l1 : List Nat) {l2 : List Nat} {s : Option Nat}, Linked after h s (l1 ++ l2) →
      ∃ s', Linked after h s' l2
  | [], _, s, hc => ⟨s, hc⟩
  | _ :: l1, _, _, hc => by
    obtain ⟨_, a, _, hrest⟩ := hc
    exact Linked.tail_part l1 hrest

/-- A linked list that reaches `NULL` visits no cell twice. -/
theorem Linked.distinct {α : Type} {after : α → Option Nat} {h : List α} :
    ∀ {ps : List Nat} {s : Option Nat}, Linked after h s ps → ps.Nodup
  | [], _, _ => List.nodup_nil
  | q :: qs, _, hc => by
    have hc' := hc
    obtain ⟨_, a, ha, hrest⟩ := hc
    refine List.nodup_cons.2 ⟨?_, Linked.distinct hrest⟩
    intro hq
    obtain ⟨l1, l2, hsplit⟩ := List.append_of_mem hq
    have hsuf : ∃ s', Linked after h s' (q :: l2) := by
      rw [hsplit] at hrest
      exact Linked.tail_part l1 hrest
    obtain ⟨s', hs'⟩ := hsuf
    have hs'' : Linked after h (some q) (q :: l2) := by
      have := hs'.1
      rw [this] at hs'; exact hs'
    have h1 : Linked after h (some q) (q :: qs) := ⟨rfl, a, ha, hrest⟩
    have := Linked.determined h1 hs''
    have hlen := congrArg List.length this
    rw [hsplit] at hlen
    simp at hlen
    omega

theorem Linked.length_bound {α : Type} {after : α → Option Nat} {h : List α} {ps : List Nat}
    {start : Option Nat} (hc : Linked after h start ps) : ps.length ≤ h.length := by
  have hsub : ps ⊆ List.range h.length := by
    intro p hp
    exact List.mem_range.2 (hc.below_length p hp)
  have := (List.subperm_of_subset hc.distinct hsub).length_le
  simpa using this

theorem Linked.follow_eq {α : Type} {after : α → Option Nat} {h : List α} :
    ∀ {ps : List Nat} {start : Option Nat} (fuel : Nat), Linked after h start ps →
      ps.length ≤ fuel → follow after h fuel start = some ps
  | [], _, fuel, hc, _ => by
    cases hc
    cases fuel <;> simp [follow]
  | q :: qs, _, 0, _, hl => by simp at hl
  | q :: qs, _, fuel + 1, hc, hl => by
    obtain ⟨hs, a, ha, hrest⟩ := hc
    subst hs
    have := Linked.follow_eq fuel hrest (by simpa using hl)
    simp [follow, ha, this]

theorem Linked.of_follow {α : Type} {after : α → Option Nat} {h : List α} :
    ∀ (fuel : Nat) {start : Option Nat} {ps : List Nat},
      follow after h fuel start = some ps → Linked after h start ps
  | 0, none, ps, hw => by
    simp [follow] at hw; subst hw; rfl
  | 0, some p, ps, hw => by simp [follow] at hw
  | fuel + 1, none, ps, hw => by
    simp [follow] at hw; subst hw; rfl
  | fuel + 1, some p, ps, hw => by
    cases hp : h[p]? with
    | none => simp [follow, hp] at hw
    | some a =>
      simp [follow, hp] at hw
      obtain ⟨qs, hq, rfl⟩ := hw
      exact ⟨rfl, a, hp, Linked.of_follow fuel hq⟩

theorem getElem?_set_same {α : Type} {h : List α} {p : Nat} {a b : α} (hp : h[p]? = some a) :
    (h.set p b)[p]? = some b := by
  have hlt : p < h.length := by
    by_contra hlt
    have : h[p]? = none := List.getElem?_eq_none (Nat.le_of_not_lt hlt)
    simp [this] at hp
  simp [List.getElem?_set_self hlt]

theorem v1_deref_some {h : V1.Heap} {p : Nat} {a : V1.Alarm} (hp : h[p]? = some a) :
    V1.deref h (some p) = .ok a := by
  simp [V1.deref, hp]

theorem v1_insert_after_ok (F : V1.LinkField) {h : V1.Heap} {node n : Nat} {x a : V1.Alarm}
    (hx : h[node]? = some x) (ha : h[n]? = some a) (hne : node ≠ n) :
    F.insert_after h node n =
      .ok ((h.set n (F.upd a (F.after x))).set node (F.upd x (some n))) := by
  have h1 : (h.set n (F.upd a (F.after x)))[node]? = some x := by
    rw [List.getElem?_set_ne (Ne.symm hne)]; exact hx
  rw [F.after_eq, v1_deref_some hx, v1_deref_some ha]
  simp only [Except.bind]
  rw [v1_deref_some h1]

/-- The effect of `insert_after` on the cells. -/
theorem v1_insert_after_frame (F : V1.LinkField) {h : V1.Heap} {node n : Nat}
    {x a : V1.Alarm} (hx : h[node]? = some x) (ha : h[n]? = some a) (hne : node ≠ n) :
    V1.FieldFrame F [n, node] h
      ((h.set n (F.upd a (F.after x))).set node (F.upd x (some n))) := by
  refine ⟨by simp, ?_, ?_⟩
  · intro p b hb
    show ∃ v : Option Nat, _
    by_cases hpn : p = node
    · subst hpn
      rw [hx] at hb; cases hb
      exact ⟨some n, getElem?_set_same (by rw [List.getElem?_set_ne (Ne.symm hne)]; exact hx)⟩
    · rw [List.getElem?_set_ne (Ne.symm hpn)]
      by_cases hpm : p = n
      · subst hpm
        rw [ha] at hb; cases hb
        exact ⟨F.after x, getElem?_set_same ha⟩
      · rw [List.getElem?_set_ne (Ne.symm hpm)]
        exact ⟨F.after b, by rw [F.upd_after]; exact hb⟩
  · intro p hp
    simp at hp
    rw [List.getElem?_set_ne (Ne.symm hp.2), List.getElem?_set_ne (Ne.symm hp.1)]

theorem v1_frame_mono {F : V1.LinkField} {ps qs : List Nat} {h h' : V1.Heap}
    (hf : V1.FieldFrame F ps h h') (hsub : ps ⊆ qs) : V1.FieldFrame F qs h h' :=
  ⟨hf.length_eq, hf.upd_of, fun p hp => hf.same_of p (fun hmem => hp (hsub hmem))⟩

theorem v1_frame_refl (F : V1.LinkField) (ps : List Nat) (h : V1.Heap) :
    V1.FieldFrame F ps h h :=
  ⟨rfl, fun p a hp => ⟨F.after a, by rw [F.upd_after]; exact hp⟩, fun _ _ => rfl⟩

theorem v1_is_less_alarm_ok {h : V1.Heap} {n q : Nat} {a b : V1.Alarm} (hne : n ≠ q)
    (ha : h[n]? = some a) (hb : h[q]? = some b) :
    V1.is_less_alarm h n q = .ok (V1.less_at h n q) := by
  unfold V1.is_less_alarm V1.less_at V1.precedes
  simp only [hne, if_false, v1_deref_some ha, v1_deref_some hb, bind, Except.bind, ha, hb]
  by_cases h1 : a.msg_type < b.msg_type
  · simp [h1, pure, Except.pure]
  · by_cases h2 : a.msg_type > b.msg_type
    · have h3 : ¬ a.msg_type = b.msg_type := by omega
      simp [h1, h2, h3, pure, Except.pure]
    · have h3 : a.msg_type = b.msg_type := by omega
      simp [h1, h3, pure, Except.pure]

/-- The loop of version-1 `insert_alarm`: the new cell is spliced in front of
the first cell that is greater. -/
theorem v1_insert_alarm_loop_ins (F : V1.LinkField) (n : Nat) (a : V1.Alarm) :
    ∀ (xs : List Nat) (fuel : Nat) (h : V1.Heap) (c : Nat),
      xs.length < fuel → Linked F.after h (some c) (c :: xs) → (c :: xs).Nodup →
      n ∉ c :: xs → h[n]? = some a →
      ∃ h', V1.insert_alarm_loop F.after F.insert_after n fuel h c = .ok h' ∧
        Linked F.after h' (some c) (c :: V1.ins h n xs) ∧ V1.FieldFrame F (n :: c :: xs) h h'
  | [], 0, _, _, hl, _, _, _, _ => by simp at hl
  | [], fuel + 1, h, c, _, hc, _, hn, ha => by
    obtain ⟨_, ac, hac, hrest⟩ := hc
    have haft : F.after ac = none := hrest
    have hcn : c ≠ n := fun e => hn (by simp [e])
    refine ⟨(h.set n (F.upd a (F.after ac))).set c (F.upd ac (some n)), ?_, ?_, ?_⟩
    · simp [V1.insert_alarm_loop, v1_deref_some hac, haft, v1_insert_after_ok F hac ha hcn,
        bind, Except.bind]
    · refine ⟨rfl, F.upd ac (some n), ?_, ?_⟩
      · exact getElem?_set_same (by rw [List.getElem?_set_ne (Ne.symm hcn)]; exact hac)
      · rw [F.after_upd]
        refine ⟨rfl, F.upd a (F.after ac), ?_, ?_⟩
        · rw [List.getElem?_set_ne hcn]; exact getElem?_set_same ha
        · rw [F.after_upd, haft]; rfl
    · exact v1_frame_mono (v1_insert_after_frame F hac ha hcn) (by simp)
  | q :: qs, 0, _, _, hl, _, _, _, _ => by simp at hl
  | q :: qs, fuel + 1, h, c, hl, hc, hnd, hn, ha => by
    obtain ⟨_, ac, hac, hrest⟩ := hc
    have hq : Linked F.after h (some q) (q :: qs) := by
      obtain ⟨hs, r⟩ := hrest
      exact ⟨rfl, r⟩
    have haft : F.after ac = some q := hrest.1
    obtain ⟨_, aq, haq, hqrest⟩ := hq
    have hcn : c ≠ n := fun e => hn (by simp [e])
    have hnq : n ≠ q := fun e => hn (by simp [e])
    by_cases hlt : V1.less_at h n q = true
    · refine ⟨(h.set n (F.upd a (F.after ac))).set c (F.upd ac (some n)), ?_, ?_, ?_⟩
      · simp [V1.insert_alarm_loop, v1_deref_some hac, haft, v1_is_less_alarm_ok hnq ha haq,
          hlt, v1_insert_after_ok F hac ha hcn, bind, Except.bind]
      · have hfr := v1_insert_after_frame F hac ha hcn
        rw [haft] at hfr
        simp only [V1.ins, hlt, if_true]
        refine ⟨rfl, F.upd ac (some n), ?_, ?_⟩
        · exact getElem?_set_same (by rw [List.getElem?_set_ne (Ne.symm hcn)]; exact hac)
        · rw [F.after_upd]
          refine ⟨rfl, F.upd a (F.after ac), ?_, ?_⟩
          · rw [List.getElem?_set_ne hcn]; exact getElem?_set_same ha
          · rw [F.after_upd, haft]
            refine Linked.transfer (h := h) ⟨rfl, aq, haq, hqrest⟩ ?_
            intro p hp b hb
            refine ⟨b, ?_, rfl⟩
            rw [hfr.same_of p ?_]; exact hb
            intro hmem
            simp at hmem
            rcases hmem with rfl | rfl
            · exact hn (List.mem_cons_of_mem _ hp)
            · exact (List.nodup_cons.1 hnd).1 hp
      · exact v1_frame_mono (v1_insert_after_frame F hac ha hcn) (by
          intro p hp; simp at hp; rcases hp with rfl | rfl <;> simp)
    · obtain ⟨h', hrun, hch, hfr⟩ := v1_insert_alarm_loop_ins F n a qs fuel h q
        (by simpa using hl) ⟨rfl, aq, haq, hqrest⟩ (List.nodup_cons.1 hnd).2
        (fun hmem => hn (List.mem_cons_of_mem _ hmem)) ha
      refine ⟨h', ?_, ?_, ?_⟩
      · simp [V1.insert_alarm_loop, v1_deref_some hac, haft, v1_is_less_alarm_ok hnq ha haq,
          hlt, hrun, bind, Except.bind]
      · simp only [V1.ins, hlt]
        refine ⟨rfl, ac, ?_, ?_⟩
        · rw [hfr.same_of c ?_]; exact hac
          intro hmem
          rcases List.mem_cons.1 hmem with e | hmem
          · exact hcn e
          · exact (List.nodup_cons.1 hnd).1 hmem
        · rw [haft]; exact hch
      · exact v1_frame_mono hfr (by
          intro p hp
          rcases List.mem_cons.1 hp with rfl | hp
          · simp
          · exact List.mem_cons_of_mem _ (List.mem_cons_of_mem _ hp))

/-- Function `insert_alarm` of version 1: ordered insertion. -/
theorem v1_insert_alarm_ins (F : V1.LinkField) {h : V1.Heap} {head : Option Nat}
    {xs : List Nat} {n : Nat} {a : V1.Alarm}
    (hc : Linked F.after h head xs) (hn : n ∉ xs) (ha : h[n]? = some a)
    (hnull : F.after a = none) :
    ∃ h' head', V1.insert_alarm h head n F.after F.insert_first F.insert_after = .ok (h', head') ∧
      Linked F.after h' head' (V1.ins h n xs) ∧ V1.FieldFrame F (n :: xs) h h' := by
  have hnd := hc.distinct
  cases xs with
  | nil =>
    cases hc
    refine ⟨h, some n, ?_, ?_, v1_frame_refl F _ h⟩
    · simp [V1.insert_alarm, pure, Except.pure]
    · exact ⟨rfl, a, ha, hnull⟩
  | cons c xs =>
    have hlen := hc.length_bound
    obtain ⟨hs, ac, hac, hrest⟩ := hc
    subst hs
    have hnc : n ≠ c := fun e => hn (by simp [e])
    by_cases hlt : V1.less_at h n c = true
    · refine ⟨h.set n (F.upd a (some c)), some n, ?_, ?_, ?_⟩
      · simp [V1.insert_alarm, v1_is_less_alarm_ok hnc ha hac, hlt, F.first_eq,
          v1_deref_some ha, bind, Except.bind]
      · simp only [V1.ins, hlt, if_true]
        refine ⟨rfl, F.upd a (some c), getElem?_set_same ha, ?_⟩
        rw [F.after_upd]
        refine Linked.transfer (h := h) ⟨rfl, ac, hac, hrest⟩ ?_
        intro p hp b hb
        refine ⟨b, ?_, rfl⟩
        rw [List.getElem?_set_ne]; exact hb
        intro e; subst e; exact hn hp
      · refine ⟨by simp, ?_, ?_⟩
        · intro p b hb
          by_cases hpn : p = n
          · subst hpn
            rw [ha] at hb; cases hb
            exact ⟨some c, getElem?_set_same ha⟩
          · exact ⟨F.after b, by rw [List.getElem?_set_ne (Ne.symm hpn), F.upd_after]; exact hb⟩
        · intro p hp
          rw [List.getElem?_set_ne]
          intro e; subst e; exact hp (by simp)
    · obtain ⟨h', hrun, hch, hfr⟩ := v1_insert_alarm_loop_ins F n a xs h.length h c
        (by simpa using hlen) ⟨rfl, ac, hac, hrest⟩ hnd hn ha
      refine ⟨h', some c, ?_, ?_, hfr⟩
      · simp [V1.insert_alarm, v1_is_less_alarm_ok hnc ha hac, hlt, hrun,
          bind, Except.bind, pure, Except.pure]
      · simp only [V1.ins, hlt]
        exact hch



theorem v1_cells_cons {h : V1.Heap} {q : Nat} {x : V1.Alarm} (hq : h[q]? = some x)
    (qs : List Nat) : V1.cells h (q :: qs) = x :: V1.cells h qs := by
  simp [V1.cells, List.filterMap_cons, hq]

theorem v1_mem_cells {h : V1.Heap} : ∀ {ps : List Nat} {x : V1.Alarm},
    x ∈ V1.cells h ps ↔ ∃ p ∈ ps, h[p]? = some x := by
  intro ps x
  simp [V1.cells, List.mem_filterMap]

/-- Sortedness of the alarms of a list of valid addresses, address by address. -/
theorem v1_sorted_iff {h : V1.Heap} : ∀ {ps : List Nat}, (∀ p ∈ ps, ∃ x, h[p]? = some x) →
    (V1.Sorted (V1.cells h ps) ↔
      ps.Pairwise (fun p q => ∀ x y, h[p]? = some x → h[q]? = some y → V1.in_order x y = true))
  | [], _ => by simp [V1.Sorted, V1.cells]
  | q :: qs, hv => by
    obtain ⟨x, hx⟩ := hv q (List.mem_cons_self _ _)
    have hv' : ∀ p ∈ qs, ∃ x, h[p]? = some x := fun p hp => hv p (List.mem_cons_of_mem _ hp)
    have ih := v1_sorted_iff hv'
    unfold V1.Sorted at ih ⊢
    rw [v1_cells_cons hx, List.pairwise_cons, List.pairwise_cons, ih]
    constructor
    · rintro ⟨h1, h2⟩
      refine ⟨?_, h2⟩
      intro p hp x' y hx' hy
      rw [hx] at hx'; cases hx'
      exact h1 y (v1_mem_cells.2 ⟨p, hp, hy⟩)
    · rintro ⟨h1, h2⟩
      refine ⟨?_, h2⟩
      intro y hy
      obtain ⟨p, hp, hpy⟩ := v1_mem_cells.1 hy
      exact h1 p hp x y hx hpy

/-- Ordered insertion splits the list in two: the cells of the first part are
not greater than the new cell, the first cell of the second part is. -/
theorem v1_ins_split (h : V1.Heap) (n : Nat) : ∀ ps : List Nat,
    ∃ pre post, ps = pre ++ post ∧ V1.ins h n ps = pre ++ n :: post ∧
      (∀ q ∈ pre, V1.less_at h n q = false) ∧
      (∀ q, post.head? = some q → V1.less_at h n q = true)
  | [] => ⟨[], [], rfl, rfl, by simp, by simp⟩
  | q :: qs => by
    by_cases hlt : V1.less_at h n q = true
    · exact ⟨[], q :: qs, rfl, by simp [V1.ins, hlt], by simp, by simp [hlt]⟩
    · obtain ⟨pre, post, h1, h2, h3, h4⟩ := v1_ins_split h n qs
      refine ⟨q :: pre, post, by simp [h1], by simp [V1.ins, hlt, h2], ?_, h4⟩
      intro p hp
      rcases List.mem_cons.1 hp with rfl | hp
      · simpa using hlt
      · exact h3 p hp

theorem v1_precedes_iff (x y : V1.Alarm) : V1.precedes x y = true ↔
    (x.msg_type < y.msg_type ∨ (x.msg_type = y.msg_type ∧ x.wait_time < y.wait_time)) := by
  simp [V1.precedes]

theorem v1_in_order_iff (x y : V1.Alarm) : V1.in_order x y = true ↔
    (x.msg_type < y.msg_type ∨ (x.msg_type = y.msg_type ∧ x.wait_time ≤ y.wait_time)) := by
  simp [V1.in_order]

theorem v1_less_at_eq {h : V1.Heap} {p q : Nat} {x y : V1.Alarm} (hp : h[p]? = some x)
    (hq : h[q]? = some y) : V1.less_at h p q = V1.precedes x y := by
  simp [V1.less_at, hp, hq]



theorem v1_frame_back {F : V1.LinkField} {ps : List Nat} {h h' : V1.Heap}
    (hf : V1.FieldFrame F ps h h') {p : Nat} {b : V1.Alarm} (hb : h'[p]? = some b) :
    ∃ a v, h[p]? = some a ∧ b = F.upd a v := by
  have hlt : p < h.length := by
    rw [← hf.length_eq]
    by_contra hlt
    have : h'[p]? = none := List.getElem?_eq_none (Nat.le_of_not_lt hlt)
    simp [this] at hb
  have ha : h[p]? = some h[p] := List.getElem?_eq_getElem hlt
  obtain ⟨v, hv⟩ := hf.upd_of p _ ha
  rw [hb] at hv
  exact ⟨_, v, ha, Option.some.inj hv⟩

theorem v1_in_order_upd (F : V1.LinkField) (x y : V1.Alarm) (v w : Option Nat) :
    V1.in_order (F.upd x v) (F.upd y w) = V1.in_order x y := by
  simp [V1.in_order, F.type_upd, F.wait_upd]

/-- C28: version-1 `insert_alarm` of the new alarm `n` into a list (linked by
`link` or by `link_handle`) that is sorted by `msg_type`, then `wait_time`.
The call returns; the new list is sorted again; it is the old list, in its
old order, with the new alarm between the parts `pre` and `post`; no cell
changes but in its link field; every alarm of `pre` is less than or equal to
the new alarm and every alarm of `post` is greater, so the new alarm stands
after every old alarm that compares equal to it. -/
theorem C28_v1_insert_alarm_keeps_sorted (F : V1.LinkField) (h : V1.Heap)
    (head : Option Nat) (xs : List Nat) (n : Nat) (a : V1.Alarm)
    (hl : follow F.after h h.length head = some xs) (hs : V1.Sorted (V1.cells h xs))
    (hn : n ∉ xs) (ha : h[n]? = some a) (hnull : F.after a = none) :
    ∃ h' head' pre post,
      V1.insert_alarm h head n F.after F.insert_first F.insert_after = .ok (h', head') ∧
      xs = pre ++ post ∧
      follow F.after h' h'.length head' = some (pre ++ n :: post) ∧
      V1.Sorted (V1.cells h' (pre ++ n :: post)) ∧
      h'.length = h.length ∧
      (∀ (p : Nat) (b : V1.Alarm), h[p]? = some b → ∃ v, h'[p]? = some (F.upd b v)) ∧
      (∀ q ∈ pre, ∀ b, h[q]? = some b → V1.in_order b a = true) ∧
      (∀ q ∈ post, ∀ b, h[q]? = some b → V1.precedes a b = true) ∧
      (∀ q ∈ xs, ∀ b, h[q]? = some b → V1.precedes a b = false → q ∈ pre) := by
  have hc := Linked.of_follow _ hl
  have hv := hc.cell_of
  have hsa := (v1_sorted_iff hv).1 hs
  obtain ⟨h', head', hrun, hc', hf⟩ := v1_insert_alarm_ins F hc hn ha hnull
  obtain ⟨pre, post, hxs, hins, hpre, hhead⟩ := v1_ins_split h n xs
  rw [hins] at hc'
  have hpost : ∀ q ∈ post, ∀ b, h[q]? = some b → V1.precedes a b = true := by
    intro q hq b hb
    cases hpo : post with
    | nil => rw [hpo] at hq; simp at hq
    | cons q0 rest =>
      rw [hpo] at hq
      obtain ⟨b0, hb0⟩ := hv q0 (by rw [hxs, hpo]; simp)
      have h0 : V1.precedes a b0 = true := by
        rw [← v1_less_at_eq ha hb0]
        exact hhead q0 (by rw [hpo]; rfl)
      rcases List.mem_cons.1 hq with rfl | hq
      · rw [hb0] at hb; cases hb; exact h0
      · have hpw : (q0 :: rest).Pairwise (fun p q => ∀ x y, h[p]? = some x → h[q]? = some y →
            V1.in_order x y = true) := by
          rw [hxs, hpo] at hsa
          exact (List.pairwise_append.1 hsa).2.1
        have h1 := (List.pairwise_cons.1 hpw).1 q hq b0 b hb0 hb
        rw [v1_precedes_iff] at h0 ⊢
        rw [v1_in_order_iff] at h1
        omega
  have hpre' : ∀ q ∈ pre, ∀ b, h[q]? = some b → V1.in_order b a = true := by
    intro q hq b hb
    have h0 : V1.precedes a b = false := by
      rw [← v1_less_at_eq ha hb]
      exact hpre q hq
    have h1 : ¬ (V1.precedes a b = true) := by simp [h0]
    rw [v1_precedes_iff] at h1
    rw [v1_in_order_iff]
    omega
  have hpw : (pre ++ n :: post).Pairwise (fun p q => ∀ x y, h[p]? = some x → h[q]? = some y →
      V1.in_order x y = true) := by
    rw [hxs] at hsa
    obtain ⟨s1, s2, s3⟩ := List.pairwise_append.1 hsa
    refine List.pairwise_append.2 ⟨s1, List.pairwise_cons.2 ⟨?_, s2⟩, ?_⟩
    · intro q hq x y hx hy
      rw [ha] at hx; cases hx
      have := hpost q hq y hy
      rw [v1_precedes_iff] at this
      rw [v1_in_order_iff]
      omega
    · intro p hp q hq
      rcases List.mem_cons.1 hq with rfl | hq
      · intro x y hx hy
        rw [ha] at hy; cases hy
        exact hpre' p hp x hx
      · exact s3 p hp q hq
  have hpw' : (pre ++ n :: post).Pairwise (fun p q => ∀ x y, h'[p]? = some x →
      h'[q]? = some y → V1.in_order x y = true) := by
    refine hpw.imp ?_
    intro p q hpq x y hx hy
    obtain ⟨x0, v, hx0, rfl⟩ := v1_frame_back hf hx
    obtain ⟨y0, w, hy0, rfl⟩ := v1_frame_back hf hy
    rw [v1_in_order_upd]
    exact hpq x0 y0 hx0 hy0
  refine ⟨h', head', pre, post, hrun, hxs, Linked.follow_eq _ hc' hc'.length_bound,
    (v1_sorted_iff hc'.cell_of).2 hpw', hf.length_eq, hf.upd_of, hpre', hpost, ?_⟩
  intro q hq b hb hnot
  rw [hxs] at hq
  rcases List.mem_append.1 hq with h1 | h1
  · exact h1
  · rw [hpost q h1 b hb] at hnot
    cases hnot

theorem C28_v1_insert_alarm_keeps_sorted_witness :
    (V1.insert_alarm V1.ex_heap (some 0) 3 V1.next_alarm V1.insert_first_alarm
      V1.insert_after_alarm).map (fun r => (follow V1.next_alarm r.1 r.1.length r.2)) =
        .ok (some [0, 1, 3, 2]) ∧
    ∃ h' head' pre post,
      V1.insert_alarm V1.ex_heap (some 0) 3 V1.globalField.after V1.globalField.insert_first
        V1.globalField.insert_after = .ok (h', head') ∧
      [0, 1, 2] = pre ++ post ∧
      follow V1.globalField.after h' h'.length head' = some (pre ++ 3 :: post) ∧
      V1.Sorted (V1.cells h' (pre ++ 3 :: post)) ∧
      h'.length = V1.ex_heap.length ∧
      (∀ (p : Nat) (b : V1.Alarm), V1.ex_heap[p]? = some b →
        ∃ v, h'[p]? = some (V1.globalField.upd b v)) ∧
      (∀ q ∈ pre, ∀ b, V1.ex_heap[q]? = some b →
        V1.in_order b { link := none, link_handle := none, wait_time := 7, msg_type := 1,
                        msg := "new", is_assigned := false } = true) ∧
      (∀ q ∈ post, ∀ b, V1.ex_heap[q]? = some b →
        V1.precedes { link := none, link_handle := none, wait_time := 7, msg_type := 1,
                      msg := "new", is_assigned := false } b = true) ∧
      (∀ q ∈ [0, 1, 2], ∀ b, V1.ex_heap[q]? = some b →
        V1.precedes { link := none, link_handle := none, wait_time := 7, msg_type := 1,
                      msg := "new", is_assigned := false } b = false → q ∈ pre) :=
  ⟨by decide,
    C28_v1_insert_alarm_keeps_sorted V1.globalField V1.ex_heap (some 0) [0, 1, 2] 3
      { link := none, link_handle := none, wait_time := 7, msg_type := 1, msg := "new",
        is_assigned := false }
      (by decide) (by simp [V1.Sorted, V1.cells, V1.ex_heap, V1.in_order]) (by decide)
      (by decide) rfl⟩

theorem getLast?_snoc_of {ps : List Nat} {t : Nat} (h : ps.getLast? = some t) :
    ∃ l, ps = l ++ [t] := List.getLast?_eq_some_iff.1 h

theorem getElem?_lt_length {α : Type} {h : List α} {p : Nat} {x : α} (hx : h[p]? = some x) :
    p < h.length := by
  by_contra hge
  have : h[p]? = none := List.getElem?_eq_none (Nat.le_of_not_lt hge)
  simp [this] at hx

/-- The records of the nodes `ps` are the same in two lists whose nodes carry
the same records. -/
theorem cmdb_records_eq {s s' : CmdBList} (ps : List Nat)
    (hcell : ∀ p ∈ ps, ∃ x, s.heap[p]? = some x)
    (hrec : ∀ (q : Nat) (y : CmdBNode), s.heap[q]? = some y →
      ∃ z, s'.heap[q]? = some z ∧ z.record = y.record) :
    s'.records ps = s.records ps := by
  induction ps with
  | nil => rfl
  | cons p ps ih =>
    obtain ⟨x, hx⟩ := hcell p (List.mem_cons_self _ _)
    obtain ⟨z, hz, hr⟩ := hrec p x hx
    have := ih (fun q hq => hcell q (List.mem_cons_of_mem _ hq))
    simp only [CmdBList.records] at this ⊢
    simp [List.filterMap_cons, hx, hz, hr, this]

end AlarmApp
